import Mathlib

/-!
# MiniLang: a verification development

A shallow embedding of `src/minilang.cpp` (lexer, recursive-descent parser, define-before-use
check, constant folding, tree-walking interpreter) together with theorems about it.

Modelling conventions.

* `long long` values are integers; the results of `+`, `-`, `*` and `/` are reduced to the
  signed 64-bit range by `wrap64` (two's-complement wrap-around).
* The divisions `LLONG_MIN / -1` and `LLONG_MIN % -1`, whose quotient is not representable,
  raise the arithmetic trap of the division instruction: the process is killed without a
  diagnostic, in the interpreter (`RuntimeError.quotientOverflowUnchecked`) and in the
  optimizer (`FoldResult.trap`) alike, since neither tests for it.
* The fatal-exit paths (`cerr << ...; exit(1)`) are the error constructors of the result types.
* `std::map<string,long long>` is a function `String → Option Int`; `std::set<string>` is a
  `Finset String`.
* The diagnostic text written to `cout` by the analysis phases is not part of the model; the
  output of a run is the list of integers written by `PrintStmt::exec`.
-/

namespace MiniLang

/-! ## AST (PHASE 2 definitions) -/

/-- Expression nodes: `IntLit`, `VarExpr`, `Binary`. The operator is kept as the string the
source stores in `Binary::op`. -/
inductive Expr where
  | IntLit (v : Int)
  | VarExpr (name : String)
  | Binary (op : String) (a b : Expr)
  deriving DecidableEq, Repr

/-- Statement nodes. A `BlockStmt` is its vector of statements; `IfStmt::elseBlock` is a
nullable pointer, here an `Option`. -/
inductive Stmt where
  | PrintStmt (e : Expr)
  | AssignStmt (name : String) (e : Expr)
  | BlockStmt (stmts : List Stmt)
  | IfStmt (cond : Expr) (thenBlock : List Stmt) (elseBlock : Option (List Stmt))
  | WhileStmt (cond : Expr) (body : List Stmt)

/-! ## Interpreter: expressions -/

/-- The variable environment `map<string,long long>`. -/
abbrev Env := String → Option Int

/-- The empty environment created by `runSource`. -/
def Env.empty : Env := fun _ => none

/-- Assignment `env[name] = val`. -/
def Env.set (env : Env) (name : String) (val : Int) : Env :=
  fun k => if k = name then some val else env k

/-- Reduction of an integer to the signed 64-bit range (two's complement). -/
def wrap64 (x : Int) : Int := (x + 2 ^ 63) % 2 ^ 64 - 2 ^ 63

/-- Conversion of a C++ `bool` to `long long`. -/
def boolToInt (b : Bool) : Int := if b then 1 else 0

/-- The ways in which evaluation stops without a value. -/
inductive RuntimeError where
  /-- The exit `[RUNTIME ERROR] Use of undefined variable` in `VarExpr::eval`. -/
  | undefinedVariable (name : String)
  /-- The exit `[RUNTIME ERROR] Division by zero` in `Binary::eval`. -/
  | divisionByZero
  /-- The exit `[RUNTIME ERROR] Unknown operator` in `Binary::eval`. -/
  | unknownOperator (op : String)
  /-- The statement `return A%B;` reached with `B == 0`: `Binary::eval` has no test on this
  path, so there is no diagnostic and no `exit(1)`; the machine remainder by zero has no
  defined result. -/
  | remainderByZeroUnchecked
  /-- The statements `return A/B;` and `return A%B;` reached with `A == LLONG_MIN` and
  `B == -1`: the quotient is not representable in `long long`, `Binary::eval` has no test on
  these paths, and the division instruction raises the arithmetic trap that kills the process
  without diagnostic. -/
  | quotientOverflowUnchecked
  deriving DecidableEq, Repr

/-- Outcome of `Expr::eval`. -/
inductive EvalResult where
  | ok (v : Int)
  | error (err : RuntimeError)
  deriving DecidableEq, Repr

/-- The value `LLONG_MIN`, the least `long long`. -/
def LLONG_MIN : Int := -9223372036854775808

/-- The operands on which the machine division has no representable quotient:
`LLONG_MIN` divided by `-1`. -/
def QuotientOverflows (A B : Int) : Prop := A = LLONG_MIN ∧ B = -1

instance (A B : Int) : Decidable (QuotientOverflows A B) := by
  unfold QuotientOverflows; infer_instance

/-- The operator dispatch of `Binary::eval`, applied to the operand values `A` and `B`. The
`/` path tests `B == 0` and nothing else; the `%` path tests nothing. -/
def evalBinary (op : String) (A B : Int) : EvalResult :=
  if op = "+" then .ok (wrap64 (A + B))
  else if op = "-" then .ok (wrap64 (A - B))
  else if op = "*" then .ok (wrap64 (A * B))
  else if op = "/" then
    if B = 0 then .error .divisionByZero
    else if QuotientOverflows A B then .error .quotientOverflowUnchecked
    else .ok (wrap64 (Int.tdiv A B))
  else if op = "%" then
    if B = 0 then .error .remainderByZeroUnchecked
    else if QuotientOverflows A B then .error .quotientOverflowUnchecked
    else .ok (Int.tmod A B)
  else if op = "==" then .ok (boolToInt (decide (A = B)))
  else if op = "!=" then .ok (boolToInt (decide (A ≠ B)))
  else if op = "<" then .ok (boolToInt (decide (A < B)))
  else if op = ">" then .ok (boolToInt (decide (A > B)))
  else if op = "<=" then .ok (boolToInt (decide (A ≤ B)))
  else if op = ">=" then .ok (boolToInt (decide (A ≥ B)))
  else .error (.unknownOperator op)

/-- The methods `IntLit::eval`, `VarExpr::eval` and `Binary::eval`. In `Binary::eval` the left
operand is evaluated before the right one. -/
def eval (env : Env) : Expr → EvalResult
  | .IntLit v => .ok v
  | .VarExpr name =>
    match env name with
    | none => .error (.undefinedVariable name)
    | some v => .ok v
  | .Binary op a b =>
    match eval env a with
    | .error err => .error err
    | .ok A =>
      match eval env b with
      | .error err => .error err
      | .ok B => evalBinary op A B

/-! ## Optimizer: constant folding (PHASE 5) -/

/-- Outcome of the optimizer on a part of the AST: the rewritten part, or the end of the
process inside PHASE 5. `foldExpr` computes `av / bv` and `av % bv` at compile time behind the
test `bv == 0` only; with `av == LLONG_MIN` and `bv == -1` the division instruction raises
the arithmetic trap and the process is killed. -/
inductive FoldResult (α : Type) where
  | ok (val : α)
  | trap
  deriving DecidableEq, Repr

/-- The compile-time operator table of `foldExpr`: `ok (some r)` when the flag `ok` stays
true and `r` is computed, `ok none` when the flag is cleared (zero divisor, or an operator
outside the table), `trap` when the division `av / bv` or `av % bv` is executed on
`LLONG_MIN` and `-1`. -/
def foldOp (op : String) (av bv : Int) : FoldResult (Option Int) :=
  if op = "+" then .ok (some (wrap64 (av + bv)))
  else if op = "-" then .ok (some (wrap64 (av - bv)))
  else if op = "*" then .ok (some (wrap64 (av * bv)))
  else if op = "/" then
    if bv = 0 then .ok none
    else if QuotientOverflows av bv then .trap
    else .ok (some (wrap64 (Int.tdiv av bv)))
  else if op = "%" then
    if bv = 0 then .ok none
    else if QuotientOverflows av bv then .trap
    else .ok (some (Int.tmod av bv))
  else if op = "==" then .ok (some (boolToInt (decide (av = bv))))
  else if op = "!=" then .ok (some (boolToInt (decide (av ≠ bv))))
  else if op = "<" then .ok (some (boolToInt (decide (av < bv))))
  else if op = ">" then .ok (some (boolToInt (decide (av > bv))))
  else if op = "<=" then .ok (some (boolToInt (decide (av ≤ bv))))
  else if op = ">=" then .ok (some (boolToInt (decide (av ≥ bv))))
  else .ok none

/-- The node built by `foldExpr` for a `Binary` whose operands have already been folded. -/
def foldBinary (op : String) (a b : Expr) : FoldResult Expr :=
  match a, b with
  | .IntLit av, .IntLit bv =>
    match foldOp op av bv with
    | .ok (some r) => .ok (.IntLit r)
    | .ok none => .ok (.Binary op a b)
    | .trap => .trap
  | _, _ => .ok (.Binary op a b)

/-- The function `foldExpr`: the left operand first, then the right one, then the node
itself. -/
def foldExpr : Expr → FoldResult Expr
  | .IntLit v => .ok (.IntLit v)
  | .VarExpr name => .ok (.VarExpr name)
  | .Binary op a b =>
    match foldExpr a with
    | .trap => .trap
    | .ok a' =>
      match foldExpr b with
      | .trap => .trap
      | .ok b' => foldBinary op a' b'

mutual
/-- The body of the loop of `foldConstantsInBlock`, for one statement. -/
def foldConstantsInStmt : Stmt → FoldResult Stmt
  | .AssignStmt name e =>
    match foldExpr e with
    | .trap => .trap
    | .ok e' => .ok (.AssignStmt name e')
  | .IfStmt cond thenBlock elseBlock =>
    match foldExpr cond with
    | .trap => .trap
    | .ok cond' =>
      match foldConstantsInBlock thenBlock with
      | .trap => .trap
      | .ok thenBlock' =>
        match foldConstantsInElse elseBlock with
        | .trap => .trap
        | .ok elseBlock' => .ok (.IfStmt cond' thenBlock' elseBlock')
  | .WhileStmt cond body =>
    match foldExpr cond with
    | .trap => .trap
    | .ok cond' =>
      match foldConstantsInBlock body with
      | .trap => .trap
      | .ok body' => .ok (.WhileStmt cond' body')
  | .BlockStmt stmts =>
    match foldConstantsInBlock stmts with
    | .trap => .trap
    | .ok stmts' => .ok (.BlockStmt stmts')
  | .PrintStmt e =>
    match foldExpr e with
    | .trap => .trap
    | .ok e' => .ok (.PrintStmt e')
/-- The procedure `foldConstantsInBlock`: the statements in order. The source rewrites the
AST in place; here the rewritten AST is returned. -/
def foldConstantsInBlock : List Stmt → FoldResult (List Stmt)
  | [] => .ok []
  | s :: rest =>
    match foldConstantsInStmt s with
    | .trap => .trap
    | .ok s' =>
      match foldConstantsInBlock rest with
      | .trap => .trap
      | .ok rest' => .ok (s' :: rest')
/-- The guarded call `if(ifs->elseBlock) foldConstantsInBlock(...)`. -/
def foldConstantsInElse : Option (List Stmt) → FoldResult (Option (List Stmt))
  | none => .ok none
  | some blk =>
    match foldConstantsInBlock blk with
    | .trap => .trap
    | .ok blk' => .ok (some blk')
end

/-! ## Interpreter: statements -/

/-- Interpreter state: the environment and the integers printed so far (oldest first). -/
structure State where
  env : Env
  out : List Int

/-- The state in which `runSource` starts execution. -/
def State.initial : State := { env := Env.empty, out := [] }

/-- Outcome of executing a statement: normal completion, a fatal runtime error (with the
state reached when it occurred), or exhaustion of the iteration budget of a `while` loop. -/
inductive ExecResult where
  | done (st : State)
  | fail (err : RuntimeError) (st : State)
  | outOfFuel (st : State)

/-- The loop `while(cond->eval(env)) body->exec(env);` with at most `fuel` evaluations of the
condition. -/
def whileLoop (cond : Env → EvalResult) (body : State → ExecResult) :
    Nat → State → ExecResult
  | 0, st => .outOfFuel st
  | fuel + 1, st =>
    match cond st.env with
    | .error err => .fail err st
    | .ok c =>
      if c = 0 then .done st
      else
        match body st with
        | .done st' => whileLoop cond body fuel st'
        | .fail err st' => .fail err st'
        | .outOfFuel st' => .outOfFuel st'

mutual
/-- The `exec` methods of the statement nodes. `fuel` bounds the number of condition
evaluations of each execution of a `while` loop; nothing else consumes it. -/
def execStmt (fuel : Nat) : Stmt → State → ExecResult
  | .PrintStmt e, st =>
    match eval st.env e with
    | .error err => .fail err st
    | .ok v => .done { st with out := st.out ++ [v] }
  | .AssignStmt name e, st =>
    match eval st.env e with
    | .error err => .fail err st
    | .ok val => .done { st with env := st.env.set name val }
  | .BlockStmt stmts, st => execBlock fuel stmts st
  | .IfStmt cond thenBlock elseBlock, st =>
    match eval st.env cond with
    | .error err => .fail err st
    | .ok c => if c ≠ 0 then execBlock fuel thenBlock st else execElse fuel elseBlock st
  | .WhileStmt cond body, st =>
    whileLoop (fun env => eval env cond) (fun s => execBlock fuel body s) fuel st
/-- The method `BlockStmt::exec`: the statements in order, stopping at the first failure. -/
def execBlock (fuel : Nat) : List Stmt → State → ExecResult
  | [], st => .done st
  | s :: rest, st =>
    match execStmt fuel s st with
    | .done st' => execBlock fuel rest st'
    | .fail err st' => .fail err st'
    | .outOfFuel st' => .outOfFuel st'
/-- The else arm of `IfStmt::exec`: nothing happens when there is no else block. -/
def execElse (fuel : Nat) : Option (List Stmt) → State → ExecResult
  | none, st => .done st
  | some blk, st => execBlock fuel blk st
end

/-! ## Semantic analysis (PHASE 3) -/

/-- Outcome of the semantic pass: success with a value, or the exit
`[SEMANTIC ERROR] Variable 'name' used before assignment`. -/
inductive SemResult (α : Type) where
  | ok (val : α)
  | error (name : String)
  deriving DecidableEq, Repr

/-- The lambda `findVars` (the same in all four statement cases up to trace output): a
left-to-right walk that stops at the first variable outside `defined`. -/
def findVars (defined : Finset String) : Expr → SemResult Unit
  | .IntLit _ => .ok ()
  | .VarExpr name => if name ∈ defined then .ok () else .error name
  | .Binary _ a b =>
    match findVars defined a with
    | .error name => .error name
    | .ok _ => findVars defined b

mutual
/-- The body of the loop of `semanticCheckBlock`, for one statement; the result is the value
of `defined` seen by the next statement. -/
def semanticCheckStmt : Stmt → Finset String → SemResult (Finset String)
  | .AssignStmt name e, defined =>
    match findVars defined e with
    | .error n => .error n
    | .ok _ => .ok (insert name defined)
  | .IfStmt cond thenBlock elseBlock, defined =>
    match findVars defined cond with
    | .error n => .error n
    | .ok _ =>
      match semanticCheckBlock thenBlock defined with
      | .error n => .error n
      | .ok _ =>
        match semanticCheckElse elseBlock defined with
        | .error n => .error n
        | .ok _ => .ok defined
  | .WhileStmt cond body, defined =>
    match findVars defined cond with
    | .error n => .error n
    | .ok _ =>
      match semanticCheckBlock body defined with
      | .error n => .error n
      | .ok _ => .ok defined
  | .BlockStmt stmts, defined => semanticCheckBlock stmts defined
  | .PrintStmt e, defined =>
    match findVars defined e with
    | .error n => .error n
    | .ok _ => .ok defined
/-- The procedure `semanticCheckBlock(blk, defined)`; the result is the value of `defined`
when the call returns. -/
def semanticCheckBlock : List Stmt → Finset String → SemResult (Finset String)
  | [], defined => .ok defined
  | s :: rest, defined =>
    match semanticCheckStmt s defined with
    | .error n => .error n
    | .ok defined' => semanticCheckBlock rest defined'
/-- The guarded call on the optional else block, given its own copy of `defined`. -/
def semanticCheckElse : Option (List Stmt) → Finset String → SemResult (Finset String)
  | none, defined => .ok defined
  | some blk, defined => semanticCheckBlock blk defined
end

/-! ## Lexical analysis (PHASE 1) -/

/-- Token kinds, in the order of `enum class TokenType`. -/
inductive TokenType where
  | END | INT_LIT | IDENT
  | PLUS | MINUS | MUL | DIV | MOD
  | ASSIGN | EQ | NEQ | LT | GT | LTE | GTE
  | LPAREN | RPAREN | LBRACE | RBRACE | SEMI
  | KW_PRINT | KW_IF | KW_ELSE | KW_WHILE
  deriving DecidableEq, Repr

/-- The record `Token`: kind, text, decoded value (0 unless the token is an integer literal)
and source line. -/
structure Token where
  type : TokenType
  text : String
  intVal : Int
  line : Nat
  deriving DecidableEq, Repr

/-- The fatal exits of the front end (lexer and parser). -/
inductive FrontError where
  /-- The exit `[LEXER ERROR] Line l: unexpected char 'c'`. -/
  | unexpectedChar (ch : Char) (line : Nat)
  /-- The exception `std::out_of_range` thrown by `stoll` on a digit run above `LLONG_MAX`;
  it is never caught. -/
  | literalOutOfRange (digits : String)
  /-- The exit of `eat`: `expected <kind> but got <kind> ('text')`, with the line of the
  actual token. -/
  | expected (kind : TokenType) (actual : Token)
  /-- The exit `[PARSER ERROR] Unexpected token` of `parseStatement`. -/
  | unexpectedToken (actual : Token)
  /-- The exit `[PARSER ERROR] Unexpected primary token` of `parsePrimary`. -/
  | unexpectedPrimary
  /-- The recursion budget of the model ran out (not a behaviour of the program). -/
  | outOfFuel
  deriving DecidableEq, Repr

/-- Outcome of a front-end operation. -/
inductive FrontResult (α : Type) where
  | ok (val : α)
  | error (err : FrontError)
  deriving DecidableEq, Repr

/-- The lexer state: the source (one `Char` per byte of the `std::string`), the index `i` and
the current line. -/
structure Lexer where
  src : List Char
  i : Nat
  line : Nat
  deriving DecidableEq, Repr

/-- The constructor `Lexer(s)`: position 0, line 1. -/
def Lexer.init (s : List Char) : Lexer := { src := s, i := 0, line := 1 }

/-- The C library predicate `isspace` in the "C" locale. -/
def isspace (c : Char) : Bool :=
  c.toNat = 32 || (9 ≤ c.toNat && c.toNat ≤ 13)

/-- The C library predicate `isdigit`. -/
def isdigit (c : Char) : Bool := 48 ≤ c.toNat && c.toNat ≤ 57

/-- The C library predicate `isalpha` in the "C" locale. -/
def isalpha (c : Char) : Bool :=
  (65 ≤ c.toNat && c.toNat ≤ 90) || (97 ≤ c.toNat && c.toNat ≤ 122)

/-- The C library predicate `isalnum` in the "C" locale. -/
def isalnum (c : Char) : Bool := isalpha c || isdigit c

/-- The method `peek`: the character at `i`, or NUL past the end. -/
def Lexer.peek (lx : Lexer) : Char := lx.src.getD lx.i (Char.ofNat 0)

/-- The method `startswith`: `src.substr(i, pat.size()) == pat`. -/
def Lexer.startswith (lx : Lexer) (pat : List Char) : Bool :=
  (lx.src.drop lx.i).take pat.length == pat

/-- The value of a run of decimal digits. -/
def decimalValue (s : List Char) : Nat :=
  s.foldl (fun acc c => 10 * acc + (c.toNat - 48)) 0

/-- The library call `stoll` on a non-empty digit run: the value, or nothing when it exceeds
`LLONG_MAX` (the call then throws). -/
def stoll (s : List Char) : Option Int :=
  if decimalValue s ≤ 9223372036854775807 then some (decimalValue s) else none

/-- The keyword test made on an identifier's text. -/
def keywordType (s : String) : TokenType :=
  if s = "print" then .KW_PRINT
  else if s = "if" then .KW_IF
  else if s = "else" then .KW_ELSE
  else if s = "while" then .KW_WHILE
  else .IDENT

/-- The `switch(ch)` of `nextToken` on a single character; `none` is its `default:` case. -/
def singleCharToken (ch : Char) (line : Nat) : Option Token :=
  if ch = '+' then some ⟨.PLUS, "+", 0, line⟩
  else if ch = '-' then some ⟨.MINUS, "-", 0, line⟩
  else if ch = '*' then some ⟨.MUL, "*", 0, line⟩
  else if ch = '/' then some ⟨.DIV, "/", 0, line⟩
  else if ch = '%' then some ⟨.MOD, "%", 0, line⟩
  else if ch = '=' then some ⟨.ASSIGN, "=", 0, line⟩
  else if ch = '<' then some ⟨.LT, "<", 0, line⟩
  else if ch = '>' then some ⟨.GT, ">", 0, line⟩
  else if ch = '(' then some ⟨.LPAREN, "(", 0, line⟩
  else if ch = ')' then some ⟨.RPAREN, ")", 0, line⟩
  else if ch = '{' then some ⟨.LBRACE, "\x7b", 0, line⟩
  else if ch = '}' then some ⟨.RBRACE, "\x7d", 0, line⟩
  else if ch = ';' then some ⟨.SEMI, ";", 0, line⟩
  else none

/-- The `while(true)` loop of `nextToken`; each turn of the loop other than the last skips
one whitespace character or one comment. `fuel` bounds the number of turns. -/
def nextTokenLoop : Nat → Lexer → FrontResult (Token × Lexer)
  | 0, _ => .error .outOfFuel
  | fuel + 1, lx =>
    let c := lx.peek
    if c = Char.ofNat 0 then .ok (⟨.END, "", 0, lx.line⟩, lx)
    else if isspace c then
      nextTokenLoop fuel
        { lx with i := lx.i + 1, line := if c = Char.ofNat 10 then lx.line + 1 else lx.line }
    else if lx.startswith ['/', '/'] then
      nextTokenLoop fuel
        { lx with i := lx.i + ((lx.src.drop lx.i).takeWhile
            (fun d => d != Char.ofNat 0 && d != Char.ofNat 10)).length }
    else if isdigit c then
      let s := (lx.src.drop lx.i).takeWhile isdigit
      match stoll s with
      | none => .error (.literalOutOfRange (String.mk s))
      | some v => .ok (⟨.INT_LIT, String.mk s, v, lx.line⟩, { lx with i := lx.i + s.length })
    else if isalpha c || c = '_' then
      let s := (lx.src.drop lx.i).takeWhile (fun d => isalnum d || d = '_')
      .ok (⟨keywordType (String.mk s), String.mk s, 0, lx.line⟩,
        { lx with i := lx.i + s.length })
    else if lx.startswith ['=', '='] then
      .ok (⟨.EQ, "==", 0, lx.line⟩, { lx with i := lx.i + 2 })
    else if lx.startswith ['!', '='] then
      .ok (⟨.NEQ, "!=", 0, lx.line⟩, { lx with i := lx.i + 2 })
    else if lx.startswith ['<', '='] then
      .ok (⟨.LTE, "<=", 0, lx.line⟩, { lx with i := lx.i + 2 })
    else if lx.startswith ['>', '='] then
      .ok (⟨.GTE, ">=", 0, lx.line⟩, { lx with i := lx.i + 2 })
    else
      match singleCharToken c lx.line with
      | some tok => .ok (tok, { lx with i := lx.i + 1 })
      | none => .error (.unexpectedChar c lx.line)

/-- The method `nextToken`. Every turn of its loop that does not return consumes at least one
character, so `src.length - i + 1` turns are enough. -/
def Lexer.nextToken (lx : Lexer) : FrontResult (Token × Lexer) :=
  nextTokenLoop (lx.src.length - lx.i + 1) lx

/-! ## Syntax analysis (PHASE 2) -/

/-- The parser state: the lexer and the lookahead token `cur`. -/
structure Parser where
  lex : Lexer
  cur : Token
  deriving DecidableEq, Repr

/-- The constructor `Parser(s)`: the first token is read at once. -/
def Parser.init (s : List Char) : FrontResult Parser :=
  match (Lexer.init s).nextToken with
  | .error err => .error err
  | .ok (tok, lx) => .ok { lex := lx, cur := tok }

/-- The method `eat`. -/
def Parser.eat (p : Parser) (t : TokenType) : FrontResult Parser :=
  if p.cur.type = t then
    match p.lex.nextToken with
    | .error err => .error err
    | .ok (tok, lx) => .ok { lex := lx, cur := tok }
  else .error (.expected t p.cur)

mutual
/-- The method `parseExpr`. -/
def parseExpr : Nat → Parser → FrontResult (Expr × Parser)
  | 0, _ => .error .outOfFuel
  | fuel + 1, p => parseEquality fuel p
/-- The method `parseEquality`: one comparison, then its loop. -/
def parseEquality : Nat → Parser → FrontResult (Expr × Parser)
  | 0, _ => .error .outOfFuel
  | fuel + 1, p =>
    match parseComparison fuel p with
    | .error err => .error err
    | .ok (left, p1) => parseEqualityLoop fuel left p1
/-- The `while` loop of `parseEquality`. -/
def parseEqualityLoop : Nat → Expr → Parser → FrontResult (Expr × Parser)
  | 0, _, _ => .error .outOfFuel
  | fuel + 1, left, p =>
    if p.cur.type = .EQ ∨ p.cur.type = .NEQ then
      match p.eat p.cur.type with
      | .error err => .error err
      | .ok p1 =>
        match parseComparison fuel p1 with
        | .error err => .error err
        | .ok (right, p2) => parseEqualityLoop fuel (.Binary p.cur.text left right) p2
    else .ok (left, p)
/-- The method `parseComparison`: one term, then its loop. -/
def parseComparison : Nat → Parser → FrontResult (Expr × Parser)
  | 0, _ => .error .outOfFuel
  | fuel + 1, p =>
    match parseTerm fuel p with
    | .error err => .error err
    | .ok (left, p1) => parseComparisonLoop fuel left p1
/-- The `while` loop of `parseComparison`. -/
def parseComparisonLoop : Nat → Expr → Parser → FrontResult (Expr × Parser)
  | 0, _, _ => .error .outOfFuel
  | fuel + 1, left, p =>
    if p.cur.type = .LT ∨ p.cur.type = .GT ∨ p.cur.type = .LTE ∨ p.cur.type = .GTE then
      match p.eat p.cur.type with
      | .error err => .error err
      | .ok p1 =>
        match parseTerm fuel p1 with
        | .error err => .error err
        | .ok (right, p2) => parseComparisonLoop fuel (.Binary p.cur.text left right) p2
    else .ok (left, p)
/-- The method `parseTerm`: one factor, then its loop. -/
def parseTerm : Nat → Parser → FrontResult (Expr × Parser)
  | 0, _ => .error .outOfFuel
  | fuel + 1, p =>
    match parseFactor fuel p with
    | .error err => .error err
    | .ok (left, p1) => parseTermLoop fuel left p1
/-- The `while` loop of `parseTerm`. -/
def parseTermLoop : Nat → Expr → Parser → FrontResult (Expr × Parser)
  | 0, _, _ => .error .outOfFuel
  | fuel + 1, left, p =>
    if p.cur.type = .PLUS ∨ p.cur.type = .MINUS then
      match p.eat p.cur.type with
      | .error err => .error err
      | .ok p1 =>
        match parseFactor fuel p1 with
        | .error err => .error err
        | .ok (right, p2) => parseTermLoop fuel (.Binary p.cur.text left right) p2
    else .ok (left, p)
/-- The method `parseFactor`: one unary, then its loop. -/
def parseFactor : Nat → Parser → FrontResult (Expr × Parser)
  | 0, _ => .error .outOfFuel
  | fuel + 1, p =>
    match parseUnary fuel p with
    | .error err => .error err
    | .ok (left, p1) => parseFactorLoop fuel left p1
/-- The `while` loop of `parseFactor`. -/
def parseFactorLoop : Nat → Expr → Parser → FrontResult (Expr × Parser)
  | 0, _, _ => .error .outOfFuel
  | fuel + 1, left, p =>
    if p.cur.type = .MUL ∨ p.cur.type = .DIV ∨ p.cur.type = .MOD then
      match p.eat p.cur.type with
      | .error err => .error err
      | .ok p1 =>
        match parseUnary fuel p1 with
        | .error err => .error err
        | .ok (right, p2) => parseFactorLoop fuel (.Binary p.cur.text left right) p2
    else .ok (left, p)
/-- The method `parseUnary`. -/
def parseUnary : Nat → Parser → FrontResult (Expr × Parser)
  | 0, _ => .error .outOfFuel
  | fuel + 1, p =>
    if p.cur.type = .PLUS then
      match p.eat .PLUS with
      | .error err => .error err
      | .ok p1 => parseUnary fuel p1
    else if p.cur.type = .MINUS then
      match p.eat .MINUS with
      | .error err => .error err
      | .ok p1 =>
        match parseUnary fuel p1 with
        | .error err => .error err
        | .ok (r, p2) => .ok (.Binary "-" (.IntLit 0) r, p2)
    else parsePrimary fuel p
/-- The method `parsePrimary`. -/
def parsePrimary : Nat → Parser → FrontResult (Expr × Parser)
  | 0, _ => .error .outOfFuel
  | fuel + 1, p =>
    if p.cur.type = .INT_LIT then
      match p.eat .INT_LIT with
      | .error err => .error err
      | .ok p1 => .ok (.IntLit p.cur.intVal, p1)
    else if p.cur.type = .IDENT then
      match p.eat .IDENT with
      | .error err => .error err
      | .ok p1 => .ok (.VarExpr p.cur.text, p1)
    else if p.cur.type = .LPAREN then
      match p.eat .LPAREN with
      | .error err => .error err
      | .ok p1 =>
        match parseExpr fuel p1 with
        | .error err => .error err
        | .ok (e, p2) =>
          match p2.eat .RPAREN with
          | .error err => .error err
          | .ok p3 => .ok (e, p3)
    else .error .unexpectedPrimary
end

mutual
/-- The method `parseStatement`. -/
def parseStatement : Nat → Parser → FrontResult (Stmt × Parser)
  | 0, _ => .error .outOfFuel
  | fuel + 1, p =>
    if p.cur.type = .KW_PRINT then
      match p.eat .KW_PRINT with
      | .error err => .error err
      | .ok p1 =>
        match p1.eat .LPAREN with
        | .error err => .error err
        | .ok p2 =>
          match parseExpr fuel p2 with
          | .error err => .error err
          | .ok (e, p3) =>
            match p3.eat .RPAREN with
            | .error err => .error err
            | .ok p4 =>
              match p4.eat .SEMI with
              | .error err => .error err
              | .ok p5 => .ok (.PrintStmt e, p5)
    else if p.cur.type = .IDENT then
      match p.eat .IDENT with
      | .error err => .error err
      | .ok p1 =>
        match p1.eat .ASSIGN with
        | .error err => .error err
        | .ok p2 =>
          match parseExpr fuel p2 with
          | .error err => .error err
          | .ok (e, p3) =>
            match p3.eat .SEMI with
            | .error err => .error err
            | .ok p4 => .ok (.AssignStmt p.cur.text e, p4)
    else if p.cur.type = .KW_IF then
      match p.eat .KW_IF with
      | .error err => .error err
      | .ok p1 =>
        match p1.eat .LPAREN with
        | .error err => .error err
        | .ok p2 =>
          match parseExpr fuel p2 with
          | .error err => .error err
          | .ok (cond, p3) =>
            match p3.eat .RPAREN with
            | .error err => .error err
            | .ok p4 =>
              match parseBlock fuel p4 with
              | .error err => .error err
              | .ok (thenB, p5) =>
                if p5.cur.type = .KW_ELSE then
                  match p5.eat .KW_ELSE with
                  | .error err => .error err
                  | .ok p6 =>
                    match parseBlock fuel p6 with
                    | .error err => .error err
                    | .ok (elseB, p7) => .ok (.IfStmt cond thenB (some elseB), p7)
                else .ok (.IfStmt cond thenB none, p5)
    else if p.cur.type = .KW_WHILE then
      match p.eat .KW_WHILE with
      | .error err => .error err
      | .ok p1 =>
        match p1.eat .LPAREN with
        | .error err => .error err
        | .ok p2 =>
          match parseExpr fuel p2 with
          | .error err => .error err
          | .ok (cond, p3) =>
            match p3.eat .RPAREN with
            | .error err => .error err
            | .ok p4 =>
              match parseBlock fuel p4 with
              | .error err => .error err
              | .ok (body, p5) => .ok (.WhileStmt cond body, p5)
    else if p.cur.type = .LBRACE then
      match parseBlock fuel p with
      | .error err => .error err
      | .ok (blk, p1) => .ok (.BlockStmt blk, p1)
    else .error (.unexpectedToken p.cur)
/-- The method `parseBlock`. -/
def parseBlock : Nat → Parser → FrontResult (List Stmt × Parser)
  | 0, _ => .error .outOfFuel
  | fuel + 1, p =>
    match p.eat .LBRACE with
    | .error err => .error err
    | .ok p1 =>
      match parseBlockLoop fuel [] p1 with
      | .error err => .error err
      | .ok (stmts, p2) =>
        match p2.eat .RBRACE with
        | .error err => .error err
        | .ok p3 => .ok (stmts, p3)
/-- The loop `while(cur.type!=TokenType::RBRACE) blk->stmts.push_back(parseStatement());`. -/
def parseBlockLoop : Nat → List Stmt → Parser → FrontResult (List Stmt × Parser)
  | 0, _, _ => .error .outOfFuel
  | fuel + 1, stmts, p =>
    if p.cur.type ≠ .RBRACE then
      match parseStatement fuel p with
      | .error err => .error err
      | .ok (s, p1) => parseBlockLoop fuel (stmts ++ [s]) p1
    else .ok (stmts, p)
end

/-- The loop `while(cur.type!=TokenType::END) root->stmts.push_back(parseStatement());` of
`parseProgram`. -/
def parseProgramLoop : Nat → List Stmt → Parser → FrontResult (List Stmt × Parser)
  | 0, _, _ => .error .outOfFuel
  | fuel + 1, stmts, p =>
    if p.cur.type ≠ .END then
      match parseStatement fuel p with
      | .error err => .error err
      | .ok (s, p1) => parseProgramLoop fuel (stmts ++ [s]) p1
    else .ok (stmts, p)

/-- The method `parseProgram`: the statements of the root block. -/
def parseProgram (fuel : Nat) (p : Parser) : FrontResult (List Stmt) :=
  match parseProgramLoop fuel [] p with
  | .error err => .error err
  | .ok (stmts, _) => .ok stmts

/-! ## Decidable equality of statements -/
mutual
/-- Structural comparison of two statements. -/
def Stmt.beq : Stmt → Stmt → Bool
  | .PrintStmt e, .PrintStmt e' => decide (e = e')
  | .AssignStmt n e, .AssignStmt n' e' => decide (n = n') && decide (e = e')
  | .BlockStmt ss, .BlockStmt ss' => Stmt.beqList ss ss'
  | .IfStmt c t e, .IfStmt c' t' e' =>
    decide (c = c') && (Stmt.beqList t t' && Stmt.beqElse e e')
  | .WhileStmt c b, .WhileStmt c' b' => decide (c = c') && Stmt.beqList b b'
  | _, _ => false
/-- Structural comparison of two statement lists. -/
def Stmt.beqList : List Stmt → List Stmt → Bool
  | [], [] => true
  | s :: rest, s' :: rest' => Stmt.beq s s' && Stmt.beqList rest rest'
  | _, _ => false
/-- Structural comparison of two optional else blocks. -/
def Stmt.beqElse : Option (List Stmt) → Option (List Stmt) → Bool
  | none, none => true
  | some b, some b' => Stmt.beqList b b'
  | _, _ => false
end

mutual
theorem Stmt.beq_iff : ∀ (s t : Stmt), Stmt.beq s t = true ↔ s = t
  | .PrintStmt e, t => by cases t <;> simp [Stmt.beq]
  | .AssignStmt n e, t => by cases t <;> simp [Stmt.beq]
  | .BlockStmt ss, t => by cases t <;> simp [Stmt.beq, Stmt.beqList_iff ss]
  | .IfStmt c th el, t => by
    cases t <;> simp [Stmt.beq, Stmt.beqList_iff th, Stmt.beqElse_iff el]
  | .WhileStmt c b, t => by cases t <;> simp [Stmt.beq, Stmt.beqList_iff b]
theorem Stmt.beqList_iff : ∀ (l m : List Stmt), Stmt.beqList l m = true ↔ l = m
  | [], m => by cases m <;> simp [Stmt.beqList]
  | s :: rest, m => by
    cases m <;> simp [Stmt.beqList, Stmt.beq_iff s, Stmt.beqList_iff rest]
theorem Stmt.beqElse_iff :
    ∀ (e f : Option (List Stmt)), Stmt.beqElse e f = true ↔ e = f
  | none, f => by cases f <;> simp [Stmt.beqElse]
  | some b, f => by cases f <;> simp [Stmt.beqElse, Stmt.beqList_iff b]
end

/-- Equality of statements is decidable, by `Stmt.beq`. -/
instance : DecidableEq Stmt := fun s t => decidable_of_iff _ (Stmt.beq_iff s t)

/-! ## The driver `runSource` -/

/-- The ways a run of the pipeline ends. -/
inductive RunResult where
  /-- A lex or parse error stopped the run during PHASE 1/2. -/
  | frontError (err : FrontError)
  /-- The semantic pass stopped the run, naming a variable. -/
  | semanticError (name : String)
  /-- The arithmetic trap of a compile-time division killed the process in PHASE 5. -/
  | optimizerTrap
  /-- All earlier phases passed and the folded program was executed. -/
  | executed (r : ExecResult)

/-- Recursion budget given to the parser for a source text: every call of a parsing method
below the first consumes a token or descends one grammar level. -/
def parseFuel (source : List Char) : Nat := 8 * (source.length + 2)

/-- The method `parseProgram` applied to a source text (`Parser p(source); p.parseProgram()`). -/
def parseSource (source : List Char) : FrontResult (List Stmt) :=
  match Parser.init source with
  | .error err => .error err
  | .ok p => parseProgram (parseFuel source) p

/-- The driver `runSource`: parse, semantic check from the empty defined set, constant
folding, execution from the empty environment. `fuel` is the iteration budget of `execStmt`.
The TAC listing, produced between folding and execution, does not influence the run. -/
def runSource (fuel : Nat) (source : List Char) : RunResult :=
  match parseSource source with
  | .error err => .frontError err
  | .ok prog =>
    match semanticCheckBlock prog ∅ with
    | .error name => .semanticError name
    | .ok _ =>
      match foldConstantsInBlock prog with
      | .trap => .optimizerTrap
      | .ok folded => .executed (execBlock fuel folded State.initial)

/-- How an execution ended, without the state. -/
inductive ExecStatus where
  | done
  | fail (err : RuntimeError)
  | outOfFuel
  deriving DecidableEq, Repr

/-- The status of an execution result. -/
def ExecResult.status : ExecResult → ExecStatus
  | .done _ => .done
  | .fail err _ => .fail err
  | .outOfFuel _ => .outOfFuel

/-- The state carried by an execution result. -/
def ExecResult.state : ExecResult → State
  | .done st => st
  | .fail _ st => st
  | .outOfFuel st => st

/-- The integers printed by a run (none when it stopped before execution). -/
def RunResult.output : RunResult → List Int
  | .executed r => r.state.out
  | _ => []

/-- How a run ended, without the state. -/
inductive Outcome where
  | frontError (err : FrontError)
  | semanticError (name : String)
  | optimizerTrap
  | finished
  | runtimeError (err : RuntimeError)
  | outOfFuel
  deriving DecidableEq, Repr

/-- The way a run ended. -/
def RunResult.outcome : RunResult → Outcome
  | .frontError err => .frontError err
  | .semanticError name => .semanticError name
  | .optimizerTrap => .optimizerTrap
  | .executed (.done _) => .finished
  | .executed (.fail err _) => .runtimeError err
  | .executed (.outOfFuel _) => .outOfFuel

/-! ## Notions used to state the theorems -/

/-- The environment holds a value for every name of the defined set. -/
def Covers (D : Finset String) (env : Env) : Prop := ∀ n ∈ D, env n ≠ none

/-- An execution result is safe for the defined set `D`: it is not the undefined-variable
runtime error and, when the execution completed, the final environment holds every name of
`D`. -/
def SafeResult (D : Finset String) : ExecResult → Prop
  | .done st => Covers D st.env
  | .fail err _ => ∀ n, err ≠ .undefinedVariable n
  | .outOfFuel _ => True

/-- The statement is an `IfStmt` or a `WhileStmt`. -/
def Stmt.isBranching : Stmt → Bool
  | .IfStmt _ _ _ => true
  | .WhileStmt _ _ => true
  | _ => false

/-- The statement is an `AssignStmt` or a `PrintStmt`. -/
def Stmt.isSimple : Stmt → Bool
  | .AssignStmt _ _ => true
  | .PrintStmt _ => true
  | _ => false

/-- A straight-line program: a root block of `AssignStmt` and `PrintStmt` only. -/
def StraightLine (ss : List Stmt) : Prop := ∀ s ∈ ss, s.isSimple = true

/-- Being straight-line is decidable. -/
instance (ss : List Stmt) : Decidable (StraightLine ss) := by
  unfold StraightLine
  infer_instance

/-- The variables occurring in an expression, in left-to-right order. -/
def varsOf : Expr → List String
  | .IntLit _ => []
  | .VarExpr name => [name]
  | .Binary _ a b => varsOf a ++ varsOf b

/-- The variables occurring in the expression a statement itself holds: the right-hand side
of an assignment, the argument of a print, the condition of an if or a while. -/
def Stmt.ownVars : Stmt → List String
  | .PrintStmt e => varsOf e
  | .AssignStmt _ e => varsOf e
  | .BlockStmt _ => []
  | .IfStmt cond _ _ => varsOf cond
  | .WhileStmt cond _ => varsOf cond

/-- The name `v` is the target of an `AssignStmt` at some position `j < i` of `ss`. -/
def AssignedBefore (ss : List Stmt) (i : Nat) (v : String) : Prop :=
  ∃ j, j < i ∧ ∃ e, ss[j]? = some (.AssignStmt v e)

/-- What happens along a control-flow path, as far as definedness is concerned: a variable is
referenced, a variable is assigned, control enters an if arm or a while body, control leaves
it. -/
inductive Event where
  | use (v : String)
  | assign (v : String)
  | enter
  | leave
  deriving DecidableEq, Repr

/-- The references made while an expression is evaluated, in left-to-right order. -/
def useEvents (e : Expr) : List Event := (varsOf e).map Event.use

/-- The paths through a `while` loop: the condition, then either the exit or one pass through
the body followed by a path through the loop again. -/
inductive LoopPath (cond : List Event) (Body : List Event → Prop) : List Event → Prop where
  | exit : LoopPath cond Body cond
  | iterate {it rest : List Event} : Body it → LoopPath cond Body rest →
      LoopPath cond Body (cond ++ [Event.enter] ++ it ++ [Event.leave] ++ rest)

mutual
/-- The control-flow paths through a statement, from its start to its end. -/
def StmtPath : Stmt → List Event → Prop
  | .PrintStmt e, tr => tr = useEvents e
  | .AssignStmt name e, tr => tr = useEvents e ++ [Event.assign name]
  | .BlockStmt stmts, tr => BlockPath stmts tr
  | .IfStmt cond thenBlock elseBlock, tr =>
    (∃ tt, BlockPath thenBlock tt ∧
      tr = useEvents cond ++ [Event.enter] ++ tt ++ [Event.leave]) ∨
    ElsePath elseBlock (useEvents cond) tr
  | .WhileStmt cond body, tr => LoopPath (useEvents cond) (fun it => BlockPath body it) tr
/-- The control-flow paths through a block: a path through each statement in turn. -/
def BlockPath : List Stmt → List Event → Prop
  | [], tr => tr = []
  | s :: rest, tr => ∃ t1 t2, StmtPath s t1 ∧ BlockPath rest t2 ∧ tr = t1 ++ t2
/-- The paths of an `IfStmt` whose condition is false: through the else block, or straight
on when there is none. -/
def ElsePath : Option (List Stmt) → List Event → List Event → Prop
  | none, cond, tr => tr = cond
  | some blk, cond, tr =>
    ∃ te, BlockPath blk te ∧ tr = cond ++ [Event.enter] ++ te ++ [Event.leave]
end

/-- The property in the words of the specification: on every control-flow path from the
program start, every variable reference is preceded by an assignment to that variable. -/
def EveryUsePreceded (p : List Stmt) : Prop :=
  ∀ tr, BlockPath p tr → ∀ pre v post, tr = pre ++ Event.use v :: post → Event.assign v ∈ pre

/-- Nesting depth after a stretch of a path that starts at depth `d`, or `none` when the
stretch leaves an arm or body it did not enter while at depth 0. -/
def scopeDepth : Nat → List Event → Option Nat
  | d, [] => some d
  | d, .enter :: r => scopeDepth (d + 1) r
  | 0, .leave :: _ => none
  | d + 1, .leave :: r => scopeDepth d r
  | d, .use _ :: r => scopeDepth d r
  | d, .assign _ :: r => scopeDepth d r

/-- The stretch `q` of a path never leaves the arm or body in which it starts. -/
def StillOpen (q : List Event) : Prop := scopeDepth 0 q ≠ none

/-- The stretch `pre` of a path contains an assignment to `v` made in an arm, body or block
that has not been left by the end of `pre`. -/
def VisibleAssign (pre : List Event) (v : String) : Prop :=
  ∃ p1 p2, pre = p1 ++ Event.assign v :: p2 ∧ StillOpen p2

/-- The amended property: on every control-flow path from the program start, every variable
reference is preceded by an assignment to that variable whose enclosing if arm or while body
has not been left when the reference is reached. -/
def EveryUsePrecededInScope (p : List Stmt) : Prop :=
  ∀ tr, BlockPath p tr → ∀ pre v post, tr = pre ++ Event.use v :: post → VisibleAssign pre v

mutual
/-- One particular path through a statement: the then arm of every if, no turn of any
loop. -/
def canonStmt : Stmt → List Event
  | .PrintStmt e => useEvents e
  | .AssignStmt name e => useEvents e ++ [Event.assign name]
  | .BlockStmt stmts => canonBlock stmts
  | .IfStmt cond thenBlock _ =>
    useEvents cond ++ [Event.enter] ++ canonBlock thenBlock ++ [Event.leave]
  | .WhileStmt cond _ => useEvents cond
/-- One particular path through a block. -/
def canonBlock : List Stmt → List Event
  | [] => []
  | s :: rest => canonStmt s ++ canonBlock rest
end

/-- The source text of the if/else scenario:
`if (1 == 1) { y = 10; } else { y = 20; } print(y);`. -/
def ifElseSource : List Char :=
  "if (1 == 1) \x7b y = 10; \x7d else \x7b y = 20; \x7d print(y);".toList

/-- The AST of the if/else scenario. -/
def ifElseProgram : List Stmt :=
  [.IfStmt (.Binary "==" (.IntLit 1) (.IntLit 1)) [.AssignStmt "y" (.IntLit 10)]
    (some [.AssignStmt "y" (.IntLit 20)]), .PrintStmt (.VarExpr "y")]

/-- The program `if (1) { x = 1; } else { x = 2; } print(x);`, which assigns `x` in both
arms of an if and references it afterwards. -/
def bothArmsProgram : List Stmt :=
  [.IfStmt (.IntLit 1) [.AssignStmt "x" (.IntLit 1)] (some [.AssignStmt "x" (.IntLit 2)]),
    .PrintStmt (.VarExpr "x")]

/-- The program `a = 1; if (a) { print(a); }`. -/
def guardedPrintProgram : List Stmt :=
  [.AssignStmt "a" (.IntLit 1), .IfStmt (.VarExpr "a") [.PrintStmt (.VarExpr "a")] none]

/-- The input not yet consumed: `src` from index `i` on. -/
def Lexer.rest (lx : Lexer) : List Char := lx.src.drop lx.i

/-- The lexer after the whitespace branch of `nextToken`: one character consumed, the line
counted up on a newline. -/
def Lexer.skipSpace (lx : Lexer) : Lexer :=
  { lx with i := lx.i + 1, line := if lx.peek = Char.ofNat 10 then lx.line + 1 else lx.line }

/-- The lexer after the comment branch of `nextToken`: everything up to the next newline or
NUL consumed. -/
def Lexer.skipComment (lx : Lexer) : Lexer :=
  { lx with i := lx.i + ((lx.src.drop lx.i).takeWhile
      (fun d => d != Char.ofNat 0 && d != Char.ofNat 10)).length }

/-- The part of the body of `nextToken` below the whitespace and comment branches: the token
that starts at the current character. -/
def Lexer.tokenHere (lx : Lexer) : FrontResult (Token × Lexer) :=
  let c := lx.peek
  if isdigit c then
    let s := (lx.src.drop lx.i).takeWhile isdigit
    match stoll s with
    | none => .error (.literalOutOfRange (String.mk s))
    | some v => .ok (⟨.INT_LIT, String.mk s, v, lx.line⟩, { lx with i := lx.i + s.length })
  else if isalpha c || c = '_' then
    let s := (lx.src.drop lx.i).takeWhile (fun d => isalnum d || d = '_')
    .ok (⟨keywordType (String.mk s), String.mk s, 0, lx.line⟩,
      { lx with i := lx.i + s.length })
  else if lx.startswith ['=', '='] then
    .ok (⟨.EQ, "==", 0, lx.line⟩, { lx with i := lx.i + 2 })
  else if lx.startswith ['!', '='] then
    .ok (⟨.NEQ, "!=", 0, lx.line⟩, { lx with i := lx.i + 2 })
  else if lx.startswith ['<', '='] then
    .ok (⟨.LTE, "<=", 0, lx.line⟩, { lx with i := lx.i + 2 })
  else if lx.startswith ['>', '='] then
    .ok (⟨.GTE, ">=", 0, lx.line⟩, { lx with i := lx.i + 2 })
  else
    match singleCharToken c lx.line with
    | some tok => .ok (tok, { lx with i := lx.i + 1 })
    | none => .error (.unexpectedChar c lx.line)

/-- Steps of `nextToken` that skip whitespace and comments: `Skips lx lx'` when the loop,
started at `lx`, comes to `lx'` after some turns of its whitespace and comment branches. -/
inductive Skips : Lexer → Lexer → Prop where
  | here (lx : Lexer) : Skips lx lx
  | space {lx lx' : Lexer} : isspace lx.peek = true → Skips lx.skipSpace lx' → Skips lx lx'
  | comment {lx lx' : Lexer} : lx.startswith ['/', '/'] = true →
      Skips lx.skipComment lx' → Skips lx lx'

/-- The text the lexer gives to a token of an operator kind. -/
def opText : TokenType → Option String
  | .PLUS => some "+"
  | .MINUS => some "-"
  | .MUL => some "*"
  | .DIV => some "/"
  | .MOD => some "%"
  | .EQ => some "=="
  | .NEQ => some "!="
  | .LT => some "<"
  | .GT => some ">"
  | .LTE => some "<="
  | .GTE => some ">="
  | _ => none

/-- A token as the lexer builds it: an operator kind comes with its own text. -/
def Token.Canonical (tok : Token) : Prop := ∀ s, opText tok.type = some s → tok.text = s

/-- The lexer states that successive calls of `nextToken` go through on the source `src`. -/
inductive ReachableFrom (src : List Char) : Lexer → Prop where
  | init : ReachableFrom src (Lexer.init src)
  | next {lx lx' : Lexer} {tok : Token} :
      ReachableFrom src lx → lx.nextToken = .ok (tok, lx') → ReachableFrom src lx'

/-- The lexer's line counter is right: 1 plus the number of newlines before position `i`. -/
def Lexer.LineOk (lx : Lexer) : Prop :=
  lx.line = 1 + (lx.src.take lx.i).count (Char.ofNat 10)

/-- The characters that are tokens on their own. -/
def singleChars : List Char :=
  ['+', '-', '*', '/', '%', '=', '<', '>', '(', ')', '{', '}', ';']

/-- The input starts with one of the two-character operators `==`, `!=`, `<=`, `>=`. -/
def startsTwoCharOp : List Char → Bool
  | a :: b :: _ => (a = '=' || a = '!' || a = '<' || a = '>') && b = '='
  | _ => false

/-- The character `c`, followed by `r`, is one that `nextToken` reaches after skipping
whitespace and comments and that starts no token according to the specification: not
whitespace, not a digit, a letter or an underscore, not the start of `==`, `!=`, `<=`, `>=`,
and none of the single-character tokens. -/
def OtherCharacter (c : Char) (r : List Char) : Prop :=
  isspace c = false ∧ isdigit c = false ∧ isalpha c = false ∧ c ≠ '_' ∧
    startsTwoCharOp (c :: r) = false ∧ c ∉ singleChars

/-- A relation between parser states that the parsing methods cannot tell apart: related
states have the same current token, and `eat` takes related states to related states. -/
structure ParserSim (R : Parser → Parser → Prop) : Prop where
  cur : ∀ {p q : Parser}, R p q → p.cur = q.cur
  eat : ∀ {p q : Parser} (t : TokenType) {p' : Parser}, R p q → p.eat t = .ok p' →
    ∃ q', q.eat t = .ok q' ∧ R p' q'

/-- Every success of an expression-parsing method with fuel `fuel` from a state is matched,
with fuel `fuel'` from a related state, by a success with the same expression and a related
final state. -/
structure ExprSim (R : Parser → Parser → Prop) (fuel fuel' : Nat) : Prop where
  expr : ∀ (p q : Parser) (a : Expr) (p' : Parser), R p q →
    parseExpr fuel p = .ok (a, p') → ∃ q', parseExpr fuel' q = .ok (a, q') ∧ R p' q'
  equality : ∀ (p q : Parser) (a : Expr) (p' : Parser), R p q →
    parseEquality fuel p = .ok (a, p') → ∃ q', parseEquality fuel' q = .ok (a, q') ∧ R p' q'
  equalityLoop : ∀ (left : Expr) (p q : Parser) (a : Expr) (p' : Parser), R p q →
    parseEqualityLoop fuel left p = .ok (a, p') →
    ∃ q', parseEqualityLoop fuel' left q = .ok (a, q') ∧ R p' q'
  comparison : ∀ (p q : Parser) (a : Expr) (p' : Parser), R p q →
    parseComparison fuel p = .ok (a, p') →
    ∃ q', parseComparison fuel' q = .ok (a, q') ∧ R p' q'
  comparisonLoop : ∀ (left : Expr) (p q : Parser) (a : Expr) (p' : Parser), R p q →
    parseComparisonLoop fuel left p = .ok (a, p') →
    ∃ q', parseComparisonLoop fuel' left q = .ok (a, q') ∧ R p' q'
  term : ∀ (p q : Parser) (a : Expr) (p' : Parser), R p q →
    parseTerm fuel p = .ok (a, p') → ∃ q', parseTerm fuel' q = .ok (a, q') ∧ R p' q'
  termLoop : ∀ (left : Expr) (p q : Parser) (a : Expr) (p' : Parser), R p q →
    parseTermLoop fuel left p = .ok (a, p') →
    ∃ q', parseTermLoop fuel' left q = .ok (a, q') ∧ R p' q'
  factor : ∀ (p q : Parser) (a : Expr) (p' : Parser), R p q →
    parseFactor fuel p = .ok (a, p') → ∃ q', parseFactor fuel' q = .ok (a, q') ∧ R p' q'
  factorLoop : ∀ (left : Expr) (p q : Parser) (a : Expr) (p' : Parser), R p q →
    parseFactorLoop fuel left p = .ok (a, p') →
    ∃ q', parseFactorLoop fuel' left q = .ok (a, q') ∧ R p' q'
  unary : ∀ (p q : Parser) (a : Expr) (p' : Parser), R p q →
    parseUnary fuel p = .ok (a, p') → ∃ q', parseUnary fuel' q = .ok (a, q') ∧ R p' q'
  primary : ∀ (p q : Parser) (a : Expr) (p' : Parser), R p q →
    parsePrimary fuel p = .ok (a, p') → ∃ q', parsePrimary fuel' q = .ok (a, q') ∧ R p' q'

/-- A fuel-indexed computation gives the result `r` for all large enough fuel. -/
def Eventually {β : Type} (g : Nat → FrontResult β) (r : β) : Prop :=
  ∃ F, ∀ fuel, F ≤ fuel → g fuel = .ok r

/-- The operators of the `factor` level: `*`, `/`, `%`. -/
def IsFactorOp (t : TokenType) : Prop := t = .MUL ∨ t = .DIV ∨ t = .MOD

/-- The operators of the `term` level: `+`, `-`. -/
def IsTermOp (t : TokenType) : Prop := t = .PLUS ∨ t = .MINUS

/-- The operators of the `comparison` level: `<`, `>`, `<=`, `>=`. -/
def IsComparisonOp (t : TokenType) : Prop := t = .LT ∨ t = .GT ∨ t = .LTE ∨ t = .GTE

/-- The operators of the `equality` level: `==`, `!=`. -/
def IsEqualityOp (t : TokenType) : Prop := t = .EQ ∨ t = .NEQ

/-- A binary operator of any level. -/
def IsBinaryOp (t : TokenType) : Prop :=
  IsEqualityOp t ∨ IsComparisonOp t ∨ IsTermOp t ∨ IsFactorOp t

/-- The source text `a = 1; b = 2; print(a + b * 3);`. -/
def precedenceSource : List Char := "a = 1; b = 2; print(a + b * 3);".toList

instance (t : TokenType) : Decidable (IsFactorOp t) := by unfold IsFactorOp; infer_instance

instance (t : TokenType) : Decidable (IsTermOp t) := by unfold IsTermOp; infer_instance

instance (t : TokenType) : Decidable (IsComparisonOp t) := by
  unfold IsComparisonOp; infer_instance

instance (t : TokenType) : Decidable (IsEqualityOp t) := by unfold IsEqualityOp; infer_instance

instance (t : TokenType) : Decidable (IsBinaryOp t) := by unfold IsBinaryOp; infer_instance

/-- The parser state with the next token read in, whatever the current token is (the state is
kept when the lexer fails). -/
def Parser.advance (p : Parser) : Parser :=
  match p.lex.nextToken with
  | .error _ => p
  | .ok (tok, lx) => { lex := lx, cur := tok }

/-- The parser state over `src` after `k` tokens have been consumed: `tokenState src 0` is
the state built by `Parser.init`. -/
def tokenState (src : List Char) : Nat → Parser
  | 0 =>
    match Parser.init src with
    | .error _ => { lex := Lexer.init src, cur := { type := .END, text := "", intVal := 0, line := 1 } }
    | .ok p => p
  | k + 1 => (tokenState src k).advance

/-- A chain `op1 x1 op2 x2 ... opn xn` of operators of one level (those satisfying `IsOp`),
each followed by a primary, read from parser state `p` to parser state `pend`: the list holds
the operator texts and the expressions of the primaries. -/
inductive PrimaryChain (IsOp : TokenType → Prop) :
    Parser → List (String × Expr) → Parser → Prop where
  | nil (p : Parser) : PrimaryChain IsOp p [] p
  | cons {p p1 p2 pend : Parser} {s : String} {x : Expr} {rest : List (String × Expr)}
      (f : Nat) :
      IsOp p.cur.type → opText p.cur.type = some s → p.eat p.cur.type = .ok p1 →
      parsePrimary f p1 = .ok (x, p2) → PrimaryChain IsOp p2 rest pend →
      PrimaryChain IsOp p ((s, x) :: rest) pend

/-- The left fold `Binary(opn, ... Binary(op2, Binary(op1, x0, x1), x2) ..., xn)`. -/
def leftFold (x0 : Expr) (items : List (String × Expr)) : Expr :=
  items.foldl (fun acc it => .Binary it.1 acc it.2) x0

/-- The built-in default program of `main` (the raw string `defaultProg`). -/
def defaultProg : List Char :=
  ("\n// compute fibonacci iteratively and print fib(10)\n a = 0;\n b = 1;\n i = 0;\n" ++
    " while (i < 10) \x7b\n   t = a + b;\n   a = b;\n   b = t;\n   i = i + 1;\n \x7d\n" ++
    " print(a);\n").toList

/-- The AST of the default program. -/
def defaultAst : List Stmt :=
  [.AssignStmt "a" (.IntLit 0), .AssignStmt "b" (.IntLit 1), .AssignStmt "i" (.IntLit 0),
    .WhileStmt (.Binary "<" (.VarExpr "i") (.IntLit 10))
      [.AssignStmt "t" (.Binary "+" (.VarExpr "a") (.VarExpr "b")),
        .AssignStmt "a" (.VarExpr "b"), .AssignStmt "b" (.VarExpr "t"),
        .AssignStmt "i" (.Binary "+" (.VarExpr "i") (.IntLit 1))],
    .PrintStmt (.VarExpr "a")]

/-! ## Intermediate code generation (PHASE 4 & 6) -/

/-- The generator `TACGen`: the instruction list `code` and the counter `tmpCounter` (an
`int`, here a natural number: it only counts up from 0, once per `Binary` node). The field
`issued` records the names that the trace line `[TAC] New temporary: ` of `newTmp`
announces, in order; the source prints them in debug mode only, here they are always kept. -/
structure TACGen where
  code : List String
  tmpCounter : Nat
  issued : List String
  deriving DecidableEq, Repr

/-- The constructor `TACGen(dbg)`: no code, counter 0. -/
def TACGen.init : TACGen := { code := [], tmpCounter := 0, issued := [] }

/-- The method `newTmp`: `string("t") + to_string(++tmpCounter)`. -/
def TACGen.newTmp (g : TACGen) : String × TACGen :=
  let tmp := "t" ++ toString (g.tmpCounter + 1)
  (tmp, { g with tmpCounter := g.tmpCounter + 1, issued := g.issued ++ [tmp] })

/-- The call `code.push_back(line)`. -/
def TACGen.push (g : TACGen) (line : String) : TACGen :=
  { g with code := g.code ++ [line] }

/-- The method `genExpr`: the operand text of the expression, and the generator after the
instructions of the expression have been appended. -/
def TACGen.genExpr : Expr → TACGen → String × TACGen
  | .IntLit v, g => (toString v, g)
  | .VarExpr name, g => (name, g)
  | .Binary op a b, g =>
    match TACGen.genExpr a g with
    | (A, g1) =>
      match TACGen.genExpr b g1 with
      | (B, g2) =>
        match g2.newTmp with
        | (t, g3) => (t, g3.push (t ++ " = " ++ A ++ " " ++ op ++ " " ++ B))

mutual
/-- The method `genStmt`. -/
def TACGen.genStmt : Stmt → TACGen → TACGen
  | .AssignStmt name e, g =>
    match TACGen.genExpr e g with
    | (r, g1) => g1.push (name ++ " = " ++ r)
  | .PrintStmt e, g =>
    match TACGen.genExpr e g with
    | (r, g1) => g1.push ("print " ++ r)
  | .IfStmt cond thenBlock elseBlock, g =>
    match TACGen.genExpr cond g with
    | (c, g1) =>
      let L1 := "L" ++ toString g1.code.length ++ "a"
      let L2 := "L" ++ toString g1.code.length ++ "b"
      let g2 := g1.push ("ifz " ++ c ++ " goto " ++ L1)
      let g3 := TACGen.genBlock thenBlock g2
      let g4 := (g3.push ("goto " ++ L2)).push (L1 ++ ":")
      let g5 := TACGen.genElse elseBlock g4
      g5.push (L2 ++ ":")
  | .WhileStmt cond body, g =>
    let L1 := "L" ++ toString g.code.length ++ "a"
    let L2 := "L" ++ toString g.code.length ++ "b"
    let g1 := g.push (L1 ++ ":")
    match TACGen.genExpr cond g1 with
    | (c, g2) =>
      let g3 := g2.push ("ifz " ++ c ++ " goto " ++ L2)
      let g4 := TACGen.genBlock body g3
      (g4.push ("goto " ++ L1)).push (L2 ++ ":")
  | .BlockStmt stmts, g => TACGen.genBlock stmts g
/-- The method `genBlock`: `for(auto &s : blk->stmts) genStmt(s.get());`. -/
def TACGen.genBlock : List Stmt → TACGen → TACGen
  | [], g => g
  | s :: rest, g => TACGen.genBlock rest (TACGen.genStmt s g)
/-- The guarded call `if(ifs->elseBlock) genBlock(ifs->elseBlock.get());`. -/
def TACGen.genElse : Option (List Stmt) → TACGen → TACGen
  | none, g => g
  | some blk, g => TACGen.genBlock blk g
end

/-- The number of `Binary` nodes of an expression. -/
def Expr.binaryCount : Expr → Nat
  | .IntLit _ => 0
  | .VarExpr _ => 0
  | .Binary _ a b => a.binaryCount + b.binaryCount + 1

/-- The operators of the `Binary` nodes of an expression in post-order: those of the left
operand, those of the right operand, then the node's own. -/
def Expr.postOrderOps : Expr → List String
  | .IntLit _ => []
  | .VarExpr _ => []
  | .Binary op a b => a.postOrderOps ++ b.postOrderOps ++ [op]

mutual
/-- The number of `Binary` nodes in the expressions of a statement. -/
def Stmt.binaryCount : Stmt → Nat
  | .AssignStmt _ e => e.binaryCount
  | .PrintStmt e => e.binaryCount
  | .IfStmt cond thenBlock elseBlock =>
    cond.binaryCount + Stmt.binaryCountBlock thenBlock + Stmt.binaryCountElse elseBlock
  | .WhileStmt cond body => cond.binaryCount + Stmt.binaryCountBlock body
  | .BlockStmt stmts => Stmt.binaryCountBlock stmts
/-- The number of `Binary` nodes in the expressions of a block. -/
def Stmt.binaryCountBlock : List Stmt → Nat
  | [] => 0
  | s :: rest => Stmt.binaryCount s + Stmt.binaryCountBlock rest
/-- The number of `Binary` nodes in the expressions of an else arm. -/
def Stmt.binaryCountElse : Option (List Stmt) → Nat
  | none => 0
  | some blk => Stmt.binaryCountBlock blk
end

/-- The name of the `k`-th temporary: `t` followed by the decimal digits of `k`. -/
def tmpName (k : Nat) : String := "t" ++ toString k

/-- The instruction `tN = A op B` defining the `k`-th temporary. -/
def tacLine (k : Nat) (A op B : String) : String :=
  tmpName k ++ " = " ++ A ++ " " ++ op ++ " " ++ B

/-- The names `t(c+1), ..., t(c+n)`. -/
def tmpNames (c n : Nat) : List String := (List.range n).map (fun j => tmpName (c + j + 1))

/-- The instructions defining the temporaries `t(c+1), t(c+2), ...` from the list of their
`(A, op, B)` parts. -/
def tacLines (c : Nat) (instrs : List (String × String × String)) : List String :=
  (instrs.enumFrom (c + 1)).map (fun ki => tacLine ki.1 ki.2.1 ki.2.2.1 ki.2.2.2)

/-- Two lexer states with the same remaining input and the same line counter. -/
def Lexer.Same (lx lx' : Lexer) : Prop := lx.rest = lx'.rest ∧ lx.line = lx'.line

/-- Two parser states with the same current token whose lexers have the same remaining input
and line counter. -/
def Parser.Same (p q : Parser) : Prop := p.cur = q.cur ∧ p.lex.Same q.lex

/-- Every success of a statement-parsing method with fuel `fuel` from a state is matched,
with fuel `fuel'` from a related state, by a success with the same result and a related
final state. -/
structure StmtSim (R : Parser → Parser → Prop) (fuel fuel' : Nat) : Prop where
  statement : ∀ (p q : Parser) (s : Stmt) (p' : Parser), R p q →
    parseStatement fuel p = .ok (s, p') → ∃ q', parseStatement fuel' q = .ok (s, q') ∧ R p' q'
  block : ∀ (p q : Parser) (ss : List Stmt) (p' : Parser), R p q →
    parseBlock fuel p = .ok (ss, p') → ∃ q', parseBlock fuel' q = .ok (ss, q') ∧ R p' q'
  blockLoop : ∀ (acc : List Stmt) (p q : Parser) (ss : List Stmt) (p' : Parser), R p q →
    parseBlockLoop fuel acc p = .ok (ss, p') →
    ∃ q', parseBlockLoop fuel' acc q = .ok (ss, q') ∧ R p' q'

/-- The text `; while (x > 0) \x7b print(x); x = x - 1; \x7d` that follows the literal in
the countdown program. -/
def countdownTail : List Char := "; while (x > 0) \x7b print(x); x = x - 1; \x7d".toList

/-- The source text `x = n; while (x > 0) \x7b print(x); x = x - 1; \x7d`, where the literal
`n` is written with the digits `ds`. -/
def countdownSource (ds : List Char) : List Char := "x = ".toList ++ ds ++ countdownTail

/-- The loop `while (x > 0) \x7b print(x); x = x - 1; \x7d`. -/
def countdownLoop : Stmt :=
  .WhileStmt (.Binary ">" (.VarExpr "x") (.IntLit 0))
    [.PrintStmt (.VarExpr "x"), .AssignStmt "x" (.Binary "-" (.VarExpr "x") (.IntLit 1))]

/-- The AST of the countdown program for the literal value `n`. -/
def countdownAst (n : Int) : List Stmt := [.AssignStmt "x" (.IntLit n), countdownLoop]

/-- The values `n, n-1, ..., 1`. -/
def countdown : Nat → List Int
  | 0 => []
  | k + 1 => ((k : Int) + 1) :: countdown k

/-- Sequencing of two steps of the optimizer: the second runs on what the first returns, and
the trap of the first ends both. -/
def FoldResult.bind {α β : Type} (r : FoldResult α) (g : α → FoldResult β) : FoldResult β :=
  match r with
  | .trap => .trap
  | .ok val => g val

mutual
/-- The statement with every expression it holds (assigned and printed expressions, `if` and
`while` conditions, at every nesting depth) replaced by what `f` returns on it, in the order
of the text, and nothing else changed; the trap of `f` on one of them ends the traversal. -/
def Stmt.mapExprs (f : Expr → FoldResult Expr) : Stmt → FoldResult Stmt
  | .PrintStmt e => (f e).bind fun e' => .ok (.PrintStmt e')
  | .AssignStmt name e => (f e).bind fun e' => .ok (.AssignStmt name e')
  | .BlockStmt stmts => (Stmt.mapExprsBlock f stmts).bind fun stmts' => .ok (.BlockStmt stmts')
  | .IfStmt cond thenBlock elseBlock =>
    (f cond).bind fun cond' =>
      (Stmt.mapExprsBlock f thenBlock).bind fun thenBlock' =>
        (Stmt.mapExprsElse f elseBlock).bind fun elseBlock' =>
          .ok (.IfStmt cond' thenBlock' elseBlock')
  | .WhileStmt cond body =>
    (f cond).bind fun cond' =>
      (Stmt.mapExprsBlock f body).bind fun body' => .ok (.WhileStmt cond' body')
/-- The block version of `Stmt.mapExprs`: statement by statement, in order. -/
def Stmt.mapExprsBlock (f : Expr → FoldResult Expr) : List Stmt → FoldResult (List Stmt)
  | [] => .ok []
  | s :: rest =>
    (Stmt.mapExprs f s).bind fun s' =>
      (Stmt.mapExprsBlock f rest).bind fun rest' => .ok (s' :: rest')
/-- The else-arm version of `Stmt.mapExprs`: an absent else block stays absent. -/
def Stmt.mapExprsElse (f : Expr → FoldResult Expr) :
    Option (List Stmt) → FoldResult (Option (List Stmt))
  | none => .ok none
  | some blk => (Stmt.mapExprsBlock f blk).bind fun blk' => .ok (some blk')
end

mutual
/-- The statement with every expression it holds erased (replaced by the literal 0). -/
def Stmt.eraseExprs : Stmt → Stmt
  | .PrintStmt _ => .PrintStmt (.IntLit 0)
  | .AssignStmt name _ => .AssignStmt name (.IntLit 0)
  | .BlockStmt stmts => .BlockStmt (Stmt.eraseExprsBlock stmts)
  | .IfStmt _ thenBlock elseBlock =>
    .IfStmt (.IntLit 0) (Stmt.eraseExprsBlock thenBlock) (Stmt.eraseExprsElse elseBlock)
  | .WhileStmt _ body => .WhileStmt (.IntLit 0) (Stmt.eraseExprsBlock body)
/-- The block version of `Stmt.eraseExprs`. -/
def Stmt.eraseExprsBlock : List Stmt → List Stmt
  | [] => []
  | s :: rest => Stmt.eraseExprs s :: Stmt.eraseExprsBlock rest
/-- The else-arm version of `Stmt.eraseExprs`: an absent else block stays absent. -/
def Stmt.eraseExprsElse : Option (List Stmt) → Option (List Stmt)
  | none => none
  | some blk => some (Stmt.eraseExprsBlock blk)
end

/-- The statement structure of a program: the program with every expression erased (replaced
by the literal 0). Two programs with the same skeleton have the same statements of the same
kinds in the same order and nesting, the same assignment targets and else blocks at the same
places. -/
def skeleton (p : List Stmt) : List Stmt := Stmt.eraseExprsBlock p

/-- The instructions that `genExpr` appends for `e` when called in state `g`. -/
def TACGen.exprCode (e : Expr) (g : TACGen) : List String :=
  (TACGen.genExpr e g).2.code.drop g.code.length

/-- The instructions that `genStmt` appends for `s` when called in state `g`. -/
def TACGen.stmtCode (s : Stmt) (g : TACGen) : List String :=
  (TACGen.genStmt s g).code.drop g.code.length

/-- The instructions that `genBlock` appends for `blk` when called in state `g`. -/
def TACGen.blockCode (blk : List Stmt) (g : TACGen) : List String :=
  (TACGen.genBlock blk g).code.drop g.code.length

/-- The instructions appended for an optional else block when generation reaches it in state
`g`. -/
def TACGen.elseCode (e : Option (List Stmt)) (g : TACGen) : List String :=
  (TACGen.genElse e g).code.drop g.code.length

/-- The label name `L<n><sfx>` built from the instruction count `n`. -/
def labelName (n : Nat) (sfx : String) : String := "L" ++ toString n ++ sfx

/-- The label-definition line `L<n>a:` or `L<n>b:`. -/
def IsLabelDef (s : String) : Prop :=
  ∃ n : Nat, s = labelName n "a" ++ ":" ∨ s = labelName n "b" ++ ":"

/-- The line contains a blank. -/
def HasSpace (s : String) : Prop := ' ' ∈ s.data

/-- The label-definition lines of the instruction list `new`, appended from instruction
count `N` on, are in order: a label-definition line equals no later line, and the number in
each of them lies between `N` and the instruction count at the end. -/
def LabelsOk (N : Nat) (new : List String) : Prop :=
  new.Pairwise (fun s t => IsLabelDef s → s ≠ t) ∧
  ∀ (n : Nat) (sfx : String), (sfx = "a" ∨ sfx = "b") → labelName n sfx ++ ":" ∈ new →
    N ≤ n ∧ n < N + new.length

mutual
/-- The variable names assigned or referenced in a statement. -/
def Stmt.names : Stmt → List String
  | .PrintStmt e => varsOf e
  | .AssignStmt name e => name :: varsOf e
  | .BlockStmt stmts => Stmt.namesBlock stmts
  | .IfStmt cond thenBlock elseBlock =>
    varsOf cond ++ Stmt.namesBlock thenBlock ++ Stmt.namesElse elseBlock
  | .WhileStmt cond body => varsOf cond ++ Stmt.namesBlock body
/-- The variable names assigned or referenced in a block. -/
def Stmt.namesBlock : List Stmt → List String
  | [] => []
  | s :: rest => Stmt.names s ++ Stmt.namesBlock rest
/-- The variable names assigned or referenced in an else arm. -/
def Stmt.namesElse : Option (List Stmt) → List String
  | none => []
  | some blk => Stmt.namesBlock blk
end

/-- The program `t1 = 5; x = t1 + 1;`. -/
def clashProgram : List Stmt :=
  [.AssignStmt "t1" (.IntLit 5), .AssignStmt "x" (.Binary "+" (.VarExpr "t1") (.IntLit 1))]

/-- The input a parser state has not consumed yet: the characters the lexer has not read,
plus one for the current token unless it is the end of input. -/
def Parser.remaining (p : Parser) : Nat :=
  p.lex.rest.length + (if p.cur.type = .END then 0 else 1)

/-- Every success of an expression-parsing method with fuel `fuel` leaves less input (for
the loops: not more). -/
structure ExprDecr (fuel : Nat) : Prop where
  expr : ∀ (p : Parser) (a : Expr) (p' : Parser),
    parseExpr fuel p = .ok (a, p') → p'.remaining < p.remaining
  equality : ∀ (p : Parser) (a : Expr) (p' : Parser),
    parseEquality fuel p = .ok (a, p') → p'.remaining < p.remaining
  equalityLoop : ∀ (left : Expr) (p : Parser) (a : Expr) (p' : Parser),
    parseEqualityLoop fuel left p = .ok (a, p') → p'.remaining ≤ p.remaining
  comparison : ∀ (p : Parser) (a : Expr) (p' : Parser),
    parseComparison fuel p = .ok (a, p') → p'.remaining < p.remaining
  comparisonLoop : ∀ (left : Expr) (p : Parser) (a : Expr) (p' : Parser),
    parseComparisonLoop fuel left p = .ok (a, p') → p'.remaining ≤ p.remaining
  term : ∀ (p : Parser) (a : Expr) (p' : Parser),
    parseTerm fuel p = .ok (a, p') → p'.remaining < p.remaining
  termLoop : ∀ (left : Expr) (p : Parser) (a : Expr) (p' : Parser),
    parseTermLoop fuel left p = .ok (a, p') → p'.remaining ≤ p.remaining
  factor : ∀ (p : Parser) (a : Expr) (p' : Parser),
    parseFactor fuel p = .ok (a, p') → p'.remaining < p.remaining
  factorLoop : ∀ (left : Expr) (p : Parser) (a : Expr) (p' : Parser),
    parseFactorLoop fuel left p = .ok (a, p') → p'.remaining ≤ p.remaining
  unary : ∀ (p : Parser) (a : Expr) (p' : Parser),
    parseUnary fuel p = .ok (a, p') → p'.remaining < p.remaining
  primary : ∀ (p : Parser) (a : Expr) (p' : Parser),
    parsePrimary fuel p = .ok (a, p') → p'.remaining < p.remaining

/-- With fuel `fuel`, an expression-parsing method started with at least seven units of fuel
per unit of remaining input, plus its own depth, does not run out of fuel. -/
structure ExprTotal (fuel : Nat) : Prop where
  expr : ∀ (p : Parser), 7 * p.remaining + 7 ≤ fuel →
    parseExpr fuel p ≠ .error .outOfFuel
  equality : ∀ (p : Parser), 7 * p.remaining + 6 ≤ fuel →
    parseEquality fuel p ≠ .error .outOfFuel
  equalityLoop : ∀ (left : Expr) (p : Parser), 7 * p.remaining + 1 ≤ fuel →
    parseEqualityLoop fuel left p ≠ .error .outOfFuel
  comparison : ∀ (p : Parser), 7 * p.remaining + 5 ≤ fuel →
    parseComparison fuel p ≠ .error .outOfFuel
  comparisonLoop : ∀ (left : Expr) (p : Parser), 7 * p.remaining + 1 ≤ fuel →
    parseComparisonLoop fuel left p ≠ .error .outOfFuel
  term : ∀ (p : Parser), 7 * p.remaining + 4 ≤ fuel →
    parseTerm fuel p ≠ .error .outOfFuel
  termLoop : ∀ (left : Expr) (p : Parser), 7 * p.remaining + 1 ≤ fuel →
    parseTermLoop fuel left p ≠ .error .outOfFuel
  factor : ∀ (p : Parser), 7 * p.remaining + 3 ≤ fuel →
    parseFactor fuel p ≠ .error .outOfFuel
  factorLoop : ∀ (left : Expr) (p : Parser), 7 * p.remaining + 1 ≤ fuel →
    parseFactorLoop fuel left p ≠ .error .outOfFuel
  unary : ∀ (p : Parser), 7 * p.remaining + 2 ≤ fuel →
    parseUnary fuel p ≠ .error .outOfFuel
  primary : ∀ (p : Parser), 7 * p.remaining + 1 ≤ fuel →
    parsePrimary fuel p ≠ .error .outOfFuel

/-- An expression-parsing method that does not run out of fuel with fuel `fuel` gives the
same result with one more unit. -/
structure ExprStable (fuel : Nat) : Prop where
  expr : ∀ (p : Parser), parseExpr fuel p ≠ .error .outOfFuel →
    parseExpr (fuel + 1) p = parseExpr fuel p
  equality : ∀ (p : Parser), parseEquality fuel p ≠ .error .outOfFuel →
    parseEquality (fuel + 1) p = parseEquality fuel p
  equalityLoop : ∀ (left : Expr) (p : Parser), parseEqualityLoop fuel left p ≠ .error .outOfFuel →
    parseEqualityLoop (fuel + 1) left p = parseEqualityLoop fuel left p
  comparison : ∀ (p : Parser), parseComparison fuel p ≠ .error .outOfFuel →
    parseComparison (fuel + 1) p = parseComparison fuel p
  comparisonLoop : ∀ (left : Expr) (p : Parser), parseComparisonLoop fuel left p ≠ .error .outOfFuel →
    parseComparisonLoop (fuel + 1) left p = parseComparisonLoop fuel left p
  term : ∀ (p : Parser), parseTerm fuel p ≠ .error .outOfFuel →
    parseTerm (fuel + 1) p = parseTerm fuel p
  termLoop : ∀ (left : Expr) (p : Parser), parseTermLoop fuel left p ≠ .error .outOfFuel →
    parseTermLoop (fuel + 1) left p = parseTermLoop fuel left p
  factor : ∀ (p : Parser), parseFactor fuel p ≠ .error .outOfFuel →
    parseFactor (fuel + 1) p = parseFactor fuel p
  factorLoop : ∀ (left : Expr) (p : Parser), parseFactorLoop fuel left p ≠ .error .outOfFuel →
    parseFactorLoop (fuel + 1) left p = parseFactorLoop fuel left p
  unary : ∀ (p : Parser), parseUnary fuel p ≠ .error .outOfFuel →
    parseUnary (fuel + 1) p = parseUnary fuel p
  primary : ∀ (p : Parser), parsePrimary fuel p ≠ .error .outOfFuel →
    parsePrimary (fuel + 1) p = parsePrimary fuel p

/-- Every success of a statement-parsing method with fuel `fuel` leaves less input (for the
loop of a block: not more). -/
structure StmtDecr (fuel : Nat) : Prop where
  statement : ∀ (p : Parser) (s : Stmt) (p' : Parser),
    parseStatement fuel p = .ok (s, p') → p'.remaining < p.remaining
  block : ∀ (p : Parser) (ss : List Stmt) (p' : Parser),
    parseBlock fuel p = .ok (ss, p') → p'.remaining < p.remaining
  blockLoop : ∀ (acc : List Stmt) (p : Parser) (ss : List Stmt) (p' : Parser),
    parseBlockLoop fuel acc p = .ok (ss, p') → p'.remaining ≤ p.remaining

/-- With fuel `fuel`, a statement-parsing method started with at least eight units of fuel per
unit of remaining input, plus its own margin, does not run out of fuel. -/
structure StmtTotal (fuel : Nat) : Prop where
  statement : ∀ (p : Parser), 8 * p.remaining + 2 ≤ fuel →
    parseStatement fuel p ≠ .error .outOfFuel
  block : ∀ (p : Parser), 8 * p.remaining + 1 ≤ fuel → parseBlock fuel p ≠ .error .outOfFuel
  blockLoop : ∀ (acc : List Stmt) (p : Parser), 8 * p.remaining + 3 ≤ fuel →
    parseBlockLoop fuel acc p ≠ .error .outOfFuel

/-- A statement-parsing method that does not run out of fuel with fuel `fuel` gives the same
result with one more unit. -/
structure StmtStable (fuel : Nat) : Prop where
  statement : ∀ (p : Parser), parseStatement fuel p ≠ .error .outOfFuel →
    parseStatement (fuel + 1) p = parseStatement fuel p
  block : ∀ (p : Parser), parseBlock fuel p ≠ .error .outOfFuel →
    parseBlock (fuel + 1) p = parseBlock fuel p
  blockLoop : ∀ (acc : List Stmt) (p : Parser), parseBlockLoop fuel acc p ≠ .error .outOfFuel →
    parseBlockLoop (fuel + 1) acc p = parseBlockLoop fuel acc p

/-! ## Standard output of `runSource` (debug off) -/

/-- The string `indent(depth*2, ' ')` of `semanticCheckBlock`. -/
def indentOf (depth : Nat) : String := String.mk (List.replicate (depth * 2) ' ')

/-- The lines printed by the lambda `findVars` of an assignment or a print statement on an
expression all of whose variables are defined: the lines `line name` for each variable
occurrence `name`, left to right. (The lambdas of `if` and `while` print nothing.) -/
def findVarsTrace (line : String → List String) : Expr → List String
  | .IntLit _ => []
  | .VarExpr name => line name
  | .Binary _ a b => findVarsTrace line a ++ findVarsTrace line b

mutual
/-- The lines printed by the loop body of `semanticCheckBlock` at depth `depth` for one
statement that passes the check. -/
def semanticTraceStmt (depth : Nat) : Stmt → List String
  | .AssignStmt name e =>
    [indentOf depth ++ "[SEMANTIC] Checking assignment to: " ++ name] ++
    findVarsTrace (fun v => [indentOf depth ++ "[SEMANTIC] Valid use of variable: " ++ v]) e ++
    [indentOf depth ++ "[SEMANTIC] Variable defined: " ++ name]
  | .IfStmt _ thenBlock elseBlock =>
    [indentOf depth ++ "[SEMANTIC] Checking if statement condition",
      indentOf depth ++ "[SEMANTIC] Checking then block..."] ++
    semanticTraceBlock (depth + 1) thenBlock ++ semanticTraceElse depth elseBlock
  | .WhileStmt _ body =>
    [indentOf depth ++ "[SEMANTIC] Checking while statement condition",
      indentOf depth ++ "[SEMANTIC] Checking while loop body..."] ++
    semanticTraceBlock (depth + 1) body
  | .BlockStmt stmts =>
    [indentOf depth ++ "[SEMANTIC] Checking nested block..."] ++
    semanticTraceBlock (depth + 1) stmts
  | .PrintStmt e =>
    [indentOf depth ++ "[SEMANTIC] Checking print statement"] ++
    findVarsTrace (fun v => [indentOf depth ++ "[SEMANTIC] Valid use in print: " ++ v]) e
/-- The lines printed by the loop of `semanticCheckBlock` at depth `depth`. -/
def semanticTraceBlock (depth : Nat) : List Stmt → List String
  | [] => []
  | s :: rest => semanticTraceStmt depth s ++ semanticTraceBlock depth rest
/-- The lines printed for the optional else block of an `if` checked at depth `depth`. -/
def semanticTraceElse (depth : Nat) : Option (List Stmt) → List String
  | none => []
  | some blk =>
    [indentOf depth ++ "[SEMANTIC] Checking else block..."] ++
    semanticTraceBlock (depth + 1) blk
end

/-- The lines printed by the call `semanticCheckBlock(prog, defined)` of `runSource` (depth 0)
when the program passes the check. -/
def semanticTrace (prog : List Stmt) : List String :=
  ["[SEMANTIC] Starting semantic analysis..."] ++ semanticTraceBlock 0 prog ++
  ["[SEMANTIC] Semantic analysis completed successfully!"]

/-- The lines printed by `foldExpr` when it returns: one line `Constant folded: av op bv = r`
per folded node, operands first. -/
def foldExprTrace : Expr → List String
  | .IntLit _ => []
  | .VarExpr _ => []
  | .Binary op a b =>
    foldExprTrace a ++ foldExprTrace b ++
    (match foldExpr a, foldExpr b with
      | .ok (.IntLit av), .ok (.IntLit bv) =>
        match foldOp op av bv with
        | .ok (some r) =>
          ["[OPTIMIZATION] Constant folded: " ++ toString av ++ " " ++ op ++ " " ++
            toString bv ++ " = " ++ toString r]
        | _ => []
      | _, _ => [])

mutual
/-- The lines printed by the loop body of `foldConstantsInBlock` for one statement. -/
def foldTraceStmt : Stmt → List String
  | .AssignStmt _ e => foldExprTrace e
  | .IfStmt cond thenBlock elseBlock =>
    foldExprTrace cond ++
    (["[OPTIMIZATION] Starting constant folding..."] ++ foldTraceStmts thenBlock ++
      ["[OPTIMIZATION] Constant folding completed!"]) ++
    foldTraceElse elseBlock
  | .WhileStmt cond body =>
    foldExprTrace cond ++
    (["[OPTIMIZATION] Starting constant folding..."] ++ foldTraceStmts body ++
      ["[OPTIMIZATION] Constant folding completed!"])
  | .BlockStmt stmts =>
    ["[OPTIMIZATION] Starting constant folding..."] ++ foldTraceStmts stmts ++
      ["[OPTIMIZATION] Constant folding completed!"]
  | .PrintStmt e => foldExprTrace e
/-- The lines printed by the loop of `foldConstantsInBlock`. -/
def foldTraceStmts : List Stmt → List String
  | [] => []
  | s :: rest => foldTraceStmt s ++ foldTraceStmts rest
/-- The lines printed for the optional else block. -/
def foldTraceElse : Option (List Stmt) → List String
  | none => []
  | some blk =>
    ["[OPTIMIZATION] Starting constant folding..."] ++ foldTraceStmts blk ++
      ["[OPTIMIZATION] Constant folding completed!"]
end

/-- The lines printed by the call `foldConstantsInBlock(prog)` of `runSource`. -/
def foldTrace (prog : List Stmt) : List String :=
  ["[OPTIMIZATION] Starting constant folding..."] ++ foldTraceStmts prog ++
  ["[OPTIMIZATION] Constant folding completed!"]

/-- The lines printed up to and including the banner of the code generation phase. -/
def stdoutBeforeTac (prog : List Stmt) : List String :=
  ["=== MINILANG COMPILER EXECUTION ===",
    "", "--- PHASE 1: LEXICAL ANALYSIS ---",
    "", "--- PHASE 2: SYNTAX ANALYSIS ---",
    "", "--- PHASE 3: SEMANTIC ANALYSIS ---"] ++ semanticTrace prog ++
  ["", "--- PHASE 5: OPTIMIZATION ---"] ++ foldTrace prog ++
  ["", "--- PHASE 4 & 6: INTERMEDIATE CODE GENERATION ---"]

/-- The listing printed under `if(verbose)`: the code generated for the folded program
`folded`. -/
def stdoutTac (verbose : Bool) (folded : List Stmt) : List String :=
  if verbose then
    ["", "--- THREE ADDRESS CODE ---"] ++
    (TACGen.genBlock folded TACGen.init).code ++ ["--- END TAC ---"]
  else []

/-- The lines printed by `runSource` with debug off for a program `prog` that passes all
phases, is folded to `folded`, and whose execution prints the integers `printed` and ends
normally. -/
def stdoutLines (verbose : Bool) (prog folded : List Stmt) (printed : List Int) :
    List String :=
  stdoutBeforeTac prog ++ stdoutTac verbose folded ++
  ["", "--- PHASE 6: EXECUTION ---", "Program Output:", "---------------"] ++
  printed.map toString ++ ["---------------", "Execution completed!"]

/-- The standard output, line by line, of `runSource(source, verbose, false)` when the run
ends normally; runs that stop early (on an error, or when the iteration budget of the model
is exhausted) are not described. -/
def runStdout (verbose : Bool) (fuel : Nat) (source : List Char) : Option (List String) :=
  match parseSource source with
  | .error _ => none
  | .ok prog =>
    match semanticCheckBlock prog ∅ with
    | .error _ => none
    | .ok _ =>
      match foldConstantsInBlock prog with
      | .trap => none
      | .ok folded =>
        match execBlock fuel folded State.initial with
        | .done st => some (stdoutLines verbose prog folded st.out)
        | _ => none

/-- The AST of `(0 - 9223372036854775807 - 1) / (0 - 1)`: the division of `LLONG_MIN` by
`-1`, written with literals that the lexer accepts. -/
def overflowQuotient : Expr :=
  .Binary "/"
    (.Binary "-" (.Binary "-" (.IntLit 0) (.IntLit 9223372036854775807)) (.IntLit 1))
    (.Binary "-" (.IntLit 0) (.IntLit 1))

/-- The AST of `1 / 0 + (0 - 9223372036854775807 - 1) / (0 - 1)`. -/
def overflowSum : Expr := .Binary "+" (.Binary "/" (.IntLit 1) (.IntLit 0)) overflowQuotient

/-- A program that prints `1 / 0 + (0 - 9223372036854775807 - 1) / (0 - 1)`. -/
def overflowSumSource : List Char :=
  "print(1 / 0 + (0 - 9223372036854775807 - 1) / (0 - 1));".toList

/-- A program whose branch that is never taken divides `LLONG_MIN` by `-1`. -/
def deadOverflowSource : List Char :=
  "if (0) \x7b x = (0 - 9223372036854775807 - 1) / (0 - 1); \x7d print(7);".toList

/-- The AST of `deadOverflowSource`. -/
def deadOverflowProgram : List Stmt :=
  [.IfStmt (.IntLit 0) [.AssignStmt "x" overflowQuotient] none, .PrintStmt (.IntLit 7)]

/-! # Theorems -/

/-! ## The driver -/

/-- A run whose source parses and whose AST is rejected by the semantic pass. -/
theorem runSource_semanticError {source : List Char} {prog : List Stmt} {name : String}
    (fuel : Nat) (hp : parseSource source = .ok prog)
    (hc : semanticCheckBlock prog ∅ = .error name) :
    runSource fuel source = .semanticError name := by
  unfold runSource
  rw [hp]
  simp only [hc]

/-- A run whose source parses, whose AST is accepted by the semantic pass and on which the
optimizer returns. -/
theorem runSource_executed {source : List Char} {prog folded : List Stmt} {D : Finset String}
    (fuel : Nat) (hp : parseSource source = .ok prog)
    (hc : semanticCheckBlock prog ∅ = .ok D) (hf : foldConstantsInBlock prog = .ok folded) :
    runSource fuel source = .executed (execBlock fuel folded State.initial) := by
  unfold runSource
  rw [hp]
  simp only [hc, hf]

/-- A run whose source parses, whose AST is accepted by the semantic pass and on which the
optimizer is stopped by the trap. -/
theorem runSource_optimizerTrap {source : List Char} {prog : List Stmt} {D : Finset String}
    (fuel : Nat) (hp : parseSource source = .ok prog)
    (hc : semanticCheckBlock prog ∅ = .ok D) (hf : foldConstantsInBlock prog = .trap) :
    runSource fuel source = .optimizerTrap := by
  unfold runSource
  rw [hp]
  simp only [hc, hf]

/-! ## Constant folding and evaluation -/

/-- Whenever the compile-time table yields a value, the run-time dispatch yields the same. -/
theorem evalBinary_of_foldOp {op : String} {av bv r : Int}
    (h : foldOp op av bv = .ok (some r)) : evalBinary op av bv = .ok r := by
  have key : ∀ {x : Int}, FoldResult.ok (some x) = FoldResult.ok (some r) →
      EvalResult.ok x = EvalResult.ok r := by
    intro x hx
    injection hx with hx
    injection hx with hx
    rw [hx]
  unfold foldOp at h
  unfold evalBinary
  by_cases h1 : op = "+"
  · rw [if_pos h1] at h ⊢; exact key h
  rw [if_neg h1] at h ⊢
  by_cases h2 : op = "-"
  · rw [if_pos h2] at h ⊢; exact key h
  rw [if_neg h2] at h ⊢
  by_cases h3 : op = "*"
  · rw [if_pos h3] at h ⊢; exact key h
  rw [if_neg h3] at h ⊢
  by_cases h4 : op = "/"
  · rw [if_pos h4] at h ⊢
    by_cases hb : bv = 0
    · rw [if_pos hb] at h; cases h
    · rw [if_neg hb] at h ⊢
      by_cases hq : QuotientOverflows av bv
      · rw [if_pos hq] at h; cases h
      · rw [if_neg hq] at h ⊢; exact key h
  rw [if_neg h4] at h ⊢
  by_cases h5 : op = "%"
  · rw [if_pos h5] at h ⊢
    by_cases hb : bv = 0
    · rw [if_pos hb] at h; cases h
    · rw [if_neg hb] at h ⊢
      by_cases hq : QuotientOverflows av bv
      · rw [if_pos hq] at h; cases h
      · rw [if_neg hq] at h ⊢; exact key h
  rw [if_neg h5] at h ⊢
  by_cases h6 : op = "=="
  · rw [if_pos h6] at h ⊢; exact key h
  rw [if_neg h6] at h ⊢
  by_cases h7 : op = "!="
  · rw [if_pos h7] at h ⊢; exact key h
  rw [if_neg h7] at h ⊢
  by_cases h8 : op = "<"
  · rw [if_pos h8] at h ⊢; exact key h
  rw [if_neg h8] at h ⊢
  by_cases h9 : op = ">"
  · rw [if_pos h9] at h ⊢; exact key h
  rw [if_neg h9] at h ⊢
  by_cases h10 : op = "<="
  · rw [if_pos h10] at h ⊢; exact key h
  rw [if_neg h10] at h ⊢
  by_cases h11 : op = ">="
  · rw [if_pos h11] at h ⊢; exact key h
  rw [if_neg h11] at h
  cases h

/-- The compile-time table traps exactly on a division or remainder of `LLONG_MIN` by `-1`. -/
theorem foldOp_trap_iff (op : String) (av bv : Int) :
    foldOp op av bv = .trap ↔ (op = "/" ∨ op = "%") ∧ av = LLONG_MIN ∧ bv = -1 := by
  unfold foldOp
  by_cases h1 : op = "+"
  · rw [if_pos h1]; subst h1; constructor
    · intro h; cases h
    · rintro ⟨h | h, _⟩ <;> exact absurd h (by decide)
  rw [if_neg h1]
  by_cases h2 : op = "-"
  · rw [if_pos h2]; subst h2; constructor
    · intro h; cases h
    · rintro ⟨h | h, _⟩ <;> exact absurd h (by decide)
  rw [if_neg h2]
  by_cases h3 : op = "*"
  · rw [if_pos h3]; subst h3; constructor
    · intro h; cases h
    · rintro ⟨h | h, _⟩ <;> exact absurd h (by decide)
  rw [if_neg h3]
  by_cases h4 : op = "/"
  · rw [if_pos h4]
    by_cases hb : bv = 0
    · rw [if_pos hb]; constructor
      · intro h; cases h
      · rintro ⟨_, _, hm⟩; rw [hb] at hm; exact absurd hm (by decide)
    · rw [if_neg hb]
      by_cases hq : QuotientOverflows av bv
      · rw [if_pos hq]; exact ⟨fun _ => ⟨Or.inl h4, hq⟩, fun _ => rfl⟩
      · rw [if_neg hq]; constructor
        · intro h; cases h
        · rintro ⟨_, hm⟩; exact absurd hm hq
  rw [if_neg h4]
  by_cases h5 : op = "%"
  · rw [if_pos h5]
    by_cases hb : bv = 0
    · rw [if_pos hb]; constructor
      · intro h; cases h
      · rintro ⟨_, _, hm⟩; rw [hb] at hm; exact absurd hm (by decide)
    · rw [if_neg hb]
      by_cases hq : QuotientOverflows av bv
      · rw [if_pos hq]; exact ⟨fun _ => ⟨Or.inr h5, hq⟩, fun _ => rfl⟩
      · rw [if_neg hq]; constructor
        · intro h; cases h
        · rintro ⟨_, hm⟩; exact absurd hm hq
  rw [if_neg h5]
  have hno : ¬ ((op = "/" ∨ op = "%") ∧ av = LLONG_MIN ∧ bv = -1) := by
    rintro ⟨h | h, _⟩
    · exact h4 h
    · exact h5 h
  constructor
  · intro h
    exfalso
    by_cases h6 : op = "=="
    · rw [if_pos h6] at h; cases h
    rw [if_neg h6] at h
    by_cases h7 : op = "!="
    · rw [if_pos h7] at h; cases h
    rw [if_neg h7] at h
    by_cases h8 : op = "<"
    · rw [if_pos h8] at h; cases h
    rw [if_neg h8] at h
    by_cases h9 : op = ">"
    · rw [if_pos h9] at h; cases h
    rw [if_neg h9] at h
    by_cases h10 : op = "<="
    · rw [if_pos h10] at h; cases h
    rw [if_neg h10] at h
    by_cases h11 : op = ">="
    · rw [if_pos h11] at h; cases h
    rw [if_neg h11] at h
    cases h
  · intro h
    exact absurd h hno

/-- Folding the node of a `Binary`, when it returns, does not change what the node evaluates
to. -/
theorem eval_foldBinary (env : Env) (op : String) (a b : Expr) {e' : Expr}
    (h : foldBinary op a b = .ok e') : eval env e' = eval env (.Binary op a b) := by
  unfold foldBinary at h
  split at h
  · next av bv =>
    cases hop : foldOp op av bv with
    | trap => simp only [hop] at h; cases h
    | ok o =>
      cases o with
      | none => simp only [hop] at h; cases h; rfl
      | some r =>
        simp only [hop] at h
        cases h
        simp [eval, evalBinary_of_foldOp hop]
  · cases h; rfl

/-- Evaluation of a `Binary` depends on its operands only through their evaluations. -/
theorem eval_Binary_congr (env : Env) (op : String) {a a' b b' : Expr}
    (ha : eval env a' = eval env a) (hb : eval env b' = eval env b) :
    eval env (.Binary op a' b') = eval env (.Binary op a b) := by
  simp [eval, ha, hb]

/-- The steps of `foldExpr` on a `Binary` on which it returns. -/
theorem foldExpr_Binary_ok {op : String} {a b e' : Expr}
    (h : foldExpr (.Binary op a b) = .ok e') :
    ∃ a' b', foldExpr a = .ok a' ∧ foldExpr b = .ok b' ∧ foldBinary op a' b' = .ok e' := by
  simp only [foldExpr] at h
  cases ha : foldExpr a with
  | trap => simp only [ha] at h; cases h
  | ok a' =>
    simp only [ha] at h
    cases hb : foldExpr b with
    | trap => simp only [hb] at h; cases h
    | ok b' =>
      simp only [hb] at h
      exact ⟨a', b', rfl, rfl, h⟩

/-- Folding an expression, when it returns, does not change what the expression evaluates
to. -/
theorem eval_foldExpr (env : Env) : ∀ (e e' : Expr), foldExpr e = .ok e' →
    eval env e' = eval env e := by
  intro e
  induction e with
  | IntLit v => intro e' h; simp only [foldExpr] at h; cases h; rfl
  | VarExpr name => intro e' h; simp only [foldExpr] at h; cases h; rfl
  | Binary op a b iha ihb =>
    intro e' h
    obtain ⟨a', b', ha, hb, hn⟩ := foldExpr_Binary_ok h
    rw [eval_foldBinary env op a' b' hn]
    exact eval_Binary_congr env op (iha a' ha) (ihb b' hb)

/-- The run-time dispatch on a division or remainder of `LLONG_MIN` by `-1`. -/
theorem evalBinary_quotient_overflow {op : String} (hop : op = "/" ∨ op = "%") :
    evalBinary op LLONG_MIN (-1) = .error .quotientOverflowUnchecked := by
  rcases hop with h | h <;> subst h <;> decide

/-- The optimizer traps only on operands that are themselves folded to literals. -/
theorem foldBinary_trap {op : String} {a b : Expr} (h : foldBinary op a b = .trap) :
    (op = "/" ∨ op = "%") ∧ a = .IntLit LLONG_MIN ∧ b = .IntLit (-1) := by
  unfold foldBinary at h
  split at h
  · next av bv =>
    cases hop : foldOp op av bv with
    | ok o => cases o <;> (simp only [hop] at h; cases h)
    | trap =>
      obtain ⟨h1, h2, h3⟩ := (foldOp_trap_iff op av bv).mp hop
      rw [h2, h3]
      exact ⟨h1, rfl, rfl⟩
  · cases h

/-- Where `foldExpr` traps, the evaluation of the expression fails in every environment. -/
theorem eval_error_of_foldExpr_trap (env : Env) : ∀ (e : Expr), foldExpr e = .trap →
    ∃ err, eval env e = .error err := by
  intro e
  induction e with
  | IntLit v => intro h; simp only [foldExpr] at h; cases h
  | VarExpr name => intro h; simp only [foldExpr] at h; cases h
  | Binary op a b iha ihb =>
    intro h
    simp only [foldExpr] at h
    cases ha : foldExpr a with
    | trap =>
      obtain ⟨err, he⟩ := iha ha
      exact ⟨err, by simp only [eval, he]⟩
    | ok a' =>
      simp only [ha] at h
      cases hb : foldExpr b with
      | trap =>
        obtain ⟨err, he⟩ := ihb hb
        cases hea : eval env a with
        | error err' => exact ⟨err', by simp only [eval, hea]⟩
        | ok A => exact ⟨err, by simp only [eval, hea, he]⟩
      | ok b' =>
        simp only [hb] at h
        obtain ⟨hop, h1, h2⟩ := foldBinary_trap h
        subst h1
        subst h2
        have ea := eval_foldExpr env a _ ha
        have eb := eval_foldExpr env b _ hb
        simp only [eval] at ea eb
        exact ⟨.quotientOverflowUnchecked,
          by simp only [eval, ← ea, ← eb, evalBinary_quotient_overflow hop]⟩

/-- The parse of the source whose printed expression makes the optimizer trap. -/
theorem parseSource_overflowSumSource :
    parseSource overflowSumSource = .ok [.PrintStmt overflowSum] := by
  decide!

/-- C1 (code defect). `foldExpr` computes `av / bv` and `av % bv` behind the test `bv == 0`
only, so on `LLONG_MIN / -1` the optimizer is stopped by the arithmetic trap and returns no
expression at all. On the expression `1 / 0 + (0 - 9223372036854775807 - 1) / (0 - 1)` the
evaluation ends, in every environment, in the diagnosed division-by-zero error, while
`foldExpr` traps; on `y + (0 - 9223372036854775807 - 1) / (0 - 1)` with `y` unset the
evaluation reports the undefined variable, while `foldExpr` traps; and the program
`print(1 / 0 + (0 - 9223372036854775807 - 1) / (0 - 1));` passes the parser and the semantic
pass and is stopped in the optimizer, whereas its execution without folding ends in the
division-by-zero error. Wherever `foldExpr` does return, the folded expression evaluates, in
every environment, to exactly what the expression evaluates to; and where it traps, the
evaluation of the expression fails in every environment. -/
theorem foldExpr_traps_on_quotient_overflow :
    foldExpr overflowSum = .trap ∧
    (∀ env, eval env overflowSum = .error .divisionByZero) ∧
    foldExpr (.Binary "+" (.VarExpr "y") overflowQuotient) = .trap ∧
    eval Env.empty (.Binary "+" (.VarExpr "y") overflowQuotient)
      = .error (.undefinedVariable "y") ∧
    parseSource overflowSumSource = .ok [.PrintStmt overflowSum] ∧
    semanticCheckBlock [.PrintStmt overflowSum] ∅ = .ok ∅ ∧
    (∀ fuel, runSource fuel overflowSumSource = .optimizerTrap) ∧
    (∀ fuel, execBlock fuel [.PrintStmt overflowSum] State.initial
      = .fail .divisionByZero State.initial) ∧
    (∀ (e e' : Expr) (env : Env), foldExpr e = .ok e' → eval env e' = eval env e) ∧
    (∀ (e : Expr) (env : Env), foldExpr e = .trap → ∃ err, eval env e = .error err) := by
  have ht : foldExpr overflowSum = .trap := by decide
  have hc : semanticCheckBlock [.PrintStmt overflowSum] ∅ = .ok ∅ := rfl
  have hf : foldConstantsInBlock [.PrintStmt overflowSum] = .trap := by
    simp only [foldConstantsInBlock, foldConstantsInStmt, ht]
  have he : ∀ env, eval env overflowSum = .error .divisionByZero := by
    intro env
    simp [overflowSum, eval, evalBinary]
  refine ⟨ht, he, by decide, by decide, parseSource_overflowSumSource, hc, ?_, ?_,
    fun e e' env h => eval_foldExpr env e e' h,
    fun e env h => eval_error_of_foldExpr_trap env e h⟩
  · intro fuel
    exact runSource_optimizerTrap fuel parseSource_overflowSumSource hc hf
  · intro fuel
    simp only [execBlock, execStmt, he]

/-- Witness for C1: `(2 + 3) * x` folds to `5 * x`, which evaluates with `x = 4` as the
unfolded expression does; and `(0 - 9223372036854775807 - 1) / (0 - 1)`, on which `foldExpr`
traps, evaluates to no value in the empty environment. -/
theorem foldExpr_traps_on_quotient_overflow_witness :
    foldExpr (.Binary "*" (.Binary "+" (.IntLit 2) (.IntLit 3)) (.VarExpr "x"))
      = .ok (.Binary "*" (.IntLit 5) (.VarExpr "x")) ∧
    eval (Env.empty.set "x" 4) (.Binary "*" (.IntLit 5) (.VarExpr "x"))
      = eval (Env.empty.set "x" 4)
          (.Binary "*" (.Binary "+" (.IntLit 2) (.IntLit 3)) (.VarExpr "x")) ∧
    foldExpr overflowQuotient = .trap ∧
    ∃ err, eval Env.empty overflowQuotient = .error err :=
  ⟨by decide, foldExpr_traps_on_quotient_overflow.2.2.2.2.2.2.2.2.1
    (.Binary "*" (.Binary "+" (.IntLit 2) (.IntLit 3)) (.VarExpr "x")) _ _ (by decide),
    by decide,
    foldExpr_traps_on_quotient_overflow.2.2.2.2.2.2.2.2.2 overflowQuotient Env.empty
      (by decide)⟩

/-! ## Constant folding and execution -/

/-- The loop depends on its condition and body only as functions. -/
theorem whileLoop_congr {cond cond' : Env → EvalResult} {body body' : State → ExecResult}
    (hc : ∀ env, cond' env = cond env) (hb : ∀ st, body' st = body st) (fuel : Nat)
    (st : State) : whileLoop cond' body' fuel st = whileLoop cond body fuel st := by
  have h1 : cond' = cond := funext hc
  have h2 : body' = body := funext hb
  rw [h1, h2]

mutual
/-- Executing a folded statement equals executing the statement. -/
theorem execStmt_foldConstants (fuel : Nat) :
    ∀ (s s' : Stmt) (st : State), foldConstantsInStmt s = .ok s' →
      execStmt fuel s' st = execStmt fuel s st
  | .PrintStmt e, s', st, h => by
    simp only [foldConstantsInStmt] at h
    cases he : foldExpr e with
    | trap => simp only [he] at h; cases h
    | ok e' =>
      simp only [he] at h
      cases h
      simp only [execStmt, eval_foldExpr st.env e e' he]
  | .AssignStmt name e, s', st, h => by
    simp only [foldConstantsInStmt] at h
    cases he : foldExpr e with
    | trap => simp only [he] at h; cases h
    | ok e' =>
      simp only [he] at h
      cases h
      simp only [execStmt, eval_foldExpr st.env e e' he]
  | .BlockStmt stmts, s', st, h => by
    simp only [foldConstantsInStmt] at h
    cases hb : foldConstantsInBlock stmts with
    | trap => simp only [hb] at h; cases h
    | ok stmts' =>
      simp only [hb] at h
      cases h
      simp only [execStmt, execBlock_foldConstants fuel stmts stmts' st hb]
  | .IfStmt cond thenBlock elseBlock, s', st, h => by
    simp only [foldConstantsInStmt] at h
    cases hc : foldExpr cond with
    | trap => simp only [hc] at h; cases h
    | ok cond' =>
      simp only [hc] at h
      cases ht : foldConstantsInBlock thenBlock with
      | trap => simp only [ht] at h; cases h
      | ok thenBlock' =>
        simp only [ht] at h
        cases hel : foldConstantsInElse elseBlock with
        | trap => simp only [hel] at h; cases h
        | ok elseBlock' =>
          simp only [hel] at h
          cases h
          simp only [execStmt, eval_foldExpr st.env cond cond' hc,
            execBlock_foldConstants fuel thenBlock thenBlock' st ht,
            execElse_foldConstants fuel elseBlock elseBlock' st hel]
  | .WhileStmt cond body, s', st, h => by
    simp only [foldConstantsInStmt] at h
    cases hc : foldExpr cond with
    | trap => simp only [hc] at h; cases h
    | ok cond' =>
      simp only [hc] at h
      cases hb : foldConstantsInBlock body with
      | trap => simp only [hb] at h; cases h
      | ok body' =>
        simp only [hb] at h
        cases h
        simp only [execStmt]
        exact whileLoop_congr (fun env => eval_foldExpr env cond cond' hc)
          (fun s => execBlock_foldConstants fuel body body' s hb) fuel st
/-- Executing a folded block equals executing the block. -/
theorem execBlock_foldConstants (fuel : Nat) :
    ∀ (blk blk' : List Stmt) (st : State), foldConstantsInBlock blk = .ok blk' →
      execBlock fuel blk' st = execBlock fuel blk st
  | [], blk', st, h => by
    simp only [foldConstantsInBlock] at h
    cases h
    rfl
  | s :: rest, blk', st, h => by
    simp only [foldConstantsInBlock] at h
    cases hs : foldConstantsInStmt s with
    | trap => simp only [hs] at h; cases h
    | ok s' =>
      simp only [hs] at h
      cases hr : foldConstantsInBlock rest with
      | trap => simp only [hr] at h; cases h
      | ok rest' =>
        simp only [hr] at h
        cases h
        simp only [execBlock, execStmt_foldConstants fuel s s' st hs]
        cases execStmt fuel s st with
        | done st' => exact execBlock_foldConstants fuel rest rest' st' hr
        | fail err st' => rfl
        | outOfFuel st' => rfl
/-- Executing a folded else arm equals executing the else arm. -/
theorem execElse_foldConstants (fuel : Nat) :
    ∀ (e e' : Option (List Stmt)) (st : State), foldConstantsInElse e = .ok e' →
      execElse fuel e' st = execElse fuel e st
  | none, e', st, h => by
    simp only [foldConstantsInElse] at h
    cases h
    rfl
  | some blk, e', st, h => by
    simp only [foldConstantsInElse] at h
    cases hb : foldConstantsInBlock blk with
    | trap => simp only [hb] at h; cases h
    | ok blk' =>
      simp only [hb] at h
      cases h
      simp only [execElse, execBlock_foldConstants fuel blk blk' st hb]
end

/-- The parse of the source whose dead branch makes the optimizer trap. -/
theorem parseSource_deadOverflowSource :
    parseSource deadOverflowSource = .ok deadOverflowProgram := by
  decide!

/-- C2 (code defect). `foldConstantsInBlock` folds every expression of the program, also in
code the run never reaches, and `foldExpr` has no test for `LLONG_MIN / -1`: the program
`if (0) { x = (0 - 9223372036854775807 - 1) / (0 - 1); } print(7);` passes the parser and the
semantic pass, its execution without folding prints 7 and ends normally for every iteration
budget, and the optimizer is stopped by the arithmetic trap, so the run of the pipeline ends
in PHASE 5 having printed nothing. Wherever `foldConstantsInBlock` does return, executing the
folded program gives, from every state and for every iteration budget, the very result of
executing the program: the same printed integers, the same environment and the same way of
ending. -/
theorem foldConstantsInBlock_traps_on_dead_code :
    parseSource deadOverflowSource = .ok deadOverflowProgram ∧
    semanticCheckBlock deadOverflowProgram ∅ = .ok ∅ ∧
    foldConstantsInBlock deadOverflowProgram = .trap ∧
    (∀ fuel, execBlock fuel deadOverflowProgram State.initial
      = .done { env := Env.empty, out := [7] }) ∧
    (∀ fuel, runSource fuel deadOverflowSource = .optimizerTrap ∧
      (runSource fuel deadOverflowSource).output = []) ∧
    (∀ (p p' : List Stmt) (st : State) (fuel : Nat), foldConstantsInBlock p = .ok p' →
      execBlock fuel p' st = execBlock fuel p st) := by
  have hc : semanticCheckBlock deadOverflowProgram ∅ = .ok ∅ := rfl
  have hf : foldConstantsInBlock deadOverflowProgram = .trap := by decide
  refine ⟨parseSource_deadOverflowSource, hc, hf, fun fuel => rfl, ?_,
    fun p p' st fuel h => execBlock_foldConstants fuel p p' st h⟩
  intro fuel
  rw [runSource_optimizerTrap fuel parseSource_deadOverflowSource hc hf]
  exact ⟨rfl, rfl⟩

/-- Witness for C2: the program `x = 2 + 3; print(x);` folds to `x = 5; print(x);`, and both
print 5. -/
theorem foldConstantsInBlock_traps_on_dead_code_witness :
    foldConstantsInBlock
        [.AssignStmt "x" (.Binary "+" (.IntLit 2) (.IntLit 3)), .PrintStmt (.VarExpr "x")]
      = .ok [.AssignStmt "x" (.IntLit 5), .PrintStmt (.VarExpr "x")] ∧
    execBlock 0 [.AssignStmt "x" (.IntLit 5), .PrintStmt (.VarExpr "x")] State.initial
      = execBlock 0
          [.AssignStmt "x" (.Binary "+" (.IntLit 2) (.IntLit 3)), .PrintStmt (.VarExpr "x")]
          State.initial :=
  ⟨by decide, foldConstantsInBlock_traps_on_dead_code.2.2.2.2.2
    [.AssignStmt "x" (.Binary "+" (.IntLit 2) (.IntLit 3)), .PrintStmt (.VarExpr "x")]
    _ _ _ (by decide)⟩

/-! ## Constant folding is idempotent -/

/-- Folding the node built from already folded operands changes nothing. -/
theorem foldExpr_foldBinary (op : String) {a b e' : Expr} (ha : foldExpr a = .ok a)
    (hb : foldExpr b = .ok b) (h : foldBinary op a b = .ok e') : foldExpr e' = .ok e' := by
  have hbin : foldBinary op a b = .ok (.Binary op a b) → 
      foldExpr (.Binary op a b) = .ok (.Binary op a b) := by
    intro hn
    simp only [foldExpr, ha, hb, hn]
  unfold foldBinary at h
  split at h
  · next av bv =>
    cases hop : foldOp op av bv with
    | trap => simp only [hop] at h; cases h
    | ok o =>
      cases o with
      | none =>
        simp only [hop] at h
        cases h
        apply hbin
        simp only [foldBinary, hop]
      | some r =>
        simp only [hop] at h
        cases h
        simp only [foldExpr]
  · next hne =>
    cases h
    apply hbin
    unfold foldBinary
    split
    · next av bv => exact absurd rfl (hne av bv rfl)
    · rfl

/-- Idempotence of `foldExpr`: what it returns is left alone by it. -/
theorem foldExpr_idem : ∀ (e e' : Expr), foldExpr e = .ok e' → foldExpr e' = .ok e' := by
  intro e
  induction e with
  | IntLit v => intro e' h; simp only [foldExpr] at h; cases h; rfl
  | VarExpr name => intro e' h; simp only [foldExpr] at h; cases h; rfl
  | Binary op a b iha ihb =>
    intro e' h
    obtain ⟨a', b', ha, hb, hn⟩ := foldExpr_Binary_ok h
    exact foldExpr_foldBinary op (iha a' ha) (ihb b' hb) hn

mutual
/-- Idempotence of the folding of one statement. -/
theorem foldConstantsInStmt_idem :
    ∀ (s s' : Stmt), foldConstantsInStmt s = .ok s' → foldConstantsInStmt s' = .ok s'
  | .PrintStmt e, s', h => by
    simp only [foldConstantsInStmt] at h
    cases he : foldExpr e with
    | trap => simp only [he] at h; cases h
    | ok e' =>
      simp only [he] at h
      cases h
      simp only [foldConstantsInStmt, foldExpr_idem e e' he]
  | .AssignStmt name e, s', h => by
    simp only [foldConstantsInStmt] at h
    cases he : foldExpr e with
    | trap => simp only [he] at h; cases h
    | ok e' =>
      simp only [he] at h
      cases h
      simp only [foldConstantsInStmt, foldExpr_idem e e' he]
  | .BlockStmt stmts, s', h => by
    simp only [foldConstantsInStmt] at h
    cases hb : foldConstantsInBlock stmts with
    | trap => simp only [hb] at h; cases h
    | ok stmts' =>
      simp only [hb] at h
      cases h
      simp only [foldConstantsInStmt, foldConstantsInBlock_idem stmts stmts' hb]
  | .IfStmt cond thenBlock elseBlock, s', h => by
    simp only [foldConstantsInStmt] at h
    cases hc : foldExpr cond with
    | trap => simp only [hc] at h; cases h
    | ok cond' =>
      simp only [hc] at h
      cases ht : foldConstantsInBlock thenBlock with
      | trap => simp only [ht] at h; cases h
      | ok thenBlock' =>
        simp only [ht] at h
        cases hel : foldConstantsInElse elseBlock with
        | trap => simp only [hel] at h; cases h
        | ok elseBlock' =>
          simp only [hel] at h
          cases h
          simp only [foldConstantsInStmt, foldExpr_idem cond cond' hc,
            foldConstantsInBlock_idem thenBlock thenBlock' ht,
            foldConstantsInElse_idem elseBlock elseBlock' hel]
  | .WhileStmt cond body, s', h => by
    simp only [foldConstantsInStmt] at h
    cases hc : foldExpr cond with
    | trap => simp only [hc] at h; cases h
    | ok cond' =>
      simp only [hc] at h
      cases hb : foldConstantsInBlock body with
      | trap => simp only [hb] at h; cases h
      | ok body' =>
        simp only [hb] at h
        cases h
        simp only [foldConstantsInStmt, foldExpr_idem cond cond' hc,
          foldConstantsInBlock_idem body body' hb]
/-- Idempotence of the folding of a block. -/
theorem foldConstantsInBlock_idem :
    ∀ (blk blk' : List Stmt), foldConstantsInBlock blk = .ok blk' →
      foldConstantsInBlock blk' = .ok blk'
  | [], blk', h => by
    simp only [foldConstantsInBlock] at h
    cases h
    rfl
  | s :: rest, blk', h => by
    simp only [foldConstantsInBlock] at h
    cases hs : foldConstantsInStmt s with
    | trap => simp only [hs] at h; cases h
    | ok s' =>
      simp only [hs] at h
      cases hr : foldConstantsInBlock rest with
      | trap => simp only [hr] at h; cases h
      | ok rest' =>
        simp only [hr] at h
        cases h
        simp only [foldConstantsInBlock, foldConstantsInStmt_idem s s' hs,
          foldConstantsInBlock_idem rest rest' hr]
/-- Idempotence of the folding of an optional else block. -/
theorem foldConstantsInElse_idem :
    ∀ (e e' : Option (List Stmt)), foldConstantsInElse e = .ok e' →
      foldConstantsInElse e' = .ok e'
  | none, e', h => by
    simp only [foldConstantsInElse] at h
    cases h
    rfl
  | some blk, e', h => by
    simp only [foldConstantsInElse] at h
    cases hb : foldConstantsInBlock blk with
    | trap => simp only [hb] at h; cases h
    | ok blk' =>
      simp only [hb] at h
      cases h
      simp only [foldConstantsInElse, foldConstantsInBlock_idem blk blk' hb]
end

/-- C3. Constant folding is idempotent: for every expression `e`, folding what `foldExpr e`
returns yields the same tree again, so that `foldExpr` followed by `foldExpr` is `foldExpr`;
and for every program `p`, `foldConstantsInBlock` followed by `foldConstantsInBlock` is
`foldConstantsInBlock`: two applications yield the same AST as one. -/
theorem constant_folding_idempotent :
    (∀ e : Expr, (foldExpr e).bind foldExpr = foldExpr e) ∧
    (∀ p : List Stmt,
      (foldConstantsInBlock p).bind foldConstantsInBlock = foldConstantsInBlock p) ∧
    (∀ e e' : Expr, foldExpr e = .ok e' → foldExpr e' = .ok e') ∧
    (∀ p p' : List Stmt, foldConstantsInBlock p = .ok p' →
      foldConstantsInBlock p' = .ok p') := by
  refine ⟨?_, ?_, foldExpr_idem, foldConstantsInBlock_idem⟩
  · intro e
    cases h : foldExpr e with
    | trap => rfl
    | ok e' => exact foldExpr_idem e e' h
  · intro p
    cases h : foldConstantsInBlock p with
    | trap => rfl
    | ok p' => exact foldConstantsInBlock_idem p p' h

/-- Witness for C3: `(1 + 2) * x` folds to `3 * x`, which folds to itself. -/
theorem constant_folding_idempotent_witness :
    foldExpr (.Binary "*" (.Binary "+" (.IntLit 1) (.IntLit 2)) (.VarExpr "x"))
      = .ok (.Binary "*" (.IntLit 3) (.VarExpr "x")) ∧
    foldExpr (.Binary "*" (.IntLit 3) (.VarExpr "x"))
      = .ok (.Binary "*" (.IntLit 3) (.VarExpr "x")) :=
  ⟨by decide, constant_folding_idempotent.2.2.1
    (.Binary "*" (.Binary "+" (.IntLit 1) (.IntLit 2)) (.VarExpr "x")) _ (by decide)⟩

/-! ## The semantic pass excludes the undefined-variable runtime error -/

/-- The run-time dispatch never reports an undefined variable. -/
theorem evalBinary_ne_undefinedVariable (op : String) (A B : Int) (n : String) :
    evalBinary op A B ≠ .error (.undefinedVariable n) := by
  unfold evalBinary
  by_cases h1 : op = "+"
  · rw [if_pos h1]; intro h; cases h
  rw [if_neg h1]
  by_cases h2 : op = "-"
  · rw [if_pos h2]; intro h; cases h
  rw [if_neg h2]
  by_cases h3 : op = "*"
  · rw [if_pos h3]; intro h; cases h
  rw [if_neg h3]
  by_cases h4 : op = "/"
  · rw [if_pos h4]
    split
    · intro h; cases h
    · split <;> (intro h; cases h)
  rw [if_neg h4]
  by_cases h5 : op = "%"
  · rw [if_pos h5]
    split
    · intro h; cases h
    · split <;> (intro h; cases h)
  rw [if_neg h5]
  by_cases h6 : op = "=="
  · rw [if_pos h6]; intro h; cases h
  rw [if_neg h6]
  by_cases h7 : op = "!="
  · rw [if_pos h7]; intro h; cases h
  rw [if_neg h7]
  by_cases h8 : op = "<"
  · rw [if_pos h8]; intro h; cases h
  rw [if_neg h8]
  by_cases h9 : op = ">"
  · rw [if_pos h9]; intro h; cases h
  rw [if_neg h9]
  by_cases h10 : op = "<="
  · rw [if_pos h10]; intro h; cases h
  rw [if_neg h10]
  by_cases h11 : op = ">="
  · rw [if_pos h11]; intro h; cases h
  rw [if_neg h11]
  intro h; cases h

/-- An expression accepted by `findVars` evaluates without the undefined-variable error in
every environment that holds the defined names. -/
theorem eval_ne_undefinedVariable {D : Finset String} {env : Env} (hcov : Covers D env) :
    ∀ (e : Expr), findVars D e = .ok () → ∀ n, eval env e ≠ .error (.undefinedVariable n) := by
  intro e
  induction e with
  | IntLit v => intro _ n; simp [eval]
  | VarExpr name =>
    intro h n
    have hmem : name ∈ D := by
      by_contra hne
      simp [findVars, hne] at h
    have hsome := hcov name hmem
    cases hv : env name with
    | none => exact absurd hv hsome
    | some v => simp [eval, hv]
  | Binary op a b iha ihb =>
    intro h n
    have ha : findVars D a = .ok () := by
      cases hfa : findVars D a with
      | ok u => rfl
      | error m => simp [findVars, hfa] at h
    have hb : findVars D b = .ok () := by
      simpa [findVars, ha] using h
    have ea := iha ha
    have eb := ihb hb
    simp only [eval]
    cases hea : eval env a with
    | error err =>
      intro hcontra
      have : err = .undefinedVariable n := by simpa using hcontra
      exact ea n (by rw [hea, this])
    | ok A =>
      cases heb : eval env b with
      | error err =>
        intro hcontra
        have : err = .undefinedVariable n := by simpa using hcontra
        exact eb n (by rw [heb, this])
      | ok B => exact evalBinary_ne_undefinedVariable op A B n

/-- Weakening of `Covers` to a smaller set. -/
theorem Covers_mono {D D' : Finset String} {env : Env} (hsub : D ⊆ D')
    (h : Covers D' env) : Covers D env :=
  fun n hn => h n (hsub hn)

/-- Weakening of `SafeResult` to a smaller set. -/
theorem SafeResult_mono {D D' : Finset String} (hsub : D ⊆ D') :
    ∀ {r : ExecResult}, SafeResult D' r → SafeResult D r
  | .done _, h => Covers_mono hsub h
  | .fail _ _, h => h
  | .outOfFuel _, _ => trivial

mutual
/-- The semantic pass never removes a name from the defined set (statement). -/
theorem semanticCheckStmt_subset :
    ∀ (s : Stmt) (D D' : Finset String), semanticCheckStmt s D = .ok D' → D ⊆ D'
  | .PrintStmt e, D, D', h => by
    simp only [semanticCheckStmt] at h
    split at h
    · cases h
    · cases h; exact Finset.Subset.refl _
  | .AssignStmt name e, D, D', h => by
    simp only [semanticCheckStmt] at h
    split at h
    · cases h
    · cases h; exact Finset.subset_insert _ _
  | .BlockStmt stmts, D, D', h => by
    simp only [semanticCheckStmt] at h
    exact semanticCheckBlock_subset stmts D D' h
  | .IfStmt cond thenBlock elseBlock, D, D', h => by
    simp only [semanticCheckStmt] at h
    split at h
    · cases h
    · split at h
      · cases h
      · split at h
        · cases h
        · cases h; exact Finset.Subset.refl _
  | .WhileStmt cond body, D, D', h => by
    simp only [semanticCheckStmt] at h
    split at h
    · cases h
    · split at h
      · cases h
      · cases h; exact Finset.Subset.refl _
/-- The semantic pass never removes a name from the defined set (block). -/
theorem semanticCheckBlock_subset :
    ∀ (blk : List Stmt) (D D' : Finset String), semanticCheckBlock blk D = .ok D' → D ⊆ D'
  | [], D, D', h => by
    simp only [semanticCheckBlock] at h
    cases h; exact Finset.Subset.refl _
  | s :: rest, D, D', h => by
    simp only [semanticCheckBlock] at h
    split at h
    · cases h
    · next D1 h1 =>
      exact Finset.Subset.trans (semanticCheckStmt_subset s D D1 h1)
        (semanticCheckBlock_subset rest D1 D' h)
/-- The semantic pass never removes a name from the defined set (else arm). -/
theorem semanticCheckElse_subset :
    ∀ (e : Option (List Stmt)) (D D' : Finset String),
      semanticCheckElse e D = .ok D' → D ⊆ D'
  | none, D, D', h => by
    simp only [semanticCheckElse] at h
    cases h; exact Finset.Subset.refl _
  | some blk, D, D', h => by
    simp only [semanticCheckElse] at h
    exact semanticCheckBlock_subset blk D D' h
end

/-- A loop whose condition and body are safe under the invariant `Covers D` is safe. -/
theorem whileLoop_safe {D : Finset String} {cond : Env → EvalResult}
    {body : State → ExecResult}
    (hc : ∀ env, Covers D env → ∀ n, cond env ≠ .error (.undefinedVariable n))
    (hb : ∀ st, Covers D st.env → SafeResult D (body st)) :
    ∀ (fuel : Nat) (st : State), Covers D st.env → SafeResult D (whileLoop cond body fuel st)
  | 0, st, _ => by simp [whileLoop, SafeResult]
  | fuel + 1, st, hcov => by
    simp only [whileLoop]
    cases hcv : cond st.env with
    | error err =>
      simp only [SafeResult]
      intro n hn
      exact hc st.env hcov n (by rw [hcv, hn])
    | ok c =>
      simp only
      split_ifs with hz
      · exact hcov
      · have hbody := hb st hcov
        cases hbs : body st with
        | done st' =>
          rw [hbs] at hbody
          exact whileLoop_safe hc hb fuel st' hbody
        | fail err st' => rw [hbs] at hbody; exact hbody
        | outOfFuel st' => trivial

/-- Assigning a name extends the covered set by that name. -/
theorem Covers_insert_set {D : Finset String} {env : Env} (h : Covers D env)
    (name : String) (val : Int) : Covers (insert name D) (env.set name val) := by
  intro n hn
  unfold Env.set
  by_cases hnn : n = name
  · simp [hnn]
  · rw [if_neg hnn]
    rcases Finset.mem_insert.mp hn with h1 | h1
    · exact absurd h1 hnn
    · exact h n h1

mutual
/-- A statement accepted by the semantic pass executes safely from a covering state. -/
theorem execStmt_safe (fuel : Nat) :
    ∀ (s : Stmt) (D D' : Finset String) (st : State),
      semanticCheckStmt s D = .ok D' → Covers D st.env → SafeResult D' (execStmt fuel s st)
  | .PrintStmt e, D, D', st, h, hcov => by
    simp only [semanticCheckStmt] at h
    split at h
    · cases h
    · next hf =>
      cases h
      simp only [execStmt]
      cases hev : eval st.env e with
      | error err =>
        intro n hn
        exact eval_ne_undefinedVariable hcov e hf n (by rw [hev, hn])
      | ok v => exact hcov
  | .AssignStmt name e, D, D', st, h, hcov => by
    simp only [semanticCheckStmt] at h
    split at h
    · cases h
    · next hf =>
      cases h
      simp only [execStmt]
      cases hev : eval st.env e with
      | error err =>
        intro n hn
        exact eval_ne_undefinedVariable hcov e hf n (by rw [hev, hn])
      | ok v => exact Covers_insert_set hcov name v
  | .BlockStmt stmts, D, D', st, h, hcov => by
    simp only [semanticCheckStmt] at h
    simp only [execStmt]
    exact execBlock_safe fuel stmts D D' st h hcov
  | .IfStmt cond thenBlock elseBlock, D, D', st, h, hcov => by
    simp only [semanticCheckStmt] at h
    split at h
    · cases h
    · next hf =>
      split at h
      · cases h
      · next Dt ht =>
        split at h
        · cases h
        · next De he =>
          cases h
          simp only [execStmt]
          cases hev : eval st.env cond with
          | error err =>
            intro n hn
            exact eval_ne_undefinedVariable hcov cond hf n (by rw [hev, hn])
          | ok c =>
            simp only
            split_ifs with hc
            · exact SafeResult_mono (semanticCheckBlock_subset thenBlock D Dt ht)
                (execBlock_safe fuel thenBlock D Dt st ht hcov)
            · exact SafeResult_mono (semanticCheckElse_subset elseBlock D De he)
                (execElse_safe fuel elseBlock D De st he hcov)
  | .WhileStmt cond body, D, D', st, h, hcov => by
    simp only [semanticCheckStmt] at h
    split at h
    · cases h
    · next hf =>
      split at h
      · cases h
      · next Db hb =>
        cases h
        simp only [execStmt]
        exact whileLoop_safe
          (fun env henv n => eval_ne_undefinedVariable henv cond hf n)
          (fun s hs => SafeResult_mono (semanticCheckBlock_subset body D Db hb)
            (execBlock_safe fuel body D Db s hb hs))
          fuel st hcov
/-- A block accepted by the semantic pass executes safely from a covering state. -/
theorem execBlock_safe (fuel : Nat) :
    ∀ (blk : List Stmt) (D D' : Finset String) (st : State),
      semanticCheckBlock blk D = .ok D' → Covers D st.env →
      SafeResult D' (execBlock fuel blk st)
  | [], D, D', st, h, hcov => by
    simp only [semanticCheckBlock] at h
    cases h
    exact hcov
  | s :: rest, D, D', st, h, hcov => by
    simp only [semanticCheckBlock] at h
    split at h
    · cases h
    · next D1 h1 =>
      have hs := execStmt_safe fuel s D D1 st h1 hcov
      simp only [execBlock]
      cases hes : execStmt fuel s st with
      | done st' =>
        rw [hes] at hs
        exact execBlock_safe fuel rest D1 D' st' h hs
      | fail err st' => rw [hes] at hs; exact hs
      | outOfFuel st' => trivial
/-- An else arm accepted by the semantic pass executes safely from a covering state. -/
theorem execElse_safe (fuel : Nat) :
    ∀ (e : Option (List Stmt)) (D D' : Finset String) (st : State),
      semanticCheckElse e D = .ok D' → Covers D st.env →
      SafeResult D' (execElse fuel e st)
  | none, D, D', st, h, hcov => by
    simp only [semanticCheckElse] at h
    cases h
    exact hcov
  | some blk, D, D', st, h, hcov => by
    simp only [semanticCheckElse] at h
    simp only [execElse]
    exact execBlock_safe fuel blk D D' st h hcov
end

/-- C4. For every program accepted by `semanticCheckBlock` from the empty defined set,
folding it and executing the folded program from the empty environment never ends in the
runtime error "use of undefined variable", whatever the iteration budget (hence on every
execution prefix); and neither does executing the program as it is. -/
theorem checked_program_never_undefined_variable (prog : List Stmt) (D : Finset String)
    (h : semanticCheckBlock prog ∅ = .ok D) (fuel : Nat) (name : String) (st : State) :
    (∀ folded, foldConstantsInBlock prog = .ok folded →
      execBlock fuel folded State.initial ≠ .fail (.undefinedVariable name) st) ∧
    execBlock fuel prog State.initial ≠ .fail (.undefinedVariable name) st ∧
    (∀ source, parseSource source = .ok prog →
      runSource fuel source ≠ .executed (.fail (.undefinedVariable name) st)) := by
  have hmain : execBlock fuel prog State.initial ≠ .fail (.undefinedVariable name) st := by
    have hcov : Covers ∅ State.initial.env :=
      fun n hn => absurd hn (Finset.not_mem_empty n)
    have hsafe := execBlock_safe fuel prog ∅ D State.initial h hcov
    intro hcontra
    rw [hcontra] at hsafe
    exact hsafe name rfl
  refine ⟨?_, hmain, ?_⟩
  · intro folded hf
    rw [execBlock_foldConstants fuel prog folded State.initial hf]
    exact hmain
  · intro source hp
    cases hf : foldConstantsInBlock prog with
    | trap =>
      rw [runSource_optimizerTrap fuel hp h hf]
      intro hcontra
      cases hcontra
    | ok folded =>
      rw [runSource_executed fuel hp h hf, execBlock_foldConstants fuel prog folded _ hf]
      intro hcontra
      injection hcontra with hcontra
      exact hmain hcontra
/-- Witness for C4: the program `x = 1; print(x / 0);` passes the semantic pass and is left
alone by the optimizer, and its run (which stops on a division by zero) is not the
undefined-variable error. -/
theorem checked_program_never_undefined_variable_witness :
    semanticCheckBlock
        [.AssignStmt "x" (.IntLit 1), .PrintStmt (.Binary "/" (.VarExpr "x") (.IntLit 0))] ∅
      = .ok {"x"} ∧
    foldConstantsInBlock
        [.AssignStmt "x" (.IntLit 1), .PrintStmt (.Binary "/" (.VarExpr "x") (.IntLit 0))]
      = .ok [.AssignStmt "x" (.IntLit 1),
          .PrintStmt (.Binary "/" (.VarExpr "x") (.IntLit 0))] ∧
    execBlock 3
        [.AssignStmt "x" (.IntLit 1), .PrintStmt (.Binary "/" (.VarExpr "x") (.IntLit 0))]
        State.initial
      ≠ .fail (.undefinedVariable "x") State.initial :=
  ⟨by decide, by decide,
    (checked_program_never_undefined_variable
      [.AssignStmt "x" (.IntLit 1), .PrintStmt (.Binary "/" (.VarExpr "x") (.IntLit 0))]
      {"x"} (by decide) 3 "x" State.initial).1 _ (by decide)⟩

/-! ## Branch-local definitions -/

/-- C5. Branch-local definitions do not leak. For an `IfStmt` (with or without else) or a
`WhileStmt` `s` and a defined set `D`: when the analysis of `s` succeeds the resulting set
is exactly `D`, and the statements after `s` are analysed as if `s` were absent; an `IfStmt`
with an else block is accepted exactly when its condition, its then block and its else
block are each accepted against `D` itself; and a use of a `v ∉ D` right after `s` is
rejected, whatever `s` assigns. -/
theorem branch_local_definitions_do_not_leak (s : Stmt) (D : Finset String)
    (hs : s.isBranching = true) :
    (∀ D', semanticCheckStmt s D = .ok D' → D' = D) ∧
    (∀ D' rest, semanticCheckStmt s D = .ok D' →
      semanticCheckBlock (s :: rest) D = semanticCheckBlock rest D) ∧
    (∀ cond thenBlock elseBlk, s = .IfStmt cond thenBlock (some elseBlk) →
      ((∃ D', semanticCheckStmt s D = .ok D') ↔
        (findVars D cond = .ok () ∧ (∃ Dt, semanticCheckBlock thenBlock D = .ok Dt) ∧
          ∃ De, semanticCheckBlock elseBlk D = .ok De))) ∧
    (∀ v rest, v ∉ D →
      ∃ n, semanticCheckBlock (s :: .PrintStmt (.VarExpr v) :: rest) D = .error n) := by
  have key : ∀ D', semanticCheckStmt s D = .ok D' → D' = D := by
    intro D' h
    cases s with
    | PrintStmt e => simp [Stmt.isBranching] at hs
    | AssignStmt name e => simp [Stmt.isBranching] at hs
    | BlockStmt stmts => simp [Stmt.isBranching] at hs
    | IfStmt cond thenBlock elseBlock =>
      simp only [semanticCheckStmt] at h
      split at h
      · cases h
      · split at h
        · cases h
        · split at h
          · cases h
          · cases h; rfl
    | WhileStmt cond body =>
      simp only [semanticCheckStmt] at h
      split at h
      · cases h
      · split at h
        · cases h
        · cases h; rfl
  refine ⟨key, ?_, ?_, ?_⟩
  · intro D' rest h
    have hD := key D' h
    subst hD
    simp only [semanticCheckBlock, h]
  · intro cond thenBlock elseBlk hs'
    subst hs'
    simp only [semanticCheckStmt, semanticCheckElse]
    constructor
    · rintro ⟨D', h⟩
      split at h
      · cases h
      · next hf =>
        split at h
        · cases h
        · next Dt ht =>
          split at h
          · cases h
          · next De he => exact ⟨hf, ⟨Dt, ht⟩, ⟨De, he⟩⟩
    · rintro ⟨hf, ⟨Dt, ht⟩, ⟨De, he⟩⟩
      exact ⟨D, by simp only [hf, ht, he]⟩
  · intro v rest hv
    cases hres : semanticCheckStmt s D with
    | error n => exact ⟨n, by simp only [semanticCheckBlock, hres]⟩
    | ok D' =>
      have hD := key D' hres
      subst hD
      exact ⟨v, by simp [semanticCheckBlock, hres, semanticCheckStmt, findVars, hv]⟩

/-- Witness for C5: `while (1) { v = 1; }` is accepted from the empty set and a following
`print(v);` is rejected. -/
theorem branch_local_definitions_do_not_leak_witness :
    semanticCheckStmt (.WhileStmt (.IntLit 1) [.AssignStmt "v" (.IntLit 1)]) ∅ = .ok ∅ ∧
    ∃ n, semanticCheckBlock
      [.WhileStmt (.IntLit 1) [.AssignStmt "v" (.IntLit 1)], .PrintStmt (.VarExpr "v")] ∅
        = .error n :=
  ⟨by decide,
    (branch_local_definitions_do_not_leak
      (.WhileStmt (.IntLit 1) [.AssignStmt "v" (.IntLit 1)]) ∅ (by decide)).2.2.2
      "v" [] (by decide)⟩

/-! ## Straight-line programs -/

/-- When `findVars` succeeds every variable of the expression is defined. -/
theorem findVars_ok_mem {D : Finset String} :
    ∀ (e : Expr), findVars D e = .ok () → ∀ v ∈ varsOf e, v ∈ D := by
  intro e
  induction e with
  | IntLit v => intro _ v hv; simp [varsOf] at hv
  | VarExpr name =>
    intro h v hv
    simp only [varsOf, List.mem_singleton] at hv
    subst hv
    by_contra hne
    simp [findVars, hne] at h
  | Binary op a b iha ihb =>
    intro h v hv
    simp only [findVars] at h
    simp only [varsOf, List.mem_append] at hv
    cases hfa : findVars D a with
    | error m => simp [hfa] at h
    | ok u =>
      rw [hfa] at h
      rcases hv with hv | hv
      · exact iha hfa v hv
      · exact ihb h v hv

/-- When `findVars` fails it names the first variable, in left-to-right order, that is not
defined. -/
theorem findVars_error_first {D : Finset String} :
    ∀ (e : Expr) (n : String), findVars D e = .error n →
      ∃ before after, varsOf e = before ++ n :: after ∧ (∀ v ∈ before, v ∈ D) ∧ n ∉ D := by
  intro e
  induction e with
  | IntLit v => intro n h; simp [findVars] at h
  | VarExpr name =>
    intro n h
    simp only [findVars] at h
    split_ifs at h with hmem
    cases h
    exact ⟨[], [], rfl, by simp, hmem⟩
  | Binary op a b iha ihb =>
    intro n h
    simp only [findVars] at h
    cases hfa : findVars D a with
    | error m =>
      rw [hfa] at h
      cases h
      obtain ⟨before, after, hv, hb, hn⟩ := iha n hfa
      exact ⟨before, after ++ varsOf b, by simp [varsOf, hv], hb, hn⟩
    | ok u =>
      rw [hfa] at h
      obtain ⟨before, after, hv, hb, hn⟩ := ihb n h
      refine ⟨varsOf a ++ before, after, by simp [varsOf, hv], ?_, hn⟩
      intro v hvm
      rcases List.mem_append.mp hvm with h1 | h1
      · exact findVars_ok_mem a hfa v h1
      · exact hb v h1

/-- Availability at position `i + 1` of `s :: rest` in terms of availability at position `i`
of `rest`, where `D1` is the defined set after `s`. -/
theorem avail_cons_iff {D D1 : Finset String} {s : Stmt} {rest : List Stmt}
    (hD1 : ∀ v, v ∈ D1 ↔ (v ∈ D ∨ ∃ e, s = .AssignStmt v e)) (i : Nat) (v : String) :
    (v ∈ D1 ∨ AssignedBefore rest i v) ↔ (v ∈ D ∨ AssignedBefore (s :: rest) (i + 1) v) := by
  unfold AssignedBefore
  constructor
  · rintro (h | ⟨j, hj, e, he⟩)
    · rcases (hD1 v).mp h with h1 | ⟨e, he⟩
      · exact Or.inl h1
      · exact Or.inr ⟨0, Nat.succ_pos i, e, by simp [he]⟩
    · exact Or.inr ⟨j + 1, Nat.succ_lt_succ hj, e, by simpa using he⟩
  · rintro (h | ⟨j, hj, e, he⟩)
    · exact Or.inl ((hD1 v).mpr (Or.inl h))
    · cases j with
      | zero =>
        simp only [List.getElem?_cons_zero, Option.some.injEq] at he
        exact Or.inl ((hD1 v).mpr (Or.inr ⟨e, he⟩))
      | succ j =>
        simp only [List.getElem?_cons_succ] at he
        exact Or.inr ⟨j, Nat.lt_of_succ_lt_succ hj, e, he⟩

/-- The effect of the semantic pass on one simple statement. -/
theorem semanticCheckStmt_simple {s : Stmt} (hs : s.isSimple = true) (D : Finset String) :
    (∀ D1, semanticCheckStmt s D = .ok D1 →
      (∀ v ∈ s.ownVars, v ∈ D) ∧ ∀ v, v ∈ D1 ↔ (v ∈ D ∨ ∃ e, s = .AssignStmt v e)) ∧
    (∀ n, semanticCheckStmt s D = .error n →
      ∃ before after, s.ownVars = before ++ n :: after ∧ (∀ v ∈ before, v ∈ D) ∧ n ∉ D) := by
  cases s with
  | BlockStmt stmts => simp [Stmt.isSimple] at hs
  | IfStmt cond thenBlock elseBlock => simp [Stmt.isSimple] at hs
  | WhileStmt cond body => simp [Stmt.isSimple] at hs
  | PrintStmt e =>
    simp only [semanticCheckStmt, Stmt.ownVars]
    cases hf : findVars D e with
    | error m =>
      refine ⟨fun D1 h => (by cases h), fun n h => ?_⟩
      cases h
      exact findVars_error_first e m hf
    | ok u =>
      refine ⟨fun D1 h => ?_, fun n h => by cases h⟩
      cases h
      exact ⟨findVars_ok_mem e hf, fun v => by simp⟩
  | AssignStmt name e =>
    simp only [semanticCheckStmt, Stmt.ownVars]
    cases hf : findVars D e with
    | error m =>
      refine ⟨fun D1 h => (by cases h), fun n h => ?_⟩
      cases h
      exact findVars_error_first e m hf
    | ok u =>
      refine ⟨fun D1 h => ?_, fun n h => by cases h⟩
      cases h
      refine ⟨findVars_ok_mem e hf, fun v => ?_⟩
      rw [Finset.mem_insert]
      constructor
      · rintro (h | h)
        · exact Or.inr ⟨e, by rw [h]⟩
        · exact Or.inl h
      · rintro (h | ⟨e', he'⟩)
        · exact Or.inr h
        · cases he'; exact Or.inl rfl

/-- The semantic pass on a straight-line block, from any defined set `D`: on success every
variable used at a position is in `D` or assigned before that position; on failure the
reported name is the first variable, in statement order and then left-to-right order, that
is neither. -/
theorem semanticCheckBlock_straightLine :
    ∀ (ss : List Stmt), StraightLine ss → ∀ (D : Finset String),
      (∀ D', semanticCheckBlock ss D = .ok D' →
        ∀ i s, ss[i]? = some s → ∀ v ∈ s.ownVars, v ∈ D ∨ AssignedBefore ss i v) ∧
      (∀ n, semanticCheckBlock ss D = .error n →
        ∃ i s, ss[i]? = some s ∧
          (∀ k, k < i → ∀ sk, ss[k]? = some sk →
            ∀ v ∈ sk.ownVars, v ∈ D ∨ AssignedBefore ss k v) ∧
          ∃ before after, s.ownVars = before ++ n :: after ∧
            (∀ v ∈ before, v ∈ D ∨ AssignedBefore ss i v) ∧
            ¬ (n ∈ D ∨ AssignedBefore ss i n))
  | [], _, D => by
    refine ⟨fun D' _ i s hi => by simp at hi, fun n h => ?_⟩
    simp [semanticCheckBlock] at h
  | s :: rest, hss, D => by
    have hs : s.isSimple = true := hss s (List.mem_cons_self s rest)
    have hrest : StraightLine rest := fun x hx => hss x (List.mem_cons_of_mem s hx)
    have hstmt := semanticCheckStmt_simple hs D
    have noBefore : ∀ v, ¬ AssignedBefore (s :: rest) 0 v := by
      rintro v ⟨j, hj, _⟩
      exact Nat.not_lt_zero j hj
    simp only [semanticCheckBlock]
    cases hres : semanticCheckStmt s D with
    | error m =>
      refine ⟨fun D' h => (by cases h), fun n h => ?_⟩
      cases h
      obtain ⟨before, after, hv, hb, hn⟩ := hstmt.2 m hres
      refine ⟨0, s, by simp, fun k hk => absurd hk (Nat.not_lt_zero k), before, after, hv,
        fun v hvb => Or.inl (hb v hvb), ?_⟩
      rintro (h | h)
      · exact hn h
      · exact noBefore m h
    | ok D1 =>
      obtain ⟨hown, hD1⟩ := hstmt.1 D1 hres
      have ih := semanticCheckBlock_straightLine rest hrest D1
      have shift := fun i v => @avail_cons_iff D D1 s rest hD1 i v
      have first : ∀ sk, (s :: rest)[0]? = some sk →
          ∀ v ∈ sk.ownVars, v ∈ D ∨ AssignedBefore (s :: rest) 0 v := by
        intro sk hi v hv
        simp only [List.getElem?_cons_zero, Option.some.injEq] at hi
        subst hi
        exact Or.inl (hown v hv)
      refine ⟨fun D' h i sk hi v hv => ?_, fun n h => ?_⟩
      · cases i with
        | zero => exact first sk hi v hv
        | succ i =>
          simp only [List.getElem?_cons_succ] at hi
          exact (shift i v).mp (ih.1 D' h i sk hi v hv)
      · obtain ⟨i, s', hi, hearlier, before, after, hv, hb, hn⟩ := ih.2 n h
        refine ⟨i + 1, s', by simpa using hi, ?_, before, after, hv,
          fun v hvb => (shift i v).mp (hb v hvb), fun hc => hn ((shift i n).mpr hc)⟩
        intro k hk sk hsk v hv
        cases k with
        | zero => exact first sk hsk v hv
        | succ k =>
          simp only [List.getElem?_cons_succ] at hsk
          exact (shift k v).mp (hearlier k (Nat.lt_of_succ_lt_succ hk) sk hsk v hv)

/-- C8. For every straight-line program (a root block of `AssignStmt` and `PrintStmt` only)
the semantic pass started from the empty set succeeds exactly when every variable occurring
in the expression of statement `i` is the target of an assignment at a position `j < i`. On
failure the reported name is the first variable, in left-to-right order, of the first
offending statement that has no earlier assignment. An assignment adds its target only after
its expression has been checked, a print adds nothing, `x = x + 1;` with `x` unassigned is
rejected naming `x`, and `print(y);` alone is rejected naming `y` with nothing printed. -/
theorem straight_line_define_before_use (ss : List Stmt) (hss : StraightLine ss) :
    ((∃ D, semanticCheckBlock ss ∅ = .ok D) ↔
      ∀ i s, ss[i]? = some s → ∀ v ∈ s.ownVars, AssignedBefore ss i v) ∧
    (∀ n, semanticCheckBlock ss ∅ = .error n →
      ∃ i s, ss[i]? = some s ∧
        (∀ k, k < i → ∀ sk, ss[k]? = some sk → ∀ v ∈ sk.ownVars, AssignedBefore ss k v) ∧
        ∃ before after, s.ownVars = before ++ n :: after ∧
          (∀ v ∈ before, AssignedBefore ss i v) ∧ ¬ AssignedBefore ss i n) ∧
    (∀ name e D D', semanticCheckStmt (.AssignStmt name e) D = .ok D' →
      findVars D e = .ok () ∧ D' = insert name D) ∧
    (∀ e D D', semanticCheckStmt (.PrintStmt e) D = .ok D' → D' = D) ∧
    semanticCheckBlock [.AssignStmt "x" (.Binary "+" (.VarExpr "x") (.IntLit 1))] ∅
      = .error "x" ∧
    (∀ fuel, (runSource fuel "print(y);".toList).outcome = .semanticError "y" ∧
      (runSource fuel "print(y);".toList).output = []) := by
  have main := semanticCheckBlock_straightLine ss hss ∅
  have strip : ∀ i v, (v ∈ (∅ : Finset String) ∨ AssignedBefore ss i v) ↔
      AssignedBefore ss i v := by
    intro i v
    simp
  refine ⟨⟨?_, ?_⟩, ?_, ?_, ?_, ?_, ?_⟩
  · rintro ⟨D, h⟩ i s hi v hv
    exact (strip i v).mp (main.1 D h i s hi v hv)
  · intro hall
    cases hres : semanticCheckBlock ss ∅ with
    | ok D => exact ⟨D, rfl⟩
    | error n =>
      obtain ⟨i, s, hi, _, before, after, hv, _, hn⟩ := main.2 n hres
      exact absurd ((strip i n).mpr (hall i s hi n (by simp [hv]))) hn
  · intro n h
    obtain ⟨i, s, hi, hearlier, before, after, hv, hb, hn⟩ := main.2 n h
    exact ⟨i, s, hi, fun k hk sk hsk v hvk => (strip k v).mp (hearlier k hk sk hsk v hvk),
      before, after, hv, fun v hvb => (strip i v).mp (hb v hvb),
      fun hc => hn ((strip i n).mpr hc)⟩
  · intro name e D D' h
    simp only [semanticCheckStmt] at h
    cases hf : findVars D e with
    | error m => rw [hf] at h; cases h
    | ok u => rw [hf] at h; cases h; exact ⟨rfl, rfl⟩
  · intro e D D' h
    simp only [semanticCheckStmt] at h
    cases hf : findVars D e with
    | error m => rw [hf] at h; cases h
    | ok u => rw [hf] at h; cases h; rfl
  · decide
  · intro fuel
    have hp : parseSource "print(y);".toList = .ok [.PrintStmt (.VarExpr "y")] := by decide!
    have hc : semanticCheckBlock [.PrintStmt (.VarExpr "y")] ∅ = .error "y" := by decide
    rw [runSource_semanticError fuel hp hc]
    exact ⟨rfl, rfl⟩

/-- Witness for C8: the straight-line program `a = 1; print(a);`. -/
theorem straight_line_define_before_use_witness :
    StraightLine [.AssignStmt "a" (.IntLit 1), .PrintStmt (.VarExpr "a")] ∧
    ((∃ D, semanticCheckBlock
        [.AssignStmt "a" (.IntLit 1), .PrintStmt (.VarExpr "a")] ∅ = .ok D) ↔
      ∀ i s, [Stmt.AssignStmt "a" (.IntLit 1), .PrintStmt (.VarExpr "a")][i]? = some s →
        ∀ v ∈ s.ownVars,
          AssignedBefore [.AssignStmt "a" (.IntLit 1), .PrintStmt (.VarExpr "a")] i v) :=
  ⟨by decide,
    (straight_line_define_before_use
      [.AssignStmt "a" (.IntLit 1), .PrintStmt (.VarExpr "a")] (by decide)).1⟩

/-! ## Division and modulo by zero -/

/-- The `/` path of `Binary::eval`: a zero right operand ends in the diagnosed
division-by-zero error. -/
theorem eval_div_zero (env : Env) (a b : Expr) (A : Int) (ha : eval env a = .ok A)
    (hb : eval env b = .ok 0) : eval env (.Binary "/" a b) = .error .divisionByZero := by
  simp [eval, ha, hb, evalBinary]

/-- The `%` path of `Binary::eval`: a zero right operand reaches `A%B` unchecked. -/
theorem eval_mod_zero (env : Env) (a b : Expr) (A : Int) (ha : eval env a = .ok A)
    (hb : eval env b = .ok 0) :
    eval env (.Binary "%" a b) = .error .remainderByZeroUnchecked := by
  simp [eval, ha, hb, evalBinary]

/-- C9 (code defect). `Binary::eval` tests `B == 0` on its `/` path only. At the input
`Binary("%", IntLit(5), IntLit(0))` the evaluation reaches `return A%B;` with `B == 0`
instead of the fatal division-by-zero error; the `/` path does end in that error, and so
the program `print(5 % 0);` passes all earlier phases and stops without the diagnostic. -/
theorem modulo_by_zero_is_not_diagnosed :
    eval Env.empty (.Binary "%" (.IntLit 5) (.IntLit 0)) = .error .remainderByZeroUnchecked ∧
    eval Env.empty (.Binary "%" (.IntLit 5) (.IntLit 0)) ≠ .error .divisionByZero ∧
    eval Env.empty (.Binary "/" (.IntLit 5) (.IntLit 0)) = .error .divisionByZero ∧
    (runSource 1 "print(5 % 0);".toList).outcome
      = .runtimeError .remainderByZeroUnchecked := by
  refine ⟨by decide, by decide, by decide, by decide!⟩

/-- A zero divisor clears the flag `ok` of `foldExpr` for `/` and `%`. -/
theorem foldOp_zero_divisor (op : String) (av : Int) (hop : op = "/" ∨ op = "%") :
    foldOp op av 0 = .ok none := by
  rcases hop with h | h
  · subst h
    unfold foldOp
    rw [if_neg (by decide), if_neg (by decide), if_neg (by decide), if_pos rfl, if_pos rfl]
  · subst h
    unfold foldOp
    rw [if_neg (by decide), if_neg (by decide), if_neg (by decide), if_neg (by decide),
      if_pos rfl, if_pos rfl]

/-- C10. Division and modulo by a literal zero are never folded: for every operator `op`
among `/` and `%` and all operands `l`, `r`, if the folded right operand is `IntLit 0` then
`foldExpr (Binary op l r)` is the `Binary` node with operator `op`, the folded left operand
and right operand `IntLit 0` (the node is built as soon as the folding of the left operand
has returned). In particular `Binary("/", IntLit 10, IntLit 0)` is returned unchanged, and
the program `a = 10 / 0;` is parsed, passes the semantic pass, is left as it is by the
optimizer and stops at run time with the division-by-zero error, nothing printed. -/
theorem zero_divisor_never_folded :
    (∀ (op : String) (l r : Expr), (op = "/" ∨ op = "%") → foldExpr r = .ok (.IntLit 0) →
      foldExpr (.Binary op l r)
        = (foldExpr l).bind fun l' => .ok (.Binary op l' (.IntLit 0))) ∧
    foldExpr (.Binary "/" (.IntLit 10) (.IntLit 0))
      = .ok (.Binary "/" (.IntLit 10) (.IntLit 0)) ∧
    parseSource "a = 10 / 0;".toList
      = .ok [.AssignStmt "a" (.Binary "/" (.IntLit 10) (.IntLit 0))] ∧
    semanticCheckBlock [.AssignStmt "a" (.Binary "/" (.IntLit 10) (.IntLit 0))] ∅
      = .ok {"a"} ∧
    foldConstantsInBlock [.AssignStmt "a" (.Binary "/" (.IntLit 10) (.IntLit 0))]
      = .ok [.AssignStmt "a" (.Binary "/" (.IntLit 10) (.IntLit 0))] ∧
    (∀ fuel, (runSource fuel "a = 10 / 0;".toList).outcome = .runtimeError .divisionByZero ∧
      (runSource fuel "a = 10 / 0;".toList).output = []) := by
  have hp : parseSource "a = 10 / 0;".toList
      = .ok [.AssignStmt "a" (.Binary "/" (.IntLit 10) (.IntLit 0))] := by decide!
  have hc : semanticCheckBlock [.AssignStmt "a" (.Binary "/" (.IntLit 10) (.IntLit 0))] ∅
      = .ok {"a"} := by decide
  have hf : foldConstantsInBlock [.AssignStmt "a" (.Binary "/" (.IntLit 10) (.IntLit 0))]
      = .ok [.AssignStmt "a" (.Binary "/" (.IntLit 10) (.IntLit 0))] := by decide
  refine ⟨?_, by decide, hp, hc, hf, ?_⟩
  · intro op l r hop hr
    simp only [foldExpr, hr]
    cases hl : foldExpr l with
    | trap => rfl
    | ok l' =>
      simp only [FoldResult.bind]
      unfold foldBinary
      split
      · next av bv hz =>
        cases hz
        rw [foldOp_zero_divisor op av hop]
      · rfl
  · intro fuel
    rw [runSource_executed fuel hp hc hf]
    exact ⟨rfl, rfl⟩

/-- Witness for C10: the expression `x % (3 - 3)`, whose right operand folds to `IntLit 0`,
keeps its `%` node. -/
theorem zero_divisor_never_folded_witness :
    foldExpr (.Binary "-" (.IntLit 3) (.IntLit 3)) = .ok (.IntLit 0) ∧
    foldExpr (.Binary "%" (.VarExpr "x") (.Binary "-" (.IntLit 3) (.IntLit 3)))
      = (foldExpr (.VarExpr "x")).bind fun l' => .ok (.Binary "%" l' (.IntLit 0)) :=
  ⟨by decide, zero_divisor_never_folded.1 "%" (.VarExpr "x")
    (.Binary "-" (.IntLit 3) (.IntLit 3)) (Or.inr rfl) (by decide)⟩

/-! ## The if/else scenario -/

/-- The if/else scenario parses to its AST. -/
theorem parseSource_ifElseSource : parseSource ifElseSource = .ok ifElseProgram := by
  decide!

/-- The semantic pass rejects the if/else scenario, naming `y`. -/
theorem semanticCheckBlock_ifElseProgram :
    semanticCheckBlock ifElseProgram ∅ = .error "y" := by
  decide

/-- C7 (counterexample). On the source `if (1 == 1) { y = 10; } else { y = 20; } print(y);`
the pipeline does not print `10`: for every iteration budget the run stops in the semantic
pass with the error naming `y`, and nothing is printed. -/
theorem if_else_scenario_is_rejected :
    (∀ fuel, (runSource fuel ifElseSource).outcome = .semanticError "y") ∧
    ¬ ∃ fuel, (runSource fuel ifElseSource).output = [10] := by
  constructor
  · intro fuel
    rw [runSource_semanticError fuel parseSource_ifElseSource
      semanticCheckBlock_ifElseProgram]
    rfl
  · rintro ⟨fuel, h⟩
    rw [runSource_semanticError fuel parseSource_ifElseSource
      semanticCheckBlock_ifElseProgram] at h
    cases h

/-- C7 (amended). The source `if (1 == 1) { y = 10; } else { y = 20; } print(y);` parses to
an `IfStmt` with both arms followed by a `PrintStmt`; the semantic pass rejects it naming
`y`, so the pipeline prints nothing. Folding the parsed AST turns the condition of the
`IfStmt` into the single literal `IntLit 1`, and executing the folded AST from the empty
environment (the semantic pass left out) completes having printed exactly `10`. -/
theorem if_else_scenario_amended :
    parseSource ifElseSource = .ok ifElseProgram ∧
    semanticCheckBlock ifElseProgram ∅ = .error "y" ∧
    (∀ fuel, (runSource fuel ifElseSource).outcome = .semanticError "y" ∧
      (runSource fuel ifElseSource).output = []) ∧
    foldConstantsInBlock ifElseProgram
      = .ok [.IfStmt (.IntLit 1) [.AssignStmt "y" (.IntLit 10)]
          (some [.AssignStmt "y" (.IntLit 20)]), .PrintStmt (.VarExpr "y")] ∧
    (∀ fuel,
      (execBlock fuel [.IfStmt (.IntLit 1) [.AssignStmt "y" (.IntLit 10)]
          (some [.AssignStmt "y" (.IntLit 20)]), .PrintStmt (.VarExpr "y")]
        State.initial).status = .done ∧
      (execBlock fuel [.IfStmt (.IntLit 1) [.AssignStmt "y" (.IntLit 10)]
          (some [.AssignStmt "y" (.IntLit 20)]), .PrintStmt (.VarExpr "y")]
        State.initial).state.out = [10]) := by
  have hf : foldConstantsInBlock ifElseProgram
      = .ok [.IfStmt (.IntLit 1) [.AssignStmt "y" (.IntLit 10)]
          (some [.AssignStmt "y" (.IntLit 20)]), .PrintStmt (.VarExpr "y")] := by decide
  refine ⟨parseSource_ifElseSource, semanticCheckBlock_ifElseProgram, ?_, hf, ?_⟩
  · intro fuel
    rw [runSource_semanticError fuel parseSource_ifElseSource
      semanticCheckBlock_ifElseProgram]
    exact ⟨rfl, rfl⟩
  · intro fuel
    exact ⟨rfl, rfl⟩

/-! ## Define-before-use along control-flow paths -/

/-- Nesting depth over a concatenation. -/
theorem scopeDepth_append :
    ∀ (a b : List Event) (d : Nat),
      scopeDepth d (a ++ b) = (scopeDepth d a).bind (fun d' => scopeDepth d' b)
  | [], b, d => by simp [scopeDepth]
  | .enter :: a, b, d => by simp [scopeDepth, scopeDepth_append a b]
  | .leave :: a, b, 0 => by simp [scopeDepth]
  | .leave :: a, b, d + 1 => by simp [scopeDepth, scopeDepth_append a b]
  | .use v :: a, b, d => by simp [scopeDepth, scopeDepth_append a b]
  | .assign v :: a, b, d => by simp [scopeDepth, scopeDepth_append a b]

/-- Starting deeper shifts the final depth by the same amount. -/
theorem scopeDepth_shift :
    ∀ (q : List Event) (d d' m : Nat),
      scopeDepth d q = some d' → scopeDepth (d + m) q = some (d' + m)
  | [], d, d', m, h => by
    simp only [scopeDepth, Option.some.injEq] at h ⊢
    omega
  | .enter :: q, d, d', m, h => by
    simp only [scopeDepth] at h ⊢
    have := scopeDepth_shift q (d + 1) d' m h
    rwa [Nat.add_right_comm] at this
  | .leave :: q, 0, d', m, h => by simp [scopeDepth] at h
  | .leave :: q, d + 1, d', m, h => by
    simp only [scopeDepth] at h
    have := scopeDepth_shift q d d' m h
    rw [Nat.add_right_comm]
    simpa only [scopeDepth] using this
  | .use v :: q, d, d', m, h => by
    simp only [scopeDepth] at h ⊢
    exact scopeDepth_shift q d d' m h
  | .assign v :: q, d, d', m, h => by
    simp only [scopeDepth] at h ⊢
    exact scopeDepth_shift q d d' m h

/-- References do not change the nesting depth. -/
theorem scopeDepth_useEvents (e : Expr) (d : Nat) : scopeDepth d (useEvents e) = some d := by
  unfold useEvents
  induction varsOf e with
  | nil => simp [scopeDepth]
  | cons v vs ih => simpa [scopeDepth] using ih

/-- A prefix of a stretch that stays open stays open. -/
theorem StillOpen_of_append {a b : List Event} (h : StillOpen (a ++ b)) : StillOpen a := by
  unfold StillOpen at h ⊢
  rw [scopeDepth_append] at h
  intro hnone
  rw [hnone] at h
  exact h rfl

/-- After a suffix of a balanced stretch, one more `leave` closes the starting scope. -/
theorem not_StillOpen_suffix_leave {T a b r : List Event} (hT : scopeDepth 0 T = some 0)
    (hsplit : T = a ++ b) : ¬ StillOpen (b ++ Event.leave :: r) := by
  unfold StillOpen
  rw [scopeDepth_append]
  rw [hsplit, scopeDepth_append] at hT
  cases ha : scopeDepth 0 a with
  | none => rw [ha] at hT; cases hT
  | some k =>
    rw [ha] at hT
    simp only [Option.some_bind] at hT
    cases hb : scopeDepth 0 b with
    | none => simp
    | some d' =>
      have hs := scopeDepth_shift b 0 d' k hb
      rw [Nat.zero_add, hT] at hs
      have hd : d' = 0 := by
        have := Option.some.inj hs
        omega
      subst hd
      simp [scopeDepth]

/-- Where an assignment found in a concatenation lies. -/
theorem assign_split_append {n : String} :
    ∀ (X Y p1 q : List Event), X ++ Y = p1 ++ Event.assign n :: q →
      (∃ x', X = p1 ++ Event.assign n :: x' ∧ q = x' ++ Y) ∨
      (∃ y0, Y = y0 ++ Event.assign n :: q ∧ p1 = X ++ y0)
  | [], Y, p1, q, h => Or.inr ⟨p1, by simpa using h, by simp⟩
  | x :: X, Y, [], q, h => by
    simp only [List.cons_append, List.nil_append, List.cons.injEq] at h
    exact Or.inl ⟨X, by simp [h.1], h.2.symm⟩
  | x :: X, Y, p :: p1, q, h => by
    simp only [List.cons_append, List.cons.injEq] at h
    rcases assign_split_append X Y p1 q h.2 with ⟨x', hx, hq⟩ | ⟨y0, hy, hp⟩
    · exact Or.inl ⟨x', by simp [h.1, hx], hq⟩
    · exact Or.inr ⟨y0, hy, by simp [h.1, hp]⟩

/-- A stretch without an assignment to `n` has no visible assignment to `n`. -/
theorem not_visible_of_not_mem {n : String} {X : List Event}
    (h : Event.assign n ∉ X) : ¬ VisibleAssign X n := by
  rintro ⟨p1, p2, hX, _⟩
  exact h (by simp [hX])

/-- No visible assignment in either part, none in the concatenation. -/
theorem not_visible_append {n : String} {X Y : List Event} (hX : ¬ VisibleAssign X n)
    (hY : ¬ VisibleAssign Y n) : ¬ VisibleAssign (X ++ Y) n := by
  rintro ⟨p1, p2, hsplit, hopen⟩
  rcases assign_split_append X Y p1 p2 hsplit with ⟨x', hx, hq⟩ | ⟨y0, hy, _⟩
  · rw [hq] at hopen
    exact hX ⟨p1, x', hx, StillOpen_of_append hopen⟩
  · exact hY ⟨y0, p2, hy, hopen⟩

/-- The references of an expression contain no assignment. -/
theorem assign_not_mem_useEvents (n : String) (e : Expr) : Event.assign n ∉ useEvents e := by
  simp [useEvents]

/-- An arm or body that is entered and left hides the assignments made in it. -/
theorem not_visible_scoped {n : String} {U T : List Event} (hU : Event.assign n ∉ U)
    (hT : scopeDepth 0 T = some 0) :
    ¬ VisibleAssign (U ++ [Event.enter] ++ T ++ [Event.leave]) n := by
  rintro ⟨p1, p2, hsplit, hopen⟩
  rcases assign_split_append _ _ p1 p2 hsplit with ⟨x', hx, hq⟩ | ⟨y0, hy, _⟩
  · rcases assign_split_append _ _ p1 x' hx with ⟨x'', hx2, _⟩ | ⟨y0, hy, _⟩
    · have hmem : Event.assign n ∈ U ++ [Event.enter] := by simp [hx2]
      simp only [List.mem_append, List.mem_singleton] at hmem
      rcases hmem with h1 | h1
      · exact hU h1
      · cases h1
    · rw [hq] at hopen
      exact not_StillOpen_suffix_leave hT hy hopen
  · have hmem : Event.assign n ∈ [Event.leave] := by simp [hy]
    simp at hmem

mutual
/-- The particular path of a statement is one of its paths. -/
theorem StmtPath_canonStmt : ∀ (s : Stmt), StmtPath s (canonStmt s)
  | .PrintStmt e => by simp [StmtPath, canonStmt]
  | .AssignStmt name e => by simp [StmtPath, canonStmt]
  | .BlockStmt stmts => by
    simp only [StmtPath, canonStmt]
    exact BlockPath_canonBlock stmts
  | .IfStmt cond thenBlock elseBlock => by
    simp only [StmtPath, canonStmt]
    exact Or.inl ⟨canonBlock thenBlock, BlockPath_canonBlock thenBlock, rfl⟩
  | .WhileStmt cond body => by
    simp only [StmtPath, canonStmt]
    exact LoopPath.exit
/-- The particular path of a block is one of its paths. -/
theorem BlockPath_canonBlock : ∀ (blk : List Stmt), BlockPath blk (canonBlock blk)
  | [] => by simp [BlockPath, canonBlock]
  | s :: rest => by
    simp only [BlockPath, canonBlock]
    exact ⟨canonStmt s, canonBlock rest, StmtPath_canonStmt s, BlockPath_canonBlock rest, rfl⟩
end

mutual
/-- The particular path of a statement returns to the depth at which it starts. -/
theorem scopeDepth_canonStmt : ∀ (s : Stmt) (d : Nat), scopeDepth d (canonStmt s) = some d
  | .PrintStmt e, d => by simp [canonStmt, scopeDepth_useEvents]
  | .AssignStmt name e, d => by
    simp [canonStmt, scopeDepth_append, scopeDepth_useEvents, scopeDepth]
  | .BlockStmt stmts, d => by
    simp only [canonStmt]
    exact scopeDepth_canonBlock stmts d
  | .IfStmt cond thenBlock elseBlock, d => by
    simp [canonStmt, scopeDepth_append, scopeDepth_useEvents, scopeDepth,
      scopeDepth_canonBlock thenBlock]
  | .WhileStmt cond body, d => by simp [canonStmt, scopeDepth_useEvents]
/-- The particular path of a block returns to the depth at which it starts. -/
theorem scopeDepth_canonBlock : ∀ (blk : List Stmt) (d : Nat),
    scopeDepth d (canonBlock blk) = some d
  | [], d => by simp [canonBlock, scopeDepth]
  | s :: rest, d => by
    simp [canonBlock, scopeDepth_append, scopeDepth_canonStmt s, scopeDepth_canonBlock rest]
end

mutual
/-- Along the particular path of an accepted statement, an assignment that is visible at the
end is to a name of the resulting defined set. -/
theorem not_visible_canonStmt :
    ∀ (s : Stmt) (D D1 : Finset String) (n : String),
      semanticCheckStmt s D = .ok D1 → n ∉ D1 → ¬ VisibleAssign (canonStmt s) n
  | .PrintStmt e, D, D1, n, _, _ => by
    simp only [canonStmt]
    exact not_visible_of_not_mem (assign_not_mem_useEvents n e)
  | .AssignStmt name e, D, D1, n, h, hn => by
    simp only [semanticCheckStmt] at h
    split at h
    · cases h
    · cases h
      simp only [canonStmt]
      apply not_visible_of_not_mem
      simp only [List.mem_append, List.mem_singleton, Event.assign.injEq, not_or]
      refine ⟨assign_not_mem_useEvents n e, ?_⟩
      intro hname
      exact hn (by simp [hname])
  | .BlockStmt stmts, D, D1, n, h, hn => by
    simp only [semanticCheckStmt] at h
    simp only [canonStmt]
    exact not_visible_canonBlock stmts D D1 n h hn
  | .IfStmt cond thenBlock elseBlock, D, D1, n, _, _ => by
    simp only [canonStmt]
    exact not_visible_scoped (assign_not_mem_useEvents n cond)
      (scopeDepth_canonBlock thenBlock 0)
  | .WhileStmt cond body, D, D1, n, _, _ => by
    simp only [canonStmt]
    exact not_visible_of_not_mem (assign_not_mem_useEvents n cond)
/-- Along the particular path of an accepted block, an assignment that is visible at the end
is to a name of the resulting defined set. -/
theorem not_visible_canonBlock :
    ∀ (blk : List Stmt) (D D1 : Finset String) (n : String),
      semanticCheckBlock blk D = .ok D1 → n ∉ D1 → ¬ VisibleAssign (canonBlock blk) n
  | [], D, D1, n, _, _ => by
    simp only [canonBlock]
    exact not_visible_of_not_mem (by simp)
  | s :: rest, D, D1, n, h, hn => by
    simp only [semanticCheckBlock] at h
    split at h
    · cases h
    · next D' hs =>
      simp only [canonBlock]
      have hn' : n ∉ D' := fun hmem => hn (semanticCheckBlock_subset rest D' D1 h hmem)
      exact not_visible_append (not_visible_canonStmt s D D' n hs hn')
        (not_visible_canonBlock rest D' D1 n h hn)
end

/-- A failing `findVars` as a split of the references of the expression. -/
theorem useEvents_split_of_error {D : Finset String} {e : Expr} {n : String}
    (h : findVars D e = .error n) :
    ∃ pre post, useEvents e = pre ++ Event.use n :: post ∧ n ∉ D ∧ ¬ VisibleAssign pre n := by
  obtain ⟨before, after, hv, _, hn⟩ := findVars_error_first e n h
  refine ⟨before.map Event.use, after.map Event.use, by simp [useEvents, hv], hn, ?_⟩
  exact not_visible_of_not_mem (by simp)

mutual
/-- A statement rejected by the semantic pass has a path on which the reported name is
referenced with no visible assignment before it. -/
theorem failing_path_stmt :
    ∀ (s : Stmt) (D : Finset String) (n : String), semanticCheckStmt s D = .error n →
      ∃ pre post, StmtPath s (pre ++ Event.use n :: post) ∧ n ∉ D ∧ ¬ VisibleAssign pre n
  | .PrintStmt e, D, n, h => by
    simp only [semanticCheckStmt] at h
    split at h
    · next hf =>
      cases h
      obtain ⟨pre, post, hsplit, hn, hvis⟩ := useEvents_split_of_error hf
      exact ⟨pre, post, by simp only [StmtPath, hsplit], hn, hvis⟩
    · cases h
  | .AssignStmt name e, D, n, h => by
    simp only [semanticCheckStmt] at h
    split at h
    · next hf =>
      cases h
      obtain ⟨pre, post, hsplit, hn, hvis⟩ := useEvents_split_of_error hf
      exact ⟨pre, post ++ [Event.assign name], by simp [StmtPath, hsplit], hn, hvis⟩
    · cases h
  | .BlockStmt stmts, D, n, h => by
    simp only [semanticCheckStmt] at h
    simp only [StmtPath]
    exact failing_path_block stmts D n h
  | .IfStmt cond thenBlock elseBlock, D, n, h => by
    simp only [semanticCheckStmt] at h
    have hU : Event.assign n ∉ useEvents cond ++ [Event.enter] := by
      simp [assign_not_mem_useEvents]
    split at h
    · next hf =>
      cases h
      obtain ⟨pre, post, hsplit, hn, hvis⟩ := useEvents_split_of_error hf
      refine ⟨pre, post ++ [Event.enter] ++ canonBlock thenBlock ++ [Event.leave], ?_, hn, hvis⟩
      simp only [StmtPath]
      exact Or.inl ⟨canonBlock thenBlock, BlockPath_canonBlock thenBlock, by simp [hsplit]⟩
    · split at h
      · next ht =>
        cases h
        obtain ⟨pre, post, hpath, hn, hvis⟩ := failing_path_block thenBlock D n ht
        refine ⟨useEvents cond ++ [Event.enter] ++ pre, post ++ [Event.leave], ?_, hn,
          not_visible_append (not_visible_of_not_mem hU) hvis⟩
        simp only [StmtPath]
        exact Or.inl ⟨pre ++ Event.use n :: post, hpath, by simp⟩
      · split at h
        · next he =>
          cases h
          obtain ⟨pre, post, hpath, hn, hvis⟩ :=
            failing_path_else elseBlock D n he (useEvents cond)
              (assign_not_mem_useEvents n cond)
          refine ⟨pre, post, ?_, hn, hvis⟩
          simp only [StmtPath]
          exact Or.inr hpath
        · cases h
  | .WhileStmt cond body, D, n, h => by
    simp only [semanticCheckStmt] at h
    have hU : Event.assign n ∉ useEvents cond ++ [Event.enter] := by
      simp [assign_not_mem_useEvents]
    split at h
    · next hf =>
      cases h
      obtain ⟨pre, post, hsplit, hn, hvis⟩ := useEvents_split_of_error hf
      refine ⟨pre, post, ?_, hn, hvis⟩
      simp only [StmtPath]
      rw [← hsplit]
      exact LoopPath.exit
    · split at h
      · next hb =>
        cases h
        obtain ⟨pre, post, hpath, hn, hvis⟩ := failing_path_block body D n hb
        refine ⟨useEvents cond ++ [Event.enter] ++ pre,
          post ++ [Event.leave] ++ useEvents cond, ?_, hn,
          not_visible_append (not_visible_of_not_mem hU) hvis⟩
        simp only [StmtPath]
        have heq : useEvents cond ++ [Event.enter] ++ pre
              ++ Event.use n :: (post ++ [Event.leave] ++ useEvents cond)
            = useEvents cond ++ [Event.enter] ++ (pre ++ Event.use n :: post)
              ++ [Event.leave] ++ useEvents cond := by simp
        rw [heq]
        exact LoopPath.iterate hpath LoopPath.exit
      · cases h
/-- A block rejected by the semantic pass has a path on which the reported name is referenced
with no visible assignment before it. -/
theorem failing_path_block :
    ∀ (blk : List Stmt) (D : Finset String) (n : String), semanticCheckBlock blk D = .error n →
      ∃ pre post, BlockPath blk (pre ++ Event.use n :: post) ∧ n ∉ D ∧ ¬ VisibleAssign pre n
  | [], D, n, h => by simp [semanticCheckBlock] at h
  | s :: rest, D, n, h => by
    simp only [semanticCheckBlock] at h
    split at h
    · next hs =>
      cases h
      obtain ⟨pre, post, hpath, hn, hvis⟩ := failing_path_stmt s D n hs
      refine ⟨pre, post ++ canonBlock rest, ?_, hn, hvis⟩
      simp only [BlockPath]
      exact ⟨pre ++ Event.use n :: post, canonBlock rest, hpath, BlockPath_canonBlock rest,
        by simp⟩
    · next D' hs =>
      obtain ⟨pre, post, hpath, hn, hvis⟩ := failing_path_block rest D' n h
      refine ⟨canonStmt s ++ pre, post, ?_,
        fun hmem => hn (semanticCheckStmt_subset s D D' hs hmem),
        not_visible_append (not_visible_canonStmt s D D' n hs hn) hvis⟩
      simp only [BlockPath]
      exact ⟨canonStmt s, pre ++ Event.use n :: post, StmtPath_canonStmt s, hpath, by simp⟩
/-- An else block rejected by the semantic pass has a path on which the reported name is
referenced with no visible assignment before it. -/
theorem failing_path_else :
    ∀ (e : Option (List Stmt)) (D : Finset String) (n : String),
      semanticCheckElse e D = .error n → ∀ (U : List Event), Event.assign n ∉ U →
      ∃ pre post, ElsePath e U (pre ++ Event.use n :: post) ∧ n ∉ D ∧ ¬ VisibleAssign pre n
  | none, D, n, h, _, _ => by simp [semanticCheckElse] at h
  | some blk, D, n, h, U, hU => by
    simp only [semanticCheckElse] at h
    obtain ⟨pre, post, hpath, hn, hvis⟩ := failing_path_block blk D n h
    have hU' : Event.assign n ∉ U ++ [Event.enter] := by simp [hU]
    refine ⟨U ++ [Event.enter] ++ pre, post ++ [Event.leave], ?_, hn,
      not_visible_append (not_visible_of_not_mem hU') hvis⟩
    simp only [ElsePath]
    exact ⟨pre ++ Event.use n :: post, hpath, by simp⟩
end

/-- C6 (amended). The define-before-use check accepts every program in which, on every
control-flow path from the program start, each variable reference is preceded by an
assignment to that variable whose enclosing if arm or while body, if any, has not been left
when the reference is reached. -/
theorem scoped_define_before_use_is_accepted (p : List Stmt)
    (h : EveryUsePrecededInScope p) : ∃ D, semanticCheckBlock p ∅ = .ok D := by
  cases hres : semanticCheckBlock p ∅ with
  | ok D => exact ⟨D, rfl⟩
  | error n =>
    obtain ⟨pre, post, hpath, _, hvis⟩ := failing_path_block p ∅ n hres
    exact absurd (h _ hpath pre n post rfl) hvis

/-- A property of all splits of a path at a reference, checked position by position. -/
theorem forall_use_split_of_index {tr : List Event} {P : List Event → String → Prop}
    (h : ∀ i v, tr[i]? = some (Event.use v) → P (tr.take i) v) :
    ∀ pre v post, tr = pre ++ Event.use v :: post → P pre v := by
  intro pre v post hs
  have hget : tr[pre.length]? = some (Event.use v) := by
    rw [hs, List.getElem?_append_right (Nat.le_refl _)]
    simp
  have := h pre.length v hget
  simpa [hs] using this

/-- C6 (counterexample). In the program `if (1) { x = 1; } else { x = 2; } print(x);` every
control-flow path from the program start to a variable reference passes through an
assignment to that variable, yet `semanticCheckBlock` started from the empty defined set
rejects it, naming `x`; so the check does not accept every such program. -/
theorem path_based_acceptance_fails :
    EveryUsePreceded bothArmsProgram ∧
    semanticCheckBlock bothArmsProgram ∅ = .error "x" ∧
    ¬ ∀ p : List Stmt, EveryUsePreceded p → ∃ D, semanticCheckBlock p ∅ = .ok D := by
  have hpaths : EveryUsePreceded bothArmsProgram := by
    intro tr htr
    simp only [bothArmsProgram, BlockPath, StmtPath, ElsePath, useEvents, varsOf, List.map_nil,
      List.map_cons,
      List.nil_append, List.cons_append, List.append_nil, exists_eq_left, exists_and_left,
      exists_eq_left', or_self] at htr
    subst htr
    apply forall_use_split_of_index
    intro i v hi
    rcases i with _ | _ | _ | _ | i
    · simp at hi
    · simp at hi
    · simp at hi
    · simp only [List.getElem?_cons_succ, List.getElem?_cons_zero, Option.some.injEq,
        Event.use.injEq] at hi
      subst hi
      simp
    · simp at hi
  have hcheck : semanticCheckBlock bothArmsProgram ∅ = .error "x" := by decide
  refine ⟨hpaths, hcheck, fun hall => ?_⟩
  obtain ⟨D, hD⟩ := hall _ hpaths
  rw [hcheck] at hD
  cases hD

/-- Witness for C6 (amended): in `a = 1; if (a) { print(a); }` every reference to `a` follows
the top-level assignment, which is never left; the program is accepted. -/
theorem scoped_define_before_use_is_accepted_witness :
    EveryUsePrecededInScope guardedPrintProgram ∧
    ∃ D, semanticCheckBlock guardedPrintProgram ∅ = .ok D := by
  have hpaths : EveryUsePrecededInScope guardedPrintProgram := by
    intro tr htr
    simp [guardedPrintProgram, BlockPath, StmtPath, ElsePath, useEvents, varsOf] at htr
    rcases htr with htr | htr
    · subst htr
      apply forall_use_split_of_index
      intro i v hi
      rcases i with _ | _ | _ | _ | _ | i
      · simp at hi
      · simp only [List.getElem?_cons_succ, List.getElem?_cons_zero, Option.some.injEq,
          Event.use.injEq] at hi
        subst hi
        exact ⟨[], [], rfl, by unfold StillOpen; decide⟩
      · simp at hi
      · simp only [List.getElem?_cons_succ, List.getElem?_cons_zero, Option.some.injEq,
          Event.use.injEq] at hi
        subst hi
        exact ⟨[], [Event.use "a", Event.enter], rfl, by unfold StillOpen; decide⟩
      · simp at hi
      · simp at hi
    · subst htr
      apply forall_use_split_of_index
      intro i v hi
      rcases i with _ | _ | i
      · simp at hi
      · simp only [List.getElem?_cons_succ, List.getElem?_cons_zero, Option.some.injEq,
          Event.use.injEq] at hi
        subst hi
        exact ⟨[], [], rfl, by unfold StillOpen; decide⟩
      · simp at hi
  exact ⟨hpaths, scoped_define_before_use_is_accepted _ hpaths⟩

/-! ## The lexer -/

/-- One turn of the loop of `nextToken`. -/
theorem nextTokenLoop_succ (fuel : Nat) (lx : Lexer) :
    nextTokenLoop (fuel + 1) lx =
      if lx.peek = Char.ofNat 0 then .ok (⟨.END, "", 0, lx.line⟩, lx)
      else if isspace lx.peek then nextTokenLoop fuel lx.skipSpace
      else if lx.startswith ['/', '/'] then nextTokenLoop fuel lx.skipComment
      else lx.tokenHere := by
  rfl

/-- The current character is the head of the remaining input. -/
theorem Lexer.peek_eq_headD (lx : Lexer) : lx.peek = lx.rest.headD (Char.ofNat 0) := by
  unfold Lexer.peek Lexer.rest
  rw [List.getD_eq_getElem?_getD]
  by_cases h : lx.i < lx.src.length
  · rw [List.drop_eq_getElem_cons h]
    simp [h]
  · have h' : lx.src.length ≤ lx.i := Nat.le_of_not_lt h
    rw [List.drop_eq_nil_of_le h']
    simp [List.getElem?_eq_none h']

/-- A remaining input that starts with `c` makes `c` the current character. -/
theorem Lexer.peek_of_rest {lx : Lexer} {c : Char} {r : List Char} (h : lx.rest = c :: r) :
    lx.peek = c := by
  rw [Lexer.peek_eq_headD, h]
  rfl

/-- A current character other than NUL lies inside the source. -/
theorem Lexer.lt_length_of_peek {lx : Lexer} (h : lx.peek ≠ Char.ofNat 0) :
    lx.i < lx.src.length := by
  by_contra hlt
  apply h
  rw [Lexer.peek_eq_headD]
  unfold Lexer.rest
  rw [List.drop_eq_nil_of_le (Nat.le_of_not_lt hlt)]
  rfl

/-- What the `switch` of `nextToken` returns: never the END kind, the given line, the text of
the kind, and only for a character that is neither NUL nor a newline. -/
theorem singleCharToken_some {c : Char} {line : Nat} {tok : Token}
    (h : singleCharToken c line = some tok) :
    tok.type ≠ .END ∧ tok.line = line ∧ tok.Canonical ∧ c ≠ Char.ofNat 0 ∧
      c ≠ Char.ofNat 10 := by
  unfold singleCharToken at h
  by_cases h1 : c = '+'
  · rw [if_pos h1] at h
    injection h with h
    subst h
    subst h1
    refine ⟨(by intro hc; cases hc), rfl, ?_, (by decide), (by decide)⟩
    intro s hs
    simp only [opText] at hs
    exact Option.some.inj hs
  rw [if_neg h1] at h
  by_cases h2 : c = '-'
  · rw [if_pos h2] at h
    injection h with h
    subst h
    subst h2
    refine ⟨(by intro hc; cases hc), rfl, ?_, (by decide), (by decide)⟩
    intro s hs
    simp only [opText] at hs
    exact Option.some.inj hs
  rw [if_neg h2] at h
  by_cases h3 : c = '*'
  · rw [if_pos h3] at h
    injection h with h
    subst h
    subst h3
    refine ⟨(by intro hc; cases hc), rfl, ?_, (by decide), (by decide)⟩
    intro s hs
    simp only [opText] at hs
    exact Option.some.inj hs
  rw [if_neg h3] at h
  by_cases h4 : c = '/'
  · rw [if_pos h4] at h
    injection h with h
    subst h
    subst h4
    refine ⟨(by intro hc; cases hc), rfl, ?_, (by decide), (by decide)⟩
    intro s hs
    simp only [opText] at hs
    exact Option.some.inj hs
  rw [if_neg h4] at h
  by_cases h5 : c = '%'
  · rw [if_pos h5] at h
    injection h with h
    subst h
    subst h5
    refine ⟨(by intro hc; cases hc), rfl, ?_, (by decide), (by decide)⟩
    intro s hs
    simp only [opText] at hs
    exact Option.some.inj hs
  rw [if_neg h5] at h
  by_cases h6 : c = '='
  · rw [if_pos h6] at h
    injection h with h
    subst h
    subst h6
    refine ⟨(by intro hc; cases hc), rfl, ?_, (by decide), (by decide)⟩
    intro s hs
    simp only [opText] at hs
    cases hs
  rw [if_neg h6] at h
  by_cases h7 : c = '<'
  · rw [if_pos h7] at h
    injection h with h
    subst h
    subst h7
    refine ⟨(by intro hc; cases hc), rfl, ?_, (by decide), (by decide)⟩
    intro s hs
    simp only [opText] at hs
    exact Option.some.inj hs
  rw [if_neg h7] at h
  by_cases h8 : c = '>'
  · rw [if_pos h8] at h
    injection h with h
    subst h
    subst h8
    refine ⟨(by intro hc; cases hc), rfl, ?_, (by decide), (by decide)⟩
    intro s hs
    simp only [opText] at hs
    exact Option.some.inj hs
  rw [if_neg h8] at h
  by_cases h9 : c = '('
  · rw [if_pos h9] at h
    injection h with h
    subst h
    subst h9
    refine ⟨(by intro hc; cases hc), rfl, ?_, (by decide), (by decide)⟩
    intro s hs
    simp only [opText] at hs
    cases hs
  rw [if_neg h9] at h
  by_cases h10 : c = ')'
  · rw [if_pos h10] at h
    injection h with h
    subst h
    subst h10
    refine ⟨(by intro hc; cases hc), rfl, ?_, (by decide), (by decide)⟩
    intro s hs
    simp only [opText] at hs
    cases hs
  rw [if_neg h10] at h
  by_cases h11 : c = '{'
  · rw [if_pos h11] at h
    injection h with h
    subst h
    subst h11
    refine ⟨(by intro hc; cases hc), rfl, ?_, (by decide), (by decide)⟩
    intro s hs
    simp only [opText] at hs
    cases hs
  rw [if_neg h11] at h
  by_cases h12 : c = '}'
  · rw [if_pos h12] at h
    injection h with h
    subst h
    subst h12
    refine ⟨(by intro hc; cases hc), rfl, ?_, (by decide), (by decide)⟩
    intro s hs
    simp only [opText] at hs
    cases hs
  rw [if_neg h12] at h
  by_cases h13 : c = ';'
  · rw [if_pos h13] at h
    injection h with h
    subst h
    subst h13
    refine ⟨(by intro hc; cases hc), rfl, ?_, (by decide), (by decide)⟩
    intro s hs
    simp only [opText] at hs
    cases hs
  rw [if_neg h13] at h
  cases h

/-- The keyword test never yields the END kind nor an operator kind. -/
theorem keywordType_cases (s : String) :
    keywordType s = .KW_PRINT ∨ keywordType s = .KW_IF ∨ keywordType s = .KW_ELSE ∨
      keywordType s = .KW_WHILE ∨ keywordType s = .IDENT := by
  unfold keywordType
  by_cases h1 : s = "print"
  · rw [if_pos h1]; exact Or.inl rfl
  rw [if_neg h1]
  by_cases h2 : s = "if"
  · rw [if_pos h2]; exact Or.inr (Or.inl rfl)
  rw [if_neg h2]
  by_cases h3 : s = "else"
  · rw [if_pos h3]; exact Or.inr (Or.inr (Or.inl rfl))
  rw [if_neg h3]
  by_cases h4 : s = "while"
  · rw [if_pos h4]; exact Or.inr (Or.inr (Or.inr (Or.inl rfl)))
  rw [if_neg h4]
  exact Or.inr (Or.inr (Or.inr (Or.inr rfl)))

/-- A keyword or identifier token is canonical and is not the END token. -/
theorem keywordType_ne_END (s : String) :
    keywordType s ≠ .END ∧ opText (keywordType s) = none := by
  rcases keywordType_cases s with h | h | h | h | h <;> rw [h] <;> exact ⟨(by decide), rfl⟩

/-- What the token branches of `nextToken` return: never the END kind, always a canonical
token on the current line, and the source is kept. -/
theorem tokenHere_ok {lx lx' : Lexer} {tok : Token} (h : lx.tokenHere = .ok (tok, lx')) :
    tok.type ≠ .END ∧ tok.Canonical ∧ tok.line = lx.line ∧ lx'.src = lx.src ∧
      lx'.line = lx.line := by
  unfold Lexer.tokenHere at h
  simp only at h
  split_ifs at h with h1 h2 h3 h4 h5 h6
  · split at h
    · cases h
    · injection h with h
      injection h with ht hl
      subst ht hl
      exact ⟨(by intro hc; cases hc), (fun s hs => (by cases hs)), rfl, rfl, rfl⟩
  · injection h with h
    injection h with ht hl
    subst ht hl
    refine ⟨(keywordType_ne_END _).1, fun s hs => ?_, rfl, rfl, rfl⟩
    rw [(keywordType_ne_END _).2] at hs
    cases hs
  · injection h with h
    injection h with ht hl
    subst ht hl
    exact ⟨(by intro hc; cases hc), (fun s hs => (Option.some.inj hs)), rfl, rfl, rfl⟩
  · injection h with h
    injection h with ht hl
    subst ht hl
    exact ⟨(by intro hc; cases hc), (fun s hs => (Option.some.inj hs)), rfl, rfl, rfl⟩
  · injection h with h
    injection h with ht hl
    subst ht hl
    exact ⟨(by intro hc; cases hc), (fun s hs => (Option.some.inj hs)), rfl, rfl, rfl⟩
  · injection h with h
    injection h with ht hl
    subst ht hl
    exact ⟨(by intro hc; cases hc), (fun s hs => (Option.some.inj hs)), rfl, rfl, rfl⟩
  · split at h
    · next tok' hs =>
      injection h with h
      injection h with ht hl
      subst ht hl
      obtain ⟨h1, h2, h3, _, _⟩ := singleCharToken_some hs
      exact ⟨h1, h3, h2, rfl, rfl⟩
    · cases h

/-- The loop of `nextToken` keeps the source, returns canonical tokens, and returns the END
token only at a NUL on which it stays. -/
theorem nextTokenLoop_ok :
    ∀ (fuel : Nat) (lx lx' : Lexer) (tok : Token),
      nextTokenLoop fuel lx = .ok (tok, lx') →
      lx'.src = lx.src ∧ tok.Canonical ∧ tok.line = lx'.line ∧
        (tok.type = .END → lx'.peek = Char.ofNat 0 ∧ tok = ⟨.END, "", 0, lx'.line⟩)
  | 0, lx, lx', tok, h => by simp [nextTokenLoop] at h
  | fuel + 1, lx, lx', tok, h => by
    rw [nextTokenLoop_succ] at h
    split_ifs at h with h0 hs hc
    · injection h with h
      injection h with ht hl
      subst ht hl
      exact ⟨rfl, (fun s hs => (by cases hs)), rfl, fun _ => ⟨h0, rfl⟩⟩
    · have := nextTokenLoop_ok fuel lx.skipSpace lx' tok h
      exact ⟨this.1, this.2⟩
    · have := nextTokenLoop_ok fuel lx.skipComment lx' tok h
      exact ⟨this.1, this.2⟩
    · obtain ⟨h1, h2, h3, h4, h5⟩ := tokenHere_ok h
      exact ⟨h4, h2, h3.trans h5.symm, fun he => absurd he h1⟩

/-- The method `nextToken` always runs its loop for at least one turn. -/
theorem Lexer.nextToken_eq (lx : Lexer) :
    lx.nextToken = nextTokenLoop (lx.src.length - lx.i + 1) lx := rfl

/-- C14. End-of-input is sticky: when `nextToken` has returned a token of kind END, leaving
the lexer in state `lx'`, the next call from `lx'` returns that same END token (the same
line) and leaves the lexer in `lx'` (the position is unchanged); hence so does every later
call. -/
theorem end_of_input_is_sticky (lx lx' : Lexer) (tok : Token)
    (h : lx.nextToken = .ok (tok, lx')) (hend : tok.type = .END) :
    lx'.nextToken = .ok (tok, lx') ∧
      ∀ n : Nat, (fun l : Lexer =>
        match l.nextToken with
        | .ok (_, l') => l'
        | .error _ => l)^[n] lx' = lx' := by
  obtain ⟨_, _, _, hE⟩ := nextTokenLoop_ok _ lx lx' tok h
  obtain ⟨hpeek, htok⟩ := hE hend
  have hnext : lx'.nextToken = .ok (tok, lx') := by
    rw [Lexer.nextToken_eq, nextTokenLoop_succ, if_pos hpeek, htok]
  refine ⟨hnext, fun n => ?_⟩
  induction n with
  | zero => rfl
  | succ n ih =>
    rw [Function.iterate_succ_apply']
    rw [ih]
    simp only [hnext]

/-- Witness for C14: on the three-character source `x`, blank, newline, the second call of
`nextToken` skips to the end and returns END on line 2; the third call returns the same. -/
theorem end_of_input_is_sticky_witness :
    (Lexer.mk ['x', ' ', Char.ofNat 10] 1 1).nextToken
      = .ok (⟨.END, "", 0, 2⟩, Lexer.mk ['x', ' ', Char.ofNat 10] 3 2) ∧
    (Lexer.mk ['x', ' ', Char.ofNat 10] 3 2).nextToken
      = .ok (⟨.END, "", 0, 2⟩, Lexer.mk ['x', ' ', Char.ofNat 10] 3 2) :=
  ⟨by decide,
    (end_of_input_is_sticky (Lexer.mk ['x', ' ', Char.ofNat 10] 1 1)
      (Lexer.mk ['x', ' ', Char.ofNat 10] 3 2) ⟨.END, "", 0, 2⟩ (by decide) rfl).1⟩

/-- The lookahead test `startswith` on a two-character pattern. -/
theorem Lexer.startswith_pair (lx : Lexer) (a b : Char) :
    lx.startswith [a, b] = true ↔ ∃ r, lx.rest = a :: b :: r := by
  unfold Lexer.startswith Lexer.rest
  rcases hrest : List.drop lx.i lx.src with _ | ⟨x, _ | ⟨y, r⟩⟩
  · simp
  · simp
  · simp

/-- The comment branch consumes at least one character and stays inside the source. -/
theorem Lexer.skipComment_advance {lx : Lexer} (h : lx.startswith ['/', '/'] = true) :
    lx.i < lx.skipComment.i ∧ lx.skipComment.i ≤ lx.src.length := by
  obtain ⟨r, hr⟩ := (lx.startswith_pair '/' '/').mp h
  unfold Lexer.rest at hr
  unfold Lexer.skipComment
  simp only [hr]
  constructor
  · rw [List.takeWhile_cons_of_pos (by decide)]
    simp
  · have hlen := (@List.takeWhile_prefix Char ('/' :: '/' :: r)
      (fun d => d != Char.ofNat 0 && d != Char.ofNat 10)).length_le
    have hdrop : ('/' :: '/' :: r).length = lx.src.length - lx.i := by
      rw [← hr, List.length_drop]
    have hlt : lx.i < lx.src.length := by
      by_contra hge
      rw [List.drop_eq_nil_of_le (Nat.le_of_not_lt hge)] at hr
      cases hr
    omega

/-- Beyond `src.length - i + 1` turns, one more turn of fuel changes nothing. -/
theorem nextTokenLoop_fuel_succ :
    ∀ (fuel : Nat) (lx : Lexer), lx.src.length - lx.i + 1 ≤ fuel →
      nextTokenLoop (fuel + 1) lx = nextTokenLoop fuel lx
  | 0, lx, h => absurd h (by omega)
  | fuel + 1, lx, h => by
    rw [nextTokenLoop_succ (fuel + 1) lx]
    conv_rhs => rw [nextTokenLoop_succ fuel lx]
    split_ifs with h0 hs hc
    · rfl
    · have hlt := Lexer.lt_length_of_peek h0
      apply nextTokenLoop_fuel_succ fuel
      simp only [Lexer.skipSpace]
      omega
    · have hadv := Lexer.skipComment_advance hc
      apply nextTokenLoop_fuel_succ fuel
      have hsrc : lx.skipComment.src = lx.src := rfl
      rw [hsrc]
      omega
    · rfl

/-- With at least `src.length - i + 1` turns of fuel the loop behaves as `nextToken`. -/
theorem nextTokenLoop_eq_nextToken (lx : Lexer) :
    ∀ (fuel : Nat), lx.src.length - lx.i + 1 ≤ fuel → nextTokenLoop fuel lx = lx.nextToken := by
  intro fuel h
  induction fuel with
  | zero => omega
  | succ n ih =>
    by_cases hn : lx.src.length - lx.i + 1 ≤ n
    · rw [nextTokenLoop_fuel_succ n lx hn]
      exact ih hn
    · have : n + 1 = lx.src.length - lx.i + 1 := by omega
      rw [this]
      rfl

/-- The whitespace branch: `nextToken` continues from the next character. -/
theorem Lexer.nextToken_skipSpace {lx : Lexer} (h : isspace lx.peek = true) :
    lx.nextToken = lx.skipSpace.nextToken := by
  have h0 : lx.peek ≠ Char.ofNat 0 := by
    intro hc
    rw [hc] at h
    revert h
    decide
  have hlt := Lexer.lt_length_of_peek h0
  rw [Lexer.nextToken_eq, nextTokenLoop_succ, if_neg h0, if_pos h]
  apply nextTokenLoop_eq_nextToken
  simp only [Lexer.skipSpace]
  omega

/-- The comment branch: `nextToken` continues after the comment. -/
theorem Lexer.nextToken_skipComment {lx : Lexer} (h : lx.startswith ['/', '/'] = true) :
    lx.nextToken = lx.skipComment.nextToken := by
  obtain ⟨r, hr⟩ := (lx.startswith_pair '/' '/').mp h
  have hpeek := Lexer.peek_of_rest hr
  have hadv := Lexer.skipComment_advance h
  rw [Lexer.nextToken_eq, nextTokenLoop_succ, hpeek, if_neg (by decide), if_neg (by decide),
    if_pos h]
  apply nextTokenLoop_eq_nextToken
  have hsrc : lx.skipComment.src = lx.src := rfl
  rw [hsrc]
  omega

/-- Skipping whitespace and comments first does not change what `nextToken` returns. -/
theorem Lexer.nextToken_of_skips {lx lx' : Lexer} (h : Skips lx lx') :
    lx.nextToken = lx'.nextToken := by
  induction h with
  | here lx => rfl
  | space hs _ ih => rw [Lexer.nextToken_skipSpace hs, ih]
  | comment hc _ ih => rw [Lexer.nextToken_skipComment hc, ih]

/-- At a character that is neither NUL, nor whitespace, nor the start of a comment,
`nextToken` returns the token that starts there. -/
theorem Lexer.nextToken_tokenHere {lx : Lexer} (h0 : lx.peek ≠ Char.ofNat 0)
    (hs : isspace lx.peek = false) (hc : lx.startswith ['/', '/'] = false) :
    lx.nextToken = lx.tokenHere := by
  rw [Lexer.nextToken_eq, nextTokenLoop_succ, if_neg h0, hs, hc]
  rfl

/-- The lookahead test fails when the first character differs. -/
theorem Lexer.startswith_pair_of_head_ne {lx : Lexer} {c : Char} {r : List Char}
    (hrest : lx.rest = c :: r) (a b : Char) (h : c ≠ a) : lx.startswith [a, b] = false := by
  rw [Bool.eq_false_iff]
  intro hs
  obtain ⟨r', hr'⟩ := (lx.startswith_pair a b).mp hs
  rw [hrest] at hr'
  injection hr' with h1 _
  exact h h1

/-- The lookahead test fails when the second character differs or is missing. -/
theorem Lexer.startswith_pair_of_second_ne {lx : Lexer} {c : Char} {r : List Char}
    (hrest : lx.rest = c :: r) (a b : Char) (h : r.head? ≠ some b) :
    lx.startswith [a, b] = false := by
  rw [Bool.eq_false_iff]
  intro hs
  obtain ⟨r', hr'⟩ := (lx.startswith_pair a b).mp hs
  rw [hrest] at hr'
  injection hr' with _ h2
  rw [h2] at h
  exact h rfl

/-- A remaining input that starts with `==` gives one EQ token of two characters. -/
theorem Lexer.nextToken_EQ {lx : Lexer} {r : List Char} (hrest : lx.rest = '=' :: '=' :: r) :
    lx.nextToken = .ok (⟨.EQ, "==", 0, lx.line⟩, { lx with i := lx.i + 2 }) := by
  have hpeek := Lexer.peek_of_rest hrest
  have hpos : lx.startswith ['=', '='] = true := (lx.startswith_pair '=' '=').mpr ⟨r, hrest⟩
  rw [Lexer.nextToken_tokenHere (by rw [hpeek]; decide) (by rw [hpeek]; decide)
    (Lexer.startswith_pair_of_head_ne hrest '/' '/' (by decide))]
  unfold Lexer.tokenHere
  simp only [hpeek]
  rw [if_neg (by decide), if_neg (by decide),
    if_pos hpos]

/-- A remaining input that starts with `!=` gives one NEQ token of two characters. -/
theorem Lexer.nextToken_NEQ {lx : Lexer} {r : List Char} (hrest : lx.rest = '!' :: '=' :: r) :
    lx.nextToken = .ok (⟨.NEQ, "!=", 0, lx.line⟩, { lx with i := lx.i + 2 }) := by
  have hpeek := Lexer.peek_of_rest hrest
  have hpos : lx.startswith ['!', '='] = true := (lx.startswith_pair '!' '=').mpr ⟨r, hrest⟩
  rw [Lexer.nextToken_tokenHere (by rw [hpeek]; decide) (by rw [hpeek]; decide)
    (Lexer.startswith_pair_of_head_ne hrest '/' '/' (by decide))]
  unfold Lexer.tokenHere
  simp only [hpeek]
  rw [if_neg (by decide), if_neg (by decide),
    if_neg (by rw [(Lexer.startswith_pair_of_head_ne hrest '=' '=' (by decide))]; decide),
    if_pos hpos]

/-- A remaining input that starts with `<=` gives one LTE token of two characters. -/
theorem Lexer.nextToken_LTE {lx : Lexer} {r : List Char} (hrest : lx.rest = '<' :: '=' :: r) :
    lx.nextToken = .ok (⟨.LTE, "<=", 0, lx.line⟩, { lx with i := lx.i + 2 }) := by
  have hpeek := Lexer.peek_of_rest hrest
  have hpos : lx.startswith ['<', '='] = true := (lx.startswith_pair '<' '=').mpr ⟨r, hrest⟩
  rw [Lexer.nextToken_tokenHere (by rw [hpeek]; decide) (by rw [hpeek]; decide)
    (Lexer.startswith_pair_of_head_ne hrest '/' '/' (by decide))]
  unfold Lexer.tokenHere
  simp only [hpeek]
  rw [if_neg (by decide), if_neg (by decide),
    if_neg (by rw [(Lexer.startswith_pair_of_head_ne hrest '=' '=' (by decide))]; decide),
    if_neg (by rw [(Lexer.startswith_pair_of_head_ne hrest '!' '=' (by decide))]; decide),
    if_pos hpos]

/-- A remaining input that starts with `>=` gives one GTE token of two characters. -/
theorem Lexer.nextToken_GTE {lx : Lexer} {r : List Char} (hrest : lx.rest = '>' :: '=' :: r) :
    lx.nextToken = .ok (⟨.GTE, ">=", 0, lx.line⟩, { lx with i := lx.i + 2 }) := by
  have hpeek := Lexer.peek_of_rest hrest
  have hpos : lx.startswith ['>', '='] = true := (lx.startswith_pair '>' '=').mpr ⟨r, hrest⟩
  rw [Lexer.nextToken_tokenHere (by rw [hpeek]; decide) (by rw [hpeek]; decide)
    (Lexer.startswith_pair_of_head_ne hrest '/' '/' (by decide))]
  unfold Lexer.tokenHere
  simp only [hpeek]
  rw [if_neg (by decide), if_neg (by decide),
    if_neg (by rw [(Lexer.startswith_pair_of_head_ne hrest '=' '=' (by decide))]; decide),
    if_neg (by rw [(Lexer.startswith_pair_of_head_ne hrest '!' '=' (by decide))]; decide),
    if_neg (by rw [(Lexer.startswith_pair_of_head_ne hrest '<' '=' (by decide))]; decide),
    if_pos hpos]

/-- A remaining input that starts with `=` not followed by `=` gives one ASSIGN token of one
character. -/
theorem Lexer.nextToken_ASSIGN {lx : Lexer} {r : List Char} (hrest : lx.rest = '=' :: r)
    (hnext : r.head? ≠ some '=') :
    lx.nextToken = .ok (⟨.ASSIGN, "=", 0, lx.line⟩, { lx with i := lx.i + 1 }) := by
  have hpeek := Lexer.peek_of_rest hrest
  rw [Lexer.nextToken_tokenHere (by rw [hpeek]; decide) (by rw [hpeek]; decide)
    (Lexer.startswith_pair_of_head_ne hrest '/' '/' (by decide))]
  unfold Lexer.tokenHere
  simp only [hpeek]
  rw [if_neg (by decide), if_neg (by decide),
    if_neg (by rw [(Lexer.startswith_pair_of_second_ne hrest '=' '=' hnext)]; decide),
    if_neg (by rw [(Lexer.startswith_pair_of_head_ne hrest '!' '=' (by decide))]; decide),
    if_neg (by rw [(Lexer.startswith_pair_of_head_ne hrest '<' '=' (by decide))]; decide),
    if_neg (by rw [(Lexer.startswith_pair_of_head_ne hrest '>' '=' (by decide))]; decide)]
  rfl

/-- A remaining input that starts with `<` not followed by `=` gives one LT token of one
character. -/
theorem Lexer.nextToken_LT {lx : Lexer} {r : List Char} (hrest : lx.rest = '<' :: r)
    (hnext : r.head? ≠ some '=') :
    lx.nextToken = .ok (⟨.LT, "<", 0, lx.line⟩, { lx with i := lx.i + 1 }) := by
  have hpeek := Lexer.peek_of_rest hrest
  rw [Lexer.nextToken_tokenHere (by rw [hpeek]; decide) (by rw [hpeek]; decide)
    (Lexer.startswith_pair_of_head_ne hrest '/' '/' (by decide))]
  unfold Lexer.tokenHere
  simp only [hpeek]
  rw [if_neg (by decide), if_neg (by decide),
    if_neg (by rw [(Lexer.startswith_pair_of_head_ne hrest '=' '=' (by decide))]; decide),
    if_neg (by rw [(Lexer.startswith_pair_of_head_ne hrest '!' '=' (by decide))]; decide),
    if_neg (by rw [(Lexer.startswith_pair_of_second_ne hrest '<' '=' hnext)]; decide),
    if_neg (by rw [(Lexer.startswith_pair_of_head_ne hrest '>' '=' (by decide))]; decide)]
  rfl

/-- A remaining input that starts with `>` not followed by `=` gives one GT token of one
character. -/
theorem Lexer.nextToken_GT {lx : Lexer} {r : List Char} (hrest : lx.rest = '>' :: r)
    (hnext : r.head? ≠ some '=') :
    lx.nextToken = .ok (⟨.GT, ">", 0, lx.line⟩, { lx with i := lx.i + 1 }) := by
  have hpeek := Lexer.peek_of_rest hrest
  rw [Lexer.nextToken_tokenHere (by rw [hpeek]; decide) (by rw [hpeek]; decide)
    (Lexer.startswith_pair_of_head_ne hrest '/' '/' (by decide))]
  unfold Lexer.tokenHere
  simp only [hpeek]
  rw [if_neg (by decide), if_neg (by decide),
    if_neg (by rw [(Lexer.startswith_pair_of_head_ne hrest '=' '=' (by decide))]; decide),
    if_neg (by rw [(Lexer.startswith_pair_of_head_ne hrest '!' '=' (by decide))]; decide),
    if_neg (by rw [(Lexer.startswith_pair_of_head_ne hrest '<' '=' (by decide))]; decide),
    if_neg (by rw [(Lexer.startswith_pair_of_second_ne hrest '>' '=' hnext)]; decide)]
  rfl

/-- C15. Two-character operators are recognised before single-character ones. Let `lx'` be
the lexer state that `nextToken`, called at `lx`, reaches after skipping whitespace and
comments. If the remaining input at `lx'` starts with `==`, `!=`, `<=` or `>=`, the call
returns one token of kind EQ, NEQ, LTE or GTE and consumes exactly two characters; if it
starts with `=`, `<` or `>` not followed by `=`, the call returns ASSIGN, LT or GT and
consumes one character. So `===` lexes as EQ, ASSIGN and `= =` as ASSIGN, ASSIGN. -/
theorem two_character_operators_first (lx lx' : Lexer) (hskip : Skips lx lx')
    (r : List Char) :
    (lx'.rest = '=' :: '=' :: r →
      lx.nextToken = .ok (⟨.EQ, "==", 0, lx'.line⟩, { lx' with i := lx'.i + 2 })) ∧
    (lx'.rest = '!' :: '=' :: r →
      lx.nextToken = .ok (⟨.NEQ, "!=", 0, lx'.line⟩, { lx' with i := lx'.i + 2 })) ∧
    (lx'.rest = '<' :: '=' :: r →
      lx.nextToken = .ok (⟨.LTE, "<=", 0, lx'.line⟩, { lx' with i := lx'.i + 2 })) ∧
    (lx'.rest = '>' :: '=' :: r →
      lx.nextToken = .ok (⟨.GTE, ">=", 0, lx'.line⟩, { lx' with i := lx'.i + 2 })) ∧
    (lx'.rest = '=' :: r → r.head? ≠ some '=' →
      lx.nextToken = .ok (⟨.ASSIGN, "=", 0, lx'.line⟩, { lx' with i := lx'.i + 1 })) ∧
    (lx'.rest = '<' :: r → r.head? ≠ some '=' →
      lx.nextToken = .ok (⟨.LT, "<", 0, lx'.line⟩, { lx' with i := lx'.i + 1 })) ∧
    (lx'.rest = '>' :: r → r.head? ≠ some '=' →
      lx.nextToken = .ok (⟨.GT, ">", 0, lx'.line⟩, { lx' with i := lx'.i + 1 })) ∧
    ((Lexer.init ['=', '=', '=']).nextToken
        = .ok (⟨.EQ, "==", 0, 1⟩, Lexer.mk ['=', '=', '='] 2 1) ∧
      (Lexer.mk ['=', '=', '='] 2 1).nextToken
        = .ok (⟨.ASSIGN, "=", 0, 1⟩, Lexer.mk ['=', '=', '='] 3 1) ∧
      (Lexer.mk ['=', '=', '='] 3 1).nextToken
        = .ok (⟨.END, "", 0, 1⟩, Lexer.mk ['=', '=', '='] 3 1)) ∧
    ((Lexer.init ['=', ' ', '=']).nextToken
        = .ok (⟨.ASSIGN, "=", 0, 1⟩, Lexer.mk ['=', ' ', '='] 1 1) ∧
      (Lexer.mk ['=', ' ', '='] 1 1).nextToken
        = .ok (⟨.ASSIGN, "=", 0, 1⟩, Lexer.mk ['=', ' ', '='] 3 1) ∧
      (Lexer.mk ['=', ' ', '='] 3 1).nextToken
        = .ok (⟨.END, "", 0, 1⟩, Lexer.mk ['=', ' ', '='] 3 1)) := by
  rw [Lexer.nextToken_of_skips hskip]
  exact ⟨Lexer.nextToken_EQ, Lexer.nextToken_NEQ, Lexer.nextToken_LTE, Lexer.nextToken_GTE,
    Lexer.nextToken_ASSIGN, Lexer.nextToken_LT, Lexer.nextToken_GT,
    ⟨by decide, by decide, by decide⟩, ⟨by decide, by decide, by decide⟩⟩

/-- Witness for C15: in the source `a`, blank, `<=`, `b` the call made after `a` skips the
blank and returns one LTE token, moving from index 1 to index 4. -/
theorem two_character_operators_first_witness :
    Skips (Lexer.mk ['a', ' ', '<', '=', 'b'] 1 1) (Lexer.mk ['a', ' ', '<', '=', 'b'] 2 1) ∧
    (Lexer.mk ['a', ' ', '<', '=', 'b'] 1 1).nextToken
      = .ok (⟨.LTE, "<=", 0, 1⟩, Lexer.mk ['a', ' ', '<', '=', 'b'] 4 1) :=
  ⟨Skips.space (by decide) (Skips.here _),
    (two_character_operators_first (Lexer.mk ['a', ' ', '<', '=', 'b'] 1 1)
      (Lexer.mk ['a', ' ', '<', '=', 'b'] 2 1) (Skips.space (by decide) (Skips.here _))
      ['b']).2.2.1 rfl⟩

/-- A character outside the list of single-character tokens falls to the `default:` case of
the `switch`. -/
theorem singleCharToken_none {c : Char} (line : Nat) (h : c ∉ singleChars) :
    singleCharToken c line = none := by
  unfold singleChars at h
  simp only [List.mem_cons, List.mem_singleton, not_or, List.not_mem_nil, not_false_eq_true,
    and_true] at h
  obtain ⟨h1, h2, h3, h4, h5, h6, h7, h8, h9, h10, h11, h12, h13⟩ := h
  unfold singleCharToken
  rw [if_neg h1, if_neg h2, if_neg h3, if_neg h4, if_neg h5, if_neg h6, if_neg h7, if_neg h8, if_neg h9, if_neg h10, if_neg h11, if_neg h12, if_neg h13]

/-- Consuming a stretch of the remaining input extends the consumed prefix by it. -/
theorem Lexer.take_advance {lx : Lexer} {p r : List Char} (hrest : lx.rest = p ++ r) :
    lx.src.take (lx.i + p.length) = lx.src.take lx.i ++ p := by
  unfold Lexer.rest at hrest
  rw [List.take_add, hrest, List.take_left]

/-- Consuming a stretch without a newline keeps the line counter right. -/
theorem Lexer.LineOk_advance {lx : Lexer} {p r : List Char} (hok : lx.LineOk)
    (hrest : lx.rest = p ++ r) (hnl : Char.ofNat 10 ∉ p) :
    Lexer.LineOk { lx with i := lx.i + p.length } := by
  unfold Lexer.LineOk at hok ⊢
  simp only
  rw [Lexer.take_advance hrest, List.count_append, List.count_eq_zero.mpr hnl]
  exact hok

/-- The remaining input splits into the run taken by `takeWhile` and what follows. -/
theorem Lexer.rest_takeWhile (lx : Lexer) (p : Char → Bool) :
    lx.rest = (lx.src.drop lx.i).takeWhile p ++ (lx.src.drop lx.i).dropWhile p := by
  unfold Lexer.rest
  rw [List.takeWhile_append_dropWhile]

/-- A run taken by `takeWhile` contains no character that fails the test. -/
theorem not_mem_takeWhile {p : Char → Bool} {c : Char} (l : List Char) (h : p c = false) :
    c ∉ l.takeWhile p := by
  intro hm
  have := List.mem_takeWhile_imp hm
  rw [h] at this
  cases this

/-- The whitespace branch keeps the line counter right. -/
theorem Lexer.LineOk_skipSpace {lx : Lexer} (hok : lx.LineOk)
    (h0 : lx.peek ≠ Char.ofNat 0) : lx.skipSpace.LineOk := by
  have hlt := Lexer.lt_length_of_peek h0
  have hrest : lx.rest = [lx.peek] ++ lx.src.drop (lx.i + 1) := by
    unfold Lexer.rest Lexer.peek
    rw [List.drop_eq_getElem_cons hlt, List.getD_eq_getElem?_getD]
    simp [hlt]
  unfold Lexer.LineOk at hok ⊢
  have htake := Lexer.take_advance hrest
  simp only [List.length_singleton] at htake
  simp only [Lexer.skipSpace]
  rw [htake, List.count_append, List.count_singleton]
  by_cases hnl : lx.peek = Char.ofNat 10
  · simp only [hnl, if_true, beq_self_eq_true]
    omega
  · have h1 : (if (lx.peek == Char.ofNat 10) = true then 1 else 0) = 0 := by simp [hnl]
    rw [if_neg hnl, h1]
    omega

/-- The comment branch keeps the line counter right. -/
theorem Lexer.LineOk_skipComment {lx : Lexer} (hok : lx.LineOk) : lx.skipComment.LineOk :=
  Lexer.LineOk_advance hok
    (lx.rest_takeWhile (fun d => d != Char.ofNat 0 && d != Char.ofNat 10))
    (not_mem_takeWhile _ (by decide))

/-- The token branches keep the line counter right. -/
theorem Lexer.LineOk_tokenHere {lx lx' : Lexer} {tok : Token} (hok : lx.LineOk)
    (h : lx.tokenHere = .ok (tok, lx')) : lx'.LineOk := by
  have two : ∀ a b : Char, a ≠ Char.ofNat 10 → b ≠ Char.ofNat 10 →
      lx.startswith [a, b] = true → Lexer.LineOk { lx with i := lx.i + 2 } := by
    intro a b ha hb hs
    obtain ⟨r, hr⟩ := (lx.startswith_pair a b).mp hs
    have hr' : lx.rest = [a, b] ++ r := hr
    exact Lexer.LineOk_advance hok hr' (by
      simp only [List.mem_cons, List.mem_singleton, List.not_mem_nil, or_false, not_or]
      exact ⟨fun h => ha h.symm, fun h => hb h.symm⟩)
  unfold Lexer.tokenHere at h
  simp only at h
  split_ifs at h with h1 h2 h3 h4 h5 h6
  · split at h
    · cases h
    · injection h with h
      injection h with _ hl
      subst hl
      exact Lexer.LineOk_advance hok (lx.rest_takeWhile isdigit)
        (not_mem_takeWhile _ (by decide))
  · injection h with h
    injection h with _ hl
    subst hl
    exact Lexer.LineOk_advance hok (lx.rest_takeWhile (fun d => isalnum d || d = '_'))
      (not_mem_takeWhile _ (by decide))
  · injection h with h
    injection h with _ hl
    subst hl
    exact two '=' '=' (by decide) (by decide) h3
  · injection h with h
    injection h with _ hl
    subst hl
    exact two '!' '=' (by decide) (by decide) h4
  · injection h with h
    injection h with _ hl
    subst hl
    exact two '<' '=' (by decide) (by decide) h5
  · injection h with h
    injection h with _ hl
    subst hl
    exact two '>' '=' (by decide) (by decide) h6
  · split at h
    · next tok' hs =>
      injection h with h
      injection h with _ hl
      subst hl
      obtain ⟨_, _, _, hc0, hc10⟩ := singleCharToken_some hs
      have hlt := Lexer.lt_length_of_peek hc0
      have hrest : lx.rest = [lx.peek] ++ lx.src.drop (lx.i + 1) := by
        unfold Lexer.rest Lexer.peek
        rw [List.drop_eq_getElem_cons hlt, List.getD_eq_getElem?_getD]
        simp [hlt]
      exact Lexer.LineOk_advance hok hrest (by
        simp only [List.mem_singleton]
        exact fun h => hc10 h.symm)
    · cases h

/-- The loop of `nextToken` keeps the line counter right. -/
theorem nextTokenLoop_LineOk :
    ∀ (fuel : Nat) (lx lx' : Lexer) (tok : Token), lx.LineOk →
      nextTokenLoop fuel lx = .ok (tok, lx') → lx'.LineOk
  | 0, lx, lx', tok, _, h => by simp [nextTokenLoop] at h
  | fuel + 1, lx, lx', tok, hok, h => by
    rw [nextTokenLoop_succ] at h
    split_ifs at h with h0 hs hc
    · injection h with h
      injection h with _ hl
      subst hl
      exact hok
    · exact nextTokenLoop_LineOk fuel _ _ _ (Lexer.LineOk_skipSpace hok h0) h
    · exact nextTokenLoop_LineOk fuel _ _ _ (Lexer.LineOk_skipComment hok) h
    · exact Lexer.LineOk_tokenHere hok h

/-- Every lexer state reached on `src` holds `src` and has a right line counter. -/
theorem ReachableFrom.source_and_line {src : List Char} {lx : Lexer} (h : ReachableFrom src lx) :
    lx.src = src ∧ lx.LineOk := by
  induction h with
  | init => exact ⟨rfl, rfl⟩
  | next _ hstep ih =>
    exact ⟨(nextTokenLoop_ok _ _ _ _ hstep).1.trans ih.1,
      nextTokenLoop_LineOk _ _ _ _ ih.2 hstep⟩

/-- Skipping whitespace and comments keeps the source and the line counter right. -/
theorem Skips.keeps_source_and_line {lx lx' : Lexer} (h : Skips lx lx') (hok : lx.LineOk) :
    lx'.src = lx.src ∧ lx'.LineOk := by
  induction h with
  | here lx => exact ⟨rfl, hok⟩
  | @space l l' hs _ ih =>
    have h0 : l.peek ≠ Char.ofNat 0 := fun hc => by
      rw [hc] at hs
      revert hs
      decide
    exact ⟨(ih (Lexer.LineOk_skipSpace hok h0)).1, (ih (Lexer.LineOk_skipSpace hok h0)).2⟩
  | comment hc _ ih =>
    exact ⟨(ih (Lexer.LineOk_skipComment hok)).1, (ih (Lexer.LineOk_skipComment hok)).2⟩

/-- At a character that starts no token, the token branches end in the lex error that
reports the character and the current line. -/
theorem Lexer.tokenHere_other {lx : Lexer} {c : Char} {r : List Char}
    (hrest : lx.rest = c :: r) (hother : OtherCharacter c r) :
    lx.tokenHere = .error (.unexpectedChar c lx.line) := by
  obtain ⟨_, hdigit, halpha, hunder, htwo, hsingle⟩ := hother
  have hpeek := Lexer.peek_of_rest hrest
  have pair : ∀ a : Char, (a = '=' ∨ a = '!' ∨ a = '<' ∨ a = '>') →
      ¬ lx.startswith [a, '='] = true := by
    intro a ha hs
    obtain ⟨r', hr'⟩ := (lx.startswith_pair a '=').mp hs
    rw [hrest] at hr'
    injection hr' with h1 h2
    subst h1 h2
    rw [startsTwoCharOp] at htwo
    rcases ha with h | h | h | h <;> subst h <;> revert htwo <;> decide
  unfold Lexer.tokenHere
  simp only [hpeek]
  rw [if_neg (by rw [hdigit]; decide), if_neg (by simp [halpha, hunder]),
    if_neg (pair '=' (Or.inl rfl)), if_neg (pair '!' (Or.inr (Or.inl rfl))),
    if_neg (pair '<' (Or.inr (Or.inr (Or.inl rfl)))),
    if_neg (pair '>' (Or.inr (Or.inr (Or.inr rfl)))), singleCharToken_none lx.line hsingle]

/-- C16 (amended). Any other character except NUL is a fatal lex error. On a source `src`,
let `lx` be a lexer state reached by successive calls of `nextToken` and `lx'` the state the
next call reaches after skipping whitespace and comments. If the character `c` found there
is not NUL and is neither whitespace, a digit, a letter, an underscore, the start of `==`,
`!=`, `<=`, `>=`, nor one of `+ - * / % = < > ( ) { } ;`, then the call fails with the lex
error that reports `c` and the line number 1 plus the number of newline characters before
`c` in `src`; no token is returned. -/
theorem other_character_is_lex_error (src : List Char) (lx lx' : Lexer) (c : Char)
    (r : List Char) (hreach : ReachableFrom src lx) (hskip : Skips lx lx')
    (hrest : lx'.rest = c :: r) (hnul : c ≠ Char.ofNat 0) (hother : OtherCharacter c r) :
    lx.nextToken
      = .error (.unexpectedChar c (1 + (src.take lx'.i).count (Char.ofNat 10))) := by
  obtain ⟨hsrc, hok⟩ := hreach.source_and_line
  obtain ⟨hsrc', hok'⟩ := hskip.keeps_source_and_line hok
  have hpeek := Lexer.peek_of_rest hrest
  have hslash : c ≠ '/' := by
    intro hc
    apply hother.2.2.2.2.2
    rw [hc]
    decide
  rw [Lexer.nextToken_of_skips hskip,
    Lexer.nextToken_tokenHere (by rw [hpeek]; exact hnul) (by rw [hpeek]; exact hother.1)
      (Lexer.startswith_pair_of_head_ne hrest '/' '/' hslash),
    Lexer.tokenHere_other hrest hother]
  unfold Lexer.LineOk at hok'
  rw [hok', hsrc', hsrc]

/-- C16 (counterexample). In the two-character source NUL, `$` the first character reached
by `nextToken` is NUL, which is neither whitespace, a digit, a letter, an underscore, the
start of a two-character operator nor a single-character token; yet the call does not fail:
it returns the END token and stays at position 0. -/
theorem nul_character_is_not_a_lex_error :
    ReachableFrom [Char.ofNat 0, '$'] (Lexer.init [Char.ofNat 0, '$']) ∧
    Skips (Lexer.init [Char.ofNat 0, '$']) (Lexer.init [Char.ofNat 0, '$']) ∧
    (Lexer.init [Char.ofNat 0, '$']).rest = Char.ofNat 0 :: ['$'] ∧
    OtherCharacter (Char.ofNat 0) ['$'] ∧
    (Lexer.init [Char.ofNat 0, '$']).nextToken
      = .ok (⟨.END, "", 0, 1⟩, Lexer.init [Char.ofNat 0, '$']) ∧
    (Lexer.init [Char.ofNat 0, '$']).nextToken ≠ .error (.unexpectedChar (Char.ofNat 0) 1) := by
  refine ⟨ReachableFrom.init, Skips.here _, rfl, ?_, by decide, by decide⟩
  unfold OtherCharacter singleChars
  decide

/-- Witness for C16 (amended): in the source `a`, newline, `$` the call made after `a` skips
the newline and fails on `$`, reporting line 2. -/
theorem other_character_is_lex_error_witness :
    ReachableFrom ['a', Char.ofNat 10, '$'] (Lexer.mk ['a', Char.ofNat 10, '$'] 1 1) ∧
    (Lexer.mk ['a', Char.ofNat 10, '$'] 1 1).nextToken
      = .error (.unexpectedChar '$'
          (1 + (['a', Char.ofNat 10, '$'].take 2).count (Char.ofNat 10))) ∧
    1 + (['a', Char.ofNat 10, '$'].take 2).count (Char.ofNat 10) = 2 := by
  have hreach : ReachableFrom ['a', Char.ofNat 10, '$']
      (Lexer.mk ['a', Char.ofNat 10, '$'] 1 1) :=
    @ReachableFrom.next _ (Lexer.init ['a', Char.ofNat 10, '$']) _ ⟨.IDENT, "a", 0, 1⟩
      ReachableFrom.init (by decide)
  have hskip : Skips (Lexer.mk ['a', Char.ofNat 10, '$'] 1 1)
      (Lexer.mk ['a', Char.ofNat 10, '$'] 2 2) :=
    Skips.space (by decide) (Skips.here _)
  refine ⟨hreach, ?_, by decide⟩
  exact other_character_is_lex_error ['a', Char.ofNat 10, '$'] _ _ '$' [] hreach hskip rfl
    (by decide) (by unfold OtherCharacter singleChars; decide)

/-! ## The parser: fuel and related states -/

/-- The expression-parsing methods respect every relation of parser states that `eat`
respects, and more fuel never changes a success. -/
theorem exprSim {R : Parser → Parser → Prop} (hS : ParserSim R) :
    ∀ (fuel fuel' : Nat), fuel ≤ fuel' → ExprSim R fuel fuel'
  | 0, _, _ => by
    constructor <;> intros <;> rename_i h <;> simp [parseExpr, parseEquality,
      parseEqualityLoop, parseComparison, parseComparisonLoop, parseTerm, parseTermLoop,
      parseFactor, parseFactorLoop, parseUnary, parsePrimary] at h
  | fuel + 1, 0, hle => absurd hle (by omega)
  | fuel + 1, m + 1, hle => by
    have IH := exprSim hS fuel m (Nat.le_of_succ_le_succ hle)
    constructor
    · -- parseExpr
      intro p q a p' hR h
      rw [parseExpr] at h ⊢
      exact IH.equality p q a p' hR h
    · -- parseEquality
      intro p q a p' hR h
      rw [parseEquality] at h ⊢
      cases h1 : parseComparison fuel p with
      | error e =>
        simp only [h1] at h
        cases h
      | ok v =>
        obtain ⟨left, p1⟩ := v
        simp only [h1] at h
        obtain ⟨q1, hq1, hR1⟩ := IH.comparison p q left p1 hR h1
        simp only [hq1]
        exact IH.equalityLoop left p1 q1 a p' hR1 h
    · -- parseEqualityLoop
      intro left p q a p' hR h
      rw [parseEqualityLoop] at h ⊢
      rw [← hS.cur hR]
      split_ifs at h ⊢ with hc
      · cases he : p.eat p.cur.type with
        | error e =>
          simp only [he] at h
          cases h
        | ok p1 =>
          simp only [he] at h
          obtain ⟨q1, hq1, hR1⟩ := hS.eat _ hR he
          simp only [hq1]
          cases h2 : parseComparison fuel p1 with
          | error e =>
            simp only [h2] at h
            cases h
          | ok v =>
            obtain ⟨right, p2⟩ := v
            simp only [h2] at h
            obtain ⟨q2, hq2, hR2⟩ := IH.comparison p1 q1 right p2 hR1 h2
            simp only [hq2]
            exact IH.equalityLoop _ p2 q2 a p' hR2 h
      · injection h with h
        injection h with ha hp
        subst ha hp
        exact ⟨q, rfl, hR⟩
    · -- parseComparison
      intro p q a p' hR h
      rw [parseComparison] at h ⊢
      cases h1 : parseTerm fuel p with
      | error e =>
        simp only [h1] at h
        cases h
      | ok v =>
        obtain ⟨left, p1⟩ := v
        simp only [h1] at h
        obtain ⟨q1, hq1, hR1⟩ := IH.term p q left p1 hR h1
        simp only [hq1]
        exact IH.comparisonLoop left p1 q1 a p' hR1 h
    · -- parseComparisonLoop
      intro left p q a p' hR h
      rw [parseComparisonLoop] at h ⊢
      rw [← hS.cur hR]
      split_ifs at h ⊢ with hc
      · cases he : p.eat p.cur.type with
        | error e =>
          simp only [he] at h
          cases h
        | ok p1 =>
          simp only [he] at h
          obtain ⟨q1, hq1, hR1⟩ := hS.eat _ hR he
          simp only [hq1]
          cases h2 : parseTerm fuel p1 with
          | error e =>
            simp only [h2] at h
            cases h
          | ok v =>
            obtain ⟨right, p2⟩ := v
            simp only [h2] at h
            obtain ⟨q2, hq2, hR2⟩ := IH.term p1 q1 right p2 hR1 h2
            simp only [hq2]
            exact IH.comparisonLoop _ p2 q2 a p' hR2 h
      · injection h with h
        injection h with ha hp
        subst ha hp
        exact ⟨q, rfl, hR⟩
    · -- parseTerm
      intro p q a p' hR h
      rw [parseTerm] at h ⊢
      cases h1 : parseFactor fuel p with
      | error e =>
        simp only [h1] at h
        cases h
      | ok v =>
        obtain ⟨left, p1⟩ := v
        simp only [h1] at h
        obtain ⟨q1, hq1, hR1⟩ := IH.factor p q left p1 hR h1
        simp only [hq1]
        exact IH.termLoop left p1 q1 a p' hR1 h
    · -- parseTermLoop
      intro left p q a p' hR h
      rw [parseTermLoop] at h ⊢
      rw [← hS.cur hR]
      split_ifs at h ⊢ with hc
      · cases he : p.eat p.cur.type with
        | error e =>
          simp only [he] at h
          cases h
        | ok p1 =>
          simp only [he] at h
          obtain ⟨q1, hq1, hR1⟩ := hS.eat _ hR he
          simp only [hq1]
          cases h2 : parseFactor fuel p1 with
          | error e =>
            simp only [h2] at h
            cases h
          | ok v =>
            obtain ⟨right, p2⟩ := v
            simp only [h2] at h
            obtain ⟨q2, hq2, hR2⟩ := IH.factor p1 q1 right p2 hR1 h2
            simp only [hq2]
            exact IH.termLoop _ p2 q2 a p' hR2 h
      · injection h with h
        injection h with ha hp
        subst ha hp
        exact ⟨q, rfl, hR⟩
    · -- parseFactor
      intro p q a p' hR h
      rw [parseFactor] at h ⊢
      cases h1 : parseUnary fuel p with
      | error e =>
        simp only [h1] at h
        cases h
      | ok v =>
        obtain ⟨left, p1⟩ := v
        simp only [h1] at h
        obtain ⟨q1, hq1, hR1⟩ := IH.unary p q left p1 hR h1
        simp only [hq1]
        exact IH.factorLoop left p1 q1 a p' hR1 h
    · -- parseFactorLoop
      intro left p q a p' hR h
      rw [parseFactorLoop] at h ⊢
      rw [← hS.cur hR]
      split_ifs at h ⊢ with hc
      · cases he : p.eat p.cur.type with
        | error e =>
          simp only [he] at h
          cases h
        | ok p1 =>
          simp only [he] at h
          obtain ⟨q1, hq1, hR1⟩ := hS.eat _ hR he
          simp only [hq1]
          cases h2 : parseUnary fuel p1 with
          | error e =>
            simp only [h2] at h
            cases h
          | ok v =>
            obtain ⟨right, p2⟩ := v
            simp only [h2] at h
            obtain ⟨q2, hq2, hR2⟩ := IH.unary p1 q1 right p2 hR1 h2
            simp only [hq2]
            exact IH.factorLoop _ p2 q2 a p' hR2 h
      · injection h with h
        injection h with ha hp
        subst ha hp
        exact ⟨q, rfl, hR⟩
    · -- parseUnary
      intro p q a p' hR h
      rw [parseUnary] at h ⊢
      rw [← hS.cur hR]
      split_ifs at h ⊢ with hplus hminus
      · cases he : p.eat .PLUS with
        | error e =>
          simp only [he] at h
          cases h
        | ok p1 =>
          simp only [he] at h
          obtain ⟨q1, hq1, hR1⟩ := hS.eat _ hR he
          simp only [hq1]
          exact IH.unary p1 q1 a p' hR1 h
      · cases he : p.eat .MINUS with
        | error e =>
          simp only [he] at h
          cases h
        | ok p1 =>
          simp only [he] at h
          obtain ⟨q1, hq1, hR1⟩ := hS.eat _ hR he
          simp only [hq1]
          cases h2 : parseUnary fuel p1 with
          | error e =>
            simp only [h2] at h
            cases h
          | ok v =>
            obtain ⟨r, p2⟩ := v
            simp only [h2] at h
            obtain ⟨q2, hq2, hR2⟩ := IH.unary p1 q1 r p2 hR1 h2
            simp only [hq2]
            injection h with h
            injection h with ha hp
            subst ha hp
            exact ⟨q2, rfl, hR2⟩
      · exact IH.primary p q a p' hR h
    · -- parsePrimary
      intro p q a p' hR h
      rw [parsePrimary] at h ⊢
      rw [← hS.cur hR]
      split_ifs at h ⊢ with hint hident hparen
      · cases he : p.eat .INT_LIT with
        | error e =>
          simp only [he] at h
          cases h
        | ok p1 =>
          simp only [he] at h
          obtain ⟨q1, hq1, hR1⟩ := hS.eat _ hR he
          simp only [hq1]
          injection h with h
          injection h with ha hp
          subst ha hp
          exact ⟨q1, rfl, hR1⟩
      · cases he : p.eat .IDENT with
        | error e =>
          simp only [he] at h
          cases h
        | ok p1 =>
          simp only [he] at h
          obtain ⟨q1, hq1, hR1⟩ := hS.eat _ hR he
          simp only [hq1]
          injection h with h
          injection h with ha hp
          subst ha hp
          exact ⟨q1, rfl, hR1⟩
      · cases he : p.eat .LPAREN with
        | error e =>
          simp only [he] at h
          cases h
        | ok p1 =>
          simp only [he] at h
          obtain ⟨q1, hq1, hR1⟩ := hS.eat _ hR he
          simp only [hq1]
          cases h2 : parseExpr fuel p1 with
          | error e =>
            simp only [h2] at h
            cases h
          | ok v =>
            obtain ⟨e, p2⟩ := v
            simp only [h2] at h
            obtain ⟨q2, hq2, hR2⟩ := IH.expr p1 q1 e p2 hR1 h2
            simp only [hq2]
            cases he3 : p2.eat .RPAREN with
            | error e =>
              simp only [he3] at h
              cases h
            | ok p3 =>
              simp only [he3] at h
              obtain ⟨q3, hq3, hR3⟩ := hS.eat _ hR2 he3
              simp only [hq3]
              injection h with h
              injection h with ha hp
              subst ha hp
              exact ⟨q3, rfl, hR3⟩

/-- Equality of parser states is respected by `eat`. -/
theorem parserSim_eq : ParserSim (fun p q : Parser => p = q) where
  cur := by
    intro p q h
    rw [h]
  eat := by
    intro p q t p' h he
    exact ⟨p', (by rw [← h]; exact he), rfl⟩

/-- More fuel never changes a success of `parsePrimary`. -/
theorem parsePrimary_mono {fuel fuel' : Nat} (hle : fuel ≤ fuel') {p p' : Parser} {a : Expr}
    (h : parsePrimary fuel p = .ok (a, p')) : parsePrimary fuel' p = .ok (a, p') := by
  obtain ⟨q', hq, hR⟩ := (exprSim parserSim_eq fuel fuel' hle).primary p p a p' rfl h
  rw [hq, hR]

/-- More fuel never changes a success of `parseUnary`. -/
theorem parseUnary_mono {fuel fuel' : Nat} (hle : fuel ≤ fuel') {p p' : Parser} {a : Expr}
    (h : parseUnary fuel p = .ok (a, p')) : parseUnary fuel' p = .ok (a, p') := by
  obtain ⟨q', hq, hR⟩ := (exprSim parserSim_eq fuel fuel' hle).unary p p a p' rfl h
  rw [hq, hR]

/-- More fuel never changes a success of `parseFactor`. -/
theorem parseFactor_mono {fuel fuel' : Nat} (hle : fuel ≤ fuel') {p p' : Parser} {a : Expr}
    (h : parseFactor fuel p = .ok (a, p')) : parseFactor fuel' p = .ok (a, p') := by
  obtain ⟨q', hq, hR⟩ := (exprSim parserSim_eq fuel fuel' hle).factor p p a p' rfl h
  rw [hq, hR]

/-- More fuel never changes a success of `parseTerm`. -/
theorem parseTerm_mono {fuel fuel' : Nat} (hle : fuel ≤ fuel') {p p' : Parser} {a : Expr}
    (h : parseTerm fuel p = .ok (a, p')) : parseTerm fuel' p = .ok (a, p') := by
  obtain ⟨q', hq, hR⟩ := (exprSim parserSim_eq fuel fuel' hle).term p p a p' rfl h
  rw [hq, hR]

/-- More fuel never changes a success of `parseComparison`. -/
theorem parseComparison_mono {fuel fuel' : Nat} (hle : fuel ≤ fuel') {p p' : Parser}
    {a : Expr} (h : parseComparison fuel p = .ok (a, p')) :
    parseComparison fuel' p = .ok (a, p') := by
  obtain ⟨q', hq, hR⟩ := (exprSim parserSim_eq fuel fuel' hle).comparison p p a p' rfl h
  rw [hq, hR]

/-- More fuel never changes a success of `parseExpr`. -/
theorem parseExpr_mono {fuel fuel' : Nat} (hle : fuel ≤ fuel') {p p' : Parser} {a : Expr}
    (h : parseExpr fuel p = .ok (a, p')) : parseExpr fuel' p = .ok (a, p') := by
  obtain ⟨q', hq, hR⟩ := (exprSim parserSim_eq fuel fuel' hle).expr p p a p' rfl h
  rw [hq, hR]

/-! ## The parser: how the levels compose -/

/-- A success at some fuel is a success for all larger fuel. -/
theorem Eventually.of_mono {β : Type} {g : Nat → FrontResult β} {r : β} {f : Nat}
    (hmono : ∀ fuel, f ≤ fuel → g f = .ok r → g fuel = .ok r) (h : g f = .ok r) :
    Eventually g r :=
  ⟨f, fun fuel hle => hmono fuel hle h⟩

/-- A token read by `eat` is canonical. -/
theorem Parser.eat_canonical {p p' : Parser} {t : TokenType} (h : p.eat t = .ok p') :
    p'.cur.Canonical := by
  unfold Parser.eat at h
  split_ifs at h
  cases hn : p.lex.nextToken with
  | error e =>
    simp only [hn] at h
    cases h
  | ok v =>
    obtain ⟨tok, lx⟩ := v
    simp only [hn] at h
    injection h with h
    subst h
    exact (nextTokenLoop_ok _ _ _ _ hn).2.1

/-- A success of `parsePrimary` starts at an integer, an identifier or a parenthesis and ends
right after an `eat`. -/
theorem parsePrimary_ok {fuel : Nat} {p p' : Parser} {a : Expr}
    (h : parsePrimary fuel p = .ok (a, p')) :
    (p.cur.type = .INT_LIT ∨ p.cur.type = .IDENT ∨ p.cur.type = .LPAREN) ∧
      p'.cur.Canonical := by
  cases fuel with
  | zero => simp [parsePrimary] at h
  | succ fuel =>
    rw [parsePrimary] at h
    split_ifs at h with hint hident hparen
    · cases he : p.eat .INT_LIT with
      | error e =>
        simp only [he] at h
        cases h
      | ok p1 =>
        simp only [he] at h
        injection h with h
        injection h with _ hp
        subst hp
        exact ⟨Or.inl hint, Parser.eat_canonical he⟩
    · cases he : p.eat .IDENT with
      | error e =>
        simp only [he] at h
        cases h
      | ok p1 =>
        simp only [he] at h
        injection h with h
        injection h with _ hp
        subst hp
        exact ⟨Or.inr (Or.inl hident), Parser.eat_canonical he⟩
    · cases he : p.eat .LPAREN with
      | error e =>
        simp only [he] at h
        cases h
      | ok p1 =>
        simp only [he] at h
        cases h2 : parseExpr fuel p1 with
        | error e =>
          simp only [h2] at h
          cases h
        | ok v =>
          obtain ⟨e, p2⟩ := v
          simp only [h2] at h
          cases he3 : p2.eat .RPAREN with
          | error e =>
            simp only [he3] at h
            cases h
          | ok p3 =>
            simp only [he3] at h
            injection h with h
            injection h with _ hp
            subst hp
            exact ⟨Or.inr (Or.inr hparen), Parser.eat_canonical he3⟩

/-- A primary is a unary: `parseUnary` hands over to `parsePrimary` when the current token is
neither `+` nor `-`. -/
theorem Eventually.unary_of_primary {fuel : Nat} {p p' : Parser} {a : Expr}
    (h : parsePrimary fuel p = .ok (a, p')) :
    Eventually (fun n => parseUnary n p) (a, p') := by
  obtain ⟨hstart, _⟩ := parsePrimary_ok h
  refine ⟨fuel + 1, fun n hn => ?_⟩
  obtain ⟨k, rfl⟩ : ∃ k, n = k + 1 := ⟨n - 1, by omega⟩
  beta_reduce
  rw [parseUnary]
  have h1 : ¬ p.cur.type = .PLUS := by
    rcases hstart with h | h | h <;> rw [h] <;> decide
  have h2 : ¬ p.cur.type = .MINUS := by
    rcases hstart with h | h | h <;> rw [h] <;> decide
  rw [if_neg h1, if_neg h2]
  exact parsePrimary_mono (by omega) h

/-- The loop of `parseEquality` stops at a token that is not an operator of its level. -/
theorem Eventually.equalityLoop_stop {p : Parser} (left : Expr)
    (hstop : ¬ IsEqualityOp p.cur.type) :
    Eventually (fun n => parseEqualityLoop n left p) (left, p) := by
  refine ⟨1, fun n hn => ?_⟩
  obtain ⟨k, rfl⟩ : ∃ k, n = k + 1 := ⟨n - 1, by omega⟩
  beta_reduce
  unfold IsEqualityOp at hstop
  rw [parseEqualityLoop, if_neg hstop]

/-- One turn of the loop of `parseEquality`: the operator is eaten, the right operand parsed, and
the loop goes on with the `Binary` node built from them. -/
theorem Eventually.equalityLoop_step {p p1 p2 p' : Parser} {left right a : Expr}
    (hop : IsEqualityOp p.cur.type) (heat : p.eat p.cur.type = .ok p1)
    (hsub : Eventually (fun n => parseComparison n p1) (right, p2))
    (hrest : Eventually (fun n => parseEqualityLoop n (.Binary p.cur.text left right) p2)
      (a, p')) :
    Eventually (fun n => parseEqualityLoop n left p) (a, p') := by
  obtain ⟨F1, h1⟩ := hsub
  obtain ⟨F2, h2⟩ := hrest
  refine ⟨max F1 F2 + 1, fun n hn => ?_⟩
  obtain ⟨k, rfl⟩ : ∃ k, n = k + 1 := ⟨n - 1, by omega⟩
  beta_reduce
  have hk1 : F1 ≤ k := by omega
  have hk2 : F2 ≤ k := by omega
  have e1 := h1 k hk1
  have e2 := h2 k hk2
  simp only at e1 e2
  unfold IsEqualityOp at hop
  rw [parseEqualityLoop, if_pos hop]
  simp only [heat, e1, e2]

/-- The method `parseEquality`: one operand of the next level, then the loop. -/
theorem Eventually.equality_of {p p1 p' : Parser} {left a : Expr}
    (hsub : Eventually (fun n => parseComparison n p) (left, p1))
    (hloop : Eventually (fun n => parseEqualityLoop n left p1) (a, p')) :
    Eventually (fun n => parseEquality n p) (a, p') := by
  obtain ⟨F1, h1⟩ := hsub
  obtain ⟨F2, h2⟩ := hloop
  refine ⟨max F1 F2 + 1, fun n hn => ?_⟩
  obtain ⟨k, rfl⟩ : ∃ k, n = k + 1 := ⟨n - 1, by omega⟩
  beta_reduce
  have hk1 : F1 ≤ k := by omega
  have hk2 : F2 ≤ k := by omega
  have e1 := h1 k hk1
  have e2 := h2 k hk2
  simp only at e1 e2
  rw [parseEquality]
  simp only [e1, e2]

/-- The loop of `parseComparison` stops at a token that is not an operator of its level. -/
theorem Eventually.comparisonLoop_stop {p : Parser} (left : Expr)
    (hstop : ¬ IsComparisonOp p.cur.type) :
    Eventually (fun n => parseComparisonLoop n left p) (left, p) := by
  refine ⟨1, fun n hn => ?_⟩
  obtain ⟨k, rfl⟩ : ∃ k, n = k + 1 := ⟨n - 1, by omega⟩
  beta_reduce
  unfold IsComparisonOp at hstop
  rw [parseComparisonLoop, if_neg hstop]

/-- One turn of the loop of `parseComparison`: the operator is eaten, the right operand parsed, and
the loop goes on with the `Binary` node built from them. -/
theorem Eventually.comparisonLoop_step {p p1 p2 p' : Parser} {left right a : Expr}
    (hop : IsComparisonOp p.cur.type) (heat : p.eat p.cur.type = .ok p1)
    (hsub : Eventually (fun n => parseTerm n p1) (right, p2))
    (hrest : Eventually (fun n => parseComparisonLoop n (.Binary p.cur.text left right) p2)
      (a, p')) :
    Eventually (fun n => parseComparisonLoop n left p) (a, p') := by
  obtain ⟨F1, h1⟩ := hsub
  obtain ⟨F2, h2⟩ := hrest
  refine ⟨max F1 F2 + 1, fun n hn => ?_⟩
  obtain ⟨k, rfl⟩ : ∃ k, n = k + 1 := ⟨n - 1, by omega⟩
  beta_reduce
  have hk1 : F1 ≤ k := by omega
  have hk2 : F2 ≤ k := by omega
  have e1 := h1 k hk1
  have e2 := h2 k hk2
  simp only at e1 e2
  unfold IsComparisonOp at hop
  rw [parseComparisonLoop, if_pos hop]
  simp only [heat, e1, e2]

/-- The method `parseComparison`: one operand of the next level, then the loop. -/
theorem Eventually.comparison_of {p p1 p' : Parser} {left a : Expr}
    (hsub : Eventually (fun n => parseTerm n p) (left, p1))
    (hloop : Eventually (fun n => parseComparisonLoop n left p1) (a, p')) :
    Eventually (fun n => parseComparison n p) (a, p') := by
  obtain ⟨F1, h1⟩ := hsub
  obtain ⟨F2, h2⟩ := hloop
  refine ⟨max F1 F2 + 1, fun n hn => ?_⟩
  obtain ⟨k, rfl⟩ : ∃ k, n = k + 1 := ⟨n - 1, by omega⟩
  beta_reduce
  have hk1 : F1 ≤ k := by omega
  have hk2 : F2 ≤ k := by omega
  have e1 := h1 k hk1
  have e2 := h2 k hk2
  simp only at e1 e2
  rw [parseComparison]
  simp only [e1, e2]

/-- The loop of `parseTerm` stops at a token that is not an operator of its level. -/
theorem Eventually.termLoop_stop {p : Parser} (left : Expr)
    (hstop : ¬ IsTermOp p.cur.type) :
    Eventually (fun n => parseTermLoop n left p) (left, p) := by
  refine ⟨1, fun n hn => ?_⟩
  obtain ⟨k, rfl⟩ : ∃ k, n = k + 1 := ⟨n - 1, by omega⟩
  beta_reduce
  unfold IsTermOp at hstop
  rw [parseTermLoop, if_neg hstop]

/-- One turn of the loop of `parseTerm`: the operator is eaten, the right operand parsed, and
the loop goes on with the `Binary` node built from them. -/
theorem Eventually.termLoop_step {p p1 p2 p' : Parser} {left right a : Expr}
    (hop : IsTermOp p.cur.type) (heat : p.eat p.cur.type = .ok p1)
    (hsub : Eventually (fun n => parseFactor n p1) (right, p2))
    (hrest : Eventually (fun n => parseTermLoop n (.Binary p.cur.text left right) p2)
      (a, p')) :
    Eventually (fun n => parseTermLoop n left p) (a, p') := by
  obtain ⟨F1, h1⟩ := hsub
  obtain ⟨F2, h2⟩ := hrest
  refine ⟨max F1 F2 + 1, fun n hn => ?_⟩
  obtain ⟨k, rfl⟩ : ∃ k, n = k + 1 := ⟨n - 1, by omega⟩
  beta_reduce
  have hk1 : F1 ≤ k := by omega
  have hk2 : F2 ≤ k := by omega
  have e1 := h1 k hk1
  have e2 := h2 k hk2
  simp only at e1 e2
  unfold IsTermOp at hop
  rw [parseTermLoop, if_pos hop]
  simp only [heat, e1, e2]

/-- The method `parseTerm`: one operand of the next level, then the loop. -/
theorem Eventually.term_of {p p1 p' : Parser} {left a : Expr}
    (hsub : Eventually (fun n => parseFactor n p) (left, p1))
    (hloop : Eventually (fun n => parseTermLoop n left p1) (a, p')) :
    Eventually (fun n => parseTerm n p) (a, p') := by
  obtain ⟨F1, h1⟩ := hsub
  obtain ⟨F2, h2⟩ := hloop
  refine ⟨max F1 F2 + 1, fun n hn => ?_⟩
  obtain ⟨k, rfl⟩ : ∃ k, n = k + 1 := ⟨n - 1, by omega⟩
  beta_reduce
  have hk1 : F1 ≤ k := by omega
  have hk2 : F2 ≤ k := by omega
  have e1 := h1 k hk1
  have e2 := h2 k hk2
  simp only at e1 e2
  rw [parseTerm]
  simp only [e1, e2]

/-- The loop of `parseFactor` stops at a token that is not an operator of its level. -/
theorem Eventually.factorLoop_stop {p : Parser} (left : Expr)
    (hstop : ¬ IsFactorOp p.cur.type) :
    Eventually (fun n => parseFactorLoop n left p) (left, p) := by
  refine ⟨1, fun n hn => ?_⟩
  obtain ⟨k, rfl⟩ : ∃ k, n = k + 1 := ⟨n - 1, by omega⟩
  beta_reduce
  unfold IsFactorOp at hstop
  rw [parseFactorLoop, if_neg hstop]

/-- One turn of the loop of `parseFactor`: the operator is eaten, the right operand parsed, and
the loop goes on with the `Binary` node built from them. -/
theorem Eventually.factorLoop_step {p p1 p2 p' : Parser} {left right a : Expr}
    (hop : IsFactorOp p.cur.type) (heat : p.eat p.cur.type = .ok p1)
    (hsub : Eventually (fun n => parseUnary n p1) (right, p2))
    (hrest : Eventually (fun n => parseFactorLoop n (.Binary p.cur.text left right) p2)
      (a, p')) :
    Eventually (fun n => parseFactorLoop n left p) (a, p') := by
  obtain ⟨F1, h1⟩ := hsub
  obtain ⟨F2, h2⟩ := hrest
  refine ⟨max F1 F2 + 1, fun n hn => ?_⟩
  obtain ⟨k, rfl⟩ : ∃ k, n = k + 1 := ⟨n - 1, by omega⟩
  beta_reduce
  have hk1 : F1 ≤ k := by omega
  have hk2 : F2 ≤ k := by omega
  have e1 := h1 k hk1
  have e2 := h2 k hk2
  simp only at e1 e2
  unfold IsFactorOp at hop
  rw [parseFactorLoop, if_pos hop]
  simp only [heat, e1, e2]

/-- The method `parseFactor`: one operand of the next level, then the loop. -/
theorem Eventually.factor_of {p p1 p' : Parser} {left a : Expr}
    (hsub : Eventually (fun n => parseUnary n p) (left, p1))
    (hloop : Eventually (fun n => parseFactorLoop n left p1) (a, p')) :
    Eventually (fun n => parseFactor n p) (a, p') := by
  obtain ⟨F1, h1⟩ := hsub
  obtain ⟨F2, h2⟩ := hloop
  refine ⟨max F1 F2 + 1, fun n hn => ?_⟩
  obtain ⟨k, rfl⟩ : ∃ k, n = k + 1 := ⟨n - 1, by omega⟩
  beta_reduce
  have hk1 : F1 ≤ k := by omega
  have hk2 : F2 ≤ k := by omega
  have e1 := h1 k hk1
  have e2 := h2 k hk2
  simp only at e1 e2
  rw [parseFactor]
  simp only [e1, e2]

/-- The method `parseExpr` is `parseEquality`. -/
theorem Eventually.expr_of {p p' : Parser} {a : Expr}
    (h : Eventually (fun n => parseEquality n p) (a, p')) :
    Eventually (fun n => parseExpr n p) (a, p') := by
  obtain ⟨F, hF⟩ := h
  refine ⟨F + 1, fun n hn => ?_⟩
  obtain ⟨k, rfl⟩ : ∃ k, n = k + 1 := ⟨n - 1, by omega⟩
  beta_reduce
  rw [parseExpr]
  exact hF k (by omega)

/-- A primary followed by a token that is no factor operator is a factor. -/
theorem Eventually.factor_of_primary {fuel : Nat} {p p' : Parser} {a : Expr}
    (h : parsePrimary fuel p = .ok (a, p')) (h1 : ¬ IsFactorOp p'.cur.type) :
    Eventually (fun n => parseFactor n p) (a, p') :=
  Eventually.factor_of (Eventually.unary_of_primary h) (Eventually.factorLoop_stop a h1)

/-- A primary followed by a token that is no factor or term operator is a term. -/
theorem Eventually.term_of_primary {fuel : Nat} {p p' : Parser} {a : Expr}
    (h : parsePrimary fuel p = .ok (a, p')) (h1 : ¬ IsFactorOp p'.cur.type)
    (h2 : ¬ IsTermOp p'.cur.type) :
    Eventually (fun n => parseTerm n p) (a, p') :=
  Eventually.term_of (Eventually.factor_of_primary h h1) (Eventually.termLoop_stop a h2)

/-- A primary followed by a token that is no factor, term or comparison operator is a
comparison. -/
theorem Eventually.comparison_of_primary {fuel : Nat} {p p' : Parser} {a : Expr}
    (h : parsePrimary fuel p = .ok (a, p')) (h1 : ¬ IsFactorOp p'.cur.type)
    (h2 : ¬ IsTermOp p'.cur.type) (h3 : ¬ IsComparisonOp p'.cur.type) :
    Eventually (fun n => parseComparison n p) (a, p') :=
  Eventually.comparison_of (Eventually.term_of_primary h h1 h2)
    (Eventually.comparisonLoop_stop a h3)

/-- A term followed by a token that is no comparison or equality operator is an
expression. -/
theorem Eventually.expr_of_term {p p' : Parser} {a : Expr}
    (h : Eventually (fun n => parseTerm n p) (a, p')) (h3 : ¬ IsComparisonOp p'.cur.type)
    (h4 : ¬ IsEqualityOp p'.cur.type) :
    Eventually (fun n => parseExpr n p) (a, p') :=
  Eventually.expr_of (Eventually.equality_of
    (Eventually.comparison_of h (Eventually.comparisonLoop_stop a h3))
    (Eventually.equalityLoop_stop a h4))

/-- The text of a canonical token of a given operator kind. -/
theorem Token.Canonical.text_eq {tok : Token} (hc : tok.Canonical) {t : TokenType}
    {s : String} (ht : tok.type = t) (hs : opText t = some s) : tok.text = s :=
  hc s (by rw [ht]; exact hs)

/-- The source `a = 1; b = 2; print(a + b * 3);`. -/
theorem parseSource_precedenceSource :
    parseSource precedenceSource
      = .ok [.AssignStmt "a" (.IntLit 1), .AssignStmt "b" (.IntLit 2),
          .PrintStmt (.Binary "+" (.VarExpr "a") (.Binary "*" (.VarExpr "b") (.IntLit 3)))] := by
  decide!

/-- C11. Operator precedence follows the grammar levels. Let `a`, `b`, `c` be primaries
parsed one after the other, from `p0` to `p1`, from `p2` to `p3` and from `p4` to `p5`, with
one operator token eaten between `p1` and `p2` and one between `p3` and `p4`, and let the
token after `c` be no binary operator. Then, for all large enough fuel, `parseExpr` at `p0`
returns `Binary(+, a, Binary(*, b, c))` for `a + b * c`, `Binary(+, Binary(*, a, b), c)` for
`a * b + c`, `Binary(<, a, Binary(+, b, c))` for `a < b + c` and
`Binary(==, a, Binary(<, b, c))` for `a == b < c`. Consequently the program
`a = 1; b = 2; print(a + b * 3);` prints 7. -/
theorem operator_precedence (p0 p1 p2 p3 p4 p5 : Parser) (a b c : Expr) (fa fb fc : Nat)
    (ha : parsePrimary fa p0 = .ok (a, p1)) (he1 : p1.eat p1.cur.type = .ok p2)
    (hb : parsePrimary fb p2 = .ok (b, p3)) (he2 : p3.eat p3.cur.type = .ok p4)
    (hc : parsePrimary fc p4 = .ok (c, p5)) (hend : ¬ IsBinaryOp p5.cur.type) :
    (p1.cur.type = .PLUS → p3.cur.type = .MUL →
      Eventually (fun n => parseExpr n p0) (.Binary "+" a (.Binary "*" b c), p5)) ∧
    (p1.cur.type = .MUL → p3.cur.type = .PLUS →
      Eventually (fun n => parseExpr n p0) (.Binary "+" (.Binary "*" a b) c, p5)) ∧
    (p1.cur.type = .LT → p3.cur.type = .PLUS →
      Eventually (fun n => parseExpr n p0) (.Binary "<" a (.Binary "+" b c), p5)) ∧
    (p1.cur.type = .EQ → p3.cur.type = .LT →
      Eventually (fun n => parseExpr n p0) (.Binary "==" a (.Binary "<" b c), p5)) ∧
    (∀ fuel, (runSource fuel precedenceSource).outcome = .finished ∧
      (runSource fuel precedenceSource).output = [7]) := by
  have hcan1 := (parsePrimary_ok ha).2
  have hcan3 := (parsePrimary_ok hb).2
  have e4 : ¬ IsEqualityOp p5.cur.type := fun h => hend (Or.inl h)
  have e3 : ¬ IsComparisonOp p5.cur.type := fun h => hend (Or.inr (Or.inl h))
  have e2 : ¬ IsTermOp p5.cur.type := fun h => hend (Or.inr (Or.inr (Or.inl h)))
  have e1 : ¬ IsFactorOp p5.cur.type := fun h => hend (Or.inr (Or.inr (Or.inr h)))
  refine ⟨?_, ?_, ?_, ?_, ?_⟩
  · -- a + b * c
    intro h1 h3
    have t1 := hcan1.text_eq h1 rfl
    have t3 := hcan3.text_eq h3 rfl
    have hfa : Eventually (fun n => parseFactor n p0) (a, p1) :=
      Eventually.factor_of_primary ha (by rw [h1]; unfold IsFactorOp; decide)
    have hfb : Eventually (fun n => parseFactor n p2) (.Binary "*" b c, p5) := by
      apply Eventually.factor_of (Eventually.unary_of_primary hb)
      apply Eventually.factorLoop_step (by rw [h3]; exact Or.inl rfl) (by rw [h3] at he2 ⊢; exact he2)
        (Eventually.unary_of_primary hc)
      rw [t3]
      exact Eventually.factorLoop_stop _ e1
    have hterm : Eventually (fun n => parseTerm n p0) (.Binary "+" a (.Binary "*" b c), p5) := by
      apply Eventually.term_of hfa
      apply Eventually.termLoop_step (by rw [h1]; exact Or.inl rfl) he1 hfb
      rw [t1]
      exact Eventually.termLoop_stop _ e2
    exact Eventually.expr_of_term hterm e3 e4
  · -- a * b + c
    intro h1 h3
    have t1 := hcan1.text_eq h1 rfl
    have t3 := hcan3.text_eq h3 rfl
    have hfa : Eventually (fun n => parseFactor n p0) (.Binary "*" a b, p3) := by
      apply Eventually.factor_of (Eventually.unary_of_primary ha)
      apply Eventually.factorLoop_step (by rw [h1]; exact Or.inl rfl) he1
        (Eventually.unary_of_primary hb)
      rw [t1]
      exact Eventually.factorLoop_stop _ (by rw [h3]; unfold IsFactorOp; decide)
    have hfc : Eventually (fun n => parseFactor n p4) (c, p5) :=
      Eventually.factor_of_primary hc e1
    have hterm : Eventually (fun n => parseTerm n p0) (.Binary "+" (.Binary "*" a b) c, p5) := by
      apply Eventually.term_of hfa
      apply Eventually.termLoop_step (by rw [h3]; exact Or.inl rfl) he2 hfc
      rw [t3]
      exact Eventually.termLoop_stop _ e2
    exact Eventually.expr_of_term hterm e3 e4
  · -- a < b + c
    intro h1 h3
    have t1 := hcan1.text_eq h1 rfl
    have t3 := hcan3.text_eq h3 rfl
    have hta : Eventually (fun n => parseTerm n p0) (a, p1) :=
      Eventually.term_of_primary ha (by rw [h1]; unfold IsFactorOp; decide)
        (by rw [h1]; unfold IsTermOp; decide)
    have htb : Eventually (fun n => parseTerm n p2) (.Binary "+" b c, p5) := by
      apply Eventually.term_of
        (Eventually.factor_of_primary hb (by rw [h3]; unfold IsFactorOp; decide))
      apply Eventually.termLoop_step (by rw [h3]; exact Or.inl rfl) he2
        (Eventually.factor_of_primary hc e1)
      rw [t3]
      exact Eventually.termLoop_stop _ e2
    apply Eventually.expr_of
    apply Eventually.equality_of _ (Eventually.equalityLoop_stop _ e4)
    apply Eventually.comparison_of hta
    apply Eventually.comparisonLoop_step (by rw [h1]; exact Or.inl rfl) he1 htb
    rw [t1]
    exact Eventually.comparisonLoop_stop _ e3
  · -- a == b < c
    intro h1 h3
    have t1 := hcan1.text_eq h1 rfl
    have t3 := hcan3.text_eq h3 rfl
    have hca : Eventually (fun n => parseComparison n p0) (a, p1) :=
      Eventually.comparison_of_primary ha (by rw [h1]; unfold IsFactorOp; decide)
        (by rw [h1]; unfold IsTermOp; decide) (by rw [h1]; unfold IsComparisonOp; decide)
    have hcb : Eventually (fun n => parseComparison n p2) (.Binary "<" b c, p5) := by
      apply Eventually.comparison_of
        (Eventually.term_of_primary hb (by rw [h3]; unfold IsFactorOp; decide)
          (by rw [h3]; unfold IsTermOp; decide))
      apply Eventually.comparisonLoop_step (by rw [h3]; exact Or.inl rfl) he2
        (Eventually.term_of_primary hc e1 e2)
      rw [t3]
      exact Eventually.comparisonLoop_stop _ e3
    apply Eventually.expr_of
    apply Eventually.equality_of hca
    apply Eventually.equalityLoop_step (by rw [h1]; exact Or.inl rfl) he1 hcb
    rw [t1]
    exact Eventually.equalityLoop_stop _ e4
  · intro fuel
    rw [runSource_executed fuel parseSource_precedenceSource
      (show semanticCheckBlock _ ∅ = .ok (insert "b" (insert "a" ∅)) by rfl)
      (show foldConstantsInBlock _
        = .ok [.AssignStmt "a" (.IntLit 1), .AssignStmt "b" (.IntLit 2),
            .PrintStmt (.Binary "+" (.VarExpr "a") (.Binary "*" (.VarExpr "b") (.IntLit 3)))]
        by decide)]
    exact ⟨rfl, rfl⟩

/-- Witness for C11: over the text `a + b * c;` the six parser states are the ones reached
after 0 to 5 tokens, and the expression is `Binary(+, a, Binary(*, b, c))`. -/
theorem operator_precedence_witness :
    Eventually (fun n => parseExpr n (tokenState "a + b * c;".toList 0))
      (.Binary "+" (.VarExpr "a") (.Binary "*" (.VarExpr "b") (.VarExpr "c")),
        tokenState "a + b * c;".toList 5) :=
  (operator_precedence (tokenState "a + b * c;".toList 0) (tokenState "a + b * c;".toList 1)
    (tokenState "a + b * c;".toList 2) (tokenState "a + b * c;".toList 3)
    (tokenState "a + b * c;".toList 4) (tokenState "a + b * c;".toList 5)
    (.VarExpr "a") (.VarExpr "b") (.VarExpr "c") 1 1 1
    (by decide!) (by decide!) (by decide!) (by decide!) (by decide!) (by decide!)).1
    (by decide!) (by decide!)

/-! ## The parser: chains of one level -/

/-- The token kinds of the four levels are disjoint. -/
theorem IsBinaryOp.level_unique (t : TokenType) :
    (IsTermOp t → ¬ IsFactorOp t) ∧ (IsComparisonOp t → ¬ IsFactorOp t) ∧
    (IsComparisonOp t → ¬ IsTermOp t) ∧ (IsEqualityOp t → ¬ IsFactorOp t) ∧
    (IsEqualityOp t → ¬ IsTermOp t) ∧ (IsEqualityOp t → ¬ IsComparisonOp t) := by
  unfold IsFactorOp IsTermOp IsComparisonOp IsEqualityOp
  cases t <;> simp

/-- The token that follows the first primary of a chain is an operator of the level, or the
token after the chain. -/
theorem PrimaryChain.head {IsOp : TokenType → Prop} {p pend : Parser}
    {items : List (String × Expr)} (h : PrimaryChain IsOp p items pend)
    (hend : ¬ IsBinaryOp pend.cur.type) : IsOp p.cur.type ∨ ¬ IsBinaryOp p.cur.type := by
  cases h with
  | nil => exact Or.inr hend
  | cons f hop _ _ _ _ => exact Or.inl hop

/-- The fold of a chain that starts with one more item. -/
theorem leftFold_cons (x0 : Expr) (s : String) (x : Expr) (rest : List (String × Expr)) :
    leftFold x0 ((s, x) :: rest) = leftFold (.Binary s x0 x) rest := rfl

/-- After a primary of a `factor` chain, no operator of a tighter level follows. -/
theorem PrimaryChain.factor_tighter {t : TokenType} (h : IsFactorOp t ∨ ¬ IsBinaryOp t) :
    True := by
  rcases h with h | h
  · trivial
  · trivial

/-- The loop of `parseFactor` folds a chain of its level to the left. -/
theorem PrimaryChain.factorLoop {p pend : Parser} {items : List (String × Expr)}
    (h : PrimaryChain IsFactorOp p items pend) :
    p.cur.Canonical → ¬ IsBinaryOp pend.cur.type → ∀ left : Expr,
      Eventually (fun n => parseFactorLoop n left p) (leftFold left items, pend) := by
  induction h with
  | nil p =>
    intro _ hend left
    exact Eventually.factorLoop_stop left (fun h => hend (Or.inr (Or.inr (Or.inr h))))
  | cons f hop hs heat hprim hrest ih =>
    intro hcan hend left
    have htext := hcan _ hs
    apply Eventually.factorLoop_step hop heat (Eventually.unary_of_primary hprim)
    rw [htext, leftFold_cons]
    exact ih (parsePrimary_ok hprim).2 hend _

/-- After a primary of a `term` chain, no operator of a tighter level follows. -/
theorem PrimaryChain.term_tighter {t : TokenType} (h : IsTermOp t ∨ ¬ IsBinaryOp t) :
    ¬ IsFactorOp t := by
  rcases h with h | h
  · exact (IsBinaryOp.level_unique t).1 h
  · exact fun h => ‹¬ IsBinaryOp t› (Or.inr (Or.inr (Or.inr h)))

/-- The loop of `parseTerm` folds a chain of its level to the left. -/
theorem PrimaryChain.termLoop {p pend : Parser} {items : List (String × Expr)}
    (h : PrimaryChain IsTermOp p items pend) :
    p.cur.Canonical → ¬ IsBinaryOp pend.cur.type → ∀ left : Expr,
      Eventually (fun n => parseTermLoop n left p) (leftFold left items, pend) := by
  induction h with
  | nil p =>
    intro _ hend left
    exact Eventually.termLoop_stop left (fun h => hend (Or.inr (Or.inr (Or.inl h))))
  | cons f hop hs heat hprim hrest ih =>
    intro hcan hend left
    have htext := hcan _ hs
    have ht := PrimaryChain.term_tighter (hrest.head hend)
    apply Eventually.termLoop_step hop heat (Eventually.factor_of_primary hprim ht)
    rw [htext, leftFold_cons]
    exact ih (parsePrimary_ok hprim).2 hend _

/-- After a primary of a `comparison` chain, no operator of a tighter level follows. -/
theorem PrimaryChain.comparison_tighter {t : TokenType} (h : IsComparisonOp t ∨ ¬ IsBinaryOp t) :
    ¬ IsFactorOp t ∧ ¬ IsTermOp t := by
  rcases h with h | h
  · exact ⟨(IsBinaryOp.level_unique t).2.1 h, (IsBinaryOp.level_unique t).2.2.1 h⟩
  · exact ⟨fun h => ‹¬ IsBinaryOp t› (Or.inr (Or.inr (Or.inr h))), fun h => ‹¬ IsBinaryOp t› (Or.inr (Or.inr (Or.inl h)))⟩

/-- The loop of `parseComparison` folds a chain of its level to the left. -/
theorem PrimaryChain.comparisonLoop {p pend : Parser} {items : List (String × Expr)}
    (h : PrimaryChain IsComparisonOp p items pend) :
    p.cur.Canonical → ¬ IsBinaryOp pend.cur.type → ∀ left : Expr,
      Eventually (fun n => parseComparisonLoop n left p) (leftFold left items, pend) := by
  induction h with
  | nil p =>
    intro _ hend left
    exact Eventually.comparisonLoop_stop left (fun h => hend (Or.inr (Or.inl h)))
  | cons f hop hs heat hprim hrest ih =>
    intro hcan hend left
    have htext := hcan _ hs
    have ht := PrimaryChain.comparison_tighter (hrest.head hend)
    apply Eventually.comparisonLoop_step hop heat (Eventually.term_of_primary hprim ht.1 ht.2)
    rw [htext, leftFold_cons]
    exact ih (parsePrimary_ok hprim).2 hend _

/-- After a primary of a `equality` chain, no operator of a tighter level follows. -/
theorem PrimaryChain.equality_tighter {t : TokenType} (h : IsEqualityOp t ∨ ¬ IsBinaryOp t) :
    ¬ IsFactorOp t ∧ ¬ IsTermOp t ∧ ¬ IsComparisonOp t := by
  rcases h with h | h
  · exact ⟨(IsBinaryOp.level_unique t).2.2.2.1 h, (IsBinaryOp.level_unique t).2.2.2.2.1 h, (IsBinaryOp.level_unique t).2.2.2.2.2 h⟩
  · exact ⟨fun h => ‹¬ IsBinaryOp t› (Or.inr (Or.inr (Or.inr h))), fun h => ‹¬ IsBinaryOp t› (Or.inr (Or.inr (Or.inl h))), fun h => ‹¬ IsBinaryOp t› (Or.inr (Or.inl h))⟩

/-- The loop of `parseEquality` folds a chain of its level to the left. -/
theorem PrimaryChain.equalityLoop {p pend : Parser} {items : List (String × Expr)}
    (h : PrimaryChain IsEqualityOp p items pend) :
    p.cur.Canonical → ¬ IsBinaryOp pend.cur.type → ∀ left : Expr,
      Eventually (fun n => parseEqualityLoop n left p) (leftFold left items, pend) := by
  induction h with
  | nil p =>
    intro _ hend left
    exact Eventually.equalityLoop_stop left (fun h => hend (Or.inl h))
  | cons f hop hs heat hprim hrest ih =>
    intro hcan hend left
    have htext := hcan _ hs
    have ht := PrimaryChain.equality_tighter (hrest.head hend)
    apply Eventually.equalityLoop_step hop heat (Eventually.comparison_of_primary hprim ht.1 ht.2.1 ht.2.2)
    rw [htext, leftFold_cons]
    exact ih (parsePrimary_ok hprim).2 hend _

/-- The source `print(10 - 3 - 2);`. -/
theorem parseSource_chainSource :
    parseSource "print(10 - 3 - 2);".toList
      = .ok [.PrintStmt (.Binary "-" (.Binary "-" (.IntLit 10) (.IntLit 3)) (.IntLit 2))] := by
  decide!

/-- C12. All binary levels are left-associative. Let `x0` be a primary parsed from `p0` to
`p1`, followed by a chain `op1 x1 ... opn xn` of operators of one level (multiplicative,
additive, comparison or equality), each followed by a primary, and let the token after the
chain be no binary operator. Then, for all large enough fuel, `parseExpr` at `p0` returns the
left fold `Binary(opn, ... Binary(op1, x0, x1) ..., xn)` and stops after the chain. The text
`10 - 3 - 2` parses as `Binary(-, Binary(-, 10, 3), 2)`, which evaluates to 5. -/
theorem left_associative (p0 p1 pend : Parser) (x0 : Expr) (f0 : Nat)
    (items : List (String × Expr)) (h0 : parsePrimary f0 p0 = .ok (x0, p1))
    (hchain : PrimaryChain IsFactorOp p1 items pend ∨ PrimaryChain IsTermOp p1 items pend ∨
      PrimaryChain IsComparisonOp p1 items pend ∨ PrimaryChain IsEqualityOp p1 items pend)
    (hend : ¬ IsBinaryOp pend.cur.type) :
    Eventually (fun n => parseExpr n p0) (leftFold x0 items, pend) ∧
    leftFold (.IntLit 10) [("-", .IntLit 3), ("-", .IntLit 2)]
      = .Binary "-" (.Binary "-" (.IntLit 10) (.IntLit 3)) (.IntLit 2) ∧
    parseSource "print(10 - 3 - 2);".toList
      = .ok [.PrintStmt (.Binary "-" (.Binary "-" (.IntLit 10) (.IntLit 3)) (.IntLit 2))] ∧
    (∀ env, eval env (.Binary "-" (.Binary "-" (.IntLit 10) (.IntLit 3)) (.IntLit 2))
      = .ok 5) ∧
    (∀ fuel, (runSource fuel "print(10 - 3 - 2);".toList).output = [5]) := by
  have hcan := (parsePrimary_ok h0).2
  have e4 : ¬ IsEqualityOp pend.cur.type := fun h => hend (Or.inl h)
  have e3 : ¬ IsComparisonOp pend.cur.type := fun h => hend (Or.inr (Or.inl h))
  have e2 : ¬ IsTermOp pend.cur.type := fun h => hend (Or.inr (Or.inr (Or.inl h)))
  refine ⟨?_, rfl, parseSource_chainSource, fun env => by simp [eval, evalBinary, wrap64], ?_⟩
  · rcases hchain with h | h | h | h
    · apply Eventually.expr_of_term _ e3 e4
      exact Eventually.term_of
        (Eventually.factor_of (Eventually.unary_of_primary h0) (h.factorLoop hcan hend x0))
        (Eventually.termLoop_stop _ e2)
    · have ht := PrimaryChain.term_tighter (h.head hend)
      apply Eventually.expr_of_term _ e3 e4
      exact Eventually.term_of (Eventually.factor_of_primary h0 ht) (h.termLoop hcan hend x0)
    · have ht := PrimaryChain.comparison_tighter (h.head hend)
      apply Eventually.expr_of
      apply Eventually.equality_of _ (Eventually.equalityLoop_stop _ e4)
      exact Eventually.comparison_of (Eventually.term_of_primary h0 ht.1 ht.2)
        (h.comparisonLoop hcan hend x0)
    · have ht := PrimaryChain.equality_tighter (h.head hend)
      apply Eventually.expr_of
      exact Eventually.equality_of (Eventually.comparison_of_primary h0 ht.1 ht.2.1 ht.2.2)
        (h.equalityLoop hcan hend x0)
  · intro fuel
    rw [runSource_executed fuel parseSource_chainSource
      (show semanticCheckBlock _ ∅ = .ok ∅ by rfl)
      (show foldConstantsInBlock _ = .ok [.PrintStmt (.IntLit 5)] by decide)]
    rfl

/-- Witness for C12: over the text `10 - 3 - 2;` the chain `- 3 - 2` follows the primary
`10`, and the expression is `Binary(-, Binary(-, 10, 3), 2)`. -/
theorem left_associative_witness :
    Eventually (fun n => parseExpr n (tokenState "10 - 3 - 2;".toList 0))
      (.Binary "-" (.Binary "-" (.IntLit 10) (.IntLit 3)) (.IntLit 2),
        tokenState "10 - 3 - 2;".toList 5) :=
  (left_associative (tokenState "10 - 3 - 2;".toList 0) (tokenState "10 - 3 - 2;".toList 1)
    (tokenState "10 - 3 - 2;".toList 5) (.IntLit 10) 1
    [("-", .IntLit 3), ("-", .IntLit 2)] (by decide!)
    (Or.inr (Or.inl
      (@PrimaryChain.cons IsTermOp (tokenState "10 - 3 - 2;".toList 1)
        (tokenState "10 - 3 - 2;".toList 2) (tokenState "10 - 3 - 2;".toList 3)
        (tokenState "10 - 3 - 2;".toList 5) "-" (.IntLit 3) [("-", .IntLit 2)] 1
        (by decide!) (by decide!) (by decide!) (by decide!)
        (@PrimaryChain.cons IsTermOp (tokenState "10 - 3 - 2;".toList 3)
          (tokenState "10 - 3 - 2;".toList 4) (tokenState "10 - 3 - 2;".toList 5)
          (tokenState "10 - 3 - 2;".toList 5) "-" (.IntLit 2) [] 1
          (by decide!) (by decide!) (by decide!) (by decide!)
          (PrimaryChain.nil _)))))
    (by decide!)).1

/-! ## Unary operators -/

/-- The token after a unary expression is canonical. -/
theorem parseUnary_canonical : ∀ (fuel : Nat) {p p' : Parser} {a : Expr},
    parseUnary fuel p = .ok (a, p') → p'.cur.Canonical
  | 0, p, p', a, h => by simp [parseUnary] at h
  | fuel + 1, p, p', a, h => by
    rw [parseUnary] at h
    split_ifs at h with h1 h2
    · cases he : p.eat .PLUS with
      | error e => simp only [he] at h; cases h
      | ok p1 =>
        simp only [he] at h
        exact parseUnary_canonical fuel h
    · cases he : p.eat .MINUS with
      | error e => simp only [he] at h; cases h
      | ok p1 =>
        simp only [he] at h
        cases hu : parseUnary fuel p1 with
        | error e => simp only [hu] at h; cases h
        | ok r =>
          obtain ⟨r, p2⟩ := r
          simp only [hu] at h
          cases h
          exact parseUnary_canonical fuel hu
    · exact (parsePrimary_ok h).2

/-- A unary minus in front of a unary expression. -/
theorem parseUnary_minus {p p1 p2 : Parser} {x : Expr} {f : Nat}
    (hm : p.cur.type = .MINUS) (heat : p.eat .MINUS = .ok p1)
    (hx : parseUnary f p1 = .ok (x, p2)) :
    ∀ n, f < n → parseUnary n p = .ok (.Binary "-" (.IntLit 0) x, p2) := by
  intro n hn
  obtain ⟨k, rfl⟩ : ∃ k, n = k + 1 := ⟨n - 1, by omega⟩
  have hk := parseUnary_mono (show f ≤ k by omega) hx
  rw [parseUnary, if_neg (by rw [hm]; decide), if_pos hm]
  simp only [heat, hk]

/-- A unary plus in front of a unary expression. -/
theorem parseUnary_plus {p p1 p2 : Parser} {x : Expr} {f : Nat}
    (hm : p.cur.type = .PLUS) (heat : p.eat .PLUS = .ok p1)
    (hx : parseUnary f p1 = .ok (x, p2)) :
    ∀ n, f < n → parseUnary n p = .ok (x, p2) := by
  intro n hn
  obtain ⟨k, rfl⟩ : ∃ k, n = k + 1 := ⟨n - 1, by omega⟩
  have hk := parseUnary_mono (show f ≤ k by omega) hx
  rw [parseUnary, if_pos hm]
  simp only [heat, hk]

/-- C13. Unary operators. Let the unary operand parse to `x` from `p1` to `p2`
(`parseUnary`), and let `p1` be reached from `p` by eating the current token of `p`. If that
token is `-`, `parseUnary` at `p` returns `Binary("-", IntLit(0), x)`; if it is `+`, it
returns exactly `x`. The operators nest: a further `-` in front gives
`Binary(-, 0, Binary(-, 0, x))`, a further `+` changes nothing. They bind tighter than `*`,
`/`, `%`: when `-u` is followed by such an operator and a unary operand `v`, `parseFactor`
returns `Binary(op, Binary(-, 0, x), v)`. -/
theorem unary_operators (p p1 p2 : Parser) (x : Expr) (f : Nat)
    (heat : p.eat p.cur.type = .ok p1) (hx : parseUnary f p1 = .ok (x, p2)) :
    (p.cur.type = .MINUS →
      ∀ n, f < n → parseUnary n p = .ok (.Binary "-" (.IntLit 0) x, p2)) ∧
    (p.cur.type = .PLUS → ∀ n, f < n → parseUnary n p = .ok (x, p2)) ∧
    (p.cur.type = .MINUS → ∀ q : Parser, q.cur.type = .MINUS → q.eat .MINUS = .ok p →
      ∀ n, f + 1 < n →
        parseUnary n q = .ok (.Binary "-" (.IntLit 0) (.Binary "-" (.IntLit 0) x), p2)) ∧
    (p.cur.type = .MINUS → ∀ q : Parser, q.cur.type = .PLUS → q.eat .PLUS = .ok p →
      ∀ n, f + 1 < n → parseUnary n q = .ok (.Binary "-" (.IntLit 0) x, p2)) ∧
    (p.cur.type = .MINUS → ∀ (p3 p4 : Parser) (v : Expr) (g : Nat) (s : String),
      IsFactorOp p2.cur.type → opText p2.cur.type = some s → p2.eat p2.cur.type = .ok p3 →
      parseUnary g p3 = .ok (v, p4) → ¬ IsFactorOp p4.cur.type →
      Eventually (fun n => parseFactor n p)
        (.Binary s (.Binary "-" (.IntLit 0) x) v, p4)) := by
  refine ⟨?_, ?_, ?_, ?_, ?_⟩
  · intro hm
    rw [hm] at heat
    exact parseUnary_minus hm heat hx
  · intro hm
    rw [hm] at heat
    exact parseUnary_plus hm heat hx
  · intro hm q hq hqe
    rw [hm] at heat
    exact parseUnary_minus hq hqe (parseUnary_minus hm heat hx (f + 1) (Nat.lt_succ_self f))
  · intro hm q hq hqe
    rw [hm] at heat
    exact parseUnary_plus hq hqe (parseUnary_minus hm heat hx (f + 1) (Nat.lt_succ_self f))
  · intro hm p3 p4 v g s hop hs he3 hv hstop
    rw [hm] at heat
    have htext := parseUnary_canonical f hx s hs
    have hu : Eventually (fun n => parseUnary n p) (.Binary "-" (.IntLit 0) x, p2) :=
      ⟨f + 1, fun n hn => parseUnary_minus hm heat hx n hn⟩
    have hv2 : Eventually (fun n => parseUnary n p3) (v, p4) :=
      ⟨g, fun n hn => parseUnary_mono hn hv⟩
    apply Eventually.factor_of hu
    apply Eventually.factorLoop_step hop he3 hv2
    rw [htext]
    exact Eventually.factorLoop_stop _ hstop

/-- Witness for C13: over the text `-2 * 3;` the operand `2` is parsed between the states
after 1 and 2 tokens, and `parseFactor` returns `Binary(*, Binary(-, 0, 2), 3)`. -/
theorem unary_operators_witness :
    (∀ n, 2 < n → parseUnary n (tokenState "-2 * 3;".toList 0)
      = .ok (.Binary "-" (.IntLit 0) (.IntLit 2), tokenState "-2 * 3;".toList 2)) ∧
    Eventually (fun n => parseFactor n (tokenState "-2 * 3;".toList 0))
      (.Binary "*" (.Binary "-" (.IntLit 0) (.IntLit 2)) (.IntLit 3),
        tokenState "-2 * 3;".toList 4) :=
  ⟨(unary_operators (tokenState "-2 * 3;".toList 0) (tokenState "-2 * 3;".toList 1)
      (tokenState "-2 * 3;".toList 2) (.IntLit 2) 2 (by decide!) (by decide!)).1 (by decide!),
    (unary_operators (tokenState "-2 * 3;".toList 0) (tokenState "-2 * 3;".toList 1)
      (tokenState "-2 * 3;".toList 2) (.IntLit 2) 2 (by decide!) (by decide!)).2.2.2.2
      (by decide!) (tokenState "-2 * 3;".toList 3) (tokenState "-2 * 3;".toList 4)
      (.IntLit 3) 2 "*" (by decide!) (by decide!) (by decide!) (by decide!) (by decide!)⟩

/-! ## The primitive `eat` -/

/-- On a mismatch `eat` reports the expected kind and the actual token. -/
theorem Parser.eat_mismatch {p : Parser} {k : TokenType} (h : p.cur.type ≠ k) :
    p.eat k = .error (.expected k p.cur) := by
  unfold Parser.eat
  rw [if_neg h]

/-- On a match `eat` hands over to the lexer. -/
theorem Parser.eat_match {p : Parser} {k : TokenType} (h : p.cur.type = k) :
    p.eat k = (match p.lex.nextToken with
      | .error err => .error err
      | .ok (tok, lx) => .ok { lex := lx, cur := tok }) := by
  unfold Parser.eat
  rw [if_pos h]

/-- The successes of `eat`. -/
theorem Parser.eat_ok_iff (p p' : Parser) (k : TokenType) :
    p.eat k = .ok p' ↔ p.cur.type = k ∧ p.lex.nextToken = .ok (p'.cur, p'.lex) := by
  constructor
  · intro h
    by_cases hk : p.cur.type = k
    · refine ⟨hk, ?_⟩
      rw [Parser.eat_match hk] at h
      cases hn : p.lex.nextToken with
      | error e => simp only [hn] at h; cases h
      | ok r =>
        obtain ⟨tok, lx⟩ := r
        simp only [hn] at h
        cases h
        rfl
    · rw [Parser.eat_mismatch hk] at h
      cases h
  · rintro ⟨hk, hn⟩
    rw [Parser.eat_match hk]
    simp only [hn]

/-- A print statement whose closing parenthesis is not followed by `;`. -/
theorem parseStatement_print_no_semi {p p1 p2 p3 p4 : Parser} {e : Expr} {f : Nat}
    (hk : p.cur.type = .KW_PRINT) (h1 : p.eat .KW_PRINT = .ok p1)
    (h2 : p1.eat .LPAREN = .ok p2) (he : parseExpr f p2 = .ok (e, p3))
    (h3 : p3.eat .RPAREN = .ok p4) (hs : p4.cur.type ≠ .SEMI) :
    ∀ n, f < n → parseStatement n p = .error (.expected .SEMI p4.cur) := by
  intro n hn
  obtain ⟨k, rfl⟩ : ∃ k, n = k + 1 := ⟨n - 1, by omega⟩
  have hek := parseExpr_mono (show f ≤ k by omega) he
  rw [parseStatement, if_pos hk]
  simp only [h1, h2, hek, h3, Parser.eat_mismatch hs]

/-- An assignment whose expression is not followed by `;`. -/
theorem parseStatement_assign_no_semi {p p1 p2 p3 : Parser} {e : Expr} {f : Nat}
    (hk : p.cur.type = .IDENT) (h1 : p.eat .IDENT = .ok p1)
    (h2 : p1.eat .ASSIGN = .ok p2) (he : parseExpr f p2 = .ok (e, p3))
    (hs : p3.cur.type ≠ .SEMI) :
    ∀ n, f < n → parseStatement n p = .error (.expected .SEMI p3.cur) := by
  intro n hn
  obtain ⟨k, rfl⟩ : ∃ k, n = k + 1 := ⟨n - 1, by omega⟩
  have hek := parseExpr_mono (show f ≤ k by omega) he
  rw [parseStatement, if_neg (by rw [hk]; decide), if_pos hk]
  simp only [h1, h2, hek, Parser.eat_mismatch hs]

/-- A block that does not start with `\x7b`. -/
theorem parseBlock_no_brace {p : Parser} (hs : p.cur.type ≠ .LBRACE) :
    ∀ n, 0 < n → parseBlock n p = .error (.expected .LBRACE p.cur) := by
  intro n hn
  obtain ⟨k, rfl⟩ : ∃ k, n = k + 1 := ⟨n - 1, by omega⟩
  rw [parseBlock]
  simp only [Parser.eat_mismatch hs]

/-- Successful expression parsing uses some fuel. -/
theorem parseExpr_fuel_pos {p p' : Parser} {e : Expr} {f : Nat}
    (he : parseExpr f p = .ok (e, p')) : 0 < f := by
  cases f with
  | zero => simp [parseExpr] at he
  | succ f => exact Nat.succ_pos f

/-- An `if` whose body does not start with `\x7b`. -/
theorem parseStatement_if_no_brace {p p1 p2 p3 p4 : Parser} {e : Expr} {f : Nat}
    (hk : p.cur.type = .KW_IF) (h1 : p.eat .KW_IF = .ok p1)
    (h2 : p1.eat .LPAREN = .ok p2) (he : parseExpr f p2 = .ok (e, p3))
    (h3 : p3.eat .RPAREN = .ok p4) (hs : p4.cur.type ≠ .LBRACE) :
    ∀ n, f < n → parseStatement n p = .error (.expected .LBRACE p4.cur) := by
  intro n hn
  obtain ⟨k, rfl⟩ : ∃ k, n = k + 1 := ⟨n - 1, by omega⟩
  have hek := parseExpr_mono (show f ≤ k by omega) he
  have hb := parseBlock_no_brace hs k (by have := parseExpr_fuel_pos he; omega)
  rw [parseStatement, if_neg (by rw [hk]; decide), if_neg (by rw [hk]; decide), if_pos hk]
  simp only [h1, h2, hek, h3, hb]

/-- A `while` whose body does not start with `\x7b`. -/
theorem parseStatement_while_no_brace {p p1 p2 p3 p4 : Parser} {e : Expr} {f : Nat}
    (hk : p.cur.type = .KW_WHILE) (h1 : p.eat .KW_WHILE = .ok p1)
    (h2 : p1.eat .LPAREN = .ok p2) (he : parseExpr f p2 = .ok (e, p3))
    (h3 : p3.eat .RPAREN = .ok p4) (hs : p4.cur.type ≠ .LBRACE) :
    ∀ n, f < n → parseStatement n p = .error (.expected .LBRACE p4.cur) := by
  intro n hn
  obtain ⟨k, rfl⟩ : ∃ k, n = k + 1 := ⟨n - 1, by omega⟩
  have hek := parseExpr_mono (show f ≤ k by omega) he
  have hb := parseBlock_no_brace hs k (by have := parseExpr_fuel_pos he; omega)
  rw [parseStatement, if_neg (by rw [hk]; decide), if_neg (by rw [hk]; decide),
    if_neg (by rw [hk]; decide), if_pos hk]
  simp only [h1, h2, hek, h3, hb]

/-- C17 (counterexample). Over the source `x $` the parser starts with the identifier `x`
as current token; `eat(IDENT)` matches the kind, yet it does not succeed: the lexer stops on
`$`. So "the kind is `k`" does not imply that `eat(k)` succeeds. -/
theorem eat_can_fail_on_matching_kind :
    Parser.init "x $".toList = .ok (tokenState "x $".toList 0) ∧
    (tokenState "x $".toList 0).cur.type = .IDENT ∧
    (tokenState "x $".toList 0).eat .IDENT = .error (.unexpectedChar '$' 1) ∧
    ¬ ((∃ p', (tokenState "x $".toList 0).eat .IDENT = .ok p') ↔
        (tokenState "x $".toList 0).cur.type = .IDENT) := by
  have h3 : (tokenState "x $".toList 0).eat .IDENT = .error (.unexpectedChar '$' 1) := by
    decide!
  refine ⟨by decide!, by decide!, h3, ?_⟩
  intro h
  obtain ⟨p', hp'⟩ := h.2 (by decide!)
  rw [h3] at hp'
  cases hp'

/-- C17 (amended). The primitive `eat(k)` fails with the parse error carrying the expected
kind `k` and the actual token (kind, text, line) whenever the current token's kind is not
`k`; when the kind is `k` it asks the lexer for the next token, and succeeds, with that token
as the new current token, exactly when the lexer returns one (a lexical error ends the run
instead). Consequently a print or assign statement without its terminating `;` and an `if`
or `while` whose body does not start with an opening brace are rejected with the error
naming `;` or the brace as the expected kind. -/
theorem eat_contract (p : Parser) (k : TokenType) :
    (p.cur.type ≠ k → p.eat k = .error (.expected k p.cur)) ∧
    (p.cur.type = k → p.eat k = (match p.lex.nextToken with
      | .error err => .error err
      | .ok (tok, lx) => .ok { lex := lx, cur := tok })) ∧
    (∀ p', p.eat k = .ok p' ↔ p.cur.type = k ∧ p.lex.nextToken = .ok (p'.cur, p'.lex)) ∧
    (∀ (p1 p2 p3 p4 : Parser) (e : Expr) (f : Nat), p.cur.type = .KW_PRINT →
      p.eat .KW_PRINT = .ok p1 → p1.eat .LPAREN = .ok p2 → parseExpr f p2 = .ok (e, p3) →
      p3.eat .RPAREN = .ok p4 → p4.cur.type ≠ .SEMI →
      ∀ n, f < n → parseStatement n p = .error (.expected .SEMI p4.cur)) ∧
    (∀ (p1 p2 p3 : Parser) (e : Expr) (f : Nat), p.cur.type = .IDENT →
      p.eat .IDENT = .ok p1 → p1.eat .ASSIGN = .ok p2 → parseExpr f p2 = .ok (e, p3) →
      p3.cur.type ≠ .SEMI →
      ∀ n, f < n → parseStatement n p = .error (.expected .SEMI p3.cur)) ∧
    (∀ (p1 p2 p3 p4 : Parser) (e : Expr) (f : Nat), p.cur.type = .KW_IF →
      p.eat .KW_IF = .ok p1 → p1.eat .LPAREN = .ok p2 → parseExpr f p2 = .ok (e, p3) →
      p3.eat .RPAREN = .ok p4 → p4.cur.type ≠ .LBRACE →
      ∀ n, f < n → parseStatement n p = .error (.expected .LBRACE p4.cur)) ∧
    (∀ (p1 p2 p3 p4 : Parser) (e : Expr) (f : Nat), p.cur.type = .KW_WHILE →
      p.eat .KW_WHILE = .ok p1 → p1.eat .LPAREN = .ok p2 → parseExpr f p2 = .ok (e, p3) →
      p3.eat .RPAREN = .ok p4 → p4.cur.type ≠ .LBRACE →
      ∀ n, f < n → parseStatement n p = .error (.expected .LBRACE p4.cur)) ∧
    parseSource "print(1)".toList
      = .error (.expected .SEMI { type := .END, text := "", intVal := 0, line := 1 }) ∧
    parseSource "x = 1 y = 2;".toList
      = .error (.expected .SEMI { type := .IDENT, text := "y", intVal := 0, line := 1 }) ∧
    parseSource "if (1) x = 1;".toList
      = .error (.expected .LBRACE { type := .IDENT, text := "x", intVal := 0, line := 1 }) ∧
    parseSource "while (1) print(1);".toList
      = .error (.expected .LBRACE
          { type := .KW_PRINT, text := "print", intVal := 0, line := 1 }) :=
  ⟨Parser.eat_mismatch, Parser.eat_match, fun p' => Parser.eat_ok_iff p p' k,
    fun _ _ _ _ _ _ hk h1 h2 he h3 hs => parseStatement_print_no_semi hk h1 h2 he h3 hs,
    fun _ _ _ _ _ hk h1 h2 he hs => parseStatement_assign_no_semi hk h1 h2 he hs,
    fun _ _ _ _ _ _ hk h1 h2 he h3 hs => parseStatement_if_no_brace hk h1 h2 he h3 hs,
    fun _ _ _ _ _ _ hk h1 h2 he h3 hs => parseStatement_while_no_brace hk h1 h2 he h3 hs,
    by decide!, by decide!, by decide!, by decide!⟩

/-- Witness for C17: over the source `print(1)` the current token after the closing
parenthesis is the end of input, so `eat(SEMI)` fails there and the statement is rejected. -/
theorem eat_contract_witness :
    (tokenState "print(1)".toList 4).eat .SEMI
      = .error (.expected .SEMI { type := .END, text := "", intVal := 0, line := 1 }) ∧
    (∀ n, 7 < n → parseStatement n (tokenState "print(1)".toList 0)
      = .error (.expected .SEMI { type := .END, text := "", intVal := 0, line := 1 })) :=
  ⟨(eat_contract (tokenState "print(1)".toList 4) .SEMI).1 (by decide!),
    (eat_contract (tokenState "print(1)".toList 0) .KW_PRINT).2.2.2.1
      (tokenState "print(1)".toList 1) (tokenState "print(1)".toList 2)
      (tokenState "print(1)".toList 3) (tokenState "print(1)".toList 4) (.IntLit 1) 7
      (by decide!) (by decide!) (by decide!) (by decide!) (by decide!) (by decide!)⟩

/-! ## The iteration budget -/

/-- A loop that ends within its budget runs the same with a larger budget and with a body
that agrees wherever the first body ends within its own budget. -/
theorem whileLoop_fuel_mono {cond : Env → EvalResult} {body body' : State → ExecResult}
    (hb : ∀ st, (body st).status ≠ .outOfFuel → body' st = body st) :
    ∀ (n n' : Nat) (st : State), n ≤ n' → (whileLoop cond body n st).status ≠ .outOfFuel →
      whileLoop cond body' n' st = whileLoop cond body n st
  | 0, n', st, _, h => by
    simp [whileLoop, ExecResult.status] at h
  | n + 1, n', st, hle, h => by
    obtain ⟨k, rfl⟩ : ∃ k, n' = k + 1 := ⟨n' - 1, by omega⟩
    rw [whileLoop] at h ⊢
    rw [whileLoop]
    cases hc : cond st.env with
    | error err => rfl
    | ok c =>
      simp only [hc] at h ⊢
      by_cases h0 : c = 0
      · rw [if_pos h0, if_pos h0]
      · rw [if_neg h0] at h
        rw [if_neg h0, if_neg h0]
        cases hbody : body st with
        | done st' =>
          rw [hb st (by rw [hbody]; simp [ExecResult.status])]
          simp only [hbody] at h ⊢
          exact whileLoop_fuel_mono hb n k st' (by omega) h
        | fail err st' =>
          rw [hb st (by rw [hbody]; simp [ExecResult.status])]
          simp only [hbody]
        | outOfFuel st' =>
          simp [hbody, ExecResult.status] at h

mutual
/-- A statement that ends within the budget runs the same with a larger budget. -/
theorem execStmt_fuel_mono {fuel fuel' : Nat} (hle : fuel ≤ fuel') :
    ∀ (s : Stmt) (st : State), (execStmt fuel s st).status ≠ .outOfFuel →
      execStmt fuel' s st = execStmt fuel s st
  | .PrintStmt e, st, _ => by simp only [execStmt]
  | .AssignStmt name e, st, _ => by simp only [execStmt]
  | .BlockStmt stmts, st, h => by
    simp only [execStmt] at h ⊢
    exact execBlock_fuel_mono hle stmts st h
  | .IfStmt cond thenBlock elseBlock, st, h => by
    simp only [execStmt] at h ⊢
    cases hc : eval st.env cond with
    | error err => rfl
    | ok c =>
      simp only [hc] at h ⊢
      by_cases h0 : c ≠ 0
      · rw [if_pos h0] at h
        rw [if_pos h0, if_pos h0]
        exact execBlock_fuel_mono hle thenBlock st h
      · rw [if_neg h0] at h
        rw [if_neg h0, if_neg h0]
        exact execElse_fuel_mono hle elseBlock st h
  | .WhileStmt cond body, st, h => by
    simp only [execStmt] at h ⊢
    exact whileLoop_fuel_mono (fun s hs => execBlock_fuel_mono hle body s hs) fuel fuel' st
      hle h
/-- A block that ends within the budget runs the same with a larger budget. -/
theorem execBlock_fuel_mono {fuel fuel' : Nat} (hle : fuel ≤ fuel') :
    ∀ (blk : List Stmt) (st : State), (execBlock fuel blk st).status ≠ .outOfFuel →
      execBlock fuel' blk st = execBlock fuel blk st
  | [], st, _ => by simp only [execBlock]
  | s :: rest, st, h => by
    simp only [execBlock] at h ⊢
    cases hs : execStmt fuel s st with
    | done st' =>
      rw [execStmt_fuel_mono hle s st (by rw [hs]; simp [ExecResult.status])]
      simp only [hs] at h ⊢
      exact execBlock_fuel_mono hle rest st' h
    | fail err st' =>
      rw [execStmt_fuel_mono hle s st (by rw [hs]; simp [ExecResult.status])]
      simp only [hs]
    | outOfFuel st' =>
      simp [hs, ExecResult.status] at h
/-- An else arm that ends within the budget runs the same with a larger budget. -/
theorem execElse_fuel_mono {fuel fuel' : Nat} (hle : fuel ≤ fuel') :
    ∀ (e : Option (List Stmt)) (st : State), (execElse fuel e st).status ≠ .outOfFuel →
      execElse fuel' e st = execElse fuel e st
  | none, st, _ => by simp only [execElse]
  | some blk, st, h => by
    simp only [execElse] at h ⊢
    exact execBlock_fuel_mono hle blk st h
end

/-- The default program parses to `defaultAst`. -/
theorem parseSource_defaultProg : parseSource defaultProg = .ok defaultAst := by
  decide!

/-- The default program passes the semantic check. -/
theorem semanticCheckBlock_defaultAst :
    ∃ D, semanticCheckBlock defaultAst ∅ = .ok D :=
  ⟨_, rfl⟩

/-- C18. The built-in default program passes lexing and parsing (its AST is `defaultAst`)
and the semantic check, constant folding leaves it unchanged, and its execution terminates
having printed exactly one value, 55: eleven evaluations of the loop condition suffice, and
with any budget of at least eleven the run finishes with output `[55]`. -/
theorem default_program_prints_55 :
    parseSource defaultProg = .ok defaultAst ∧
    (∃ D, semanticCheckBlock defaultAst ∅ = .ok D) ∧
    foldConstantsInBlock defaultAst = .ok defaultAst ∧
    (∀ fuel, 11 ≤ fuel → (runSource fuel defaultProg).outcome = .finished ∧
      (runSource fuel defaultProg).output = [55]) := by
  have hf : foldConstantsInBlock defaultAst = .ok defaultAst := by decide
  refine ⟨parseSource_defaultProg, semanticCheckBlock_defaultAst, hf, ?_⟩
  intro fuel hfuel
  obtain ⟨D, hD⟩ := semanticCheckBlock_defaultAst
  rw [runSource_executed fuel parseSource_defaultProg hD hf]
  have h11 : (execBlock 11 defaultAst State.initial).status = .done := by decide!
  have hm := execBlock_fuel_mono hfuel defaultAst State.initial (by rw [h11]; decide)
  rw [hm]
  have hout : (execBlock 11 defaultAst State.initial).state.out = [55] := by decide!
  revert h11 hout
  cases execBlock 11 defaultAst State.initial with
  | done st => intro _ hout; exact ⟨rfl, hout⟩
  | fail err st => intro h11; cases h11
  | outOfFuel st => intro h11; cases h11

/-- Witness for C18: with a budget of eleven condition evaluations the default program
finishes and prints 55. -/
theorem default_program_prints_55_witness :
    (runSource 11 defaultProg).outcome = .finished ∧ (runSource 11 defaultProg).output = [55] :=
  default_program_prints_55.2.2.2 11 (le_refl 11)

/-! ## Three-address code: expressions -/

/-- The value of digits put in front of an accumulator. -/
theorem decimalValue_foldl (ds : List Char) (a : Nat) :
    ds.foldl (fun acc c => 10 * acc + (c.toNat - 48)) a
      = a * 10 ^ ds.length + decimalValue ds := by
  unfold decimalValue
  induction ds generalizing a with
  | nil => simp
  | cons d ds ih =>
    rw [List.foldl_cons, List.foldl_cons, ih (10 * a + (d.toNat - 48)),
      ih (10 * 0 + (d.toNat - 48))]
    simp only [List.length_cons, pow_succ]
    ring

/-- The value of a digit run in terms of its first digit. -/
theorem decimalValue_cons (d : Char) (ds : List Char) :
    decimalValue (d :: ds) = (d.toNat - 48) * 10 ^ ds.length + decimalValue ds := by
  have h := decimalValue_foldl ds (10 * 0 + (d.toNat - 48))
  unfold decimalValue at h ⊢
  rw [List.foldl_cons, h]
  simp

/-- The digit character of a digit. -/
theorem digitChar_toNat (d : Nat) (h : d < 10) : (Nat.digitChar d).toNat - 48 = d := by
  interval_cases d <;> rfl

/-- The decimal digits of a number have the number as value. -/
theorem decimalValue_toDigitsCore : ∀ (fuel n : Nat) (ds : List Char), n < fuel →
    decimalValue (Nat.toDigitsCore 10 fuel n ds) = n * 10 ^ ds.length + decimalValue ds
  | 0, n, ds, h => by omega
  | fuel + 1, n, ds, h => by
    rw [Nat.toDigitsCore]
    by_cases h0 : n / 10 = 0
    · simp only [h0, if_true]
      rw [decimalValue_cons, digitChar_toNat _ (Nat.mod_lt _ (by decide))]
      have : n % 10 = n := by omega
      rw [this]
    · simp only [h0, if_false]
      rw [decimalValue_toDigitsCore fuel (n / 10) _ (by omega), decimalValue_cons,
        digitChar_toNat _ (Nat.mod_lt _ (by decide))]
      simp only [List.length_cons, pow_succ]
      have hn : n = 10 * (n / 10) + n % 10 := (Nat.div_add_mod n 10).symm
      generalize 10 ^ ds.length = P
      generalize decimalValue ds = D
      conv_rhs => rw [hn]
      ring

/-- Reading back the decimal text of a number gives the number. -/
theorem decimalValue_toString (n : Nat) : decimalValue (toString n).toList = n := by
  show decimalValue (Nat.repr n).toList = n
  unfold Nat.repr Nat.toDigits
  rw [List.asString]
  have h := decimalValue_toDigitsCore (n + 1) n [] (Nat.lt_succ_self n)
  simpa [decimalValue] using h

/-- Different numbers have different decimal texts. -/
theorem toString_nat_injective {i j : Nat} (h : toString i = toString j) : i = j := by
  rw [← decimalValue_toString i, ← decimalValue_toString j, h]

/-- Different temporaries have different names. -/
theorem tmpName_injective : Function.Injective tmpName := by
  intro i j h
  unfold tmpName at h
  apply toString_nat_injective
  have hd := congrArg String.data h
  rw [String.data_append, String.data_append] at hd
  exact String.ext (List.append_cancel_left hd)

/-- The names `t(c+1), ..., t(c+m+n)` split after the `m`-th. -/
theorem tmpNames_add (c m n : Nat) :
    tmpNames c (m + n) = tmpNames c m ++ tmpNames (c + m) n := by
  unfold tmpNames
  rw [List.range_add, List.map_append, List.map_map]
  congr 1
  apply List.map_congr_left
  intro j _
  simp only [Function.comp]
  congr 1
  omega

/-- The single name `t(c+1)`. -/
theorem tmpNames_one (c : Nat) : tmpNames c 1 = [tmpName (c + 1)] := rfl

/-- The names `t(c+1), ..., t(c+n)` are pairwise different. -/
theorem tmpNames_nodup (c n : Nat) : (tmpNames c n).Nodup := by
  unfold tmpNames
  apply List.Nodup.map _ (List.nodup_range n)
  intro i j h
  have := tmpName_injective h
  omega

/-- The instructions of two lists in a row. -/
theorem tacLines_append (c : Nat) (xs ys : List (String × String × String)) :
    tacLines c (xs ++ ys) = tacLines c xs ++ tacLines (c + xs.length) ys := by
  unfold tacLines
  rw [List.enumFrom_append, List.map_append]
  congr 3
  omega

/-- The number of operators in post-order is the number of `Binary` nodes. -/
theorem Expr.length_postOrderOps : ∀ e : Expr, e.postOrderOps.length = e.binaryCount
  | .IntLit _ => rfl
  | .VarExpr _ => rfl
  | .Binary op a b => by
    simp only [Expr.postOrderOps, Expr.binaryCount, List.length_append, List.length_singleton,
      Expr.length_postOrderOps a, Expr.length_postOrderOps b]

/-- What `genExpr` appends: one instruction per `Binary` node, in post-order, numbered from
the counter on. -/
theorem TACGen.genExpr_spec : ∀ (e : Expr) (g : TACGen),
    ∃ instrs : List (String × String × String),
      instrs.map (fun i => i.2.1) = e.postOrderOps ∧
      (TACGen.genExpr e g).2.code = g.code ++ tacLines g.tmpCounter instrs ∧
      (TACGen.genExpr e g).2.tmpCounter = g.tmpCounter + e.binaryCount ∧
      (TACGen.genExpr e g).2.issued = g.issued ++ tmpNames g.tmpCounter e.binaryCount
  | .IntLit v, g => ⟨[], rfl, by simp [TACGen.genExpr, tacLines], rfl,
      by simp [TACGen.genExpr, tmpNames, Expr.binaryCount]⟩
  | .VarExpr name, g => ⟨[], rfl, by simp [TACGen.genExpr, tacLines], rfl,
      by simp [TACGen.genExpr, tmpNames, Expr.binaryCount]⟩
  | .Binary op a b, g => by
    obtain ⟨ia, ha1, ha2, ha3, ha4⟩ := TACGen.genExpr_spec a g
    obtain ⟨ib, hb1, hb2, hb3, hb4⟩ := TACGen.genExpr_spec b (TACGen.genExpr a g).2
    have hla : ia.length = a.binaryCount := by
      rw [← Expr.length_postOrderOps, ← ha1, List.length_map]
    have hlb : ib.length = b.binaryCount := by
      rw [← Expr.length_postOrderOps, ← hb1, List.length_map]
    refine ⟨ia ++ ib ++ [((TACGen.genExpr a g).1, op,
      (TACGen.genExpr b (TACGen.genExpr a g).2).1)], ?_, ?_, ?_, ?_⟩
    · simp [Expr.postOrderOps, ha1, hb1]
    · simp only [TACGen.genExpr, TACGen.newTmp, TACGen.push]
      rw [hb2, ha2, ha3, hb3, tacLines_append, tacLines_append, hla]
      simp only [List.append_assoc, List.length_append, hla, hlb]
      congr 3
      simp only [tacLines, List.enumFrom_cons, List.enumFrom_nil, List.map_cons, List.map_nil,
        tacLine, tmpName, Nat.add_assoc, ha3]
    · simp only [TACGen.genExpr, TACGen.newTmp, TACGen.push, hb3, ha3, Expr.binaryCount]
      omega
    · simp only [TACGen.genExpr, TACGen.newTmp, TACGen.push, hb3, ha3, hb4, ha4,
        Expr.binaryCount]
      rw [tmpNames_add, tmpNames_add, tmpNames_one]
      simp only [List.append_assoc, tmpName, Nat.add_assoc]

/-! ## Three-address code: the temporaries of a pass -/

/-- Appending an instruction leaves the counter and the issued names alone. -/
theorem TACGen.push_temps (g : TACGen) (line : String) :
    (g.push line).tmpCounter = g.tmpCounter ∧ (g.push line).issued = g.issued :=
  ⟨rfl, rfl⟩

/-- No names are issued where there is no `Binary` node. -/
theorem tmpNames_zero (c : Nat) : tmpNames c 0 = [] := rfl

mutual
/-- The temporaries issued for a statement. -/
theorem TACGen.genStmt_temps : ∀ (s : Stmt) (g : TACGen),
    (TACGen.genStmt s g).tmpCounter = g.tmpCounter + s.binaryCount ∧
    (TACGen.genStmt s g).issued = g.issued ++ tmpNames g.tmpCounter s.binaryCount
  | .AssignStmt name e, g => by
    obtain ⟨_, _, _, h3, h4⟩ := TACGen.genExpr_spec e g
    simp only [TACGen.genStmt, Stmt.binaryCount, TACGen.push]
    exact ⟨h3, h4⟩
  | .PrintStmt e, g => by
    obtain ⟨_, _, _, h3, h4⟩ := TACGen.genExpr_spec e g
    simp only [TACGen.genStmt, Stmt.binaryCount, TACGen.push]
    exact ⟨h3, h4⟩
  | .IfStmt cond thenBlock elseBlock, g => by
    obtain ⟨_, _, _, h3, h4⟩ := TACGen.genExpr_spec cond g
    simp only [TACGen.genStmt, Stmt.binaryCount]
    have ht := TACGen.genBlock_temps thenBlock
      ((TACGen.genExpr cond g).2.push
        ("ifz " ++ (TACGen.genExpr cond g).1 ++ " goto " ++
          ("L" ++ toString (TACGen.genExpr cond g).2.code.length ++ "a")))
    have he := TACGen.genElse_temps elseBlock
      (((TACGen.genBlock thenBlock ((TACGen.genExpr cond g).2.push
        ("ifz " ++ (TACGen.genExpr cond g).1 ++ " goto " ++
          ("L" ++ toString (TACGen.genExpr cond g).2.code.length ++ "a")))).push
        ("goto " ++ ("L" ++ toString (TACGen.genExpr cond g).2.code.length ++ "b"))).push
        ("L" ++ toString (TACGen.genExpr cond g).2.code.length ++ "a" ++ ":"))
    simp only [TACGen.push] at ht he ⊢
    rw [he.1, he.2, ht.1, ht.2, h3, h4, tmpNames_add, tmpNames_add]
    simp only [List.append_assoc, Nat.add_assoc, and_self]
  | .WhileStmt cond body, g => by
    obtain ⟨_, _, _, h3, h4⟩ := TACGen.genExpr_spec cond
      (g.push ("L" ++ toString g.code.length ++ "a" ++ ":"))
    simp only [TACGen.genStmt, Stmt.binaryCount]
    have hb := TACGen.genBlock_temps body
      ((TACGen.genExpr cond (g.push ("L" ++ toString g.code.length ++ "a" ++ ":"))).2.push
        ("ifz " ++ (TACGen.genExpr cond
            (g.push ("L" ++ toString g.code.length ++ "a" ++ ":"))).1 ++ " goto " ++
          ("L" ++ toString g.code.length ++ "b")))
    simp only [TACGen.push] at hb h3 h4 ⊢
    rw [hb.1, hb.2, h3, h4, tmpNames_add]
    simp only [List.append_assoc, Nat.add_assoc, and_self]
  | .BlockStmt stmts, g => by
    simp only [TACGen.genStmt, Stmt.binaryCount]
    exact TACGen.genBlock_temps stmts g
/-- The temporaries issued for a block. -/
theorem TACGen.genBlock_temps : ∀ (blk : List Stmt) (g : TACGen),
    (TACGen.genBlock blk g).tmpCounter = g.tmpCounter + Stmt.binaryCountBlock blk ∧
    (TACGen.genBlock blk g).issued
      = g.issued ++ tmpNames g.tmpCounter (Stmt.binaryCountBlock blk)
  | [], g => by simp [TACGen.genBlock, Stmt.binaryCountBlock, tmpNames_zero]
  | s :: rest, g => by
    have hs := TACGen.genStmt_temps s g
    have hr := TACGen.genBlock_temps rest (TACGen.genStmt s g)
    simp only [TACGen.genBlock, Stmt.binaryCountBlock]
    rw [hr.1, hr.2, hs.1, hs.2, tmpNames_add]
    simp only [List.append_assoc, Nat.add_assoc, and_self]
/-- The temporaries issued for an else arm. -/
theorem TACGen.genElse_temps : ∀ (e : Option (List Stmt)) (g : TACGen),
    (TACGen.genElse e g).tmpCounter = g.tmpCounter + Stmt.binaryCountElse e ∧
    (TACGen.genElse e g).issued = g.issued ++ tmpNames g.tmpCounter (Stmt.binaryCountElse e)
  | none, g => by simp [TACGen.genElse, Stmt.binaryCountElse, tmpNames_zero]
  | some blk, g => by
    simp only [TACGen.genElse, Stmt.binaryCountElse]
    exact TACGen.genBlock_temps blk g
end

/-- C20. For every expression `e` and generator state, `genExpr` appends to the code exactly
one instruction `tN = A op B` per `Binary` node of `e`, in post-order (the operators of the
appended instructions are those of the left operand, then of the right operand, then the
node's own), numbered consecutively from the counter on, and advances the counter by the
number of `Binary` nodes. It appends nothing for an `IntLit` or a `VarExpr`, whose operand
text is the decimal literal or the variable name; for a `Binary` node the operand text is the
temporary of the last appended instruction, whose operands are the operand texts of the two
children. Over one generation pass from a fresh generator the `k`-th issued temporary is
named `t<k>`, so no temporary is issued twice. -/
theorem genExpr_one_instruction_per_binary (e : Expr) (g : TACGen) :
    (∃ instrs : List (String × String × String),
      instrs.length = e.binaryCount ∧
      instrs.map (fun i => i.2.1) = e.postOrderOps ∧
      (TACGen.genExpr e g).2.code = g.code ++ tacLines g.tmpCounter instrs ∧
      (TACGen.genExpr e g).2.tmpCounter = g.tmpCounter + e.binaryCount ∧
      (TACGen.genExpr e g).2.issued = g.issued ++ tmpNames g.tmpCounter e.binaryCount) ∧
    (∀ v : Int, TACGen.genExpr (.IntLit v) g = (toString v, g)) ∧
    (∀ name : String, TACGen.genExpr (.VarExpr name) g = (name, g)) ∧
    (∀ (op : String) (a b : Expr),
      (TACGen.genExpr (.Binary op a b) g).1
        = tmpName (g.tmpCounter + a.binaryCount + b.binaryCount + 1) ∧
      (TACGen.genExpr (.Binary op a b) g).2.code
        = (TACGen.genExpr b (TACGen.genExpr a g).2).2.code ++
          [tacLine (g.tmpCounter + a.binaryCount + b.binaryCount + 1) (TACGen.genExpr a g).1
            op (TACGen.genExpr b (TACGen.genExpr a g).2).1]) ∧
    (∀ blk : List Stmt,
      (TACGen.genBlock blk TACGen.init).issued
        = (List.range (Stmt.binaryCountBlock blk)).map (fun j => tmpName (j + 1)) ∧
      (TACGen.genBlock blk TACGen.init).tmpCounter = Stmt.binaryCountBlock blk ∧
      (TACGen.genBlock blk TACGen.init).issued.Nodup) ∧
    Function.Injective tmpName ∧
    (TACGen.genExpr (.Binary "+" (.VarExpr "a") (.Binary "*" (.VarExpr "b") (.IntLit 3)))
        TACGen.init).2.code = ["t1 = b * 3", "t2 = a + t1"] := by
  refine ⟨?_, fun _ => rfl, fun _ => rfl, ?_, ?_, tmpName_injective, by decide⟩
  · obtain ⟨instrs, h1, h2, h3, h4⟩ := TACGen.genExpr_spec e g
    refine ⟨instrs, ?_, h1, h2, h3, h4⟩
    rw [← Expr.length_postOrderOps, ← h1, List.length_map]
  · intro op a b
    obtain ⟨_, _, _, ha3, _⟩ := TACGen.genExpr_spec a g
    obtain ⟨_, _, _, hb3, _⟩ := TACGen.genExpr_spec b (TACGen.genExpr a g).2
    simp only [TACGen.genExpr, TACGen.newTmp, TACGen.push, hb3, ha3, tacLine, tmpName,
      and_self]
  · intro blk
    have h := TACGen.genBlock_temps blk TACGen.init
    have hi : (TACGen.genBlock blk TACGen.init).issued
        = tmpNames 0 (Stmt.binaryCountBlock blk) := by
      rw [h.2]
      rfl
    refine ⟨?_, ?_, ?_⟩
    · rw [hi]
      unfold tmpNames
      simp only [Nat.zero_add]
    · rw [h.1]
      exact Nat.zero_add _
    · rw [hi]
      exact tmpNames_nodup 0 _

/-! ## The lexer depends on the remaining input only -/

/-- The remaining input after `k` more characters. -/
theorem Lexer.rest_advance (lx : Lexer) (k : Nat) (l : Nat) :
    Lexer.rest { lx with i := lx.i + k, line := l } = lx.rest.drop k := by
  unfold Lexer.rest
  simp only [List.drop_drop]

/-- The lookahead test reads the remaining input only. -/
theorem Lexer.startswith_same {lx lx' : Lexer} (h : lx.Same lx') (pat : List Char) :
    lx.startswith pat = lx'.startswith pat := by
  have hr : lx.src.drop lx.i = lx'.src.drop lx'.i := h.1
  unfold Lexer.startswith
  rw [hr]

/-- The current character is read from the remaining input only. -/
theorem Lexer.peek_same {lx lx' : Lexer} (h : lx.Same lx') : lx.peek = lx'.peek := by
  rw [Lexer.peek_eq_headD, Lexer.peek_eq_headD, h.1]

/-- The whitespace branch keeps two states alike. -/
theorem Lexer.skipSpace_same {lx lx' : Lexer} (h : lx.Same lx') :
    lx.skipSpace.Same lx'.skipSpace := by
  unfold Lexer.skipSpace
  refine ⟨?_, ?_⟩
  · rw [Lexer.rest_advance, Lexer.rest_advance, h.1]
  · simp only [Lexer.peek_same h, h.2]

/-- The comment branch keeps two states alike. -/
theorem Lexer.skipComment_same {lx lx' : Lexer} (h : lx.Same lx') :
    lx.skipComment.Same lx'.skipComment := by
  have hr : lx.src.drop lx.i = lx'.src.drop lx'.i := h.1
  unfold Lexer.skipComment
  refine ⟨?_, h.2⟩
  have e1 := Lexer.rest_advance lx ((lx.src.drop lx.i).takeWhile
      (fun d => d != Char.ofNat 0 && d != Char.ofNat 10)).length lx.line
  have e2 := Lexer.rest_advance lx' ((lx'.src.drop lx'.i).takeWhile
      (fun d => d != Char.ofNat 0 && d != Char.ofNat 10)).length lx'.line
  rw [e1, e2, hr, h.1]

/-- Advancing two like states by the same number of characters keeps them alike. -/
theorem Lexer.Same.advance {lx lx' : Lexer} (h : lx.Same lx') (k : Nat) :
    Lexer.Same { lx with i := lx.i + k } { src := lx'.src, i := lx'.i + k, line := lx.line } := by
  refine ⟨?_, rfl⟩
  rw [Lexer.rest_advance lx k lx.line, Lexer.rest_advance lx' k lx.line, h.1]

/-- The token that starts at the current character depends on the remaining input and the
line only. -/
theorem Lexer.tokenHere_same {lx lx' : Lexer} (h : lx.Same lx') {tok : Token} {l : Lexer}
    (ht : lx.tokenHere = .ok (tok, l)) :
    ∃ l', lx'.tokenHere = .ok (tok, l') ∧ l.Same l' := by
  have hr : lx.src.drop lx.i = lx'.src.drop lx'.i := h.1
  have hp := Lexer.peek_same h
  have hl : lx.line = lx'.line := h.2
  unfold Lexer.tokenHere at ht ⊢
  simp only at ht ⊢
  rw [← hp, ← hr, ← hl, ← Lexer.startswith_same h, ← Lexer.startswith_same h,
    ← Lexer.startswith_same h, ← Lexer.startswith_same h]
  by_cases h1 : isdigit lx.peek = true
  · rw [if_pos h1] at ht ⊢
    cases hs : stoll ((lx.src.drop lx.i).takeWhile isdigit) with
    | none => simp only [hs] at ht; cases ht
    | some v =>
      simp only [hs] at ht ⊢
      injection ht with ht
      injection ht with ht1 ht2
      subst ht1 ht2
      exact ⟨_, rfl, h.advance _⟩
  · rw [if_neg h1] at ht ⊢
    by_cases h2 : (isalpha lx.peek || decide (lx.peek = '_')) = true
    · rw [if_pos h2] at ht ⊢
      injection ht with ht
      injection ht with ht1 ht2
      subst ht1 ht2
      exact ⟨_, rfl, h.advance _⟩
    · rw [if_neg h2] at ht ⊢
      by_cases h3 : lx.startswith ['=', '='] = true
      · rw [if_pos h3] at ht ⊢
        injection ht with ht
        injection ht with ht1 ht2
        subst ht1 ht2
        exact ⟨_, rfl, h.advance _⟩
      · rw [if_neg h3] at ht ⊢
        by_cases h4 : lx.startswith ['!', '='] = true
        · rw [if_pos h4] at ht ⊢
          injection ht with ht
          injection ht with ht1 ht2
          subst ht1 ht2
          exact ⟨_, rfl, h.advance _⟩
        · rw [if_neg h4] at ht ⊢
          by_cases h5 : lx.startswith ['<', '='] = true
          · rw [if_pos h5] at ht ⊢
            injection ht with ht
            injection ht with ht1 ht2
            subst ht1 ht2
            exact ⟨_, rfl, h.advance _⟩
          · rw [if_neg h5] at ht ⊢
            by_cases h6 : lx.startswith ['>', '='] = true
            · rw [if_pos h6] at ht ⊢
              injection ht with ht
              injection ht with ht1 ht2
              subst ht1 ht2
              exact ⟨_, rfl, h.advance _⟩
            · rw [if_neg h6] at ht ⊢
              cases hs : singleCharToken lx.peek lx.line with
              | none => simp only [hs] at ht; cases ht
              | some t =>
                simp only [hs] at ht ⊢
                injection ht with ht
                injection ht with ht1 ht2
                subst ht1 ht2
                exact ⟨_, rfl, h.advance _⟩

/-- The loop of `nextToken` depends on the remaining input and the line only. -/
theorem nextTokenLoop_same : ∀ (fuel : Nat) {lx lx' : Lexer}, lx.Same lx' →
    ∀ {tok : Token} {l : Lexer}, nextTokenLoop fuel lx = .ok (tok, l) →
      ∃ l', nextTokenLoop fuel lx' = .ok (tok, l') ∧ l.Same l'
  | 0, lx, lx', _, tok, l, ht => by simp [nextTokenLoop] at ht
  | fuel + 1, lx, lx', h, tok, l, ht => by
    rw [nextTokenLoop_succ] at ht ⊢
    rw [← Lexer.peek_same h, ← Lexer.startswith_same h]
    by_cases h0 : lx.peek = Char.ofNat 0
    · rw [if_pos h0] at ht ⊢
      injection ht with ht
      injection ht with ht1 ht2
      subst ht1 ht2
      exact ⟨lx', by rw [h.2], h⟩
    · rw [if_neg h0] at ht ⊢
      by_cases h1 : isspace lx.peek = true
      · rw [if_pos h1] at ht ⊢
        exact nextTokenLoop_same fuel (Lexer.skipSpace_same h) ht
      · rw [if_neg h1] at ht ⊢
        by_cases h2 : lx.startswith ['/', '/'] = true
        · rw [if_pos h2] at ht ⊢
          exact nextTokenLoop_same fuel (Lexer.skipComment_same h) ht
        · rw [if_neg h2] at ht ⊢
          exact Lexer.tokenHere_same h ht

/-- The method `nextToken` depends on the remaining input and the line only. -/
theorem Lexer.nextToken_same {lx lx' : Lexer} (h : lx.Same lx') {tok : Token} {l : Lexer}
    (ht : lx.nextToken = .ok (tok, l)) :
    ∃ l', lx'.nextToken = .ok (tok, l') ∧ l.Same l' := by
  have hlen : lx.src.length - lx.i = lx'.src.length - lx'.i := by
    have := congrArg List.length h.1
    unfold Lexer.rest at this
    rw [List.length_drop, List.length_drop] at this
    exact this
  rw [Lexer.nextToken_eq] at ht ⊢
  rw [← hlen]
  exact nextTokenLoop_same _ h ht

/-- The relation `Parser.Same` is respected by `eat`. -/
theorem parserSim_same : ParserSim Parser.Same := by
  constructor
  · intro p q h
    exact h.1
  · intro p q t p' h he
    rw [Parser.eat_ok_iff] at he
    obtain ⟨hk, hn⟩ := he
    obtain ⟨l', hl', hs⟩ := Lexer.nextToken_same h.2 hn
    refine ⟨{ lex := l', cur := p'.cur }, ?_, rfl, hs⟩
    rw [Parser.eat_ok_iff]
    exact ⟨by rw [← h.1]; exact hk, hl'⟩

/-- Being alike is symmetric. -/
theorem Parser.Same.symm {p q : Parser} (h : p.Same q) : q.Same p :=
  ⟨h.1.symm, h.2.1.symm, h.2.2.symm⟩

/-! ## The parser: statements under related states -/

/-- The statement-parsing methods respect every relation of parser states that `eat`
respects, and more fuel never changes a success. -/
theorem stmtSim {R : Parser → Parser → Prop} (hS : ParserSim R) :
    ∀ (fuel fuel' : Nat), fuel ≤ fuel' → StmtSim R fuel fuel'
  | 0, _, _ => by
    constructor <;> intros <;> rename_i h <;>
      simp [parseStatement, parseBlock, parseBlockLoop] at h
  | fuel + 1, 0, hle => absurd hle (by omega)
  | fuel + 1, m + 1, hle => by
    have IH := stmtSim hS fuel m (Nat.le_of_succ_le_succ hle)
    have IHe := exprSim hS fuel m (Nat.le_of_succ_le_succ hle)
    constructor
    · -- parseStatement
      intro p q s p' hR h
      rw [parseStatement] at h ⊢
      rw [← hS.cur hR]
      by_cases c1 : p.cur.type = .KW_PRINT
      · rw [if_pos c1] at h ⊢
        cases he1 : p.eat .KW_PRINT with
        | error e =>
          simp only [he1] at h
          cases h
        | ok p1 =>
          simp only [he1] at h
          obtain ⟨q1, hq1, hR1⟩ := hS.eat _ hR he1
          simp only [hq1]
          cases he2 : p1.eat .LPAREN with
          | error e =>
            simp only [he2] at h
            cases h
          | ok p2 =>
            simp only [he2] at h
            obtain ⟨q2, hq2, hR2⟩ := hS.eat _ hR1 he2
            simp only [hq2]
            cases he3 : parseExpr fuel p2 with
            | error e =>
              simp only [he3] at h
              cases h
            | ok v3 =>
              obtain ⟨a3, p3⟩ := v3
              simp only [he3] at h
              obtain ⟨q3, hq3, hR3⟩ := IHe.expr p2 q2 a3 p3 hR2 he3
              simp only [hq3]
              cases he4 : p3.eat .RPAREN with
              | error e =>
                simp only [he4] at h
                cases h
              | ok p4 =>
                simp only [he4] at h
                obtain ⟨q4, hq4, hR4⟩ := hS.eat _ hR3 he4
                simp only [hq4]
                cases he5 : p4.eat .SEMI with
                | error e =>
                  simp only [he5] at h
                  cases h
                | ok p5 =>
                  simp only [he5] at h
                  obtain ⟨q5, hq5, hR5⟩ := hS.eat _ hR4 he5
                  simp only [hq5]
                  injection h with h
                  injection h with hs hp
                  subst hs hp
                  exact ⟨q5, rfl, hR5⟩
      · rw [if_neg c1] at h ⊢
        by_cases c2 : p.cur.type = .IDENT
        · rw [if_pos c2] at h ⊢
          cases he1 : p.eat .IDENT with
          | error e =>
            simp only [he1] at h
            cases h
          | ok p1 =>
            simp only [he1] at h
            obtain ⟨q1, hq1, hR1⟩ := hS.eat _ hR he1
            simp only [hq1]
            cases he2 : p1.eat .ASSIGN with
            | error e =>
              simp only [he2] at h
              cases h
            | ok p2 =>
              simp only [he2] at h
              obtain ⟨q2, hq2, hR2⟩ := hS.eat _ hR1 he2
              simp only [hq2]
              cases he3 : parseExpr fuel p2 with
              | error e =>
                simp only [he3] at h
                cases h
              | ok v3 =>
                obtain ⟨a3, p3⟩ := v3
                simp only [he3] at h
                obtain ⟨q3, hq3, hR3⟩ := IHe.expr p2 q2 a3 p3 hR2 he3
                simp only [hq3]
                cases he4 : p3.eat .SEMI with
                | error e =>
                  simp only [he4] at h
                  cases h
                | ok p4 =>
                  simp only [he4] at h
                  obtain ⟨q4, hq4, hR4⟩ := hS.eat _ hR3 he4
                  simp only [hq4]
                  injection h with h
                  injection h with hs hp
                  subst hs hp
                  exact ⟨q4, rfl, hR4⟩
        · rw [if_neg c2] at h ⊢
          by_cases c3 : p.cur.type = .KW_IF
          · rw [if_pos c3] at h ⊢
            cases he1 : p.eat .KW_IF with
            | error e =>
              simp only [he1] at h
              cases h
            | ok p1 =>
              simp only [he1] at h
              obtain ⟨q1, hq1, hR1⟩ := hS.eat _ hR he1
              simp only [hq1]
              cases he2 : p1.eat .LPAREN with
              | error e =>
                simp only [he2] at h
                cases h
              | ok p2 =>
                simp only [he2] at h
                obtain ⟨q2, hq2, hR2⟩ := hS.eat _ hR1 he2
                simp only [hq2]
                cases he3 : parseExpr fuel p2 with
                | error e =>
                  simp only [he3] at h
                  cases h
                | ok v3 =>
                  obtain ⟨a3, p3⟩ := v3
                  simp only [he3] at h
                  obtain ⟨q3, hq3, hR3⟩ := IHe.expr p2 q2 a3 p3 hR2 he3
                  simp only [hq3]
                  cases he4 : p3.eat .RPAREN with
                  | error e =>
                    simp only [he4] at h
                    cases h
                  | ok p4 =>
                    simp only [he4] at h
                    obtain ⟨q4, hq4, hR4⟩ := hS.eat _ hR3 he4
                    simp only [hq4]
                    cases he5 : parseBlock fuel p4 with
                    | error e =>
                      simp only [he5] at h
                      cases h
                    | ok v5 =>
                      obtain ⟨a5, p5⟩ := v5
                      simp only [he5] at h
                      obtain ⟨q5, hq5, hR5⟩ := IH.block p4 q4 a5 p5 hR4 he5
                      simp only [hq5]
                      rw [← hS.cur hR5]
                      by_cases hel : p5.cur.type = .KW_ELSE
                      · rw [if_pos hel] at h ⊢
                        cases hee1 : p5.eat .KW_ELSE with
                        | error e =>
                          simp only [hee1] at h
                          cases h
                        | ok pe1 =>
                          simp only [hee1] at h
                          obtain ⟨qe1, hqe1, hRe1⟩ := hS.eat _ hR5 hee1
                          simp only [hqe1]
                          cases hee2 : parseBlock fuel pe1 with
                          | error e =>
                            simp only [hee2] at h
                            cases h
                          | ok ve2 =>
                            obtain ⟨ae2, pe2⟩ := ve2
                            simp only [hee2] at h
                            obtain ⟨qe2, hqe2, hRe2⟩ := IH.block pe1 qe1 ae2 pe2 hRe1 hee2
                            simp only [hqe2]
                            injection h with h
                            injection h with hs hp
                            subst hs hp
                            exact ⟨qe2, rfl, hRe2⟩
                      · rw [if_neg hel] at h ⊢
                        injection h with h
                        injection h with hs hp
                        subst hs hp
                        exact ⟨q5, rfl, hR5⟩
          · rw [if_neg c3] at h ⊢
            by_cases c4 : p.cur.type = .KW_WHILE
            · rw [if_pos c4] at h ⊢
              cases he1 : p.eat .KW_WHILE with
              | error e =>
                simp only [he1] at h
                cases h
              | ok p1 =>
                simp only [he1] at h
                obtain ⟨q1, hq1, hR1⟩ := hS.eat _ hR he1
                simp only [hq1]
                cases he2 : p1.eat .LPAREN with
                | error e =>
                  simp only [he2] at h
                  cases h
                | ok p2 =>
                  simp only [he2] at h
                  obtain ⟨q2, hq2, hR2⟩ := hS.eat _ hR1 he2
                  simp only [hq2]
                  cases he3 : parseExpr fuel p2 with
                  | error e =>
                    simp only [he3] at h
                    cases h
                  | ok v3 =>
                    obtain ⟨a3, p3⟩ := v3
                    simp only [he3] at h
                    obtain ⟨q3, hq3, hR3⟩ := IHe.expr p2 q2 a3 p3 hR2 he3
                    simp only [hq3]
                    cases he4 : p3.eat .RPAREN with
                    | error e =>
                      simp only [he4] at h
                      cases h
                    | ok p4 =>
                      simp only [he4] at h
                      obtain ⟨q4, hq4, hR4⟩ := hS.eat _ hR3 he4
                      simp only [hq4]
                      cases he5 : parseBlock fuel p4 with
                      | error e =>
                        simp only [he5] at h
                        cases h
                      | ok v5 =>
                        obtain ⟨a5, p5⟩ := v5
                        simp only [he5] at h
                        obtain ⟨q5, hq5, hR5⟩ := IH.block p4 q4 a5 p5 hR4 he5
                        simp only [hq5]
                        injection h with h
                        injection h with hs hp
                        subst hs hp
                        exact ⟨q5, rfl, hR5⟩
            · rw [if_neg c4] at h ⊢
              by_cases c5 : p.cur.type = .LBRACE
              · rw [if_pos c5] at h ⊢
                cases he1 : parseBlock fuel p with
                | error e =>
                  simp only [he1] at h
                  cases h
                | ok v1 =>
                  obtain ⟨a1, p1⟩ := v1
                  simp only [he1] at h
                  obtain ⟨q1, hq1, hR1⟩ := IH.block p q a1 p1 hR he1
                  simp only [hq1]
                  injection h with h
                  injection h with hs hp
                  subst hs hp
                  exact ⟨q1, rfl, hR1⟩
              · rw [if_neg c5] at h
                cases h
    · -- parseBlock
      intro p q ss p' hR h
      rw [parseBlock] at h ⊢
      cases he1 : p.eat .LBRACE with
      | error e =>
        simp only [he1] at h
        cases h
      | ok p1 =>
        simp only [he1] at h
        obtain ⟨q1, hq1, hR1⟩ := hS.eat _ hR he1
        simp only [hq1]
        cases he2 : parseBlockLoop fuel [] p1 with
        | error e =>
          simp only [he2] at h
          cases h
        | ok v2 =>
          obtain ⟨a2, p2⟩ := v2
          simp only [he2] at h
          obtain ⟨q2, hq2, hR2⟩ := IH.blockLoop [] p1 q1 a2 p2 hR1 he2
          simp only [hq2]
          cases he3 : p2.eat .RBRACE with
          | error e =>
            simp only [he3] at h
            cases h
          | ok p3 =>
            simp only [he3] at h
            obtain ⟨q3, hq3, hR3⟩ := hS.eat _ hR2 he3
            simp only [hq3]
            injection h with h
            injection h with hs hp
            subst hs hp
            exact ⟨q3, rfl, hR3⟩
    · -- parseBlockLoop
      intro acc p q ss p' hR h
      rw [parseBlockLoop] at h ⊢
      rw [← hS.cur hR]
      by_cases c1 : p.cur.type ≠ .RBRACE
      · rw [if_pos c1] at h ⊢
        cases he1 : parseStatement fuel p with
        | error e =>
          simp only [he1] at h
          cases h
        | ok v1 =>
          obtain ⟨a1, p1⟩ := v1
          simp only [he1] at h
          obtain ⟨q1, hq1, hR1⟩ := IH.statement p q a1 p1 hR he1
          simp only [hq1]
          exact IH.blockLoop _ p1 q1 ss p' hR1 h
      · rw [if_neg c1] at h ⊢
        injection h with h
        injection h with hs hp
        subst hs hp
        exact ⟨q, rfl, hR⟩

/-- The loop of `parseProgram` respects every relation of parser states that `eat` respects,
and more fuel never changes a success. -/
theorem parseProgramLoop_sim {R : Parser → Parser → Prop} (hS : ParserSim R) :
    ∀ (fuel fuel' : Nat), fuel ≤ fuel' → ∀ (acc : List Stmt) (p q : Parser) (ss : List Stmt)
      (p' : Parser), R p q → parseProgramLoop fuel acc p = .ok (ss, p') →
      ∃ q', parseProgramLoop fuel' acc q = .ok (ss, q') ∧ R p' q'
  | 0, _, _, acc, p, q, ss, p', _, h => by simp [parseProgramLoop] at h
  | fuel + 1, 0, hle, _, _, _, _, _, _, _ => absurd hle (by omega)
  | fuel + 1, m + 1, hle, acc, p, q, ss, p', hR, h => by
    have IH := stmtSim hS fuel m (Nat.le_of_succ_le_succ hle)
    rw [parseProgramLoop] at h ⊢
    rw [← hS.cur hR]
    by_cases c1 : p.cur.type ≠ .END
    · rw [if_pos c1] at h ⊢
      cases he1 : parseStatement fuel p with
      | error e =>
        simp only [he1] at h
        cases h
      | ok v1 =>
        obtain ⟨a1, p1⟩ := v1
        simp only [he1] at h
        obtain ⟨q1, hq1, hR1⟩ := IH.statement p q a1 p1 hR he1
        simp only [hq1]
        exact parseProgramLoop_sim hS fuel m (Nat.le_of_succ_le_succ hle) _ p1 q1 ss p' hR1 h
    · rw [if_neg c1] at h ⊢
      injection h with h
      injection h with hs hp
      subst hs hp
      exact ⟨q, rfl, hR⟩

/-- Statements parsed so far are kept in front of those parsed next. -/
theorem parseProgramLoop_acc : ∀ (fuel : Nat) (acc1 acc2 : List Stmt) (p p' : Parser)
    (ss : List Stmt), parseProgramLoop fuel acc1 p = .ok (ss, p') →
      parseProgramLoop fuel (acc2 ++ acc1) p = .ok (acc2 ++ ss, p')
  | 0, _, _, _, _, _, h => by simp [parseProgramLoop] at h
  | fuel + 1, acc1, acc2, p, p', ss, h => by
    rw [parseProgramLoop] at h ⊢
    by_cases c1 : p.cur.type ≠ .END
    · rw [if_pos c1] at h ⊢
      cases he1 : parseStatement fuel p with
      | error e =>
        simp only [he1] at h
        cases h
      | ok v1 =>
        obtain ⟨a1, p1⟩ := v1
        simp only [he1] at h ⊢
        rw [List.append_assoc]
        exact parseProgramLoop_acc fuel _ acc2 p1 p' ss h
    · rw [if_neg c1] at h ⊢
      injection h with h
      injection h with hs hp
      subst hs hp
      rfl

/-! ## Lexing the head of the countdown program -/

/-- The identifier `x` followed by a blank. -/
theorem Lexer.nextToken_x {lx : Lexer} {r : List Char} (hrest : lx.rest = 'x' :: ' ' :: r) :
    ∃ l, lx.nextToken = .ok (⟨.IDENT, "x", 0, lx.line⟩, l) ∧ l.rest = ' ' :: r ∧
      l.line = lx.line := by
  have hpeek := Lexer.peek_of_rest hrest
  have hdrop : lx.src.drop lx.i = 'x' :: ' ' :: r := hrest
  refine ⟨{ lx with i := lx.i + 1 }, ?_, ?_, rfl⟩
  · rw [Lexer.nextToken_tokenHere (by rw [hpeek]; decide) (by rw [hpeek]; decide)
      (Lexer.startswith_pair_of_head_ne hrest '/' '/' (by decide))]
    unfold Lexer.tokenHere
    simp only [hpeek, hdrop]
    rw [if_neg (by decide), if_pos (by decide)]
    have htw : List.takeWhile (fun d => isalnum d || decide (d = '_')) ('x' :: ' ' :: r)
        = ['x'] := by
      rw [List.takeWhile_cons, if_pos (by decide), List.takeWhile_cons, if_neg (by decide)]
    rw [htw]
    rfl
  · rw [Lexer.rest_advance lx 1 lx.line, hrest]
    rfl

/-- A blank in front of the next token is skipped. -/
theorem Lexer.nextToken_blank {lx : Lexer} {r : List Char} (hrest : lx.rest = ' ' :: r) :
    ∃ l : Lexer, lx.nextToken = l.nextToken ∧ l.rest = r ∧ l.line = lx.line := by
  have hpeek := Lexer.peek_of_rest hrest
  refine ⟨lx.skipSpace, Lexer.nextToken_skipSpace (by rw [hpeek]; decide), ?_, ?_⟩
  · unfold Lexer.skipSpace
    rw [Lexer.rest_advance, hrest]
    rfl
  · unfold Lexer.skipSpace
    simp only [hpeek]
    rw [if_neg (by decide)]

/-- The assignment sign followed by a blank. -/
theorem Lexer.nextToken_assign_blank {lx : Lexer} {r : List Char}
    (hrest : lx.rest = '=' :: ' ' :: r) :
    ∃ l, lx.nextToken = .ok (⟨.ASSIGN, "=", 0, lx.line⟩, l) ∧ l.rest = ' ' :: r ∧
      l.line = lx.line := by
  refine ⟨{ lx with i := lx.i + 1 }, Lexer.nextToken_ASSIGN hrest (by simp), ?_, rfl⟩
  rw [Lexer.rest_advance lx 1 lx.line, hrest]
  rfl

/-- A digit is neither NUL, nor whitespace, nor a slash. -/
theorem isdigit_facts {c : Char} (h : isdigit c = true) :
    c ≠ Char.ofNat 0 ∧ isspace c = false ∧ c ≠ '/' := by
  unfold isdigit at h
  simp only [Bool.and_eq_true, decide_eq_true_eq] at h
  refine ⟨?_, ?_, ?_⟩
  · intro hc
    rw [hc] at h
    revert h
    decide
  · unfold isspace
    simp only [Bool.or_eq_false_iff, Bool.and_eq_false_iff, decide_eq_false_iff_not]
    omega
  · intro hc
    rw [hc] at h
    revert h
    decide

/-- A run of digits followed by a character that is no digit is one integer literal. -/
theorem Lexer.nextToken_digits {lx : Lexer} {ds : List Char} {c : Char} {r : List Char}
    (hrest : lx.rest = ds ++ c :: r) (hne : ds ≠ []) (hdig : ∀ d ∈ ds, isdigit d = true)
    (hc : isdigit c = false) (hmax : decimalValue ds ≤ 9223372036854775807) :
    ∃ l, lx.nextToken = .ok (⟨.INT_LIT, String.mk ds, decimalValue ds, lx.line⟩, l) ∧
      l.rest = c :: r ∧ l.line = lx.line := by
  obtain ⟨d, ds', rfl⟩ := List.exists_cons_of_ne_nil hne
  have hd : isdigit d = true := hdig d (List.mem_cons_self _ _)
  obtain ⟨hd0, hds, hdc⟩ := isdigit_facts hd
  have hrest' : lx.rest = d :: (ds' ++ c :: r) := hrest
  have hpeek := Lexer.peek_of_rest hrest'
  have hdrop : lx.src.drop lx.i = (d :: ds') ++ c :: r := hrest
  have htw : List.takeWhile isdigit ((d :: ds') ++ c :: r) = d :: ds' := by
    rw [List.takeWhile_append_of_pos hdig, List.takeWhile_cons, if_neg (by rw [hc]; decide),
      List.append_nil]
  refine ⟨{ lx with i := lx.i + (d :: ds').length }, ?_, ?_, rfl⟩
  · rw [Lexer.nextToken_tokenHere (by rw [hpeek]; exact hd0) (by rw [hpeek]; exact hds)
      (Lexer.startswith_pair_of_head_ne hrest' '/' '/' hdc)]
    unfold Lexer.tokenHere
    simp only [hpeek, hdrop, htw]
    rw [if_pos hd]
    unfold stoll
    rw [if_pos hmax]
  · rw [Lexer.rest_advance lx _ lx.line, hrest]
    simp

/-! ## Parsing the countdown program -/

/-- A primary followed by a token that is no binary operator is an expression, with fuel 7
or more. -/
theorem parseExpr_of_primary {p p' : Parser} {a : Expr} (h : parsePrimary 1 p = .ok (a, p'))
    (hstop : ¬ IsBinaryOp p'.cur.type) : ∀ n, 7 ≤ n → parseExpr n p = .ok (a, p') := by
  have e4 : ¬ IsEqualityOp p'.cur.type := fun h => hstop (Or.inl h)
  have e3 : ¬ IsComparisonOp p'.cur.type := fun h => hstop (Or.inr (Or.inl h))
  have e2 : ¬ IsTermOp p'.cur.type := fun h => hstop (Or.inr (Or.inr (Or.inl h)))
  have e1 : ¬ IsFactorOp p'.cur.type := fun h => hstop (Or.inr (Or.inr (Or.inr h)))
  unfold IsEqualityOp at e4
  unfold IsComparisonOp at e3
  unfold IsTermOp at e2
  unfold IsFactorOp at e1
  obtain ⟨hstart, _⟩ := parsePrimary_ok h
  have hU : parseUnary 2 p = .ok (a, p') := by
    rw [parseUnary, if_neg (by rcases hstart with h | h | h <;> rw [h] <;> decide),
      if_neg (by rcases hstart with h | h | h <;> rw [h] <;> decide)]
    exact h
  have hF : parseFactor 3 p = .ok (a, p') := by
    rw [parseFactor]
    simp only [hU]
    rw [parseFactorLoop, if_neg e1]
  have hT : parseTerm 4 p = .ok (a, p') := by
    rw [parseTerm]
    simp only [hF]
    rw [parseTermLoop, if_neg e2]
  have hC : parseComparison 5 p = .ok (a, p') := by
    rw [parseComparison]
    simp only [hT]
    rw [parseComparisonLoop, if_neg e3]
  have hE : parseEquality 6 p = .ok (a, p') := by
    rw [parseEquality]
    simp only [hC]
    rw [parseEqualityLoop, if_neg e4]
  have h7 : parseExpr 7 p = .ok (a, p') := by
    rw [parseExpr]
    exact hE
  intro n hn
  exact parseExpr_mono hn h7

/-- The countdown source, character by character up to the literal. -/
theorem countdownSource_eq (ds : List Char) :
    countdownSource ds = 'x' :: ' ' :: '=' :: ' ' :: (ds ++ ';' :: countdownTail.tail) := by
  show ['x', ' ', '=', ' '] ++ ds ++ (';' :: countdownTail.tail) = _
  simp

/-- The first statement of the countdown program: from the initial parser state,
`parseStatement` returns the assignment of the literal and stops in a state like the one
reached over the rest of the text alone. -/
theorem parseStatement_countdown_head (ds : List Char) (hne : ds ≠ [])
    (hdig : ∀ d ∈ ds, isdigit d = true) (hmax : decimalValue ds ≤ 9223372036854775807) :
    ∃ p0 p4 : Parser, Parser.init (countdownSource ds) = .ok p0 ∧ p0.cur.type = .IDENT ∧
      (∀ n, 8 ≤ n → parseStatement n p0
        = .ok (.AssignStmt "x" (.IntLit (decimalValue ds)), p4)) ∧
      Parser.Same (tokenState countdownTail 1) p4 := by
  have hsrc := countdownSource_eq ds
  -- the identifier
  obtain ⟨l1, hn0, hr1, hl1⟩ := @Lexer.nextToken_x (Lexer.init (countdownSource ds))
    ('=' :: ' ' :: (ds ++ ';' :: countdownTail.tail)) hsrc
  have hl1' : l1.line = 1 := hl1
  -- the assignment sign
  obtain ⟨l2, hn1, hr2, hl2⟩ := Lexer.nextToken_blank hr1
  obtain ⟨l3, hn2, hr3, hl3⟩ := Lexer.nextToken_assign_blank hr2
  -- the literal
  obtain ⟨l3b, hn3, hr3b, hl3b⟩ := Lexer.nextToken_blank hr3
  obtain ⟨l4, hn4, hr4, hl4⟩ := Lexer.nextToken_digits hr3b hne hdig (by decide) hmax
  have hline4 : l4.line = 1 := by rw [hl4, hl3b, hl3, hl2, hl1']
  -- from here on the remaining input is `countdownTail`
  have hsame4 : Lexer.Same { src := countdownTail, i := 0, line := 1 } l4 :=
    ⟨by rw [hr4]; rfl, hline4.symm⟩
  obtain ⟨l5, hn5, hsame5⟩ := Lexer.nextToken_same hsame4
    (show Lexer.nextToken { src := countdownTail, i := 0, line := 1 }
      = .ok (⟨.SEMI, ";", 0, 1⟩, { src := countdownTail, i := 1, line := 1 }) by decide!)
  -- the parser states
  have hp1 : Parser.eat { lex := l1, cur := ⟨.IDENT, "x", 0, 1⟩ } .IDENT
      = .ok { lex := l3, cur := ⟨.ASSIGN, "=", 0, l2.line⟩ } := by
    rw [Parser.eat_ok_iff]
    exact ⟨rfl, by rw [hn1, hn2]⟩
  have hp2 : Parser.eat { lex := l3, cur := ⟨.ASSIGN, "=", 0, l2.line⟩ } .ASSIGN
      = .ok { lex := l4, cur := ⟨.INT_LIT, String.mk ds, decimalValue ds, l3b.line⟩ } := by
    rw [Parser.eat_ok_iff]
    exact ⟨rfl, by rw [hn3, hn4]⟩
  have hp3 : Parser.eat
      { lex := l4, cur := ⟨.INT_LIT, String.mk ds, decimalValue ds, l3b.line⟩ } .INT_LIT
      = .ok { lex := l5, cur := ⟨.SEMI, ";", 0, 1⟩ } := by
    rw [Parser.eat_ok_iff]
    exact ⟨rfl, hn5⟩
  have hprim : parsePrimary 1
      { lex := l4, cur := ⟨.INT_LIT, String.mk ds, decimalValue ds, l3b.line⟩ }
      = .ok (.IntLit (decimalValue ds), { lex := l5, cur := ⟨.SEMI, ";", 0, 1⟩ }) := by
    rw [parsePrimary, if_pos rfl]
    simp only [hp3]
  have hexpr := parseExpr_of_primary hprim
    (show ¬ IsBinaryOp TokenType.SEMI by decide)
  have hsame3 : Parser.Same (tokenState countdownTail 0)
      { lex := l5, cur := ⟨.SEMI, ";", 0, 1⟩ } := by
    have h0 : tokenState countdownTail 0
        = { lex := { src := countdownTail, i := 1, line := 1 }, cur := ⟨.SEMI, ";", 0, 1⟩ } := by
      decide!
    rw [h0]
    exact ⟨rfl, hsame5⟩
  obtain ⟨p4, hp4, hsame4'⟩ := parserSim_same.eat .SEMI hsame3
    (show (tokenState countdownTail 0).eat .SEMI = .ok (tokenState countdownTail 1) by decide!)
  refine ⟨{ lex := l1, cur := ⟨.IDENT, "x", 0, 1⟩ }, p4, ?_, rfl, ?_, hsame4'⟩
  · unfold Parser.init
    simp only [hn0]
    rfl
  · intro n hn
    obtain ⟨k, rfl⟩ : ∃ k, n = k + 1 := ⟨n - 1, by omega⟩
    rw [parseStatement, if_neg (show ¬ TokenType.IDENT = TokenType.KW_PRINT by decide),
      if_pos rfl]
    simp only [hp1, hp2, hexpr k (by omega), hp4]

/-- The rest of the countdown program, parsed over its own text. -/
theorem parseProgramLoop_countdownTail :
    parseProgramLoop 60 [] (tokenState countdownTail 1)
      = .ok ([countdownLoop], tokenState countdownTail 21) := by
  decide!

/-- The countdown program parses to `countdownAst`. -/
theorem parseSource_countdown (ds : List Char) (hne : ds ≠ [])
    (hdig : ∀ d ∈ ds, isdigit d = true) (hmax : decimalValue ds ≤ 9223372036854775807) :
    parseSource (countdownSource ds) = .ok (countdownAst (decimalValue ds)) := by
  obtain ⟨p0, p4, hinit, hcur, hstmt, hsame⟩ := parseStatement_countdown_head ds hne hdig hmax
  have hlen : 41 ≤ (countdownSource ds).length := by
    rw [countdownSource_eq]
    simp only [List.length_cons, List.length_append]
    have : countdownTail.tail.length = 39 := by decide
    omega
  obtain ⟨k, hk, hk60⟩ : ∃ k, parseFuel (countdownSource ds) = k + 1 ∧ 60 ≤ k := by
    refine ⟨parseFuel (countdownSource ds) - 1, ?_, ?_⟩ <;> unfold parseFuel <;> omega
  obtain ⟨pend, hloop, _⟩ := parseProgramLoop_sim parserSim_same 60 k hk60 [] _ p4 _ _ hsame
    parseProgramLoop_countdownTail
  have hacc := parseProgramLoop_acc k [] [.AssignStmt "x" (.IntLit (decimalValue ds))] p4 pend
    [countdownLoop] hloop
  unfold parseSource
  simp only [hinit]
  rw [hk]
  unfold parseProgram
  rw [parseProgramLoop, if_pos (by rw [hcur]; decide)]
  simp only [hstmt k (by omega)]
  rw [List.append_nil] at hacc
  rw [List.nil_append, hacc]
  rfl

/-! ## Running the countdown program -/

/-- A loop that ends normally ends in a state where its condition evaluates to zero. -/
theorem whileLoop_exit {cond : Env → EvalResult} {body : State → ExecResult} :
    ∀ (fuel : Nat) (st st' : State), whileLoop cond body fuel st = .done st' →
      cond st'.env = .ok 0
  | 0, st, st', h => by simp [whileLoop] at h
  | fuel + 1, st, st', h => by
    rw [whileLoop] at h
    cases hc : cond st.env with
    | error err => simp only [hc] at h; cases h
    | ok c =>
      simp only [hc] at h
      by_cases h0 : c = 0
      · rw [if_pos h0] at h
        injection h with h
        subst h
        rw [hc, h0]
      · rw [if_neg h0] at h
        cases hb : body st with
        | done st1 =>
          simp only [hb] at h
          exact whileLoop_exit fuel st1 st' h
        | fail err st1 => simp only [hb] at h; cases h
        | outOfFuel st1 => simp only [hb] at h; cases h

/-- The operator `>` of `Binary::eval`. -/
theorem evalBinary_gt (A B : Int) : evalBinary ">" A B = .ok (boolToInt (decide (A > B))) := by
  unfold evalBinary
  rw [if_neg (by decide), if_neg (by decide), if_neg (by decide), if_neg (by decide),
    if_neg (by decide), if_neg (by decide), if_neg (by decide), if_neg (by decide),
    if_pos rfl]

/-- The operator `-` of `Binary::eval`. -/
theorem evalBinary_sub (A B : Int) : evalBinary "-" A B = .ok (wrap64 (A - B)) := by
  unfold evalBinary
  rw [if_neg (by decide), if_pos rfl]

/-- A value of the signed 64-bit range is left alone by the reduction to that range. -/
theorem wrap64_of_range {x : Int} (h1 : -9223372036854775808 ≤ x)
    (h2 : x ≤ 9223372036854775807) : wrap64 x = x := by
  unfold wrap64
  have e63 : (2 : Int) ^ 63 = 9223372036854775808 := by norm_num
  have e64 : (2 : Int) ^ 64 = 18446744073709551616 := by norm_num
  rw [e63, e64]
  omega

/-- The condition `x > 0` of the countdown loop. -/
theorem eval_countdown_cond {env : Env} {v : Int} (hx : env "x" = some v) :
    eval env (.Binary ">" (.VarExpr "x") (.IntLit 0)) = .ok (boolToInt (decide (v > 0))) := by
  simp only [eval, hx, evalBinary_gt]

/-- The body `print(x); x = x - 1;` of the countdown loop, from a positive `x`. -/
theorem execBlock_countdown_body (bf : Nat) {st : State} {v : Int} (hx : st.env "x" = some v)
    (h1 : 0 < v) (h2 : v ≤ 9223372036854775807) :
    execBlock bf [.PrintStmt (.VarExpr "x"),
        .AssignStmt "x" (.Binary "-" (.VarExpr "x") (.IntLit 1))] st
      = .done { env := st.env.set "x" (v - 1), out := st.out ++ [v] } := by
  simp only [execBlock, execStmt, eval, hx, evalBinary_sub]
  rw [wrap64_of_range (by omega) (by omega)]

/-- The countdown loop from `x = k`: it ends normally with `x = 0`, having printed
`k, ..., 1`, and leaves the other variables alone. -/
theorem whileLoop_countdown (bf : Nat) : ∀ (k : Nat), (k : Int) ≤ 9223372036854775807 →
    ∀ (fuel : Nat) (st : State), st.env "x" = some (k : Int) → k + 1 ≤ fuel →
    ∃ st', whileLoop (fun env => eval env (.Binary ">" (.VarExpr "x") (.IntLit 0)))
        (fun s => execBlock bf [.PrintStmt (.VarExpr "x"),
          .AssignStmt "x" (.Binary "-" (.VarExpr "x") (.IntLit 1))] s) fuel st = .done st' ∧
      st'.env "x" = some 0 ∧ st'.out = st.out ++ countdown k ∧
      ∀ y, y ≠ "x" → st'.env y = st.env y
  | 0, _, fuel, st, hx, hf => by
    obtain ⟨m, rfl⟩ : ∃ m, fuel = m + 1 := ⟨fuel - 1, by omega⟩
    refine ⟨st, ?_, hx, by simp [countdown], fun _ _ => rfl⟩
    rw [whileLoop]
    simp only [eval_countdown_cond hx]
    rfl
  | k + 1, hk, fuel, st, hx, hf => by
    obtain ⟨m, rfl⟩ : ∃ m, fuel = m + 1 := ⟨fuel - 1, by omega⟩
    have hpos : (0 : Int) < ((k + 1 : Nat) : Int) := by omega
    have hbody := execBlock_countdown_body bf hx hpos hk
    have hx1 : (State.mk (st.env.set "x" (((k + 1 : Nat) : Int) - 1))
        (st.out ++ [((k + 1 : Nat) : Int)])).env "x" = some (k : Int) := by
      simp [Env.set]
    obtain ⟨st', hloop, henv, hout, hother⟩ := whileLoop_countdown bf k (by omega) m _ hx1
      (by omega)
    refine ⟨st', ?_, henv, ?_, ?_⟩
    · rw [whileLoop]
      simp only [eval_countdown_cond hx, hbody]
      rw [if_neg (by simp [boolToInt, hpos])]
      exact hloop
    · rw [hout]
      simp [countdown]
    · intro y hy
      rw [hother y hy]
      simp [Env.set, hy]

/-- The countdown program passes the semantic check. -/
theorem semanticCheckBlock_countdownAst (n : Int) :
    ∃ D, semanticCheckBlock (countdownAst n) ∅ = .ok D :=
  ⟨_, rfl⟩

/-- Constant folding leaves the countdown program alone. -/
theorem foldConstantsInBlock_countdownAst (n : Int) :
    foldConstantsInBlock (countdownAst n) = .ok (countdownAst n) := rfl

/-- The execution of the countdown program for the literal value `k`. -/
theorem execBlock_countdownAst (k : Nat) (hk : (k : Int) ≤ 9223372036854775807) (fuel : Nat)
    (hf : k + 1 ≤ fuel) :
    ∃ st, execBlock fuel (countdownAst k) State.initial = .done st ∧
      st.out = countdown k ∧ st.env "x" = some 0 ∧
      eval st.env (.Binary ">" (.VarExpr "x") (.IntLit 0)) = .ok 0 := by
  have hx : (State.mk (State.initial.env.set "x" (k : Int)) State.initial.out).env "x"
      = some (k : Int) := by simp [Env.set]
  obtain ⟨st', hloop, henv, hout, _⟩ := whileLoop_countdown fuel k hk fuel _ hx hf
  refine ⟨st', ?_, ?_, henv, ?_⟩
  · have h1 : execStmt fuel (.AssignStmt "x" (.IntLit (k : Int))) State.initial
        = .done (State.mk (State.initial.env.set "x" (k : Int)) State.initial.out) := rfl
    have h2 : execStmt fuel countdownLoop
        (State.mk (State.initial.env.set "x" (k : Int)) State.initial.out) = .done st' := by
      rw [← hloop]
      rfl
    unfold countdownAst
    rw [execBlock, h1]
    simp only []
    rw [execBlock, h2]
    rfl
  · rw [hout]
    simp [State.initial]
  · rw [eval_countdown_cond henv]
    rfl

/-- C19. For every integer literal `n >= 0` representable in 64 bits, written with the
digits `ds`, the source `x = n; while (x > 0) \x7b print(x); x = x - 1; \x7d` parses to the
assignment followed by the loop, and with any budget of at least `n + 1` condition
evaluations the run terminates normally having printed exactly `n, n-1, ..., 1` in that order
(nothing when `n = 0`), with `x = 0` in the final environment, where the loop condition
evaluates to zero. In general a `while` statement that ends normally ends in a state where
its condition evaluates to zero. -/
theorem countdown_program (ds : List Char) (hne : ds ≠ [])
    (hdig : ∀ d ∈ ds, isdigit d = true) (hmax : decimalValue ds ≤ 9223372036854775807) :
    parseSource (countdownSource ds) = .ok (countdownAst (decimalValue ds)) ∧
    (∀ fuel, decimalValue ds + 1 ≤ fuel →
      ∃ st, runSource fuel (countdownSource ds) = .executed (.done st) ∧
        st.out = countdown (decimalValue ds) ∧ st.env "x" = some 0 ∧
        eval st.env (.Binary ">" (.VarExpr "x") (.IntLit 0)) = .ok 0) ∧
    (∀ (cond : Expr) (body : List Stmt) (fuel : Nat) (st st' : State),
      execStmt fuel (.WhileStmt cond body) st = .done st' → eval st'.env cond = .ok 0) := by
  have hp := parseSource_countdown ds hne hdig hmax
  refine ⟨hp, ?_, ?_⟩
  · intro fuel hf
    obtain ⟨D, hD⟩ := semanticCheckBlock_countdownAst (decimalValue ds)
    obtain ⟨st, hexec, hout, henv, hcond⟩ := execBlock_countdownAst (decimalValue ds)
      (by exact_mod_cast hmax) fuel hf
    refine ⟨st, ?_, hout, henv, hcond⟩
    rw [runSource_executed fuel hp hD (foldConstantsInBlock_countdownAst _), hexec]
  · intro cond body fuel st st' h
    rw [execStmt] at h
    exact whileLoop_exit fuel st st' h

/-- Witness for C19: for the literal `5` the run prints `5, 4, 3, 2, 1` and leaves
`x = 0`. -/
theorem countdown_program_witness :
    ∃ st, runSource 6 "x = 5; while (x > 0) \x7b print(x); x = x - 1; \x7d".toList
        = .executed (.done st) ∧
      st.out = [5, 4, 3, 2, 1] ∧ st.env "x" = some 0 := by
  obtain ⟨st, h1, h2, h3, _⟩ :=
    (countdown_program ['5'] (by decide) (by decide) (by decide)).2.1 6 (by decide)
  exact ⟨st, h1, h2, h3⟩

/-! ## Nested blocks in the semantic pass -/

/-- The semantic pass on two lists in a row. -/
theorem semanticCheckBlock_append : ∀ (a b : List Stmt) (D : Finset String),
    semanticCheckBlock (a ++ b) D =
      match semanticCheckBlock a D with
      | .error n => .error n
      | .ok D' => semanticCheckBlock b D'
  | [], b, D => by simp only [List.nil_append, semanticCheckBlock]
  | s :: rest, b, D => by
    simp only [List.cons_append, semanticCheckBlock]
    cases semanticCheckStmt s D with
    | error n => rfl
    | ok D' => exact semanticCheckBlock_append rest b D'

/-- C23. A nested block shares the enclosing defined set: for all statement lists `pre`,
`ss`, `post` and every defined set `D`, the semantic pass on `pre ++ [Block(ss)] ++ post`
gives the very result of the pass on the spliced list `pre ++ ss ++ post`: the same verdict,
the same reported variable on failure, the same final defined set. The source
`\x7b x = 1; \x7d print(x);` is accepted. -/
theorem nested_block_shares_defined_set (pre ss post : List Stmt) (D : Finset String) :
    semanticCheckBlock (pre ++ [.BlockStmt ss] ++ post) D
      = semanticCheckBlock (pre ++ ss ++ post) D ∧
    parseSource "\x7b x = 1; \x7d print(x);".toList
      = .ok [.BlockStmt [.AssignStmt "x" (.IntLit 1)], .PrintStmt (.VarExpr "x")] ∧
    semanticCheckBlock [.BlockStmt [.AssignStmt "x" (.IntLit 1)], .PrintStmt (.VarExpr "x")] ∅
      = .ok {"x"} ∧
    (∀ fuel, (runSource fuel "\x7b x = 1; \x7d print(x);".toList).outcome = .finished ∧
      (runSource fuel "\x7b x = 1; \x7d print(x);".toList).output = [1]) := by
  have hp : parseSource "\x7b x = 1; \x7d print(x);".toList
      = .ok [.BlockStmt [.AssignStmt "x" (.IntLit 1)], .PrintStmt (.VarExpr "x")] := by
    decide!
  have hc : semanticCheckBlock
      [.BlockStmt [.AssignStmt "x" (.IntLit 1)], .PrintStmt (.VarExpr "x")] ∅
      = .ok {"x"} := by decide
  refine ⟨?_, hp, hc, ?_⟩
  · rw [semanticCheckBlock_append, semanticCheckBlock_append, semanticCheckBlock_append,
      semanticCheckBlock_append]
    cases semanticCheckBlock pre D with
    | error n => rfl
    | ok D' =>
      simp only [semanticCheckBlock, semanticCheckStmt]
      cases semanticCheckBlock ss D' with
      | error n => rfl
      | ok D'' => rfl
  · intro fuel
    rw [runSource_executed fuel hp hc
      (show foldConstantsInBlock _
        = .ok [.BlockStmt [.AssignStmt "x" (.IntLit 1)], .PrintStmt (.VarExpr "x")]
        by decide)]
    exact ⟨rfl, rfl⟩

/-! ## What constant folding computes -/

/-- The run-time operator table succeeds only where the compile-time table does, with the same
value. -/
theorem foldOp_of_evalBinary {op : String} {av bv r : Int}
    (h : evalBinary op av bv = .ok r) : foldOp op av bv = .ok (some r) := by
  have key : ∀ {x : Int}, EvalResult.ok x = EvalResult.ok r →
      FoldResult.ok (some x) = FoldResult.ok (some r) := by
    intro x hx
    injection hx with hx
    rw [hx]
  unfold evalBinary at h
  unfold foldOp
  by_cases h1 : op = "+"
  · rw [if_pos h1] at h ⊢; exact key h
  rw [if_neg h1] at h ⊢
  by_cases h2 : op = "-"
  · rw [if_pos h2] at h ⊢; exact key h
  rw [if_neg h2] at h ⊢
  by_cases h3 : op = "*"
  · rw [if_pos h3] at h ⊢; exact key h
  rw [if_neg h3] at h ⊢
  by_cases h4 : op = "/"
  · rw [if_pos h4] at h ⊢
    by_cases hb : bv = 0
    · rw [if_pos hb] at h; cases h
    · rw [if_neg hb] at h ⊢
      by_cases hq : QuotientOverflows av bv
      · rw [if_pos hq] at h; cases h
      · rw [if_neg hq] at h ⊢; exact key h
  rw [if_neg h4] at h ⊢
  by_cases h5 : op = "%"
  · rw [if_pos h5] at h ⊢
    by_cases hb : bv = 0
    · rw [if_pos hb] at h; cases h
    · rw [if_neg hb] at h ⊢
      by_cases hq : QuotientOverflows av bv
      · rw [if_pos hq] at h; cases h
      · rw [if_neg hq] at h ⊢; exact key h
  rw [if_neg h5] at h ⊢
  by_cases h6 : op = "=="
  · rw [if_pos h6] at h ⊢; exact key h
  rw [if_neg h6] at h ⊢
  by_cases h7 : op = "!="
  · rw [if_pos h7] at h ⊢; exact key h
  rw [if_neg h7] at h ⊢
  by_cases h8 : op = "<"
  · rw [if_pos h8] at h ⊢; exact key h
  rw [if_neg h8] at h ⊢
  by_cases h9 : op = ">"
  · rw [if_pos h9] at h ⊢; exact key h
  rw [if_neg h9] at h ⊢
  by_cases h10 : op = "<="
  · rw [if_pos h10] at h ⊢; exact key h
  rw [if_neg h10] at h ⊢
  by_cases h11 : op = ">="
  · rw [if_pos h11] at h ⊢; exact key h
  rw [if_neg h11] at h
  cases h

/-- A variable-free expression whose evaluation succeeds folds to the literal of its value. -/
theorem foldExpr_of_eval (env : Env) : ∀ (e : Expr) (v : Int), varsOf e = [] →
    eval env e = .ok v → foldExpr e = .ok (.IntLit v)
  | .IntLit w, v, _, h => by
    simp only [eval] at h
    cases h
    rfl
  | .VarExpr name, v, hv, _ => by simp [varsOf] at hv
  | .Binary op a b, v, hv, h => by
    simp only [varsOf, List.append_eq_nil] at hv
    simp only [eval] at h
    cases ha : eval env a with
    | error err => simp only [ha] at h; cases h
    | ok A =>
      simp only [ha] at h
      cases hb : eval env b with
      | error err => simp only [hb] at h; cases h
      | ok B =>
        simp only [hb] at h
        simp only [foldExpr, foldExpr_of_eval env a A hv.1 ha,
          foldExpr_of_eval env b B hv.2 hb, foldBinary, foldOp_of_evalBinary h]

/-- The compile-time table on the six comparison operators. -/
theorem foldOp_comparison (av bv : Int) :
    foldOp "==" av bv = .ok (some (boolToInt (decide (av = bv)))) ∧
    foldOp "!=" av bv = .ok (some (boolToInt (decide (av ≠ bv)))) ∧
    foldOp "<" av bv = .ok (some (boolToInt (decide (av < bv)))) ∧
    foldOp ">" av bv = .ok (some (boolToInt (decide (av > bv)))) ∧
    foldOp "<=" av bv = .ok (some (boolToInt (decide (av ≤ bv)))) ∧
    foldOp ">=" av bv = .ok (some (boolToInt (decide (av ≥ bv)))) := by
  refine ⟨?_, ?_, ?_, ?_, ?_, ?_⟩ <;> unfold foldOp
  · rw [if_neg (by decide), if_neg (by decide), if_neg (by decide), if_neg (by decide),
      if_neg (by decide), if_pos rfl]
  · rw [if_neg (by decide), if_neg (by decide), if_neg (by decide), if_neg (by decide),
      if_neg (by decide), if_neg (by decide), if_pos rfl]
  · rw [if_neg (by decide), if_neg (by decide), if_neg (by decide), if_neg (by decide),
      if_neg (by decide), if_neg (by decide), if_neg (by decide), if_pos rfl]
  · rw [if_neg (by decide), if_neg (by decide), if_neg (by decide), if_neg (by decide),
      if_neg (by decide), if_neg (by decide), if_neg (by decide), if_neg (by decide),
      if_pos rfl]
  · rw [if_neg (by decide), if_neg (by decide), if_neg (by decide), if_neg (by decide),
      if_neg (by decide), if_neg (by decide), if_neg (by decide), if_neg (by decide),
      if_neg (by decide), if_pos rfl]
  · rw [if_neg (by decide), if_neg (by decide), if_neg (by decide), if_neg (by decide),
      if_neg (by decide), if_neg (by decide), if_neg (by decide), if_neg (by decide),
      if_neg (by decide), if_neg (by decide), if_pos rfl]

/-- C25. For every expression `e` that contains no variable and whose evaluation succeeds
with value `v`, `foldExpr e` returns the single node `IntLit v`. A comparison of two literals
folds to `IntLit 1` when it holds and to `IntLit 0` when it does not. -/
theorem variable_free_expression_folds_to_literal (e : Expr) (env : Env) (v : Int)
    (hvars : varsOf e = []) (heval : eval env e = .ok v) :
    foldExpr e = .ok (.IntLit v) ∧
    (∀ (op : String) (a b : Int), op ∈ ["==", "!=", "<", ">", "<=", ">="] →
      (foldExpr (.Binary op (.IntLit a) (.IntLit b)) = .ok (.IntLit 1) ∨
        foldExpr (.Binary op (.IntLit a) (.IntLit b)) = .ok (.IntLit 0)) ∧
      (foldExpr (.Binary op (.IntLit a) (.IntLit b)) = .ok (.IntLit 1) ↔
        eval env (.Binary op (.IntLit a) (.IntLit b)) = .ok 1)) ∧
    (∀ a b : Int, foldExpr (.Binary "<" (.IntLit a) (.IntLit b))
      = .ok (.IntLit (if a < b then 1 else 0))) := by
  refine ⟨foldExpr_of_eval env e v hvars heval, ?_, ?_⟩
  · intro op a b hop
    have hc := foldOp_comparison a b
    have hfold : ∃ c : Bool, foldOp op a b = .ok (some (boolToInt c)) := by
      simp only [List.mem_cons, List.mem_singleton, List.not_mem_nil, or_false] at hop
      rcases hop with h | h | h | h | h | h <;> subst h
      · exact ⟨_, hc.1⟩
      · exact ⟨_, hc.2.1⟩
      · exact ⟨_, hc.2.2.1⟩
      · exact ⟨_, hc.2.2.2.1⟩
      · exact ⟨_, hc.2.2.2.2.1⟩
      · exact ⟨_, hc.2.2.2.2.2⟩
    obtain ⟨c, hcv⟩ := hfold
    have hf : foldExpr (.Binary op (.IntLit a) (.IntLit b))
        = .ok (.IntLit (boolToInt c)) := by
      simp only [foldExpr, foldBinary, hcv]
    have he : eval env (.Binary op (.IntLit a) (.IntLit b)) = .ok (boolToInt c) := by
      simp only [eval, evalBinary_of_foldOp hcv]
    rw [hf, he]
    cases c <;> simp [boolToInt]
  · intro a b
    simp only [foldExpr, foldBinary, (foldOp_comparison a b).2.2.1, boolToInt]
    by_cases h : a < b <;> simp [h]

/-- Witness for C25: `(2 + 3) * 4 < 21` has no variable and evaluates to 1, and folds to
`IntLit 1`. -/
theorem variable_free_expression_folds_to_literal_witness :
    foldExpr (.Binary "<" (.Binary "*" (.Binary "+" (.IntLit 2) (.IntLit 3)) (.IntLit 4))
      (.IntLit 21)) = .ok (.IntLit 1) :=
  (variable_free_expression_folds_to_literal
    (.Binary "<" (.Binary "*" (.Binary "+" (.IntLit 2) (.IntLit 3)) (.IntLit 4)) (.IntLit 21))
    Env.empty 1 (by decide) (by decide)).1

/-! ## Constant folding keeps the statement structure -/

/-- If the folded operands are both literals, the operands hold no variable: a folded
expression is a literal only if the expression holds no variable. -/
theorem varsOf_of_foldExpr_lit : ∀ (e : Expr) (v : Int), foldExpr e = .ok (.IntLit v) →
    varsOf e = []
  | .IntLit _, _, _ => rfl
  | .VarExpr name, v, h => by simp [foldExpr] at h
  | .Binary op a b, v, h => by
    obtain ⟨a', b', ha, hb, hn⟩ := foldExpr_Binary_ok h
    unfold foldBinary at hn
    split at hn
    · next av bv =>
      simp only [varsOf, varsOf_of_foldExpr_lit a av ha, varsOf_of_foldExpr_lit b bv hb,
        List.append_nil]
    · cases hn

/-- Folding keeps the variables of an expression, in their order of occurrence. -/
theorem varsOf_foldExpr : ∀ (e e' : Expr), foldExpr e = .ok e' → varsOf e' = varsOf e
  | .IntLit _, e', h => by simp only [foldExpr] at h; cases h; rfl
  | .VarExpr _, e', h => by simp only [foldExpr] at h; cases h; rfl
  | .Binary op a b, e', h => by
    obtain ⟨a', b', ha, hb, hn⟩ := foldExpr_Binary_ok h
    have hbin : varsOf (.Binary op a' b') = varsOf (.Binary op a b) := by
      simp only [varsOf, varsOf_foldExpr a a' ha, varsOf_foldExpr b b' hb]
    unfold foldBinary at hn
    split at hn
    · next av bv =>
      cases hop : foldOp op av bv with
      | trap => simp only [hop] at hn; cases hn
      | ok o =>
        cases o with
        | none => simp only [hop] at hn; cases hn; exact hbin
        | some r =>
          simp only [hop] at hn
          cases hn
          simp only [varsOf, varsOf_of_foldExpr_lit a av ha, varsOf_of_foldExpr_lit b bv hb,
            List.append_nil]
    · cases hn; exact hbin

mutual
/-- Folding a statement replaces its expressions by their folded images. -/
theorem foldConstantsInStmt_eq_mapExprs :
    ∀ s : Stmt, foldConstantsInStmt s = Stmt.mapExprs foldExpr s
  | .PrintStmt e => by
    simp only [foldConstantsInStmt, Stmt.mapExprs]
    cases foldExpr e <;> rfl
  | .AssignStmt name e => by
    simp only [foldConstantsInStmt, Stmt.mapExprs]
    cases foldExpr e <;> rfl
  | .BlockStmt stmts => by
    simp only [foldConstantsInStmt, Stmt.mapExprs, ← foldConstantsInBlock_eq_mapExprs stmts]
    cases foldConstantsInBlock stmts <;> rfl
  | .IfStmt cond thenBlock elseBlock => by
    simp only [foldConstantsInStmt, Stmt.mapExprs,
      ← foldConstantsInBlock_eq_mapExprs thenBlock, ← foldConstantsInElse_eq_mapExprs elseBlock]
    cases foldExpr cond with
    | trap => rfl
    | ok cond' =>
      cases foldConstantsInBlock thenBlock with
      | trap => rfl
      | ok thenBlock' => cases foldConstantsInElse elseBlock <;> rfl
  | .WhileStmt cond body => by
    simp only [foldConstantsInStmt, Stmt.mapExprs, ← foldConstantsInBlock_eq_mapExprs body]
    cases foldExpr cond with
    | trap => rfl
    | ok cond' => cases foldConstantsInBlock body <;> rfl
/-- Folding a block replaces its expressions by their folded images. -/
theorem foldConstantsInBlock_eq_mapExprs :
    ∀ blk : List Stmt, foldConstantsInBlock blk = Stmt.mapExprsBlock foldExpr blk
  | [] => by simp only [foldConstantsInBlock, Stmt.mapExprsBlock]
  | s :: rest => by
    simp only [foldConstantsInBlock, Stmt.mapExprsBlock, ← foldConstantsInStmt_eq_mapExprs s,
      ← foldConstantsInBlock_eq_mapExprs rest]
    cases foldConstantsInStmt s with
    | trap => rfl
    | ok s' => cases foldConstantsInBlock rest <;> rfl
/-- Folding an else arm replaces its expressions by their folded images. -/
theorem foldConstantsInElse_eq_mapExprs :
    ∀ e : Option (List Stmt), foldConstantsInElse e = Stmt.mapExprsElse foldExpr e
  | none => by simp only [foldConstantsInElse, Stmt.mapExprsElse]
  | some blk => by
    simp only [foldConstantsInElse, Stmt.mapExprsElse, ← foldConstantsInBlock_eq_mapExprs blk]
    cases foldConstantsInBlock blk <;> rfl
end

mutual
/-- Erasing the expressions of a folded statement is erasing those of the statement. -/
theorem foldConstantsInStmt_erase :
    ∀ (s s' : Stmt), foldConstantsInStmt s = .ok s' → s'.eraseExprs = s.eraseExprs
  | .PrintStmt e, s', h => by
    simp only [foldConstantsInStmt] at h
    cases he : foldExpr e with
    | trap => simp only [he] at h; cases h
    | ok e' => simp only [he] at h; cases h; rfl
  | .AssignStmt name e, s', h => by
    simp only [foldConstantsInStmt] at h
    cases he : foldExpr e with
    | trap => simp only [he] at h; cases h
    | ok e' => simp only [he] at h; cases h; rfl
  | .BlockStmt stmts, s', h => by
    simp only [foldConstantsInStmt] at h
    cases hb : foldConstantsInBlock stmts with
    | trap => simp only [hb] at h; cases h
    | ok stmts' =>
      simp only [hb] at h
      cases h
      simp only [Stmt.eraseExprs, foldConstantsInBlock_erase stmts stmts' hb]
  | .IfStmt cond thenBlock elseBlock, s', h => by
    simp only [foldConstantsInStmt] at h
    cases hc : foldExpr cond with
    | trap => simp only [hc] at h; cases h
    | ok cond' =>
      simp only [hc] at h
      cases ht : foldConstantsInBlock thenBlock with
      | trap => simp only [ht] at h; cases h
      | ok thenBlock' =>
        simp only [ht] at h
        cases hel : foldConstantsInElse elseBlock with
        | trap => simp only [hel] at h; cases h
        | ok elseBlock' =>
          simp only [hel] at h
          cases h
          simp only [Stmt.eraseExprs, foldConstantsInBlock_erase thenBlock thenBlock' ht,
            foldConstantsInElse_erase elseBlock elseBlock' hel]
  | .WhileStmt cond body, s', h => by
    simp only [foldConstantsInStmt] at h
    cases hc : foldExpr cond with
    | trap => simp only [hc] at h; cases h
    | ok cond' =>
      simp only [hc] at h
      cases hb : foldConstantsInBlock body with
      | trap => simp only [hb] at h; cases h
      | ok body' =>
        simp only [hb] at h
        cases h
        simp only [Stmt.eraseExprs, foldConstantsInBlock_erase body body' hb]
/-- Erasing the expressions of a folded block is erasing those of the block. -/
theorem foldConstantsInBlock_erase :
    ∀ (blk blk' : List Stmt), foldConstantsInBlock blk = .ok blk' →
      Stmt.eraseExprsBlock blk' = Stmt.eraseExprsBlock blk
  | [], blk', h => by
    simp only [foldConstantsInBlock] at h
    cases h
    rfl
  | s :: rest, blk', h => by
    simp only [foldConstantsInBlock] at h
    cases hs : foldConstantsInStmt s with
    | trap => simp only [hs] at h; cases h
    | ok s' =>
      simp only [hs] at h
      cases hr : foldConstantsInBlock rest with
      | trap => simp only [hr] at h; cases h
      | ok rest' =>
        simp only [hr] at h
        cases h
        simp only [Stmt.eraseExprsBlock, foldConstantsInStmt_erase s s' hs,
          foldConstantsInBlock_erase rest rest' hr]
/-- Erasing the expressions of a folded else arm is erasing those of the else arm. -/
theorem foldConstantsInElse_erase :
    ∀ (e e' : Option (List Stmt)), foldConstantsInElse e = .ok e' →
      Stmt.eraseExprsElse e' = Stmt.eraseExprsElse e
  | none, e', h => by
    simp only [foldConstantsInElse] at h
    cases h
    rfl
  | some blk, e', h => by
    simp only [foldConstantsInElse] at h
    cases hb : foldConstantsInBlock blk with
    | trap => simp only [hb] at h; cases h
    | ok blk' =>
      simp only [hb] at h
      cases h
      simp only [Stmt.eraseExprsElse, foldConstantsInBlock_erase blk blk' hb]
end

/-- Erasing the expressions keeps the number of statements of a block. -/
theorem Stmt.length_eraseExprsBlock : ∀ blk : List Stmt,
    (Stmt.eraseExprsBlock blk).length = blk.length
  | [] => rfl
  | s :: rest => by
    simp only [Stmt.eraseExprsBlock, List.length_cons, Stmt.length_eraseExprsBlock rest]

/-- C26. Folding rewrites expressions only, never statement structure: for every program
`p`, `foldConstantsInBlock p` is the traversal of `p` that replaces each assigned or printed
expression and each `if` or `while` condition, at every nesting depth, by what `foldExpr`
returns on it; the program it returns has the skeleton of `p` (the same statements of the
same kinds in the same order and nesting, the same assignment targets, else blocks at the
same places) and as many statements; the variables occurring in each expression are
unchanged. An `if` or `while` whose condition folds to a literal is kept. -/
theorem folding_keeps_statement_structure (p : List Stmt) :
    foldConstantsInBlock p = Stmt.mapExprsBlock foldExpr p ∧
    (∀ p', foldConstantsInBlock p = .ok p' → skeleton p' = skeleton p ∧
      p'.length = p.length) ∧
    (∀ e e' : Expr, foldExpr e = .ok e' → varsOf e' = varsOf e) ∧
    (∀ (thenBlock : List Stmt) (elseBlock : Option (List Stmt)),
      foldConstantsInStmt (.IfStmt (.Binary "==" (.IntLit 1) (.IntLit 1)) thenBlock elseBlock)
        = (foldConstantsInBlock thenBlock).bind fun thenBlock' =>
            (foldConstantsInElse elseBlock).bind fun elseBlock' =>
              .ok (.IfStmt (.IntLit 1) thenBlock' elseBlock')) ∧
    (∀ body : List Stmt,
      foldConstantsInStmt (.WhileStmt (.Binary "<" (.IntLit 1) (.IntLit 0)) body)
        = (foldConstantsInBlock body).bind fun body' =>
            .ok (.WhileStmt (.IntLit 0) body')) := by
  refine ⟨foldConstantsInBlock_eq_mapExprs p, ?_, varsOf_foldExpr, ?_, ?_⟩
  · intro p' h
    have hs : skeleton p' = skeleton p := foldConstantsInBlock_erase p p' h
    refine ⟨hs, ?_⟩
    have hl := congrArg List.length hs
    unfold skeleton at hl
    rw [Stmt.length_eraseExprsBlock, Stmt.length_eraseExprsBlock] at hl
    exact hl
  · intro thenBlock elseBlock
    have hc : foldExpr (.Binary "==" (.IntLit 1) (.IntLit 1)) = .ok (.IntLit 1) := by decide
    simp only [foldConstantsInStmt, hc]
    cases foldConstantsInBlock thenBlock with
    | trap => rfl
    | ok thenBlock' => cases foldConstantsInElse elseBlock <;> rfl
  · intro body
    have hc : foldExpr (.Binary "<" (.IntLit 1) (.IntLit 0)) = .ok (.IntLit 0) := by decide
    simp only [foldConstantsInStmt, hc]
    cases foldConstantsInBlock body <;> rfl

/-- Witness for C26: the program `if (1 < 2) { x = 1 + 2; }` folds to `if (1) { x = 3; }`,
which has the same skeleton and as many statements. -/
theorem folding_keeps_statement_structure_witness :
    foldConstantsInBlock
        [.IfStmt (.Binary "<" (.IntLit 1) (.IntLit 2))
          [.AssignStmt "x" (.Binary "+" (.IntLit 1) (.IntLit 2))] none]
      = .ok [.IfStmt (.IntLit 1) [.AssignStmt "x" (.IntLit 3)] none] ∧
    skeleton [.IfStmt (.IntLit 1) [.AssignStmt "x" (.IntLit 3)] none]
      = skeleton [.IfStmt (.Binary "<" (.IntLit 1) (.IntLit 2))
          [.AssignStmt "x" (.Binary "+" (.IntLit 1) (.IntLit 2))] none] ∧
    [Stmt.IfStmt (.IntLit 1) [.AssignStmt "x" (.IntLit 3)] none].length
      = [Stmt.IfStmt (.Binary "<" (.IntLit 1) (.IntLit 2))
          [.AssignStmt "x" (.Binary "+" (.IntLit 1) (.IntLit 2))] none].length :=
  ⟨by decide,
    (folding_keeps_statement_structure
      [.IfStmt (.Binary "<" (.IntLit 1) (.IntLit 2))
        [.AssignStmt "x" (.Binary "+" (.IntLit 1) (.IntLit 2))] none]).2.1 _ (by decide)⟩

/-! ## Three-address code: the templates of the statements -/

/-- The code after `push` is the code before, then the line. -/
theorem TACGen.code_push (g : TACGen) (line : String) :
    (g.push line).code = g.code ++ [line] := rfl

/-- The method `genExpr` only appends. -/
theorem TACGen.genExpr_prefix (e : Expr) (g : TACGen) :
    g.code <+: (TACGen.genExpr e g).2.code := by
  obtain ⟨instrs, _, h, _, _⟩ := TACGen.genExpr_spec e g
  rw [h]
  exact List.prefix_append _ _

mutual
/-- The method `genStmt` only appends. -/
theorem TACGen.genStmt_prefix : ∀ (s : Stmt) (g : TACGen),
    g.code <+: (TACGen.genStmt s g).code
  | .AssignStmt name e, g => by
    simp only [TACGen.genStmt]
    exact (TACGen.genExpr_prefix e g).trans (List.prefix_append _ _)
  | .PrintStmt e, g => by
    simp only [TACGen.genStmt]
    exact (TACGen.genExpr_prefix e g).trans (List.prefix_append _ _)
  | .IfStmt cond thenBlock elseBlock, g => by
    simp only [TACGen.genStmt]
    refine (TACGen.genExpr_prefix cond g).trans ?_
    refine List.IsPrefix.trans ?_ (List.prefix_append _ _)
    refine List.IsPrefix.trans ?_ (TACGen.genElse_prefix elseBlock _)
    refine List.IsPrefix.trans ?_ (List.prefix_append _ _)
    refine List.IsPrefix.trans ?_ (List.prefix_append _ _)
    refine List.IsPrefix.trans ?_ (TACGen.genBlock_prefix thenBlock _)
    exact List.prefix_append _ _
  | .WhileStmt cond body, g => by
    simp only [TACGen.genStmt]
    refine List.IsPrefix.trans ?_ (List.prefix_append _ _)
    refine List.IsPrefix.trans ?_ (List.prefix_append _ _)
    refine List.IsPrefix.trans ?_ (TACGen.genBlock_prefix body _)
    refine List.IsPrefix.trans ?_ (List.prefix_append _ _)
    refine List.IsPrefix.trans ?_ (TACGen.genExpr_prefix cond _)
    exact List.prefix_append _ _
  | .BlockStmt stmts, g => by
    simp only [TACGen.genStmt]
    exact TACGen.genBlock_prefix stmts g
/-- The method `genBlock` only appends. -/
theorem TACGen.genBlock_prefix : ∀ (blk : List Stmt) (g : TACGen),
    g.code <+: (TACGen.genBlock blk g).code
  | [], g => by
    simp only [TACGen.genBlock]
    exact List.prefix_refl _
  | s :: rest, g => by
    simp only [TACGen.genBlock]
    exact (TACGen.genStmt_prefix s g).trans (TACGen.genBlock_prefix rest _)
/-- The guarded call on the else block only appends. -/
theorem TACGen.genElse_prefix : ∀ (e : Option (List Stmt)) (g : TACGen),
    g.code <+: (TACGen.genElse e g).code
  | none, g => by
    simp only [TACGen.genElse]
    exact List.prefix_refl _
  | some blk, g => by
    simp only [TACGen.genElse]
    exact TACGen.genBlock_prefix blk g
end

/-- The code after `genExpr` is the code before, then the appended instructions. -/
theorem TACGen.genExpr_code (e : Expr) (g : TACGen) :
    (TACGen.genExpr e g).2.code = g.code ++ TACGen.exprCode e g :=
  (List.prefix_iff_eq_append.mp (TACGen.genExpr_prefix e g)).symm

/-- The code after `genStmt` is the code before, then the appended instructions. -/
theorem TACGen.genStmt_code (s : Stmt) (g : TACGen) :
    (TACGen.genStmt s g).code = g.code ++ TACGen.stmtCode s g :=
  (List.prefix_iff_eq_append.mp (TACGen.genStmt_prefix s g)).symm

/-- The code after `genBlock` is the code before, then the appended instructions. -/
theorem TACGen.genBlock_code (blk : List Stmt) (g : TACGen) :
    (TACGen.genBlock blk g).code = g.code ++ TACGen.blockCode blk g :=
  (List.prefix_iff_eq_append.mp (TACGen.genBlock_prefix blk g)).symm

/-- The code after the else block is the code before, then the appended instructions. -/
theorem TACGen.genElse_code (e : Option (List Stmt)) (g : TACGen) :
    (TACGen.genElse e g).code = g.code ++ TACGen.elseCode e g :=
  (List.prefix_iff_eq_append.mp (TACGen.genElse_prefix e g)).symm

/-- What is appended is determined by the code before and after. -/
theorem TACGen.appended_eq {g g' : TACGen} {new : List String}
    (h : g'.code = g.code ++ new) : g'.code.drop g.code.length = new := by
  rw [h, List.drop_left]

/-- The template of an assignment. -/
theorem TACGen.stmtCode_assign (name : String) (e : Expr) (g : TACGen) :
    TACGen.stmtCode (.AssignStmt name e) g
      = TACGen.exprCode e g ++ [name ++ " = " ++ (TACGen.genExpr e g).1] := by
  apply TACGen.appended_eq
  simp only [TACGen.genStmt, TACGen.code_push, TACGen.genExpr_code e g, List.append_assoc]

/-- The template of a print statement. -/
theorem TACGen.stmtCode_print (e : Expr) (g : TACGen) :
    TACGen.stmtCode (.PrintStmt e) g
      = TACGen.exprCode e g ++ ["print " ++ (TACGen.genExpr e g).1] := by
  apply TACGen.appended_eq
  simp only [TACGen.genStmt, TACGen.code_push, TACGen.genExpr_code e g, List.append_assoc]

/-- The template of an `if` statement. -/
theorem TACGen.stmtCode_if (cond : Expr) (thenBlock : List Stmt)
    (elseBlock : Option (List Stmt)) (g : TACGen) :
    let c := (TACGen.genExpr cond g).1
    let g1 := (TACGen.genExpr cond g).2
    let L1 := labelName g1.code.length "a"
    let L2 := labelName g1.code.length "b"
    let g2 := g1.push ("ifz " ++ c ++ " goto " ++ L1)
    let g4 := ((TACGen.genBlock thenBlock g2).push ("goto " ++ L2)).push (L1 ++ ":")
    TACGen.stmtCode (.IfStmt cond thenBlock elseBlock) g
      = TACGen.exprCode cond g ++ ["ifz " ++ c ++ " goto " ++ L1] ++
        TACGen.blockCode thenBlock g2 ++ ["goto " ++ L2, L1 ++ ":"] ++
        TACGen.elseCode elseBlock g4 ++ [L2 ++ ":"] := by
  intro c g1 L1 L2 g2 g4
  apply TACGen.appended_eq
  have h1 : (TACGen.genStmt (.IfStmt cond thenBlock elseBlock) g).code
      = (TACGen.genElse elseBlock g4).code ++ [L2 ++ ":"] := rfl
  have h4 : g4.code = (TACGen.genBlock thenBlock g2).code ++ ["goto " ++ L2, L1 ++ ":"] := by
    show ((TACGen.genBlock thenBlock g2).code ++ ["goto " ++ L2]) ++ [L1 ++ ":"] = _
    rw [List.append_assoc]
    rfl
  have h2 : g2.code = g1.code ++ ["ifz " ++ c ++ " goto " ++ L1] := rfl
  rw [h1, TACGen.genElse_code elseBlock g4, h4, TACGen.genBlock_code thenBlock g2, h2,
    TACGen.genExpr_code cond g]
  simp only [List.append_assoc]

/-- The template of a `while` statement. -/
theorem TACGen.stmtCode_while (cond : Expr) (body : List Stmt) (g : TACGen) :
    let L1 := labelName g.code.length "a"
    let L2 := labelName g.code.length "b"
    let g1 := g.push (L1 ++ ":")
    let c := (TACGen.genExpr cond g1).1
    let g3 := (TACGen.genExpr cond g1).2.push ("ifz " ++ c ++ " goto " ++ L2)
    TACGen.stmtCode (.WhileStmt cond body) g
      = [L1 ++ ":"] ++ TACGen.exprCode cond g1 ++ ["ifz " ++ c ++ " goto " ++ L2] ++
        TACGen.blockCode body g3 ++ ["goto " ++ L1, L2 ++ ":"] := by
  intro L1 L2 g1 c g3
  apply TACGen.appended_eq
  have h1 : (TACGen.genStmt (.WhileStmt cond body) g).code
      = ((TACGen.genBlock body g3).code ++ ["goto " ++ L1]) ++ [L2 ++ ":"] := rfl
  have h3 : g3.code = (TACGen.genExpr cond g1).2.code ++ ["ifz " ++ c ++ " goto " ++ L2] := rfl
  have h0 : g1.code = g.code ++ [L1 ++ ":"] := rfl
  rw [h1, TACGen.genBlock_code body g3, h3, TACGen.genExpr_code cond g1, h0]
  simp only [List.append_assoc, List.singleton_append, List.cons_append, List.nil_append]

/-- The template of a nested block. -/
theorem TACGen.stmtCode_block (stmts : List Stmt) (g : TACGen) :
    TACGen.stmtCode (.BlockStmt stmts) g = TACGen.blockCode stmts g := rfl

/-- The code of a block is the code of its statements, in order. -/
theorem TACGen.blockCode_cons (s : Stmt) (rest : List Stmt) (g : TACGen) :
    TACGen.blockCode (s :: rest) g
      = TACGen.stmtCode s g ++ TACGen.blockCode rest (TACGen.genStmt s g) := by
  apply TACGen.appended_eq
  simp only [TACGen.genBlock]
  rw [TACGen.genBlock_code rest, TACGen.genStmt_code s g, List.append_assoc]

/-- The code of the empty block. -/
theorem TACGen.blockCode_nil (g : TACGen) : TACGen.blockCode [] g = [] := by
  apply TACGen.appended_eq
  simp only [TACGen.genBlock, List.append_nil]

/-- An absent else block appends nothing. -/
theorem TACGen.elseCode_none (g : TACGen) : TACGen.elseCode none g = [] := by
  apply TACGen.appended_eq
  simp only [TACGen.genElse, List.append_nil]

/-- A present else block appends the code of the block. -/
theorem TACGen.elseCode_some (blk : List Stmt) (g : TACGen) :
    TACGen.elseCode (some blk) g = TACGen.blockCode blk g := rfl

/-- C22. Control-flow lowering emits exactly the documented templates. In every generator
state `g`, the lines appended by `genStmt` for an `if` statement are
`cond-code ++ [ifz c goto L1] ++ then-code ++ [goto L2, L1:] ++ else-code ++ [L2:]`, with no
else-code when there is no else block, and for a `while` statement they are
`[L1:] ++ cond-code ++ [ifz c goto L2] ++ body-code ++ [goto L1, L2:]`, where `c` is the
operand returned by `genExpr` for the condition and `L1`, `L2` are `L<n>a`, `L<n>b` for the
instruction count `n` at the time the labels are made (after the condition code for an `if`,
on entry for a `while`); cond-code, then-code, else-code and body-code are what `genExpr` and
`genBlock` append at that point of the pass. An assignment ends with `name = <operand>` and a
print with `print <operand>`. -/
theorem control_flow_templates (g : TACGen) :
    (∀ s : Stmt, (TACGen.genStmt s g).code = g.code ++ TACGen.stmtCode s g) ∧
    (∀ (cond : Expr) (thenBlock : List Stmt) (elseBlock : Option (List Stmt)),
      let c := (TACGen.genExpr cond g).1
      let g1 := (TACGen.genExpr cond g).2
      let L1 := labelName g1.code.length "a"
      let L2 := labelName g1.code.length "b"
      let g2 := g1.push ("ifz " ++ c ++ " goto " ++ L1)
      let g4 := ((TACGen.genBlock thenBlock g2).push ("goto " ++ L2)).push (L1 ++ ":")
      TACGen.stmtCode (.IfStmt cond thenBlock elseBlock) g
        = TACGen.exprCode cond g ++ ["ifz " ++ c ++ " goto " ++ L1] ++
          TACGen.blockCode thenBlock g2 ++ ["goto " ++ L2, L1 ++ ":"] ++
          TACGen.elseCode elseBlock g4 ++ [L2 ++ ":"] ∧
      g1.code.length = g.code.length + (TACGen.exprCode cond g).length) ∧
    (∀ g4 : TACGen, TACGen.elseCode none g4 = []) ∧
    (∀ (blk : List Stmt) (g4 : TACGen),
      TACGen.elseCode (some blk) g4 = TACGen.blockCode blk g4) ∧
    (∀ (cond : Expr) (body : List Stmt),
      let L1 := labelName g.code.length "a"
      let L2 := labelName g.code.length "b"
      let g1 := g.push (L1 ++ ":")
      let c := (TACGen.genExpr cond g1).1
      let g3 := (TACGen.genExpr cond g1).2.push ("ifz " ++ c ++ " goto " ++ L2)
      TACGen.stmtCode (.WhileStmt cond body) g
        = [L1 ++ ":"] ++ TACGen.exprCode cond g1 ++ ["ifz " ++ c ++ " goto " ++ L2] ++
          TACGen.blockCode body g3 ++ ["goto " ++ L1, L2 ++ ":"]) ∧
    (∀ (name : String) (e : Expr), TACGen.stmtCode (.AssignStmt name e) g
      = TACGen.exprCode e g ++ [name ++ " = " ++ (TACGen.genExpr e g).1]) ∧
    (∀ e : Expr, TACGen.stmtCode (.PrintStmt e) g
      = TACGen.exprCode e g ++ ["print " ++ (TACGen.genExpr e g).1]) ∧
    (∀ stmts : List Stmt, TACGen.stmtCode (.BlockStmt stmts) g = TACGen.blockCode stmts g) ∧
    (∀ (s : Stmt) (rest : List Stmt), TACGen.blockCode (s :: rest) g
      = TACGen.stmtCode s g ++ TACGen.blockCode rest (TACGen.genStmt s g)) ∧
    (TACGen.genBlock [.WhileStmt (.Binary ">" (.VarExpr "x") (.IntLit 0))
        [.AssignStmt "x" (.Binary "-" (.VarExpr "x") (.IntLit 1))]] TACGen.init).code
      = ["L0a:", "t1 = x > 0", "ifz t1 goto L0b", "t2 = x - 1", "x = t2", "goto L0a",
          "L0b:"] ∧
    (TACGen.genBlock [.IfStmt (.VarExpr "x") [.PrintStmt (.IntLit 1)]
        (some [.PrintStmt (.IntLit 2)])] TACGen.init).code
      = ["ifz x goto L0a", "print 1", "goto L0b", "L0a:", "print 2", "L0b:"] := by
  refine ⟨fun s => TACGen.genStmt_code s g, ?_, TACGen.elseCode_none, TACGen.elseCode_some,
    fun cond body => TACGen.stmtCode_while cond body g,
    fun name e => TACGen.stmtCode_assign name e g, fun e => TACGen.stmtCode_print e g,
    fun stmts => TACGen.stmtCode_block stmts g,
    fun s rest => TACGen.blockCode_cons s rest g, by decide, by decide⟩
  intro cond thenBlock elseBlock
  refine ⟨TACGen.stmtCode_if cond thenBlock elseBlock g, ?_⟩
  rw [TACGen.genExpr_code cond g, List.length_append]

/-! ## Three-address code: labels -/

/-- The decimal digits of a number hold no blank. -/
theorem toDigitsCore_no_space : ∀ (fuel n : Nat) (ds : List Char), ' ' ∉ ds →
    ' ' ∉ Nat.toDigitsCore 10 fuel n ds
  | 0, n, ds, h => by simpa [Nat.toDigitsCore] using h
  | fuel + 1, n, ds, h => by
    have hd : ' ' ≠ Nat.digitChar (n % 10) := by
      have hlt : n % 10 < 10 := Nat.mod_lt _ (by decide)
      interval_cases (n % 10) <;> decide
    have hcons : ' ' ∉ Nat.digitChar (n % 10) :: ds := by
      intro hm
      rcases List.mem_cons.mp hm with h1 | h1
      · exact hd h1
      · exact h h1
    rw [Nat.toDigitsCore]
    by_cases h0 : n / 10 = 0
    · simp only [h0, if_true]
      exact hcons
    · simp only [h0, if_false]
      exact toDigitsCore_no_space fuel (n / 10) _ hcons

/-- The decimal text of a number holds no blank. -/
theorem toString_no_space (n : Nat) : ' ' ∉ (toString n).data := by
  show ' ' ∉ (Nat.repr n).data
  unfold Nat.repr Nat.toDigits
  rw [List.asString]
  exact toDigitsCore_no_space (n + 1) n [] (List.not_mem_nil _)

/-- A label-definition line holds no blank. -/
theorem labelLine_no_space (n : Nat) {sfx : String} (h : sfx = "a" ∨ sfx = "b") :
    ¬ HasSpace (labelName n sfx ++ ":") := by
  unfold HasSpace labelName
  simp only [String.data_append, List.mem_append, not_or]
  have hn := toString_no_space n
  rcases h with h | h <;> subst h
  · exact ⟨⟨⟨by decide, hn⟩, by decide⟩, by decide⟩
  · exact ⟨⟨⟨by decide, hn⟩, by decide⟩, by decide⟩

/-- A line with a blank is no label definition. -/
theorem HasSpace.not_label {s : String} (h : HasSpace s) : ¬ IsLabelDef s := by
  rintro ⟨n, hn | hn⟩
  · rw [hn] at h
    exact labelLine_no_space n (Or.inl rfl) h
  · rw [hn] at h
    exact labelLine_no_space n (Or.inr rfl) h

/-- Two label-definition lines are equal only if number and letter are. -/
theorem labelLine_inj {n m : Nat} {s t : String} (hs : s = "a" ∨ s = "b")
    (ht : t = "a" ∨ t = "b") (h : labelName n s ++ ":" = labelName m t ++ ":") :
    n = m ∧ s = t := by
  have hd := congrArg String.data h
  unfold labelName at hd
  simp only [String.data_append, List.append_assoc] at hd
  have hd2 := List.append_cancel_left hd
  have hlen : (s.data ++ ":".data).length = (t.data ++ ":".data).length := by
    rcases hs with hs | hs <;> rcases ht with ht | ht <;> subst hs <;> subst ht <;> rfl
  obtain ⟨h1, h2⟩ := List.append_inj' hd2 hlen
  refine ⟨toString_nat_injective (String.ext h1), ?_⟩
  exact String.ext (List.append_cancel_right h2)

/-- A line with a blank somewhere inside. -/
theorem HasSpace.of_infix (a b : String) : HasSpace (a ++ " " ++ b) := by
  unfold HasSpace
  simp [String.data_append]

/-- The instruction defining a temporary holds a blank. -/
theorem tacLine_hasSpace (k : Nat) (A op B : String) : HasSpace (tacLine k A op B) := by
  unfold tacLine
  exact HasSpace.of_infix _ B

/-- The instructions of an expression hold a blank each. -/
theorem TACGen.exprCode_hasSpace (e : Expr) (g : TACGen) :
    ∀ s ∈ TACGen.exprCode e g, HasSpace s := by
  obtain ⟨instrs, _, h, _, _⟩ := TACGen.genExpr_spec e g
  have hc : TACGen.exprCode e g = tacLines g.tmpCounter instrs := TACGen.appended_eq h
  rw [hc]
  intro s hs
  unfold tacLines at hs
  obtain ⟨ki, _, rfl⟩ := List.mem_map.mp hs
  exact tacLine_hasSpace _ _ _ _

/-- Lines with a blank each hold no label definition. -/
theorem LabelsOk.of_hasSpace (N : Nat) {l : List String} (h : ∀ s ∈ l, HasSpace s) :
    LabelsOk N l := by
  refine ⟨?_, ?_⟩
  · apply List.pairwise_of_forall_mem_list
    intro a ha b _ hlab
    exact absurd hlab (h a ha).not_label
  · intro n sfx hsfx hmem
    exact absurd (h _ hmem) (labelLine_no_space n hsfx)

/-- Two instruction lists in a row, each with its labels in order. -/
theorem LabelsOk.append {N : Nat} {l1 l2 : List String} (h1 : LabelsOk N l1)
    (h2 : LabelsOk (N + l1.length) l2) : LabelsOk N (l1 ++ l2) := by
  refine ⟨?_, ?_⟩
  · rw [List.pairwise_append]
    refine ⟨h1.1, h2.1, ?_⟩
    intro a ha b hb hlab hab
    obtain ⟨n, hn | hn⟩ := hlab
    · have r1 := h1.2 n "a" (Or.inl rfl) (hn ▸ ha)
      have r2 := h2.2 n "a" (Or.inl rfl) (hn ▸ hab ▸ hb)
      omega
    · have r1 := h1.2 n "b" (Or.inr rfl) (hn ▸ ha)
      have r2 := h2.2 n "b" (Or.inr rfl) (hn ▸ hab ▸ hb)
      omega
  · intro n sfx hsfx hmem
    rw [List.length_append]
    rcases List.mem_append.mp hmem with h | h
    · have := h1.2 n sfx hsfx h
      omega
    · have := h2.2 n sfx hsfx h
      omega

/-- A label-definition line put after an instruction list in which it does not occur. -/
theorem LabelsOk.snoc_label {N : Nat} {l : List String} (h : LabelsOk N l) (n0 : Nat)
    {sfx : String} (hsfx : sfx = "a" ∨ sfx = "b") (hN : N ≤ n0) (hlt : n0 < N + l.length + 1)
    (hnew : labelName n0 sfx ++ ":" ∉ l) : LabelsOk N (l ++ [labelName n0 sfx ++ ":"]) := by
  refine ⟨?_, ?_⟩
  · rw [List.pairwise_append]
    refine ⟨h.1, List.pairwise_singleton _ _, ?_⟩
    intro a ha b hb _ hab
    rw [List.mem_singleton] at hb
    exact hnew (hb ▸ hab ▸ ha)
  · intro n sfx' hsfx' hmem
    rw [List.length_append, List.length_singleton]
    rcases List.mem_append.mp hmem with h' | h'
    · have := h.2 n sfx' hsfx' h'
      omega
    · rw [List.mem_singleton] at h'
      obtain ⟨hn, _⟩ := labelLine_inj hsfx' hsfx h'
      omega

/-- Membership in a list with one more line at the end. -/
theorem mem_snoc_hasSpace {l : List String} {x s : String} (hx : HasSpace x)
    (hs : ¬ HasSpace s) (h : s ∈ l ++ [x]) : s ∈ l := by
  rcases List.mem_append.mp h with h | h
  · exact h
  · rw [List.mem_singleton] at h
    exact absurd (h ▸ hx) hs

mutual
/-- The labels of the code of a statement are in order. -/
theorem TACGen.stmtCode_labelsOk : ∀ (s : Stmt) (g : TACGen),
    LabelsOk g.code.length (TACGen.stmtCode s g)
  | .AssignStmt name e, g => by
    rw [TACGen.stmtCode_assign]
    apply LabelsOk.of_hasSpace
    intro s hs
    rcases List.mem_append.mp hs with h | h
    · exact TACGen.exprCode_hasSpace e g s h
    · rw [List.mem_singleton] at h
      rw [h]
      unfold HasSpace
      simp [String.data_append]
  | .PrintStmt e, g => by
    rw [TACGen.stmtCode_print]
    apply LabelsOk.of_hasSpace
    intro s hs
    rcases List.mem_append.mp hs with h | h
    · exact TACGen.exprCode_hasSpace e g s h
    · rw [List.mem_singleton] at h
      rw [h]
      unfold HasSpace
      simp [String.data_append]
  | .BlockStmt stmts, g => by
    rw [TACGen.stmtCode_block]
    exact TACGen.blockCode_labelsOk stmts g
  | .IfStmt cond thenBlock elseBlock, g => by
    have hT := TACGen.blockCode_labelsOk thenBlock
      ((TACGen.genExpr cond g).2.push ("ifz " ++ (TACGen.genExpr cond g).1 ++ " goto " ++
        labelName (TACGen.genExpr cond g).2.code.length "a"))
    have hE := TACGen.elseCode_labelsOk elseBlock
      (((TACGen.genBlock thenBlock
        ((TACGen.genExpr cond g).2.push ("ifz " ++ (TACGen.genExpr cond g).1 ++ " goto " ++
          labelName (TACGen.genExpr cond g).2.code.length "a"))).push
        ("goto " ++ labelName (TACGen.genExpr cond g).2.code.length "b")).push
        (labelName (TACGen.genExpr cond g).2.code.length "a" ++ ":"))
    have htemplate := TACGen.stmtCode_if cond thenBlock elseBlock g
    simp only at htemplate
    rw [htemplate]
    have hcc := TACGen.exprCode_hasSpace cond g
    have hlen1 : (TACGen.genExpr cond g).2.code.length
        = g.code.length + (TACGen.exprCode cond g).length := by
      rw [TACGen.genExpr_code cond g, List.length_append]
    rw [TACGen.code_push, TACGen.code_push, TACGen.genBlock_code, TACGen.code_push] at hE
    rw [TACGen.code_push] at hT
    generalize TACGen.exprCode cond g = cc at *
    generalize (TACGen.genExpr cond g).1 = c at *
    generalize hn0 : (TACGen.genExpr cond g).2.code.length = n0 at *
    generalize hg1 : (TACGen.genExpr cond g).2 = g1 at *
    generalize TACGen.blockCode thenBlock
      (g1.push ("ifz " ++ c ++ " goto " ++ labelName n0 "a")) = tc at *
    generalize TACGen.elseCode elseBlock
      (((TACGen.genBlock thenBlock (g1.push ("ifz " ++ c ++ " goto " ++ labelName n0 "a"))).push
        ("goto " ++ labelName n0 "b")).push (labelName n0 "a" ++ ":")) = ec at *
    have hg1len : g1.code.length = n0 := hn0
    simp only [List.length_append, List.length_singleton, hg1len] at hT hE
    have hifz : HasSpace ("ifz " ++ c ++ " goto " ++ labelName n0 "a") := by
      unfold HasSpace
      simp [String.data_append]
    have hgoto : HasSpace ("goto " ++ labelName n0 "b") := by
      unfold HasSpace
      simp [String.data_append]
    have hA : LabelsOk g.code.length (cc ++ ["ifz " ++ c ++ " goto " ++ labelName n0 "a"]) := by
      apply LabelsOk.of_hasSpace
      intro s hs
      rcases List.mem_append.mp hs with h | h
      · exact hcc s h
      · rw [List.mem_singleton] at h
        rw [h]
        exact hifz
    have hAT := @LabelsOk.append _ _ (tc) hA (by
      rw [List.length_append, List.length_singleton, ← Nat.add_assoc, ← hlen1]
      exact hT)
    have hATG := @LabelsOk.append _ _ (["goto " ++ labelName n0 "b"]) hAT
      (LabelsOk.of_hasSpace _ (by
      intro s hs
      rw [List.mem_singleton] at hs
      rw [hs]
      exact hgoto))
    have hnotA : ∀ sfx, (sfx = "a" ∨ sfx = "b") → labelName n0 sfx ++ ":" ∉
        cc ++ ["ifz " ++ c ++ " goto " ++ labelName n0 "a"] ++ tc ++
          ["goto " ++ labelName n0 "b"] := by
      intro sfx hsfx hmem
      have hns := labelLine_no_space n0 hsfx
      have h1 := mem_snoc_hasSpace hgoto hns hmem
      rcases List.mem_append.mp h1 with h2 | h2
      · have h3 := mem_snoc_hasSpace hifz hns h2
        exact hns (hcc _ h3)
      · have := hT.2 n0 sfx hsfx h2
        omega
    have hL1 := hATG.snoc_label n0 (Or.inl rfl) (by omega)
      (by simp only [List.length_append, List.length_singleton]; omega) (hnotA "a" (Or.inl rfl))
    have hL1E := @LabelsOk.append _ _ (ec) hL1 (by
      simp only [List.length_append, List.length_singleton] at hE ⊢
      have e : g.code.length + (cc.length + 1 + tc.length + 1 + 1)
          = n0 + 1 + tc.length + 1 + 1 := by omega
      rw [e]
      exact hE)
    have hL2 := hL1E.snoc_label n0 (Or.inr rfl) (by omega)
      (by simp only [List.length_append, List.length_singleton]; omega) (by
        intro hmem
        rcases List.mem_append.mp hmem with h1 | h1
        · rcases List.mem_append.mp h1 with h2 | h2
          · exact hnotA "b" (Or.inr rfl) h2
          · rw [List.mem_singleton] at h2
            have := (labelLine_inj (Or.inr rfl) (Or.inl rfl) h2).2
            revert this
            decide
        · have := hE.2 n0 "b" (Or.inr rfl) h1
          omega)
    have e : cc ++ ["ifz " ++ c ++ " goto " ++ labelName n0 "a"] ++ tc ++
          ["goto " ++ labelName n0 "b", labelName n0 "a" ++ ":"] ++ ec ++
          [labelName n0 "b" ++ ":"]
        = cc ++ ["ifz " ++ c ++ " goto " ++ labelName n0 "a"] ++ tc ++
          ["goto " ++ labelName n0 "b"] ++ [labelName n0 "a" ++ ":"] ++ ec ++
          [labelName n0 "b" ++ ":"] := by
      simp only [List.append_assoc, List.singleton_append, List.cons_append, List.nil_append]
    rw [e]
    exact hL2
  | .WhileStmt cond body, g => by
    have hB := TACGen.blockCode_labelsOk body
      ((TACGen.genExpr cond (g.push (labelName g.code.length "a" ++ ":"))).2.push
        ("ifz " ++ (TACGen.genExpr cond (g.push (labelName g.code.length "a" ++ ":"))).1 ++
          " goto " ++ labelName g.code.length "b"))
    have htemplate := TACGen.stmtCode_while cond body g
    simp only at htemplate
    rw [htemplate]
    have hcc := TACGen.exprCode_hasSpace cond (g.push (labelName g.code.length "a" ++ ":"))
    rw [TACGen.code_push, TACGen.genExpr_code, TACGen.code_push] at hB
    generalize TACGen.exprCode cond (g.push (labelName g.code.length "a" ++ ":")) = cc at *
    generalize (TACGen.genExpr cond (g.push (labelName g.code.length "a" ++ ":"))).1 = c at *
    generalize TACGen.blockCode body
      ((TACGen.genExpr cond (g.push (labelName g.code.length "a" ++ ":"))).2.push
        ("ifz " ++ c ++ " goto " ++ labelName g.code.length "b")) = bc at *
    simp only [List.length_append, List.length_singleton] at hB
    generalize hN : g.code.length = N at *
    have hifz : HasSpace ("ifz " ++ c ++ " goto " ++ labelName N "b") := by
      unfold HasSpace
      simp [String.data_append]
    have hgoto : HasSpace ("goto " ++ labelName N "a") := by
      unfold HasSpace
      simp [String.data_append]
    have h0 : LabelsOk N ([] ++ [labelName N "a" ++ ":"]) :=
      (@LabelsOk.of_hasSpace N [] (by intro s hs; cases hs)).snoc_label N (Or.inl rfl)
        (Nat.le_refl _) (by simp) (List.not_mem_nil _)
    rw [List.nil_append] at h0
    have h1 := @LabelsOk.append _ _ (cc ++ ["ifz " ++ c ++ " goto " ++ labelName N "b"]) h0
      (LabelsOk.of_hasSpace _ (by
        intro s hs
        rcases List.mem_append.mp hs with h | h
        · exact hcc s h
        · rw [List.mem_singleton] at h
          rw [h]
          exact hifz))
    have h2 := @LabelsOk.append _ _ (bc) h1 (by
      simp only [List.length_append, List.length_singleton, List.length_cons, List.length_nil]
      have e : N + (0 + 1 + (cc.length + 1)) = N + 1 + cc.length + 1 := by omega
      rw [e]
      exact hB)
    have h3 := @LabelsOk.append _ _ (["goto " ++ labelName N "a"]) h2
      (LabelsOk.of_hasSpace _ (by
      intro s hs
      rw [List.mem_singleton] at hs
      rw [hs]
      exact hgoto))
    have h4 := h3.snoc_label N (Or.inr rfl) (Nat.le_refl _)
      (by simp only [List.length_append, List.length_singleton]; omega) (by
        intro hmem
        have hns := @labelLine_no_space N "b" (Or.inr rfl)
        have hm1 := mem_snoc_hasSpace hgoto hns hmem
        rcases List.mem_append.mp hm1 with hm2 | hm2
        · rcases List.mem_append.mp hm2 with hm3 | hm3
          · rw [List.mem_singleton] at hm3
            have := (labelLine_inj (Or.inr rfl) (Or.inl rfl) hm3).2
            revert this
            decide
          · have hm4 := mem_snoc_hasSpace hifz hns hm3
            exact hns (hcc _ hm4)
        · have := hB.2 N "b" (Or.inr rfl) hm2
          omega)
    have e : [labelName N "a" ++ ":"] ++ cc ++ ["ifz " ++ c ++ " goto " ++ labelName N "b"] ++
          bc ++ ["goto " ++ labelName N "a", labelName N "b" ++ ":"]
        = [labelName N "a" ++ ":"] ++ (cc ++ ["ifz " ++ c ++ " goto " ++ labelName N "b"]) ++
          bc ++ ["goto " ++ labelName N "a"] ++ [labelName N "b" ++ ":"] := by
      simp only [List.append_assoc, List.singleton_append, List.cons_append, List.nil_append]
    rw [e]
    exact h4
/-- The labels of the code of a block are in order. -/
theorem TACGen.blockCode_labelsOk : ∀ (blk : List Stmt) (g : TACGen),
    LabelsOk g.code.length (TACGen.blockCode blk g)
  | [], g => by
    rw [TACGen.blockCode_nil]
    exact LabelsOk.of_hasSpace _ (by intro s hs; cases hs)
  | s :: rest, g => by
    rw [TACGen.blockCode_cons]
    apply (TACGen.stmtCode_labelsOk s g).append
    have h := TACGen.blockCode_labelsOk rest (TACGen.genStmt s g)
    rw [TACGen.genStmt_code s g, List.length_append] at h
    exact h
/-- The labels of the code of an else block are in order. -/
theorem TACGen.elseCode_labelsOk : ∀ (e : Option (List Stmt)) (g : TACGen),
    LabelsOk g.code.length (TACGen.elseCode e g)
  | none, g => by
    rw [TACGen.elseCode_none]
    exact LabelsOk.of_hasSpace _ (by intro s hs; cases hs)
  | some blk, g => by
    rw [TACGen.elseCode_some]
    exact TACGen.blockCode_labelsOk blk g
end

/-- A label-definition line that equals no later line occurs at most once. -/
theorem count_le_one_of_pairwise : ∀ (l : List String),
    l.Pairwise (fun s t => IsLabelDef s → s ≠ t) → ∀ s, IsLabelDef s → l.count s ≤ 1
  | [], _, s, _ => by simp
  | a :: t, hp, s, hs => by
    rw [List.pairwise_cons] at hp
    rw [List.count_cons]
    by_cases ha : a = s
    · subst ha
      have h0 : List.count a t = 0 := by
        rw [List.count_eq_zero]
        intro hm
        exact hp.1 a hm hs rfl
      simp [h0]
    · have := count_le_one_of_pairwise t hp.2 s hs
      simp [ha, this]

/-- C21. Within one generation pass label names are unique: for every program, in the
instruction list produced by `genBlock` on a fresh generator, a label-definition line
(`L<n>a:` or `L<n>b:`) occurs at most once: no two positions of the list hold the same
label-definition line. The two labels of one statement differ, and the numbers in the labels
of the code of a statement lie between the instruction counts before and after the
statement. Statements with empty bodies and literal conditions are no exception. -/
theorem labels_are_unique (prog : List Stmt) :
    (∀ s, IsLabelDef s → (TACGen.genBlock prog TACGen.init).code.count s ≤ 1) ∧
    (∀ (i j : Nat) (hi : i < (TACGen.genBlock prog TACGen.init).code.length)
      (hj : j < (TACGen.genBlock prog TACGen.init).code.length), i ≠ j →
      IsLabelDef ((TACGen.genBlock prog TACGen.init).code.get ⟨i, hi⟩) →
      (TACGen.genBlock prog TACGen.init).code.get ⟨i, hi⟩
        ≠ (TACGen.genBlock prog TACGen.init).code.get ⟨j, hj⟩) ∧
    (∀ n : Nat, labelName n "a" ++ ":" ≠ labelName n "b" ++ ":") ∧
    (∀ (s : Stmt) (g : TACGen), LabelsOk g.code.length (TACGen.stmtCode s g)) ∧
    (TACGen.genBlock [.IfStmt (.IntLit 1) [] none, .WhileStmt (.IntLit 0) [],
        .IfStmt (.IntLit 1) [.WhileStmt (.IntLit 1) []] (some [])] TACGen.init).code
      = ["ifz 1 goto L0a", "goto L0b", "L0a:", "L0b:",
          "L4a:", "ifz 0 goto L4b", "goto L4a", "L4b:",
          "ifz 1 goto L8a", "L9a:", "ifz 1 goto L9b", "goto L9a", "L9b:", "goto L8b",
          "L8a:", "L8b:"] := by
  have hok := TACGen.blockCode_labelsOk prog TACGen.init
  have hcode : (TACGen.genBlock prog TACGen.init).code
      = TACGen.blockCode prog TACGen.init := by
    rw [TACGen.genBlock_code prog TACGen.init]
    rfl
  have hpw : (TACGen.genBlock prog TACGen.init).code.Pairwise
      (fun s t => IsLabelDef s → s ≠ t) := by
    rw [hcode]
    exact hok.1
  refine ⟨count_le_one_of_pairwise _ hpw, ?_, ?_, TACGen.stmtCode_labelsOk, by decide⟩
  · intro i j hi hj hij hlab heq
    rw [List.pairwise_iff_getElem] at hpw
    rcases Nat.lt_or_gt_of_ne hij with h | h
    · exact hpw i j hi hj h hlab heq
    · have hlab' : IsLabelDef ((TACGen.genBlock prog TACGen.init).code.get ⟨j, hj⟩) := by
        rw [← heq]
        exact hlab
      exact hpw j i hj hi h hlab' heq.symm
  · intro n h
    have := (labelLine_inj (Or.inl rfl) (Or.inr rfl) h).2
    revert this
    decide

/-- Witness for C21: in the code of `if (1) \x7b\x7d while (0) \x7b\x7d` the line `L0a:`
occurs at most once. -/
theorem labels_are_unique_witness :
    (TACGen.genBlock [.IfStmt (.IntLit 1) [] none, .WhileStmt (.IntLit 0) []]
      TACGen.init).code.count "L0a:" ≤ 1 :=
  (labels_are_unique [.IfStmt (.IntLit 1) [] none, .WhileStmt (.IntLit 0) []]).1 "L0a:"
    ⟨0, Or.inl (by decide)⟩

/-! ## Temporaries and program variables -/

/-- C27. Temporaries are not fresh with respect to the program: the source
`t1 = 5; x = t1 + 1;` is accepted by the parser and by the semantic pass and is left alone by
constant folding; its variable `t1` is assigned and referenced, and the generation pass
issues the temporary `t1` for `t1 + 1`, so that the listing holds `t1 = t1 + 1` after
`t1 = 5`: the instruction defining the temporary overwrites and reads the program variable of
the same name. -/
theorem temporary_collides_with_program_variable :
    parseSource "t1 = 5; x = t1 + 1;".toList = .ok clashProgram ∧
    (∃ D, semanticCheckBlock clashProgram ∅ = .ok D) ∧
    foldConstantsInBlock clashProgram = .ok clashProgram ∧
    (TACGen.genBlock clashProgram TACGen.init).issued = ["t1"] ∧
    (TACGen.genBlock clashProgram TACGen.init).code = ["t1 = 5", "t1 = t1 + 1", "x = t1"] ∧
    Stmt.namesBlock clashProgram = ["t1", "x", "t1"] ∧
    (∃ t, t ∈ (TACGen.genBlock clashProgram TACGen.init).issued ∧
      t ∈ Stmt.namesBlock clashProgram) ∧
    ¬ (∀ prog : List Stmt, (∃ src, parseSource src = .ok prog) →
        ∀ t ∈ (TACGen.genBlock prog TACGen.init).issued, t ∉ Stmt.namesBlock prog) := by
  have hp : parseSource "t1 = 5; x = t1 + 1;".toList = .ok clashProgram := by decide!
  have hi : (TACGen.genBlock clashProgram TACGen.init).issued = ["t1"] := by decide
  have hn : Stmt.namesBlock clashProgram = ["t1", "x", "t1"] := by decide
  refine ⟨hp, ⟨_, rfl⟩, by decide, hi, by decide, hn, ⟨"t1", ?_, ?_⟩, ?_⟩
  · rw [hi]
    exact List.mem_singleton.mpr rfl
  · rw [hn]
    exact List.mem_cons_self _ _
  · intro h
    have := h clashProgram ⟨_, hp⟩ "t1" (by rw [hi]; exact List.mem_singleton.mpr rfl)
    rw [hn] at this
    exact this (List.mem_cons_self _ _)

/-! ## Termination of the lexer -/

/-- A current character other than NUL is the head of the remaining input. -/
theorem Lexer.rest_of_peek {lx : Lexer} (h : lx.peek ≠ Char.ofNat 0) :
    ∃ r, lx.rest = lx.peek :: r := by
  have hp := Lexer.peek_eq_headD lx
  cases hr : lx.rest with
  | nil =>
    rw [hr] at hp
    exact absurd hp h
  | cons c r =>
    rw [hr] at hp
    exact ⟨r, by rw [hp]; rfl⟩

/-- The token that starts at a character other than NUL consumes at least that character. -/
theorem Lexer.tokenHere_advance {lx lx' : Lexer} {tok : Token}
    (ht : lx.tokenHere = .ok (tok, lx')) (h0 : lx.peek ≠ Char.ofNat 0) : lx.i < lx'.i := by
  obtain ⟨r, hr⟩ := Lexer.rest_of_peek h0
  have hdrop : lx.src.drop lx.i = lx.peek :: r := hr
  unfold Lexer.tokenHere at ht
  simp only at ht
  by_cases h1 : isdigit lx.peek = true
  · rw [if_pos h1] at ht
    cases hs : stoll ((lx.src.drop lx.i).takeWhile isdigit) with
    | none => simp only [hs] at ht; cases ht
    | some v =>
      simp only [hs] at ht
      injection ht with ht
      injection ht with _ ht2
      subst ht2
      show lx.i < lx.i + ((lx.src.drop lx.i).takeWhile isdigit).length
      rw [hdrop, List.takeWhile_cons_of_pos h1, List.length_cons]
      omega
  · rw [if_neg h1] at ht
    by_cases h2 : (isalpha lx.peek || decide (lx.peek = '_')) = true
    · rw [if_pos h2] at ht
      injection ht with ht
      injection ht with _ ht2
      subst ht2
      have h2' : (fun d => isalnum d || decide (d = '_')) lx.peek = true := by
        simp only [isalnum, Bool.or_eq_true, decide_eq_true_eq] at h2 ⊢
        rcases h2 with h | h
        · exact Or.inl (Or.inl h)
        · exact Or.inr h
      show lx.i < lx.i + ((lx.src.drop lx.i).takeWhile
        (fun d => isalnum d || decide (d = '_'))).length
      rw [hdrop, List.takeWhile_cons, if_pos h2', List.length_cons]
      omega
    · rw [if_neg h2] at ht
      by_cases h3 : lx.startswith ['=', '='] = true
      · rw [if_pos h3] at ht
        injection ht with ht
        injection ht with _ ht2
        subst ht2
        exact Nat.lt_add_of_pos_right (by decide)
      · rw [if_neg h3] at ht
        by_cases h4 : lx.startswith ['!', '='] = true
        · rw [if_pos h4] at ht
          injection ht with ht
          injection ht with _ ht2
          subst ht2
          exact Nat.lt_add_of_pos_right (by decide)
        · rw [if_neg h4] at ht
          by_cases h5 : lx.startswith ['<', '='] = true
          · rw [if_pos h5] at ht
            injection ht with ht
            injection ht with _ ht2
            subst ht2
            exact Nat.lt_add_of_pos_right (by decide)
          · rw [if_neg h5] at ht
            by_cases h6 : lx.startswith ['>', '='] = true
            · rw [if_pos h6] at ht
              injection ht with ht
              injection ht with _ ht2
              subst ht2
              exact Nat.lt_add_of_pos_right (by decide)
            · rw [if_neg h6] at ht
              cases hs : singleCharToken lx.peek lx.line with
              | none => simp only [hs] at ht; cases ht
              | some t =>
                simp only [hs] at ht
                injection ht with ht
                injection ht with _ ht2
                subst ht2
                exact Nat.lt_add_of_pos_right (by decide)

/-- The token-building part of `nextToken` never exhausts a budget: it has no loop. -/
theorem Lexer.tokenHere_ne_outOfFuel (lx : Lexer) : lx.tokenHere ≠ .error .outOfFuel := by
  unfold Lexer.tokenHere
  simp only
  intro h
  by_cases h1 : isdigit lx.peek = true
  · rw [if_pos h1] at h
    cases hs : stoll ((lx.src.drop lx.i).takeWhile isdigit) with
    | none => simp only [hs] at h; cases h
    | some v => simp only [hs] at h; cases h
  · rw [if_neg h1] at h
    by_cases h2 : (isalpha lx.peek || decide (lx.peek = '_')) = true
    · rw [if_pos h2] at h; cases h
    · rw [if_neg h2] at h
      by_cases h3 : lx.startswith ['=', '='] = true
      · rw [if_pos h3] at h; cases h
      · rw [if_neg h3] at h
        by_cases h4 : lx.startswith ['!', '='] = true
        · rw [if_pos h4] at h; cases h
        · rw [if_neg h4] at h
          by_cases h5 : lx.startswith ['<', '='] = true
          · rw [if_pos h5] at h; cases h
          · rw [if_neg h5] at h
            by_cases h6 : lx.startswith ['>', '='] = true
            · rw [if_pos h6] at h; cases h
            · rw [if_neg h6] at h
              cases hs : singleCharToken lx.peek lx.line with
              | none => simp only [hs] at h; cases h
              | some t => simp only [hs] at h; cases h

/-- The loop of `nextToken` never goes back, and a token other than END is past the position
where the call started, which lies inside the source. -/
theorem nextTokenLoop_advance : ∀ (fuel : Nat) (lx lx' : Lexer) (tok : Token),
    nextTokenLoop fuel lx = .ok (tok, lx') →
      lx.i ≤ lx'.i ∧ (tok.type ≠ .END → lx.i < lx'.i ∧ lx.i < lx.src.length)
  | 0, lx, lx', tok, h => by simp [nextTokenLoop] at h
  | fuel + 1, lx, lx', tok, h => by
    rw [nextTokenLoop_succ] at h
    by_cases h0 : lx.peek = Char.ofNat 0
    · rw [if_pos h0] at h
      injection h with h
      injection h with h1 h2
      subst h1 h2
      exact ⟨Nat.le_refl _, fun hne => absurd rfl hne⟩
    · rw [if_neg h0] at h
      have hlt := Lexer.lt_length_of_peek h0
      by_cases hs : isspace lx.peek = true
      · rw [if_pos hs] at h
        obtain ⟨ih1, _⟩ := nextTokenLoop_advance fuel lx.skipSpace lx' tok h
        have hi : lx.skipSpace.i = lx.i + 1 := rfl
        exact ⟨by omega, fun _ => ⟨by omega, hlt⟩⟩
      · rw [if_neg hs] at h
        by_cases hc : lx.startswith ['/', '/'] = true
        · rw [if_pos hc] at h
          obtain ⟨ih1, _⟩ := nextTokenLoop_advance fuel lx.skipComment lx' tok h
          have hi := (Lexer.skipComment_advance hc).1
          exact ⟨by omega, fun _ => ⟨by omega, hlt⟩⟩
        · rw [if_neg hc] at h
          have := Lexer.tokenHere_advance h h0
          exact ⟨by omega, fun _ => ⟨this, hlt⟩⟩

/-- With a budget of at least the number of characters left plus one, the loop of `nextToken`
returns a token or stops on a lexical error. -/
theorem nextTokenLoop_ne_outOfFuel : ∀ (fuel : Nat) (lx : Lexer),
    lx.src.length - lx.i + 1 ≤ fuel → nextTokenLoop fuel lx ≠ .error .outOfFuel
  | 0, lx, h => absurd h (by omega)
  | fuel + 1, lx, h => by
    rw [nextTokenLoop_succ]
    by_cases h0 : lx.peek = Char.ofNat 0
    · rw [if_pos h0]
      intro hc
      cases hc
    · rw [if_neg h0]
      have hlt := Lexer.lt_length_of_peek h0
      by_cases hs : isspace lx.peek = true
      · rw [if_pos hs]
        apply nextTokenLoop_ne_outOfFuel fuel lx.skipSpace
        have hi : lx.skipSpace.i = lx.i + 1 := rfl
        have hsrc : lx.skipSpace.src = lx.src := rfl
        rw [hi, hsrc]
        omega
      · rw [if_neg hs]
        by_cases hc : lx.startswith ['/', '/'] = true
        · rw [if_pos hc]
          apply nextTokenLoop_ne_outOfFuel fuel lx.skipComment
          have hi := (Lexer.skipComment_advance hc).1
          have hsrc : lx.skipComment.src = lx.src := rfl
          rw [hsrc]
          omega
        · rw [if_neg hc]
          exact Lexer.tokenHere_ne_outOfFuel lx

/-- The method `nextToken` returns a token or stops on a lexical error. -/
theorem Lexer.nextToken_ne_outOfFuel (lx : Lexer) : lx.nextToken ≠ .error .outOfFuel :=
  nextTokenLoop_ne_outOfFuel _ lx (Nat.le_refl _)

/-- After `nextToken` no more input is left than before, and less after a token other than
END. -/
theorem Lexer.nextToken_rest {lx lx' : Lexer} {tok : Token}
    (h : lx.nextToken = .ok (tok, lx')) :
    lx'.rest.length ≤ lx.rest.length ∧
      (tok.type ≠ .END → lx'.rest.length < lx.rest.length) := by
  have hsrc := (nextTokenLoop_ok _ lx lx' tok h).1
  obtain ⟨h1, h2⟩ := nextTokenLoop_advance _ lx lx' tok h
  unfold Lexer.rest
  rw [List.length_drop, List.length_drop, hsrc]
  refine ⟨by omega, fun hne => ?_⟩
  obtain ⟨h3, h4⟩ := h2 hne
  omega

/-! ## Termination of the parser: the primitive `eat` -/

/-- The primitive `eat` returns or stops on a lexical or parse error. -/
theorem Parser.eat_ne_outOfFuel (p : Parser) (t : TokenType) :
    p.eat t ≠ .error .outOfFuel := by
  unfold Parser.eat
  by_cases h : p.cur.type = t
  · rw [if_pos h]
    cases hn : p.lex.nextToken with
    | error e =>
      simp only
      intro hc
      injection hc with hc
      exact Lexer.nextToken_ne_outOfFuel p.lex (by rw [hn, hc])
    | ok r =>
      obtain ⟨tok, lx⟩ := r
      simp only
      intro hc
      cases hc
  · rw [if_neg h]
    intro hc
    cases hc

/-- Eating a token other than END leaves less input. -/
theorem Parser.eat_remaining {p p' : Parser} {t : TokenType} (h : p.eat t = .ok p')
    (ht : t ≠ .END) : p'.remaining < p.remaining := by
  rw [Parser.eat_ok_iff] at h
  obtain ⟨hk, hn⟩ := h
  obtain ⟨h1, h2⟩ := Lexer.nextToken_rest hn
  unfold Parser.remaining
  have e1 : (if p.cur.type = TokenType.END then 0 else 1) = 1 :=
    if_neg (by rw [hk]; exact ht)
  rw [e1]
  by_cases he : p'.cur.type = .END
  · rw [if_pos he]
    omega
  · rw [if_neg he]
    have := h2 he
    omega

/-! ## Termination of the parser: expressions -/

/-- Every success of an expression-parsing method leaves less input; the loops leave no more
input. -/
theorem exprDecr : ∀ fuel : Nat, ExprDecr fuel
  | 0 => by
    constructor <;> intros <;> rename_i h <;> simp [parseExpr, parseEquality,
      parseEqualityLoop, parseComparison, parseComparisonLoop, parseTerm, parseTermLoop,
      parseFactor, parseFactorLoop, parseUnary, parsePrimary] at h
  | fuel + 1 => by
    have IH := exprDecr fuel
    constructor
    · -- parseExpr
      intro p a p' h
      rw [parseExpr] at h
      exact IH.equality p a p' h
    · -- parseEquality
      intro p a p' h
      rw [parseEquality] at h
      cases h1 : parseComparison fuel p with
      | error e =>
        simp only [h1] at h
        cases h
      | ok v =>
        obtain ⟨left, p1⟩ := v
        simp only [h1] at h
        have d1 := IH.comparison p left p1 h1
        have d2 := IH.equalityLoop left p1 a p' h
        omega
    · -- parseEqualityLoop
      intro left p a p' h
      rw [parseEqualityLoop] at h
      by_cases hc : p.cur.type = .EQ ∨ p.cur.type = .NEQ
      · rw [if_pos hc] at h
        cases he : p.eat p.cur.type with
        | error e =>
          simp only [he] at h
          cases h
        | ok p1 =>
          simp only [he] at h
          have d0 := Parser.eat_remaining he (by rcases hc with h | h <;> rw [h] <;> decide)
          cases h2 : parseComparison fuel p1 with
          | error e =>
            simp only [h2] at h
            cases h
          | ok v =>
            obtain ⟨right, p2⟩ := v
            simp only [h2] at h
            have d1 := IH.comparison p1 right p2 h2
            have d2 := IH.equalityLoop _ p2 a p' h
            omega
      · rw [if_neg hc] at h
        injection h with h
        injection h with ha hp
        subst hp
        exact Nat.le_refl _
    · -- parseComparison
      intro p a p' h
      rw [parseComparison] at h
      cases h1 : parseTerm fuel p with
      | error e =>
        simp only [h1] at h
        cases h
      | ok v =>
        obtain ⟨left, p1⟩ := v
        simp only [h1] at h
        have d1 := IH.term p left p1 h1
        have d2 := IH.comparisonLoop left p1 a p' h
        omega
    · -- parseComparisonLoop
      intro left p a p' h
      rw [parseComparisonLoop] at h
      by_cases hc : p.cur.type = .LT ∨ p.cur.type = .GT ∨ p.cur.type = .LTE ∨ p.cur.type = .GTE
      · rw [if_pos hc] at h
        cases he : p.eat p.cur.type with
        | error e =>
          simp only [he] at h
          cases h
        | ok p1 =>
          simp only [he] at h
          have d0 := Parser.eat_remaining he (by rcases hc with h | h | h | h <;> rw [h] <;> decide)
          cases h2 : parseTerm fuel p1 with
          | error e =>
            simp only [h2] at h
            cases h
          | ok v =>
            obtain ⟨right, p2⟩ := v
            simp only [h2] at h
            have d1 := IH.term p1 right p2 h2
            have d2 := IH.comparisonLoop _ p2 a p' h
            omega
      · rw [if_neg hc] at h
        injection h with h
        injection h with ha hp
        subst hp
        exact Nat.le_refl _
    · -- parseTerm
      intro p a p' h
      rw [parseTerm] at h
      cases h1 : parseFactor fuel p with
      | error e =>
        simp only [h1] at h
        cases h
      | ok v =>
        obtain ⟨left, p1⟩ := v
        simp only [h1] at h
        have d1 := IH.factor p left p1 h1
        have d2 := IH.termLoop left p1 a p' h
        omega
    · -- parseTermLoop
      intro left p a p' h
      rw [parseTermLoop] at h
      by_cases hc : p.cur.type = .PLUS ∨ p.cur.type = .MINUS
      · rw [if_pos hc] at h
        cases he : p.eat p.cur.type with
        | error e =>
          simp only [he] at h
          cases h
        | ok p1 =>
          simp only [he] at h
          have d0 := Parser.eat_remaining he (by rcases hc with h | h <;> rw [h] <;> decide)
          cases h2 : parseFactor fuel p1 with
          | error e =>
            simp only [h2] at h
            cases h
          | ok v =>
            obtain ⟨right, p2⟩ := v
            simp only [h2] at h
            have d1 := IH.factor p1 right p2 h2
            have d2 := IH.termLoop _ p2 a p' h
            omega
      · rw [if_neg hc] at h
        injection h with h
        injection h with ha hp
        subst hp
        exact Nat.le_refl _
    · -- parseFactor
      intro p a p' h
      rw [parseFactor] at h
      cases h1 : parseUnary fuel p with
      | error e =>
        simp only [h1] at h
        cases h
      | ok v =>
        obtain ⟨left, p1⟩ := v
        simp only [h1] at h
        have d1 := IH.unary p left p1 h1
        have d2 := IH.factorLoop left p1 a p' h
        omega
    · -- parseFactorLoop
      intro left p a p' h
      rw [parseFactorLoop] at h
      by_cases hc : p.cur.type = .MUL ∨ p.cur.type = .DIV ∨ p.cur.type = .MOD
      · rw [if_pos hc] at h
        cases he : p.eat p.cur.type with
        | error e =>
          simp only [he] at h
          cases h
        | ok p1 =>
          simp only [he] at h
          have d0 := Parser.eat_remaining he (by rcases hc with h | h | h <;> rw [h] <;> decide)
          cases h2 : parseUnary fuel p1 with
          | error e =>
            simp only [h2] at h
            cases h
          | ok v =>
            obtain ⟨right, p2⟩ := v
            simp only [h2] at h
            have d1 := IH.unary p1 right p2 h2
            have d2 := IH.factorLoop _ p2 a p' h
            omega
      · rw [if_neg hc] at h
        injection h with h
        injection h with ha hp
        subst hp
        exact Nat.le_refl _
    · -- parseUnary
      intro p a p' h
      rw [parseUnary] at h
      by_cases c1 : p.cur.type = .PLUS
      · rw [if_pos c1] at h
        cases he : p.eat .PLUS with
        | error e =>
          simp only [he] at h
          cases h
        | ok p1 =>
          simp only [he] at h
          have d0 := Parser.eat_remaining he (by decide)
          have d1 := IH.unary p1 a p' h
          omega
      · rw [if_neg c1] at h
        by_cases c2 : p.cur.type = .MINUS
        · rw [if_pos c2] at h
          cases he : p.eat .MINUS with
          | error e =>
            simp only [he] at h
            cases h
          | ok p1 =>
            simp only [he] at h
            have d0 := Parser.eat_remaining he (by decide)
            cases hu : parseUnary fuel p1 with
            | error e =>
              simp only [hu] at h
              cases h
            | ok v =>
              obtain ⟨r, p2⟩ := v
              simp only [hu] at h
              injection h with h
              injection h with ha hp
              subst hp
              have d1 := IH.unary p1 r p2 hu
              omega
        · rw [if_neg c2] at h
          exact IH.primary p a p' h
    · -- parsePrimary
      intro p a p' h
      rw [parsePrimary] at h
      by_cases c1 : p.cur.type = .INT_LIT
      · rw [if_pos c1] at h
        cases he : p.eat .INT_LIT with
        | error e =>
          simp only [he] at h
          cases h
        | ok p1 =>
          simp only [he] at h
          injection h with h
          injection h with ha hp
          subst hp
          exact Parser.eat_remaining he (by decide)
      · rw [if_neg c1] at h
        by_cases c2 : p.cur.type = .IDENT
        · rw [if_pos c2] at h
          cases he : p.eat .IDENT with
          | error e =>
            simp only [he] at h
            cases h
          | ok p1 =>
            simp only [he] at h
            injection h with h
            injection h with ha hp
            subst hp
            exact Parser.eat_remaining he (by decide)
        · rw [if_neg c2] at h
          by_cases c3 : p.cur.type = .LPAREN
          · rw [if_pos c3] at h
            cases he : p.eat .LPAREN with
            | error e =>
              simp only [he] at h
              cases h
            | ok p1 =>
              simp only [he] at h
              have d0 := Parser.eat_remaining he (by decide)
              cases hx : parseExpr fuel p1 with
              | error e =>
                simp only [hx] at h
                cases h
              | ok v =>
                obtain ⟨e, p2⟩ := v
                simp only [hx] at h
                have d1 := IH.expr p1 e p2 hx
                cases he2 : p2.eat .RPAREN with
                | error e =>
                  simp only [he2] at h
                  cases h
                | ok p3 =>
                  simp only [he2] at h
                  injection h with h
                  injection h with ha hp
                  subst hp
                  have d2 := Parser.eat_remaining he2 (by decide)
                  omega
          · rw [if_neg c3] at h
            cases h

/-- Seven units of fuel per unit of remaining input, plus the depth of the method, are
enough: the expression-parsing methods then return or stop on a lexical or parse error. -/
theorem exprTotal : ∀ fuel : Nat, ExprTotal fuel
  | 0 => by
    constructor <;> intros <;> rename_i h <;> omega
  | fuel + 1 => by
    have IH := exprTotal fuel
    have DH := exprDecr fuel
    constructor
    · -- parseExpr
      intro p hb
      rw [parseExpr]
      exact IH.equality p (by omega)
    · -- parseEquality
      intro p hb
      rw [parseEquality]
      cases h1 : parseComparison fuel p with
      | error e =>
        simp only
        intro hc
        injection hc with hc
        subst hc
        exact IH.comparison p (by omega) h1
      | ok v =>
        obtain ⟨left, p1⟩ := v
        simp only
        have d1 := DH.comparison p left p1 h1
        exact IH.equalityLoop left p1 (by omega)
    · -- parseEqualityLoop
      intro left p hb
      rw [parseEqualityLoop]
      by_cases hc : p.cur.type = .EQ ∨ p.cur.type = .NEQ
      · rw [if_pos hc]
        cases he : p.eat p.cur.type with
        | error e =>
          simp only
          intro hc2
          injection hc2 with hc2
          subst hc2
          exact Parser.eat_ne_outOfFuel p _ he
        | ok p1 =>
          simp only
          have d0 := Parser.eat_remaining he (by rcases hc with h | h <;> rw [h] <;> decide)
          cases h2 : parseComparison fuel p1 with
          | error e =>
            simp only
            intro hc2
            injection hc2 with hc2
            subst hc2
            exact IH.comparison p1 (by omega) h2
          | ok v =>
            obtain ⟨right, p2⟩ := v
            simp only
            have d1 := DH.comparison p1 right p2 h2
            exact IH.equalityLoop _ p2 (by omega)
      · rw [if_neg hc]
        intro hc2
        cases hc2
    · -- parseComparison
      intro p hb
      rw [parseComparison]
      cases h1 : parseTerm fuel p with
      | error e =>
        simp only
        intro hc
        injection hc with hc
        subst hc
        exact IH.term p (by omega) h1
      | ok v =>
        obtain ⟨left, p1⟩ := v
        simp only
        have d1 := DH.term p left p1 h1
        exact IH.comparisonLoop left p1 (by omega)
    · -- parseComparisonLoop
      intro left p hb
      rw [parseComparisonLoop]
      by_cases hc : p.cur.type = .LT ∨ p.cur.type = .GT ∨ p.cur.type = .LTE ∨ p.cur.type = .GTE
      · rw [if_pos hc]
        cases he : p.eat p.cur.type with
        | error e =>
          simp only
          intro hc2
          injection hc2 with hc2
          subst hc2
          exact Parser.eat_ne_outOfFuel p _ he
        | ok p1 =>
          simp only
          have d0 := Parser.eat_remaining he (by rcases hc with h | h | h | h <;> rw [h] <;> decide)
          cases h2 : parseTerm fuel p1 with
          | error e =>
            simp only
            intro hc2
            injection hc2 with hc2
            subst hc2
            exact IH.term p1 (by omega) h2
          | ok v =>
            obtain ⟨right, p2⟩ := v
            simp only
            have d1 := DH.term p1 right p2 h2
            exact IH.comparisonLoop _ p2 (by omega)
      · rw [if_neg hc]
        intro hc2
        cases hc2
    · -- parseTerm
      intro p hb
      rw [parseTerm]
      cases h1 : parseFactor fuel p with
      | error e =>
        simp only
        intro hc
        injection hc with hc
        subst hc
        exact IH.factor p (by omega) h1
      | ok v =>
        obtain ⟨left, p1⟩ := v
        simp only
        have d1 := DH.factor p left p1 h1
        exact IH.termLoop left p1 (by omega)
    · -- parseTermLoop
      intro left p hb
      rw [parseTermLoop]
      by_cases hc : p.cur.type = .PLUS ∨ p.cur.type = .MINUS
      · rw [if_pos hc]
        cases he : p.eat p.cur.type with
        | error e =>
          simp only
          intro hc2
          injection hc2 with hc2
          subst hc2
          exact Parser.eat_ne_outOfFuel p _ he
        | ok p1 =>
          simp only
          have d0 := Parser.eat_remaining he (by rcases hc with h | h <;> rw [h] <;> decide)
          cases h2 : parseFactor fuel p1 with
          | error e =>
            simp only
            intro hc2
            injection hc2 with hc2
            subst hc2
            exact IH.factor p1 (by omega) h2
          | ok v =>
            obtain ⟨right, p2⟩ := v
            simp only
            have d1 := DH.factor p1 right p2 h2
            exact IH.termLoop _ p2 (by omega)
      · rw [if_neg hc]
        intro hc2
        cases hc2
    · -- parseFactor
      intro p hb
      rw [parseFactor]
      cases h1 : parseUnary fuel p with
      | error e =>
        simp only
        intro hc
        injection hc with hc
        subst hc
        exact IH.unary p (by omega) h1
      | ok v =>
        obtain ⟨left, p1⟩ := v
        simp only
        have d1 := DH.unary p left p1 h1
        exact IH.factorLoop left p1 (by omega)
    · -- parseFactorLoop
      intro left p hb
      rw [parseFactorLoop]
      by_cases hc : p.cur.type = .MUL ∨ p.cur.type = .DIV ∨ p.cur.type = .MOD
      · rw [if_pos hc]
        cases he : p.eat p.cur.type with
        | error e =>
          simp only
          intro hc2
          injection hc2 with hc2
          subst hc2
          exact Parser.eat_ne_outOfFuel p _ he
        | ok p1 =>
          simp only
          have d0 := Parser.eat_remaining he (by rcases hc with h | h | h <;> rw [h] <;> decide)
          cases h2 : parseUnary fuel p1 with
          | error e =>
            simp only
            intro hc2
            injection hc2 with hc2
            subst hc2
            exact IH.unary p1 (by omega) h2
          | ok v =>
            obtain ⟨right, p2⟩ := v
            simp only
            have d1 := DH.unary p1 right p2 h2
            exact IH.factorLoop _ p2 (by omega)
      · rw [if_neg hc]
        intro hc2
        cases hc2
    · -- parseUnary
      intro p hb
      rw [parseUnary]
      by_cases c1 : p.cur.type = .PLUS
      · rw [if_pos c1]
        cases he : p.eat .PLUS with
        | error e =>
          simp only
          intro hc2
          injection hc2 with hc2
          subst hc2
          exact Parser.eat_ne_outOfFuel p _ he
        | ok p1 =>
          simp only
          have d0 := Parser.eat_remaining he (by decide)
          exact IH.unary p1 (by omega)
      · rw [if_neg c1]
        by_cases c2 : p.cur.type = .MINUS
        · rw [if_pos c2]
          cases he : p.eat .MINUS with
          | error e =>
            simp only
            intro hc2
            injection hc2 with hc2
            subst hc2
            exact Parser.eat_ne_outOfFuel p _ he
          | ok p1 =>
            simp only
            have d0 := Parser.eat_remaining he (by decide)
            cases hu : parseUnary fuel p1 with
            | error e =>
              simp only
              intro hc2
              injection hc2 with hc2
              subst hc2
              exact IH.unary p1 (by omega) hu
            | ok v =>
              obtain ⟨r, p2⟩ := v
              simp only
              intro hc2
              cases hc2
        · rw [if_neg c2]
          exact IH.primary p (by omega)
    · -- parsePrimary
      intro p hb
      rw [parsePrimary]
      by_cases c1 : p.cur.type = .INT_LIT
      · rw [if_pos c1]
        cases he : p.eat .INT_LIT with
        | error e =>
          simp only
          intro hc2
          injection hc2 with hc2
          subst hc2
          exact Parser.eat_ne_outOfFuel p _ he
        | ok p1 =>
          simp only
          intro hc2
          cases hc2
      · rw [if_neg c1]
        by_cases c2 : p.cur.type = .IDENT
        · rw [if_pos c2]
          cases he : p.eat .IDENT with
          | error e =>
            simp only
            intro hc2
            injection hc2 with hc2
            subst hc2
            exact Parser.eat_ne_outOfFuel p _ he
          | ok p1 =>
            simp only
            intro hc2
            cases hc2
        · rw [if_neg c2]
          by_cases c3 : p.cur.type = .LPAREN
          · rw [if_pos c3]
            cases he : p.eat .LPAREN with
            | error e =>
              simp only
              intro hc2
              injection hc2 with hc2
              subst hc2
              exact Parser.eat_ne_outOfFuel p _ he
            | ok p1 =>
              simp only
              have d0 := Parser.eat_remaining he (by decide)
              cases hx : parseExpr fuel p1 with
              | error e =>
                simp only
                intro hc2
                injection hc2 with hc2
                subst hc2
                exact IH.expr p1 (by omega) hx
              | ok v =>
                obtain ⟨e, p2⟩ := v
                simp only
                cases he2 : p2.eat .RPAREN with
                | error e =>
                  simp only
                  intro hc2
                  injection hc2 with hc2
                  subst hc2
                  exact Parser.eat_ne_outOfFuel p2 _ he2
                | ok p3 =>
                  simp only
                  intro hc2
                  cases hc2
          · rw [if_neg c3]
            intro hc2
            cases hc2

/-- An expression-parsing method that does not run out of fuel gives the same result with one
more unit of fuel. -/
theorem exprStable : ∀ fuel : Nat, ExprStable fuel
  | 0 => by
    constructor <;> intros <;> rename_i h <;> simp [parseExpr, parseEquality,
      parseEqualityLoop, parseComparison, parseComparisonLoop, parseTerm, parseTermLoop,
      parseFactor, parseFactorLoop, parseUnary, parsePrimary] at h
  | fuel + 1 => by
    have IH := exprStable fuel
    constructor
    · -- parseExpr
      intro p h
      rw [parseExpr] at h
      rw [parseExpr, parseExpr]
      exact IH.equality p h
    · -- parseEquality
      intro p h
      rw [parseEquality] at h
      rw [parseEquality, parseEquality]
      have hs : parseComparison fuel p ≠ .error .outOfFuel := by
        intro hc
        apply h
        simp only [hc]
      rw [IH.comparison p hs]
      cases h1 : parseComparison fuel p with
      | error e => rfl
      | ok v =>
        obtain ⟨left, p1⟩ := v
        simp only [h1] at h ⊢
        exact IH.equalityLoop left p1 h
    · -- parseEqualityLoop
      intro left p h
      rw [parseEqualityLoop] at h
      rw [parseEqualityLoop, parseEqualityLoop]
      by_cases hc : p.cur.type = .EQ ∨ p.cur.type = .NEQ
      · simp only [if_pos hc] at h ⊢
        cases he : p.eat p.cur.type with
        | error e => rfl
        | ok p1 =>
          simp only [he] at h ⊢
          have hs : parseComparison fuel p1 ≠ .error .outOfFuel := by
            intro hc2
            apply h
            simp only [hc2]
          rw [IH.comparison p1 hs]
          cases h2 : parseComparison fuel p1 with
          | error e => rfl
          | ok v =>
            obtain ⟨right, p2⟩ := v
            simp only [h2] at h ⊢
            exact IH.equalityLoop _ p2 h
      · simp only [if_neg hc]
    · -- parseComparison
      intro p h
      rw [parseComparison] at h
      rw [parseComparison, parseComparison]
      have hs : parseTerm fuel p ≠ .error .outOfFuel := by
        intro hc
        apply h
        simp only [hc]
      rw [IH.term p hs]
      cases h1 : parseTerm fuel p with
      | error e => rfl
      | ok v =>
        obtain ⟨left, p1⟩ := v
        simp only [h1] at h ⊢
        exact IH.comparisonLoop left p1 h
    · -- parseComparisonLoop
      intro left p h
      rw [parseComparisonLoop] at h
      rw [parseComparisonLoop, parseComparisonLoop]
      by_cases hc : p.cur.type = .LT ∨ p.cur.type = .GT ∨ p.cur.type = .LTE ∨ p.cur.type = .GTE
      · simp only [if_pos hc] at h ⊢
        cases he : p.eat p.cur.type with
        | error e => rfl
        | ok p1 =>
          simp only [he] at h ⊢
          have hs : parseTerm fuel p1 ≠ .error .outOfFuel := by
            intro hc2
            apply h
            simp only [hc2]
          rw [IH.term p1 hs]
          cases h2 : parseTerm fuel p1 with
          | error e => rfl
          | ok v =>
            obtain ⟨right, p2⟩ := v
            simp only [h2] at h ⊢
            exact IH.comparisonLoop _ p2 h
      · simp only [if_neg hc]
    · -- parseTerm
      intro p h
      rw [parseTerm] at h
      rw [parseTerm, parseTerm]
      have hs : parseFactor fuel p ≠ .error .outOfFuel := by
        intro hc
        apply h
        simp only [hc]
      rw [IH.factor p hs]
      cases h1 : parseFactor fuel p with
      | error e => rfl
      | ok v =>
        obtain ⟨left, p1⟩ := v
        simp only [h1] at h ⊢
        exact IH.termLoop left p1 h
    · -- parseTermLoop
      intro left p h
      rw [parseTermLoop] at h
      rw [parseTermLoop, parseTermLoop]
      by_cases hc : p.cur.type = .PLUS ∨ p.cur.type = .MINUS
      · simp only [if_pos hc] at h ⊢
        cases he : p.eat p.cur.type with
        | error e => rfl
        | ok p1 =>
          simp only [he] at h ⊢
          have hs : parseFactor fuel p1 ≠ .error .outOfFuel := by
            intro hc2
            apply h
            simp only [hc2]
          rw [IH.factor p1 hs]
          cases h2 : parseFactor fuel p1 with
          | error e => rfl
          | ok v =>
            obtain ⟨right, p2⟩ := v
            simp only [h2] at h ⊢
            exact IH.termLoop _ p2 h
      · simp only [if_neg hc]
    · -- parseFactor
      intro p h
      rw [parseFactor] at h
      rw [parseFactor, parseFactor]
      have hs : parseUnary fuel p ≠ .error .outOfFuel := by
        intro hc
        apply h
        simp only [hc]
      rw [IH.unary p hs]
      cases h1 : parseUnary fuel p with
      | error e => rfl
      | ok v =>
        obtain ⟨left, p1⟩ := v
        simp only [h1] at h ⊢
        exact IH.factorLoop left p1 h
    · -- parseFactorLoop
      intro left p h
      rw [parseFactorLoop] at h
      rw [parseFactorLoop, parseFactorLoop]
      by_cases hc : p.cur.type = .MUL ∨ p.cur.type = .DIV ∨ p.cur.type = .MOD
      · simp only [if_pos hc] at h ⊢
        cases he : p.eat p.cur.type with
        | error e => rfl
        | ok p1 =>
          simp only [he] at h ⊢
          have hs : parseUnary fuel p1 ≠ .error .outOfFuel := by
            intro hc2
            apply h
            simp only [hc2]
          rw [IH.unary p1 hs]
          cases h2 : parseUnary fuel p1 with
          | error e => rfl
          | ok v =>
            obtain ⟨right, p2⟩ := v
            simp only [h2] at h ⊢
            exact IH.factorLoop _ p2 h
      · simp only [if_neg hc]
    · -- parseUnary
      intro p h
      rw [parseUnary] at h
      rw [parseUnary, parseUnary]
      by_cases c1 : p.cur.type = .PLUS
      · simp only [if_pos c1] at h ⊢
        cases he : p.eat .PLUS with
        | error e => rfl
        | ok p1 =>
          simp only [he] at h ⊢
          exact IH.unary p1 h
      · simp only [if_neg c1] at h ⊢
        by_cases c2 : p.cur.type = .MINUS
        · simp only [if_pos c2] at h ⊢
          cases he : p.eat .MINUS with
          | error e => rfl
          | ok p1 =>
            simp only [he] at h ⊢
            have hs : parseUnary fuel p1 ≠ .error .outOfFuel := by
              intro hc2
              apply h
              simp only [hc2]
            rw [IH.unary p1 hs]
        · simp only [if_neg c2] at h ⊢
          exact IH.primary p h
    · -- parsePrimary
      intro p h
      rw [parsePrimary] at h
      rw [parsePrimary, parsePrimary]
      by_cases c1 : p.cur.type = .INT_LIT
      · simp only [if_pos c1]
      · simp only [if_neg c1] at h ⊢
        by_cases c2 : p.cur.type = .IDENT
        · simp only [if_pos c2]
        · simp only [if_neg c2] at h ⊢
          by_cases c3 : p.cur.type = .LPAREN
          · simp only [if_pos c3] at h ⊢
            cases he : p.eat .LPAREN with
            | error e => rfl
            | ok p1 =>
              simp only [he] at h ⊢
              have hs : parseExpr fuel p1 ≠ .error .outOfFuel := by
                intro hc2
                apply h
                simp only [hc2]
              rw [IH.expr p1 hs]
          · simp only [if_neg c3]

/-! ## Termination of the parser: statements -/

/-- Every success of a statement-parsing method leaves less input; the loop of a block leaves
no more input. -/
theorem stmtDecr : ∀ fuel : Nat, StmtDecr fuel
  | 0 => by
    constructor <;> intros <;> rename_i h <;>
      simp [parseStatement, parseBlock, parseBlockLoop] at h
  | fuel + 1 => by
    have IH := stmtDecr fuel
    have IHe := exprDecr fuel
    constructor
    · -- parseStatement
      intro p s p' h
      rw [parseStatement] at h
      by_cases c1 : p.cur.type = .KW_PRINT
      · rw [if_pos c1] at h
        cases he1 : p.eat .KW_PRINT with
        | error e =>
          simp only [he1] at h
          cases h
        | ok p1 =>
          simp only [he1] at h
          have d1 := Parser.eat_remaining he1 (by decide)
          cases he2 : p1.eat .LPAREN with
          | error e =>
            simp only [he2] at h
            cases h
          | ok p2 =>
            simp only [he2] at h
            have d2 := Parser.eat_remaining he2 (by decide)
            cases he3 : parseExpr fuel p2 with
            | error e =>
              simp only [he3] at h
              cases h
            | ok v3 =>
              obtain ⟨a3, p3⟩ := v3
              simp only [he3] at h
              have d3 := IHe.expr p2 a3 p3 he3
              cases he4 : p3.eat .RPAREN with
              | error e =>
                simp only [he4] at h
                cases h
              | ok p4 =>
                simp only [he4] at h
                have d4 := Parser.eat_remaining he4 (by decide)
                cases he5 : p4.eat .SEMI with
                | error e =>
                  simp only [he5] at h
                  cases h
                | ok p5 =>
                  simp only [he5] at h
                  have d5 := Parser.eat_remaining he5 (by decide)
                  injection h with h
                  injection h with hs hp
                  subst hp
                  omega
      · rw [if_neg c1] at h
        by_cases c2 : p.cur.type = .IDENT
        · rw [if_pos c2] at h
          cases he1 : p.eat .IDENT with
          | error e =>
            simp only [he1] at h
            cases h
          | ok p1 =>
            simp only [he1] at h
            have d1 := Parser.eat_remaining he1 (by decide)
            cases he2 : p1.eat .ASSIGN with
            | error e =>
              simp only [he2] at h
              cases h
            | ok p2 =>
              simp only [he2] at h
              have d2 := Parser.eat_remaining he2 (by decide)
              cases he3 : parseExpr fuel p2 with
              | error e =>
                simp only [he3] at h
                cases h
              | ok v3 =>
                obtain ⟨a3, p3⟩ := v3
                simp only [he3] at h
                have d3 := IHe.expr p2 a3 p3 he3
                cases he4 : p3.eat .SEMI with
                | error e =>
                  simp only [he4] at h
                  cases h
                | ok p4 =>
                  simp only [he4] at h
                  have d4 := Parser.eat_remaining he4 (by decide)
                  injection h with h
                  injection h with hs hp
                  subst hp
                  omega
        · rw [if_neg c2] at h
          by_cases c3 : p.cur.type = .KW_IF
          · rw [if_pos c3] at h
            cases he1 : p.eat .KW_IF with
            | error e =>
              simp only [he1] at h
              cases h
            | ok p1 =>
              simp only [he1] at h
              have d1 := Parser.eat_remaining he1 (by decide)
              cases he2 : p1.eat .LPAREN with
              | error e =>
                simp only [he2] at h
                cases h
              | ok p2 =>
                simp only [he2] at h
                have d2 := Parser.eat_remaining he2 (by decide)
                cases he3 : parseExpr fuel p2 with
                | error e =>
                  simp only [he3] at h
                  cases h
                | ok v3 =>
                  obtain ⟨a3, p3⟩ := v3
                  simp only [he3] at h
                  have d3 := IHe.expr p2 a3 p3 he3
                  cases he4 : p3.eat .RPAREN with
                  | error e =>
                    simp only [he4] at h
                    cases h
                  | ok p4 =>
                    simp only [he4] at h
                    have d4 := Parser.eat_remaining he4 (by decide)
                    cases he5 : parseBlock fuel p4 with
                    | error e =>
                      simp only [he5] at h
                      cases h
                    | ok v5 =>
                      obtain ⟨a5, p5⟩ := v5
                      simp only [he5] at h
                      have d5 := IH.block p4 a5 p5 he5
                      by_cases c6 : p5.cur.type = .KW_ELSE
                      · rw [if_pos c6] at h
                        cases hee1 : p5.eat .KW_ELSE with
                        | error e =>
                          simp only [hee1] at h
                          cases h
                        | ok pe1 =>
                          simp only [hee1] at h
                          have de1 := Parser.eat_remaining hee1 (by decide)
                          cases hee2 : parseBlock fuel pe1 with
                          | error e =>
                            simp only [hee2] at h
                            cases h
                          | ok ve2 =>
                            obtain ⟨ae2, pe2⟩ := ve2
                            simp only [hee2] at h
                            have de2 := IH.block pe1 ae2 pe2 hee2
                            injection h with h
                            injection h with hs hp
                            subst hp
                            omega
                      · rw [if_neg c6] at h
                        injection h with h
                        injection h with hs hp
                        subst hp
                        omega
          · rw [if_neg c3] at h
            by_cases c4 : p.cur.type = .KW_WHILE
            · rw [if_pos c4] at h
              cases he1 : p.eat .KW_WHILE with
              | error e =>
                simp only [he1] at h
                cases h
              | ok p1 =>
                simp only [he1] at h
                have d1 := Parser.eat_remaining he1 (by decide)
                cases he2 : p1.eat .LPAREN with
                | error e =>
                  simp only [he2] at h
                  cases h
                | ok p2 =>
                  simp only [he2] at h
                  have d2 := Parser.eat_remaining he2 (by decide)
                  cases he3 : parseExpr fuel p2 with
                  | error e =>
                    simp only [he3] at h
                    cases h
                  | ok v3 =>
                    obtain ⟨a3, p3⟩ := v3
                    simp only [he3] at h
                    have d3 := IHe.expr p2 a3 p3 he3
                    cases he4 : p3.eat .RPAREN with
                    | error e =>
                      simp only [he4] at h
                      cases h
                    | ok p4 =>
                      simp only [he4] at h
                      have d4 := Parser.eat_remaining he4 (by decide)
                      cases he5 : parseBlock fuel p4 with
                      | error e =>
                        simp only [he5] at h
                        cases h
                      | ok v5 =>
                        obtain ⟨a5, p5⟩ := v5
                        simp only [he5] at h
                        have d5 := IH.block p4 a5 p5 he5
                        injection h with h
                        injection h with hs hp
                        subst hp
                        omega
            · rw [if_neg c4] at h
              by_cases c5 : p.cur.type = .LBRACE
              · rw [if_pos c5] at h
                cases he1 : parseBlock fuel p with
                | error e =>
                  simp only [he1] at h
                  cases h
                | ok v1 =>
                  obtain ⟨a1, p1⟩ := v1
                  simp only [he1] at h
                  have d1 := IH.block p a1 p1 he1
                  injection h with h
                  injection h with hs hp
                  subst hp
                  omega
              · rw [if_neg c5] at h
                cases h
    · -- parseBlock
      intro p ss p' h
      rw [parseBlock] at h
      cases he1 : p.eat .LBRACE with
      | error e =>
        simp only [he1] at h
        cases h
      | ok p1 =>
        simp only [he1] at h
        have d1 := Parser.eat_remaining he1 (by decide)
        cases he2 : parseBlockLoop fuel [] p1 with
        | error e =>
          simp only [he2] at h
          cases h
        | ok v2 =>
          obtain ⟨a2, p2⟩ := v2
          simp only [he2] at h
          have d2 := IH.blockLoop [] p1 a2 p2 he2
          cases he3 : p2.eat .RBRACE with
          | error e =>
            simp only [he3] at h
            cases h
          | ok p3 =>
            simp only [he3] at h
            have d3 := Parser.eat_remaining he3 (by decide)
            injection h with h
            injection h with hs hp
            subst hp
            omega
    · -- parseBlockLoop
      intro acc p ss p' h
      rw [parseBlockLoop] at h
      by_cases c1 : p.cur.type ≠ .RBRACE
      · rw [if_pos c1] at h
        cases he1 : parseStatement fuel p with
        | error e =>
          simp only [he1] at h
          cases h
        | ok v1 =>
          obtain ⟨a1, p1⟩ := v1
          simp only [he1] at h
          have d1 := IH.statement p a1 p1 he1
          have d2 := IH.blockLoop _ p1 ss p' h
          omega
      · rw [if_neg c1] at h
        injection h with h
        injection h with hs hp
        subst hp
        exact Nat.le_refl _

/-- Eight units of fuel per unit of remaining input, plus a margin, are enough: the
statement-parsing methods then return or stop on a lexical or parse error. -/
theorem stmtTotal : ∀ fuel : Nat, StmtTotal fuel
  | 0 => by
    constructor <;> intros <;> rename_i h <;> omega
  | fuel + 1 => by
    have IH := stmtTotal fuel
    have IHe := exprTotal fuel
    have DH := stmtDecr fuel
    have DHe := exprDecr fuel
    constructor
    · -- parseStatement
      intro p hb
      rw [parseStatement]
      by_cases c1 : p.cur.type = .KW_PRINT
      · rw [if_pos c1]
        cases he1 : p.eat .KW_PRINT with
        | error e =>
          simp only
          intro hc
          injection hc with hc
          subst hc
          exact Parser.eat_ne_outOfFuel p _ he1
        | ok p1 =>
          simp only
          have d1 := Parser.eat_remaining he1 (by decide)
          cases he2 : p1.eat .LPAREN with
          | error e =>
            simp only
            intro hc
            injection hc with hc
            subst hc
            exact Parser.eat_ne_outOfFuel p1 _ he2
          | ok p2 =>
            simp only
            have d2 := Parser.eat_remaining he2 (by decide)
            cases he3 : parseExpr fuel p2 with
            | error e =>
              simp only
              intro hc
              injection hc with hc
              subst hc
              exact IHe.expr p2 (by omega) he3
            | ok v3 =>
              obtain ⟨a3, p3⟩ := v3
              simp only
              have d3 := DHe.expr p2 a3 p3 he3
              cases he4 : p3.eat .RPAREN with
              | error e =>
                simp only
                intro hc
                injection hc with hc
                subst hc
                exact Parser.eat_ne_outOfFuel p3 _ he4
              | ok p4 =>
                simp only
                have d4 := Parser.eat_remaining he4 (by decide)
                cases he5 : p4.eat .SEMI with
                | error e =>
                  simp only
                  intro hc
                  injection hc with hc
                  subst hc
                  exact Parser.eat_ne_outOfFuel p4 _ he5
                | ok p5 =>
                  simp only
                  have d5 := Parser.eat_remaining he5 (by decide)
                  intro hc
                  cases hc
      · rw [if_neg c1]
        by_cases c2 : p.cur.type = .IDENT
        · rw [if_pos c2]
          cases he1 : p.eat .IDENT with
          | error e =>
            simp only
            intro hc
            injection hc with hc
            subst hc
            exact Parser.eat_ne_outOfFuel p _ he1
          | ok p1 =>
            simp only
            have d1 := Parser.eat_remaining he1 (by decide)
            cases he2 : p1.eat .ASSIGN with
            | error e =>
              simp only
              intro hc
              injection hc with hc
              subst hc
              exact Parser.eat_ne_outOfFuel p1 _ he2
            | ok p2 =>
              simp only
              have d2 := Parser.eat_remaining he2 (by decide)
              cases he3 : parseExpr fuel p2 with
              | error e =>
                simp only
                intro hc
                injection hc with hc
                subst hc
                exact IHe.expr p2 (by omega) he3
              | ok v3 =>
                obtain ⟨a3, p3⟩ := v3
                simp only
                have d3 := DHe.expr p2 a3 p3 he3
                cases he4 : p3.eat .SEMI with
                | error e =>
                  simp only
                  intro hc
                  injection hc with hc
                  subst hc
                  exact Parser.eat_ne_outOfFuel p3 _ he4
                | ok p4 =>
                  simp only
                  have d4 := Parser.eat_remaining he4 (by decide)
                  intro hc
                  cases hc
        · rw [if_neg c2]
          by_cases c3 : p.cur.type = .KW_IF
          · rw [if_pos c3]
            cases he1 : p.eat .KW_IF with
            | error e =>
              simp only
              intro hc
              injection hc with hc
              subst hc
              exact Parser.eat_ne_outOfFuel p _ he1
            | ok p1 =>
              simp only
              have d1 := Parser.eat_remaining he1 (by decide)
              cases he2 : p1.eat .LPAREN with
              | error e =>
                simp only
                intro hc
                injection hc with hc
                subst hc
                exact Parser.eat_ne_outOfFuel p1 _ he2
              | ok p2 =>
                simp only
                have d2 := Parser.eat_remaining he2 (by decide)
                cases he3 : parseExpr fuel p2 with
                | error e =>
                  simp only
                  intro hc
                  injection hc with hc
                  subst hc
                  exact IHe.expr p2 (by omega) he3
                | ok v3 =>
                  obtain ⟨a3, p3⟩ := v3
                  simp only
                  have d3 := DHe.expr p2 a3 p3 he3
                  cases he4 : p3.eat .RPAREN with
                  | error e =>
                    simp only
                    intro hc
                    injection hc with hc
                    subst hc
                    exact Parser.eat_ne_outOfFuel p3 _ he4
                  | ok p4 =>
                    simp only
                    have d4 := Parser.eat_remaining he4 (by decide)
                    cases he5 : parseBlock fuel p4 with
                    | error e =>
                      simp only
                      intro hc
                      injection hc with hc
                      subst hc
                      exact IH.block p4 (by omega) he5
                    | ok v5 =>
                      obtain ⟨a5, p5⟩ := v5
                      simp only
                      have d5 := DH.block p4 a5 p5 he5
                      by_cases c6 : p5.cur.type = .KW_ELSE
                      · rw [if_pos c6]
                        cases hee1 : p5.eat .KW_ELSE with
                        | error e =>
                          simp only
                          intro hc
                          injection hc with hc
                          subst hc
                          exact Parser.eat_ne_outOfFuel p5 _ hee1
                        | ok pe1 =>
                          simp only
                          have de1 := Parser.eat_remaining hee1 (by decide)
                          cases hee2 : parseBlock fuel pe1 with
                          | error e =>
                            simp only
                            intro hc
                            injection hc with hc
                            subst hc
                            exact IH.block pe1 (by omega) hee2
                          | ok ve2 =>
                            obtain ⟨ae2, pe2⟩ := ve2
                            simp only
                            have de2 := DH.block pe1 ae2 pe2 hee2
                            intro hc
                            cases hc
                      · rw [if_neg c6]
                        intro hc
                        cases hc
          · rw [if_neg c3]
            by_cases c4 : p.cur.type = .KW_WHILE
            · rw [if_pos c4]
              cases he1 : p.eat .KW_WHILE with
              | error e =>
                simp only
                intro hc
                injection hc with hc
                subst hc
                exact Parser.eat_ne_outOfFuel p _ he1
              | ok p1 =>
                simp only
                have d1 := Parser.eat_remaining he1 (by decide)
                cases he2 : p1.eat .LPAREN with
                | error e =>
                  simp only
                  intro hc
                  injection hc with hc
                  subst hc
                  exact Parser.eat_ne_outOfFuel p1 _ he2
                | ok p2 =>
                  simp only
                  have d2 := Parser.eat_remaining he2 (by decide)
                  cases he3 : parseExpr fuel p2 with
                  | error e =>
                    simp only
                    intro hc
                    injection hc with hc
                    subst hc
                    exact IHe.expr p2 (by omega) he3
                  | ok v3 =>
                    obtain ⟨a3, p3⟩ := v3
                    simp only
                    have d3 := DHe.expr p2 a3 p3 he3
                    cases he4 : p3.eat .RPAREN with
                    | error e =>
                      simp only
                      intro hc
                      injection hc with hc
                      subst hc
                      exact Parser.eat_ne_outOfFuel p3 _ he4
                    | ok p4 =>
                      simp only
                      have d4 := Parser.eat_remaining he4 (by decide)
                      cases he5 : parseBlock fuel p4 with
                      | error e =>
                        simp only
                        intro hc
                        injection hc with hc
                        subst hc
                        exact IH.block p4 (by omega) he5
                      | ok v5 =>
                        obtain ⟨a5, p5⟩ := v5
                        simp only
                        have d5 := DH.block p4 a5 p5 he5
                        intro hc
                        cases hc
            · rw [if_neg c4]
              by_cases c5 : p.cur.type = .LBRACE
              · rw [if_pos c5]
                cases he1 : parseBlock fuel p with
                | error e =>
                  simp only
                  intro hc
                  injection hc with hc
                  subst hc
                  exact IH.block p (by omega) he1
                | ok v1 =>
                  obtain ⟨a1, p1⟩ := v1
                  simp only
                  have d1 := DH.block p a1 p1 he1
                  intro hc
                  cases hc
              · rw [if_neg c5]
                intro hc
                cases hc
    · -- parseBlock
      intro p hb
      rw [parseBlock]
      cases he1 : p.eat .LBRACE with
      | error e =>
        simp only
        intro hc
        injection hc with hc
        subst hc
        exact Parser.eat_ne_outOfFuel p _ he1
      | ok p1 =>
        simp only
        have d1 := Parser.eat_remaining he1 (by decide)
        cases he2 : parseBlockLoop fuel [] p1 with
        | error e =>
          simp only
          intro hc
          injection hc with hc
          subst hc
          exact IH.blockLoop [] p1 (by omega) he2
        | ok v2 =>
          obtain ⟨a2, p2⟩ := v2
          simp only
          have d2 := DH.blockLoop [] p1 a2 p2 he2
          cases he3 : p2.eat .RBRACE with
          | error e =>
            simp only
            intro hc
            injection hc with hc
            subst hc
            exact Parser.eat_ne_outOfFuel p2 _ he3
          | ok p3 =>
            simp only
            have d3 := Parser.eat_remaining he3 (by decide)
            intro hc
            cases hc
    · -- parseBlockLoop
      intro acc p hb
      rw [parseBlockLoop]
      by_cases c1 : p.cur.type ≠ .RBRACE
      · rw [if_pos c1]
        cases he1 : parseStatement fuel p with
        | error e =>
          simp only
          intro hc
          injection hc with hc
          subst hc
          exact IH.statement p (by omega) he1
        | ok v1 =>
          obtain ⟨a1, p1⟩ := v1
          simp only
          have d1 := DH.statement p a1 p1 he1
          exact IH.blockLoop _ p1 (by omega)
      · rw [if_neg c1]
        intro hc
        cases hc

/-- A statement-parsing method that does not run out of fuel gives the same result with one
more unit of fuel. -/
theorem stmtStable : ∀ fuel : Nat, StmtStable fuel
  | 0 => by
    constructor <;> intros <;> rename_i h <;>
      simp [parseStatement, parseBlock, parseBlockLoop] at h
  | fuel + 1 => by
    have IH := stmtStable fuel
    have IHe := exprStable fuel
    constructor
    · -- parseStatement
      intro p h
      rw [parseStatement] at h
      rw [parseStatement, parseStatement]
      by_cases c1 : p.cur.type = .KW_PRINT
      · simp only [if_pos c1] at h ⊢
        cases he1 : p.eat .KW_PRINT with
        | error e => rfl
        | ok p1 =>
          simp only [he1] at h ⊢
          cases he2 : p1.eat .LPAREN with
          | error e => rfl
          | ok p2 =>
            simp only [he2] at h ⊢
            have hs3 : parseExpr fuel p2 ≠ .error .outOfFuel := by
              intro hc
              apply h
              simp only [hc]
            rw [IHe.expr p2 hs3]
      · simp only [if_neg c1] at h ⊢
        by_cases c2 : p.cur.type = .IDENT
        · simp only [if_pos c2] at h ⊢
          cases he1 : p.eat .IDENT with
          | error e => rfl
          | ok p1 =>
            simp only [he1] at h ⊢
            cases he2 : p1.eat .ASSIGN with
            | error e => rfl
            | ok p2 =>
              simp only [he2] at h ⊢
              have hs3 : parseExpr fuel p2 ≠ .error .outOfFuel := by
                intro hc
                apply h
                simp only [hc]
              rw [IHe.expr p2 hs3]
        · simp only [if_neg c2] at h ⊢
          by_cases c3 : p.cur.type = .KW_IF
          · simp only [if_pos c3] at h ⊢
            cases he1 : p.eat .KW_IF with
            | error e => rfl
            | ok p1 =>
              simp only [he1] at h ⊢
              cases he2 : p1.eat .LPAREN with
              | error e => rfl
              | ok p2 =>
                simp only [he2] at h ⊢
                have hs3 : parseExpr fuel p2 ≠ .error .outOfFuel := by
                  intro hc
                  apply h
                  simp only [hc]
                rw [IHe.expr p2 hs3]
                cases he3 : parseExpr fuel p2 with
                | error e => rfl
                | ok v3 =>
                  obtain ⟨a3, p3⟩ := v3
                  simp only [he3] at h ⊢
                  cases he4 : p3.eat .RPAREN with
                  | error e => rfl
                  | ok p4 =>
                    simp only [he4] at h ⊢
                    have hs5 : parseBlock fuel p4 ≠ .error .outOfFuel := by
                      intro hc
                      apply h
                      simp only [hc]
                    rw [IH.block p4 hs5]
                    cases he5 : parseBlock fuel p4 with
                    | error e => rfl
                    | ok v5 =>
                      obtain ⟨a5, p5⟩ := v5
                      simp only [he5] at h ⊢
                      by_cases c6 : p5.cur.type = .KW_ELSE
                      · simp only [if_pos c6] at h ⊢
                        cases hee1 : p5.eat .KW_ELSE with
                        | error e => rfl
                        | ok pe1 =>
                          simp only [hee1] at h ⊢
                          have hse2 : parseBlock fuel pe1 ≠ .error .outOfFuel := by
                            intro hc
                            apply h
                            simp only [hc]
                          rw [IH.block pe1 hse2]
                      · simp only [if_neg c6] at h ⊢
          · simp only [if_neg c3] at h ⊢
            by_cases c4 : p.cur.type = .KW_WHILE
            · simp only [if_pos c4] at h ⊢
              cases he1 : p.eat .KW_WHILE with
              | error e => rfl
              | ok p1 =>
                simp only [he1] at h ⊢
                cases he2 : p1.eat .LPAREN with
                | error e => rfl
                | ok p2 =>
                  simp only [he2] at h ⊢
                  have hs3 : parseExpr fuel p2 ≠ .error .outOfFuel := by
                    intro hc
                    apply h
                    simp only [hc]
                  rw [IHe.expr p2 hs3]
                  cases he3 : parseExpr fuel p2 with
                  | error e => rfl
                  | ok v3 =>
                    obtain ⟨a3, p3⟩ := v3
                    simp only [he3] at h ⊢
                    cases he4 : p3.eat .RPAREN with
                    | error e => rfl
                    | ok p4 =>
                      simp only [he4] at h ⊢
                      have hs5 : parseBlock fuel p4 ≠ .error .outOfFuel := by
                        intro hc
                        apply h
                        simp only [hc]
                      rw [IH.block p4 hs5]
            · simp only [if_neg c4] at h ⊢
              by_cases c5 : p.cur.type = .LBRACE
              · simp only [if_pos c5] at h ⊢
                have hs1 : parseBlock fuel p ≠ .error .outOfFuel := by
                  intro hc
                  apply h
                  simp only [hc]
                rw [IH.block p hs1]
              · simp only [if_neg c5]
    · -- parseBlock
      intro p h
      rw [parseBlock] at h
      rw [parseBlock, parseBlock]
      cases he1 : p.eat .LBRACE with
      | error e => rfl
      | ok p1 =>
        simp only [he1] at h ⊢
        have hs2 : parseBlockLoop fuel [] p1 ≠ .error .outOfFuel := by
          intro hc
          apply h
          simp only [hc]
        rw [IH.blockLoop [] p1 hs2]
    · -- parseBlockLoop
      intro acc p h
      rw [parseBlockLoop] at h
      rw [parseBlockLoop, parseBlockLoop]
      by_cases c1 : p.cur.type ≠ .RBRACE
      · simp only [if_pos c1] at h ⊢
        have hs1 : parseStatement fuel p ≠ .error .outOfFuel := by
          intro hc
          apply h
          simp only [hc]
        rw [IH.statement p hs1]
        cases he1 : parseStatement fuel p with
        | error e => rfl
        | ok v1 =>
          obtain ⟨a1, p1⟩ := v1
          simp only [he1] at h ⊢
          exact IH.blockLoop _ p1 h
      · simp only [if_neg c1]

/-! ## Termination of the parser: programs -/

/-- Eight units of fuel per unit of remaining input, plus three, are enough for the loop of
`parseProgram`. -/
theorem parseProgramLoop_ne_outOfFuel : ∀ (fuel : Nat) (acc : List Stmt) (p : Parser),
    8 * p.remaining + 3 ≤ fuel → parseProgramLoop fuel acc p ≠ .error .outOfFuel
  | 0, _, _, hb => absurd hb (by omega)
  | fuel + 1, acc, p, hb => by
    rw [parseProgramLoop]
    by_cases c1 : p.cur.type ≠ .END
    · rw [if_pos c1]
      cases he1 : parseStatement fuel p with
      | error e =>
        simp only
        intro hc
        injection hc with hc
        subst hc
        exact (stmtTotal fuel).statement p (by omega) he1
      | ok v1 =>
        obtain ⟨a1, p1⟩ := v1
        simp only
        have d1 := (stmtDecr fuel).statement p a1 p1 he1
        exact parseProgramLoop_ne_outOfFuel fuel _ p1 (by omega)
    · rw [if_neg c1]
      intro hc
      cases hc

/-- The loop of `parseProgram`, when it does not run out of fuel, gives the same result with
one more unit of fuel. -/
theorem parseProgramLoop_stable : ∀ (fuel : Nat) (acc : List Stmt) (p : Parser),
    parseProgramLoop fuel acc p ≠ .error .outOfFuel →
      parseProgramLoop (fuel + 1) acc p = parseProgramLoop fuel acc p
  | 0, _, _, h => by simp [parseProgramLoop] at h
  | fuel + 1, acc, p, h => by
    rw [parseProgramLoop] at h
    rw [parseProgramLoop, parseProgramLoop]
    by_cases c1 : p.cur.type ≠ .END
    · simp only [if_pos c1] at h ⊢
      have hs1 : parseStatement fuel p ≠ .error .outOfFuel := by
        intro hc
        apply h
        simp only [hc]
      rw [(stmtStable fuel).statement p hs1]
      cases he1 : parseStatement fuel p with
      | error e => rfl
      | ok v1 =>
        obtain ⟨a1, p1⟩ := v1
        simp only [he1] at h ⊢
        exact parseProgramLoop_stable fuel _ p1 h
    · simp only [if_neg c1]

/-- The loop of `parseProgram`, when it does not run out of fuel, gives the same result with
any larger fuel. -/
theorem parseProgramLoop_stable_le (acc : List Stmt) (p : Parser) {fuel : Nat}
    (h : parseProgramLoop fuel acc p ≠ .error .outOfFuel) :
    ∀ fuel', fuel ≤ fuel' → parseProgramLoop fuel' acc p = parseProgramLoop fuel acc p := by
  intro fuel' hle
  induction fuel' with
  | zero =>
    have : fuel = 0 := by omega
    rw [this]
  | succ n ih =>
    by_cases hn : fuel ≤ n
    · have e := ih hn
      rw [parseProgramLoop_stable n acc p (by rw [e]; exact h), e]
    · have : fuel = n + 1 := by omega
      rw [this]

/-- The parser state built by `Parser.init` has at most the whole source, and the first
token, left. -/
theorem Parser.init_remaining {source : List Char} {p : Parser}
    (h : Parser.init source = .ok p) : p.remaining ≤ source.length + 1 := by
  unfold Parser.init at h
  cases hn : (Lexer.init source).nextToken with
  | error e => simp only [hn] at h; cases h
  | ok r =>
    obtain ⟨tok, lx⟩ := r
    simp only [hn] at h
    injection h with h
    subst h
    have h1 := (Lexer.nextToken_rest hn).1
    have h2 : (Lexer.init source).rest.length = source.length := by
      unfold Lexer.rest Lexer.init
      simp
    unfold Parser.remaining
    simp only
    split_ifs <;> omega

/-- Parsing a source text returns an AST or stops on a lexical or parse error: the budget
`parseFuel` is never exhausted. -/
theorem parseSource_ne_outOfFuel (source : List Char) :
    parseSource source ≠ .error .outOfFuel := by
  unfold parseSource
  cases hi : Parser.init source with
  | error e =>
    simp only
    intro hc
    injection hc with hc
    subst hc
    unfold Parser.init at hi
    cases hn : (Lexer.init source).nextToken with
    | error e2 =>
      simp only [hn] at hi
      injection hi with hi
      exact Lexer.nextToken_ne_outOfFuel _ (by rw [hn, hi])
    | ok r =>
      obtain ⟨tok, lx⟩ := r
      simp only [hn] at hi
      cases hi
  | ok p =>
    simp only
    have hr := Parser.init_remaining hi
    have ht := parseProgramLoop_ne_outOfFuel (parseFuel source) [] p
      (by unfold parseFuel; omega)
    unfold parseProgram
    cases hl : parseProgramLoop (parseFuel source) [] p with
    | error e =>
      simp only
      intro hc
      injection hc with hc
      subst hc
      exact ht hl
    | ok r =>
      obtain ⟨stmts, p'⟩ := r
      simp only
      intro hc
      cases hc

/-- More fuel than `parseFuel` does not change the result of parsing a source text. -/
theorem parseProgram_fuel_irrelevant {source : List Char} {p : Parser}
    (hi : Parser.init source = .ok p) :
    ∀ fuel, parseFuel source ≤ fuel → parseProgram fuel p = parseSource source := by
  intro fuel hle
  have hr := Parser.init_remaining hi
  have ht := parseProgramLoop_ne_outOfFuel (parseFuel source) [] p
    (by unfold parseFuel; omega)
  unfold parseSource
  simp only [hi]
  unfold parseProgram
  rw [parseProgramLoop_stable_le [] p ht fuel hle]

/-- At the end of input the loop of a block stops on a parse error. -/
theorem parseBlockLoop_at_end (acc : List Stmt) {p : Parser} (hend : p.cur.type = .END) :
    ∀ fuel, 2 ≤ fuel → parseBlockLoop fuel acc p = .error (.unexpectedToken p.cur) := by
  intro fuel hf
  obtain ⟨k, rfl⟩ : ∃ k, fuel = k + 2 := ⟨fuel - 2, by omega⟩
  rw [parseBlockLoop, if_pos (by rw [hend]; decide), parseStatement,
    if_neg (by rw [hend]; decide), if_neg (by rw [hend]; decide),
    if_neg (by rw [hend]; decide), if_neg (by rw [hend]; decide),
    if_neg (by rw [hend]; decide)]

/-- C28. Lexing and parsing terminate on every source text. Every call of `nextToken`
returns a token or stops on a lexical error, and when it returns a token other than END the
lexer position is strictly larger than before. Every call of `parseStatement` that returns
has consumed input: less of it remains. Therefore parsing a source text returns an AST or
stops on a lexical or parse error (the recursion budget `parseFuel` of the model is never
exhausted, and a larger budget gives the same result). An unclosed `\x7b` at the end of the
input is a parse error: at the end of input the loop of a block stops with the error
`Unexpected token`. -/
theorem lexing_and_parsing_terminate :
    (∀ (lx lx' : Lexer) (tok : Token), lx.nextToken = .ok (tok, lx') → tok.type ≠ .END →
      lx.i < lx'.i) ∧
    (∀ lx : Lexer, lx.nextToken ≠ .error .outOfFuel) ∧
    (∀ (fuel : Nat) (p p' : Parser) (s : Stmt), parseStatement fuel p = .ok (s, p') →
      p'.remaining < p.remaining) ∧
    (∀ source : List Char, parseSource source ≠ .error .outOfFuel) ∧
    (∀ (source : List Char) (p : Parser) (fuel : Nat), Parser.init source = .ok p →
      parseFuel source ≤ fuel → parseProgram fuel p = parseSource source) ∧
    (∀ (fuel : Nat) (acc : List Stmt) (p : Parser), p.cur.type = .END → 2 ≤ fuel →
      parseBlockLoop fuel acc p = .error (.unexpectedToken p.cur)) ∧
    parseSource "x = 1; \x7b".toList
      = .error (.unexpectedToken { type := .END, text := "", intVal := 0, line := 1 }) ∧
    parseSource "while (1) \x7b print(1);".toList
      = .error (.unexpectedToken { type := .END, text := "", intVal := 0, line := 1 }) :=
  ⟨fun lx lx' tok h hne => ((nextTokenLoop_advance _ lx lx' tok h).2 hne).1,
    Lexer.nextToken_ne_outOfFuel,
    fun fuel p p' s h => (stmtDecr fuel).statement p s p' h,
    parseSource_ne_outOfFuel,
    fun _ _ fuel hi hle => parseProgram_fuel_irrelevant hi fuel hle,
    fun fuel acc _ hend hf => parseBlockLoop_at_end acc hend fuel hf,
    by decide!, by decide!⟩

/-- Witness for C28: over the text `ab;` the first call of `nextToken` returns the identifier
`ab` and moves the position from 0 to 2. -/
theorem lexing_and_parsing_terminate_witness :
    (Lexer.init "ab;".toList).i < (Lexer.mk "ab;".toList 2 1).i :=
  lexing_and_parsing_terminate.1 (Lexer.init "ab;".toList) (Lexer.mk "ab;".toList 2 1)
    { type := .IDENT, text := "ab", intVal := 0, line := 1 } (by decide!) (by decide)

/-! ## Standard output -/

/-- The standard output of a run whose phases are known. -/
theorem runStdout_of {source : List Char} {prog folded : List Stmt} {D : Finset String}
    {st : State} (verbose : Bool) (fuel : Nat) (hp : parseSource source = .ok prog)
    (hc : semanticCheckBlock prog ∅ = .ok D) (hf : foldConstantsInBlock prog = .ok folded)
    (hx : execBlock fuel folded State.initial = .done st) :
    runStdout verbose fuel source = some (stdoutLines verbose prog folded st.out) := by
  unfold runStdout
  simp only [hp, hc, hf, hx]

/-- The phases of a run that ends normally. -/
theorem runSource_done {source : List Char} {fuel : Nat} {st : State}
    (h : runSource fuel source = .executed (.done st)) :
    ∃ prog D folded, parseSource source = .ok prog ∧ semanticCheckBlock prog ∅ = .ok D ∧
      foldConstantsInBlock prog = .ok folded ∧
      execBlock fuel folded State.initial = .done st := by
  unfold runSource at h
  cases hp : parseSource source with
  | error e => simp only [hp] at h; cases h
  | ok prog =>
    simp only [hp] at h
    cases hc : semanticCheckBlock prog ∅ with
    | error n => simp only [hc] at h; cases h
    | ok D =>
      simp only [hc] at h
      cases hf : foldConstantsInBlock prog with
      | trap => simp only [hf] at h; cases h
      | ok folded =>
        simp only [hf] at h
        injection h with h
        exact ⟨prog, D, folded, rfl, hc, hf, h⟩

/-- The banners come first in the output, in the order of the phases. -/
theorem banners_sublist (prog : List Stmt) :
    List.Sublist
      ["=== MINILANG COMPILER EXECUTION ===", "--- PHASE 1: LEXICAL ANALYSIS ---",
        "--- PHASE 2: SYNTAX ANALYSIS ---", "--- PHASE 3: SEMANTIC ANALYSIS ---",
        "--- PHASE 5: OPTIMIZATION ---", "--- PHASE 4 & 6: INTERMEDIATE CODE GENERATION ---"]
      (stdoutBeforeTac prog) := by
  unfold stdoutBeforeTac
  have h1 : List.Sublist
      ["=== MINILANG COMPILER EXECUTION ===", "--- PHASE 1: LEXICAL ANALYSIS ---",
        "--- PHASE 2: SYNTAX ANALYSIS ---", "--- PHASE 3: SEMANTIC ANALYSIS ---"]
      ["=== MINILANG COMPILER EXECUTION ===", "", "--- PHASE 1: LEXICAL ANALYSIS ---", "",
        "--- PHASE 2: SYNTAX ANALYSIS ---", "", "--- PHASE 3: SEMANTIC ANALYSIS ---"] := by
    decide
  have h2 : List.Sublist ["--- PHASE 5: OPTIMIZATION ---"]
      ["", "--- PHASE 5: OPTIMIZATION ---"] := by decide
  have h3 : List.Sublist ["--- PHASE 4 & 6: INTERMEDIATE CODE GENERATION ---"]
      ["", "--- PHASE 4 & 6: INTERMEDIATE CODE GENERATION ---"] := by decide
  have h := ((((h1.append (List.nil_sublist (semanticTrace prog))).append h2).append
    (List.nil_sublist (foldTrace prog))).append h3)
  simpa using h

/-- The output of a normal run is longer than what the program prints. -/
theorem length_stdoutLines (verbose : Bool) (prog folded : List Stmt) (printed : List Int) :
    printed.length + 21 ≤ (stdoutLines verbose prog folded printed).length := by
  unfold stdoutLines stdoutBeforeTac semanticTrace foldTrace
  simp only [List.length_append, List.length_cons, List.length_nil, List.length_map]
  omega

/-- C24 (counterexample). With verbosity off the standard output of a successful run is not
only the program's own print output: for the source `print(1);` the run prints 1, and the
standard output holds 23 lines, the banners and the trace lines of the semantic and
optimization phases around the line `1`. -/
theorem stdout_is_not_only_program_output :
    (runSource 0 "print(1);".toList).outcome = .finished ∧
    (runSource 0 "print(1);".toList).output = [1] ∧
    runStdout false 0 "print(1);".toList
      = some ["=== MINILANG COMPILER EXECUTION ===",
          "", "--- PHASE 1: LEXICAL ANALYSIS ---",
          "", "--- PHASE 2: SYNTAX ANALYSIS ---",
          "", "--- PHASE 3: SEMANTIC ANALYSIS ---",
          "[SEMANTIC] Starting semantic analysis...",
          "[SEMANTIC] Checking print statement",
          "[SEMANTIC] Semantic analysis completed successfully!",
          "", "--- PHASE 5: OPTIMIZATION ---",
          "[OPTIMIZATION] Starting constant folding...",
          "[OPTIMIZATION] Constant folding completed!",
          "", "--- PHASE 4 & 6: INTERMEDIATE CODE GENERATION ---",
          "", "--- PHASE 6: EXECUTION ---",
          "Program Output:", "---------------", "1", "---------------",
          "Execution completed!"] ∧
    runStdout false 0 "print(1);".toList ≠ some ["1"] := by
  have hp : parseSource "print(1);".toList = .ok [.PrintStmt (.IntLit 1)] := by decide!
  have hc : semanticCheckBlock [.PrintStmt (.IntLit 1)] ∅ = .ok ∅ := rfl
  have hf : foldConstantsInBlock [.PrintStmt (.IntLit 1)] = .ok [.PrintStmt (.IntLit 1)] :=
    rfl
  have hx : execBlock 0 [.PrintStmt (.IntLit 1)] State.initial
      = .done { env := State.initial.env, out := [1] } := rfl
  have hs := runStdout_of false 0 hp hc hf hx
  refine ⟨?_, ?_, ?_, ?_⟩
  · rw [runSource_executed 0 hp hc hf, hx]
    rfl
  · rw [runSource_executed 0 hp hc hf, hx]
    rfl
  · rw [hs]
    decide
  · rw [hs]
    decide

/-- C24 (amended). For every source program that runs successfully with debug off, the
standard output of `runSource` consists, in this order, of the opening banner and the phase
banners with the trace lines of the semantic and optimization phases (which are printed
whatever the verbosity), of the TAC listing of the folded program between its two marker
lines when `verbose` is on and of nothing when it is off, of the execution banner and the
header `Program Output:`, of the program's own print output (each printed integer on a line
of its own), and of the two closing lines. So the banners, and the TAC listing when verbosity
is on, precede the program's print output in that order, and the output is never the
program's print output alone. -/
theorem stdout_of_successful_run (verbose : Bool) (fuel : Nat) (source : List Char)
    (st : State) (h : runSource fuel source = .executed (.done st)) :
    ∃ prog folded, parseSource source = .ok prog ∧
      foldConstantsInBlock prog = .ok folded ∧
      runStdout verbose fuel source = some (stdoutLines verbose prog folded st.out) ∧
      stdoutLines verbose prog folded st.out
        = stdoutBeforeTac prog ++ stdoutTac verbose folded ++
          ["", "--- PHASE 6: EXECUTION ---", "Program Output:", "---------------"] ++
          st.out.map toString ++ ["---------------", "Execution completed!"] ∧
      List.Sublist
        ["=== MINILANG COMPILER EXECUTION ===", "--- PHASE 1: LEXICAL ANALYSIS ---",
          "--- PHASE 2: SYNTAX ANALYSIS ---", "--- PHASE 3: SEMANTIC ANALYSIS ---",
          "--- PHASE 5: OPTIMIZATION ---", "--- PHASE 4 & 6: INTERMEDIATE CODE GENERATION ---"]
        (stdoutBeforeTac prog) ∧
      stdoutTac false folded = [] ∧
      stdoutTac true folded
        = ["", "--- THREE ADDRESS CODE ---"] ++
          (TACGen.genBlock folded TACGen.init).code ++ ["--- END TAC ---"] ∧
      st.out.length + 21 ≤ (stdoutLines verbose prog folded st.out).length ∧
      runStdout verbose fuel source ≠ some (st.out.map toString) := by
  obtain ⟨prog, D, folded, hp, hc, hf, hx⟩ := runSource_done h
  have hs := runStdout_of verbose fuel hp hc hf hx
  have hlen := length_stdoutLines verbose prog folded st.out
  refine ⟨prog, folded, hp, hf, hs, rfl, banners_sublist prog, rfl, rfl, hlen, ?_⟩
  rw [hs]
  intro hc2
  injection hc2 with hc2
  have := congrArg List.length hc2
  rw [List.length_map] at this
  omega

/-- Witness for C24: the source `x = 1 + 2; print(x);` runs successfully; with verbosity on
its standard output holds the TAC listing `x = 3`, `print x` before the execution banner. -/
theorem stdout_of_successful_run_witness :
    runStdout true 0 "x = 1 + 2; print(x);".toList
      = some (stdoutLines true
          [.AssignStmt "x" (.Binary "+" (.IntLit 1) (.IntLit 2)), .PrintStmt (.VarExpr "x")]
          [.AssignStmt "x" (.IntLit 3), .PrintStmt (.VarExpr "x")]
          [3]) ∧
    stdoutTac true [.AssignStmt "x" (.IntLit 3), .PrintStmt (.VarExpr "x")]
      = ["", "--- THREE ADDRESS CODE ---", "x = 3", "print x", "--- END TAC ---"] := by
  have hp : parseSource "x = 1 + 2; print(x);".toList
      = .ok [.AssignStmt "x" (.Binary "+" (.IntLit 1) (.IntLit 2)),
          .PrintStmt (.VarExpr "x")] := by decide!
  have hf : foldConstantsInBlock
      [.AssignStmt "x" (.Binary "+" (.IntLit 1) (.IntLit 2)), .PrintStmt (.VarExpr "x")]
      = .ok [.AssignStmt "x" (.IntLit 3), .PrintStmt (.VarExpr "x")] := by decide
  have hrun : runSource 0 "x = 1 + 2; print(x);".toList
      = .executed (.done { env := State.initial.env.set "x" 3, out := [3] }) := by
    rw [runSource_executed 0 hp (show semanticCheckBlock _ ∅ = .ok {"x"} by decide) hf]
    rfl
  obtain ⟨prog, folded, hp', hf', hs, _, _, _, _, _, _⟩ :=
    stdout_of_successful_run true 0 "x = 1 + 2; print(x);".toList _ hrun
  rw [hp] at hp'
  injection hp' with hp'
  subst hp'
  rw [hf] at hf'
  injection hf' with hf'
  subst hf'
  exact ⟨hs, by decide⟩

end MiniLang
